import Mathlib

/-!
# Verification of the `antihash` collision-search tool

Shallow embedding of the three collision-search solvers of the `antihash`
repository (overflow, birthday, tree) together with the multi-hash lifter,
and proofs or refutations of the specification claims about them.

Strings are modelled as lists of Unicode codepoints (`List ℕ`); `u64`
arithmetic is `ℕ` with explicit reduction modulo `2^64` where the source
can wrap; `i128` arithmetic is `ℤ` with explicit two's-complement wrap;
panicking operations (out-of-bounds indexing, `%` by zero, `Vec::remove`
on a too-short vector) are modelled in an `Option` monad where `none`
means the program panics.  Randomness (`rand::thread_rng`) is modelled as
an explicit stream `ℕ → ℕ` with a cursor; a `gen_range(0, n)` call reads
the stream and reduces modulo `n`, so every sequence of draws of the real
program corresponds to some stream.  The `f64` square root that sizes the
birthday search is kept as an opaque numeric argument (`bound`), supplied
by the caller, since floating-point is outside the embedding.
-/

set_option maxRecDepth 8000

namespace Antihash

/-- Fuelled helper for `popcount` (structural recursion so that the kernel
can evaluate it). -/
def popcountAux : ℕ → ℕ → ℕ
  | 0, _ => 0
  | fuel + 1, n => if n = 0 then 0 else n % 2 + popcountAux fuel (n / 2)

/-- Number of set bits of a natural number (Rust `usize::count_ones`). -/
def popcount (n : ℕ) : ℕ := popcountAux n n

theorem popcountAux_fuel {fuel fuel' n : ℕ} (h : n ≤ fuel) (h' : n ≤ fuel') :
    popcountAux fuel n = popcountAux fuel' n := by
  induction fuel generalizing fuel' n with
  | zero =>
    have hn : n = 0 := by omega
    subst hn
    cases fuel' <;> simp [popcountAux]
  | succ fuel ih =>
    cases fuel' with
    | zero =>
      have hn : n = 0 := by omega
      subst hn
      simp [popcountAux]
    | succ fuel' =>
      by_cases hz : n = 0
      · subst hz; simp [popcountAux]
      · simp only [popcountAux, if_neg hz]
        have hle : n / 2 ≤ fuel := by
          have := Nat.div_le_self n 2
          have := Nat.div_lt_self (Nat.pos_of_ne_zero hz) (by norm_num : 1 < 2)
          omega
        have hle' : n / 2 ≤ fuel' := by
          have := Nat.div_lt_self (Nat.pos_of_ne_zero hz) (by norm_num : 1 < 2)
          omega
        rw [ih hle hle']

theorem popcount_zero : popcount 0 = 0 := rfl

theorem popcount_eq {n : ℕ} (h : 0 < n) : popcount n = n % 2 + popcount (n / 2) := by
  obtain ⟨m, rfl⟩ : ∃ m, n = m + 1 := ⟨n - 1, by omega⟩
  show popcountAux (m + 1) (m + 1) = _
  rw [popcountAux, if_neg (by omega)]
  congr 1
  exact popcountAux_fuel (by omega) le_rfl

/-- `src/overflow_attack.rs::find_collision`: builds the two Thue–Morse
complementary strings of the given length over `{'a','b'}`
(codepoints 97/98): position `i` of the first string is `97 + popcount i % 2`
and of the second `98 - popcount i % 2`. -/
def overflowFindCollision (length : ℕ) : Option (List ℕ × List ℕ) :=
  some ((List.range length).map fun i => 97 + popcount i % 2,
        (List.range length).map fun i => 98 - popcount i % 2)

/-- The polynomial hash `Σ s[i]·B^(|s|-1-i)` of the claims, over ℤ,
before reduction. -/
def polySumZ (base : ℤ) (s : List ℕ) : ℤ :=
  ∑ i ∈ Finset.range s.length, (s.getD i 0 : ℤ) * base ^ (s.length - 1 - i)

/-- popcount of `2^k + i` for `i < 2^k` adds one set bit. -/
theorem popcount_pow_add {k i : ℕ} (h : i < 2 ^ k) :
    popcount (2 ^ k + i) = popcount i + 1 := by
  induction k generalizing i with
  | zero =>
    have hz : i = 0 := by simpa using h
    subst hz
    decide
  | succ k ih =>
    have hpos : 0 < 2 ^ (k + 1) + i := by positivity
    have h2 : (2 : ℕ) ^ (k + 1) = 2 * 2 ^ k := by ring
    rw [popcount_eq hpos]
    have hmod : (2 ^ (k + 1) + i) % 2 = i % 2 := by omega
    have hdiv : (2 ^ (k + 1) + i) / 2 = 2 ^ k + i / 2 := by omega
    have hlt : i / 2 < 2 ^ k := by omega
    rw [hmod, hdiv, ih hlt]
    rcases Nat.eq_zero_or_pos i with hz | hp
    · subst hz; simp [popcount_zero]
    · rw [popcount_eq hp]
      omega

/-- Sign of position `i` in the Thue–Morse difference polynomial. -/
def tmSign (i : ℕ) : ℤ := if popcount i % 2 = 0 then 1 else -1

theorem tmSign_pow_add {k i : ℕ} (h : i < 2 ^ k) :
    tmSign (2 ^ k + i) = -tmSign i := by
  unfold tmSign
  rw [popcount_pow_add h]
  rcases Nat.even_or_odd (popcount i) with he | ho
  · have := Nat.even_iff.mp he
    simp [this, Nat.add_mod, this]
  · have := Nat.odd_iff.mp ho
    simp [this, Nat.add_mod, this]

/-- The telescoping identity behind the overflow attack:
`Σ_{i<2^k} tmSign i · B^(2^k-1-i) = Π_{j<k} (B^(2^j) - 1)`. -/
theorem tm_sum_eq_prod (B : ℤ) (k : ℕ) :
    (∑ i ∈ Finset.range (2 ^ k), tmSign i * B ^ (2 ^ k - 1 - i)) =
      ∏ j ∈ Finset.range k, (B ^ (2 ^ j) - 1) := by
  induction k with
  | zero => norm_num [tmSign, popcount, popcountAux]
  | succ k ih =>
    rw [Finset.prod_range_succ, ← ih]
    have hsplit : (2 : ℕ) ^ (k + 1) = 2 ^ k + 2 ^ k := by ring
    rw [hsplit, Finset.sum_range_add]
    have h1 : (∑ i ∈ Finset.range (2 ^ k), tmSign i * B ^ (2 ^ k + 2 ^ k - 1 - i)) =
        B ^ (2 ^ k) * ∑ i ∈ Finset.range (2 ^ k), tmSign i * B ^ (2 ^ k - 1 - i) := by
      rw [Finset.mul_sum]
      refine Finset.sum_congr rfl fun i hi => ?_
      have hi' : i < 2 ^ k := Finset.mem_range.mp hi
      have he : 2 ^ k + 2 ^ k - 1 - i = 2 ^ k + (2 ^ k - 1 - i) := by omega
      rw [he, pow_add]
      ring
    have h2 : (∑ i ∈ Finset.range (2 ^ k), tmSign (2 ^ k + i) * B ^ (2 ^ k + 2 ^ k - 1 - (2 ^ k + i))) =
        -∑ i ∈ Finset.range (2 ^ k), tmSign i * B ^ (2 ^ k - 1 - i) := by
      rw [← Finset.sum_neg_distrib]
      refine Finset.sum_congr rfl fun i hi => ?_
      have hi' : i < 2 ^ k := Finset.mem_range.mp hi
      rw [tmSign_pow_add hi']
      have he : 2 ^ k + 2 ^ k - 1 - (2 ^ k + i) = 2 ^ k - 1 - i := by omega
      rw [he]
      ring
    rw [h1, h2]
    ring

/-- For odd `B` and `j ≥ 1`, `2^(j+2)` divides `B^(2^j) - 1`. -/
theorem pow_two_pow_sub_one_dvd {B : ℤ} (hB : Odd B) :
    ∀ j, 1 ≤ j → (2 : ℤ) ^ (j + 2) ∣ B ^ (2 ^ j) - 1 := by
  intro j hj
  induction j with
  | zero => omega
  | succ j ih =>
    rcases Nat.eq_zero_or_pos j with hz | hp
    · subst hz
      obtain ⟨c, hc⟩ := hB
      have : B ^ (2 ^ 1) - 1 = 4 * (c * (c + 1)) := by rw [hc]; ring
      rw [this]
      obtain ⟨d, hd⟩ := Int.even_mul_succ_self c
      rw [hd]
      exact ⟨d, by ring⟩
    · have ih' := ih hp
      have hfact : B ^ (2 ^ (j + 1)) - 1 = (B ^ (2 ^ j) - 1) * (B ^ (2 ^ j) + 1) := by
        have : (2 : ℕ) ^ (j + 1) = 2 ^ j + 2 ^ j := by ring
        rw [this, pow_add]
        ring
      have heven : (2 : ℤ) ∣ B ^ (2 ^ j) + 1 := by
        have hodd : Odd (B ^ (2 ^ j)) := hB.pow
        obtain ⟨d, hd⟩ := hodd
        exact ⟨d + 1, by omega⟩
      rw [hfact]
      have : (2 : ℤ) ^ (j + 1 + 2) = 2 ^ (j + 2) * 2 := by ring
      rw [this]
      exact mul_dvd_mul ih' heven

/-- For odd `B`, `2^64` divides `Π_{j<10} (B^(2^j) - 1)`. -/
theorem two_pow_64_dvd_prod {B : ℤ} (hB : Odd B) :
    (2 : ℤ) ^ 64 ∣ ∏ j ∈ Finset.range 10, (B ^ (2 ^ j) - 1) := by
  have hdvd : ∀ j ∈ Finset.range 10,
      (2 : ℤ) ^ (if j = 0 then 1 else j + 2) ∣ B ^ (2 ^ j) - 1 := by
    intro j _
    by_cases hj : j = 0
    · subst hj
      obtain ⟨c, hc⟩ := hB
      simp only [if_true, pow_one, pow_zero]
      exact ⟨c, by omega⟩
    · rw [if_neg hj]
      exact pow_two_pow_sub_one_dvd hB j (by omega)
  have hmain := Finset.prod_dvd_prod_of_dvd
    (fun j => (2 : ℤ) ^ (if j = 0 then 1 else j + 2))
    (fun j => B ^ (2 ^ j) - 1) hdvd
  refine dvd_trans (dvd_of_eq ?_) hmain
  rw [Finset.prod_pow_eq_pow_sum]
  norm_num [Finset.sum_range_succ]

theorem getD_map_range {n i : ℕ} (f : ℕ → ℕ) (h : i < n) :
    ((List.range n).map f).getD i 0 = f i := by
  rw [List.getD_eq_getElem _ _ (by simpa using h)]
  simp

/-- The difference of the two overflow hash sums telescopes to
`-Π_{j<k} (B^(2^j) - 1)` for strings of length `2^k`. -/
theorem overflow_diff (B : ℤ) (k : ℕ) :
    (∑ i ∈ Finset.range (2 ^ k), ((97 + popcount i % 2 : ℕ) : ℤ) * B ^ (2 ^ k - 1 - i)) -
      (∑ i ∈ Finset.range (2 ^ k), ((98 - popcount i % 2 : ℕ) : ℤ) * B ^ (2 ^ k - 1 - i)) =
      -∏ j ∈ Finset.range k, (B ^ (2 ^ j) - 1) := by
  rw [← tm_sum_eq_prod, ← Finset.sum_neg_distrib, ← Finset.sum_sub_distrib]
  refine Finset.sum_congr rfl fun i _ => ?_
  have hp : popcount i % 2 ≤ 1 := by omega
  have hc : ((98 - popcount i % 2 : ℕ) : ℤ) = 98 - (popcount i % 2 : ℕ) := by
    have : popcount i % 2 ≤ 98 := by omega
    push_cast [this]
    ring
  rcases Nat.mod_two_eq_zero_or_one (popcount i) with h2 | h2 <;>
    · rw [hc, h2]
      simp [tmSign, h2]
      ring

/-- **C2.** The pair returned by `overflow_attack::find_collision(1024)`
collides under the wrap-around polynomial hash `Σ s[i]·B^(1023-i) mod 2^64`
for every odd base `B`. -/
theorem c2_overflow_collision (B : ℕ) (hB : Odd B) (s1 s2 : List ℕ)
    (h : overflowFindCollision 1024 = some (s1, s2)) :
    (∑ i ∈ Finset.range 1024, s1.getD i 0 * B ^ (1023 - i)) % 2 ^ 64 =
      (∑ i ∈ Finset.range 1024, s2.getD i 0 * B ^ (1023 - i)) % 2 ^ 64 := by
  have hs1 : s1 = (List.range 1024).map fun i => 97 + popcount i % 2 := by
    simpa [overflowFindCollision] using congrArg (Option.map Prod.fst) h.symm
  have hs2 : s2 = (List.range 1024).map fun i => 98 - popcount i % 2 := by
    simpa [overflowFindCollision] using congrArg (Option.map Prod.snd) h.symm
  subst hs1 hs2
  have e1 : (∑ i ∈ Finset.range 1024,
      (((List.range 1024).map fun i => 97 + popcount i % 2).getD i 0) * B ^ (1023 - i)) =
      ∑ i ∈ Finset.range 1024, (97 + popcount i % 2) * B ^ (1023 - i) := by
    refine Finset.sum_congr rfl fun i hi => ?_
    rw [getD_map_range _ (Finset.mem_range.mp hi)]
  have e2 : (∑ i ∈ Finset.range 1024,
      (((List.range 1024).map fun i => 98 - popcount i % 2).getD i 0) * B ^ (1023 - i)) =
      ∑ i ∈ Finset.range 1024, (98 - popcount i % 2) * B ^ (1023 - i) := by
    refine Finset.sum_congr rfl fun i hi => ?_
    rw [getD_map_range _ (Finset.mem_range.mp hi)]
  rw [e1, e2]
  -- move to ℤ
  have hBZ : Odd (B : ℤ) := by
    obtain ⟨c, hc⟩ := hB
    exact ⟨c, by push_cast [hc]; ring⟩
  have hdvd := two_pow_64_dvd_prod hBZ
  have h1024 : (1024 : ℕ) = 2 ^ 10 := by norm_num
  have hdiff := overflow_diff (B : ℤ) 10
  have hmod : (∑ i ∈ Finset.range 1024, ((97 + popcount i % 2 : ℕ) : ℤ) * (B : ℤ) ^ (1023 - i)) %
      2 ^ 64 = (∑ i ∈ Finset.range 1024, ((98 - popcount i % 2 : ℕ) : ℤ) * (B : ℤ) ^ (1023 - i)) %
      2 ^ 64 := by
    have hexp : ∀ i, 2 ^ 10 - 1 - i = 1023 - i := fun i => by omega
    rw [h1024] at *
    simp only [hexp] at hdiff
    have : (2 : ℤ) ^ 64 ∣
        (∑ i ∈ Finset.range (2 ^ 10), ((97 + popcount i % 2 : ℕ) : ℤ) * (B : ℤ) ^ (1023 - i)) -
        ∑ i ∈ Finset.range (2 ^ 10), ((98 - popcount i % 2 : ℕ) : ℤ) * (B : ℤ) ^ (1023 - i) := by
      rw [hdiff]
      exact dvd_neg.mpr hdvd
    omega
  -- transfer back to ℕ
  have cast1 : ((∑ i ∈ Finset.range 1024, (97 + popcount i % 2) * B ^ (1023 - i) : ℕ) : ℤ) =
      ∑ i ∈ Finset.range 1024, ((97 + popcount i % 2 : ℕ) : ℤ) * (B : ℤ) ^ (1023 - i) := by
    push_cast
    rfl
  have cast2 : ((∑ i ∈ Finset.range 1024, (98 - popcount i % 2) * B ^ (1023 - i) : ℕ) : ℤ) =
      ∑ i ∈ Finset.range 1024, ((98 - popcount i % 2 : ℕ) : ℤ) * (B : ℤ) ^ (1023 - i) := by
    push_cast
    rfl
  rw [← cast1, ← cast2] at hmod
  exact_mod_cast hmod

/-- **C2 witness** at the concrete base 9973. -/
theorem c2_overflow_collision_witness :
    Odd 9973 ∧
      ((∑ i ∈ Finset.range 1024,
        (((List.range 1024).map fun i => 97 + popcount i % 2).getD i 0) * 9973 ^ (1023 - i)) % 2 ^ 64 =
      (∑ i ∈ Finset.range 1024,
        (((List.range 1024).map fun i => 98 - popcount i % 2).getD i 0) * 9973 ^ (1023 - i)) % 2 ^ 64) :=
  ⟨⟨4986, by norm_num⟩,
    c2_overflow_collision 9973 ⟨4986, by norm_num⟩ _ _ rfl⟩

/-- Rust `usize::next_power_of_two` on a 64-bit `usize`, per its documented
semantics (release profile): the least power of two `≥ n` (which is `1` for
`n = 0`), wrapped to `0` when that power does not fit in 64 bits. -/
def nextPowerOfTwo64 (n : ℕ) : ℕ :=
  if 2 ^ Nat.clog 2 n < 2 ^ 64 then 2 ^ Nat.clog 2 n else 0

/-- `src/main.rs` overflow dispatch: round the length up with
`next_power_of_two`, then call `overflow_attack::find_collision`. -/
def overflowMain (l : ℕ) : Option (List ℕ × List ℕ) :=
  overflowFindCollision (nextPowerOfTwo64 l)

/-- **C5 counterexample.** At target length `2^63 + 1` (a valid `usize`),
`next_power_of_two` wraps to `0`, so the dispatch returns two *empty*
strings: the returned length is smaller than `L` and is not a power of two,
contradicting the claim that the returned length is the least power of two
`≥ L` for *every* target length. -/
theorem c5_counterexample :
    overflowMain (2 ^ 63 + 1) = some ([], []) ∧
      (∀ k : ℕ, ([] : List ℕ).length ≠ 2 ^ k) := by
  constructor
  · have hclog : Nat.clog 2 (2 ^ 63 + 1) = 64 := by
      have hle : Nat.clog 2 (2 ^ 63 + 1) ≤ 64 := by
        rw [← Nat.le_pow_iff_clog_le (by norm_num)]
        norm_num
      have hgt : 63 < Nat.clog 2 (2 ^ 63 + 1) := by
        rw [← Nat.pow_lt_iff_lt_clog (by norm_num)]
        norm_num
      omega
    unfold overflowMain nextPowerOfTwo64
    rw [hclog]
    norm_num [overflowFindCollision]
  · intro k
    have := Nat.pos_pow_of_pos k (by norm_num : 0 < 2)
    simp only [List.length_nil]
    omega

/-- **C5 amended.** For every target length `L ≤ 2^63` (so that the rounding
cannot overflow the 64-bit `usize`), the overflow dispatch returns a pair,
and both strings have length the least power of two `≥ L`. -/
theorem c5_amended (L : ℕ) (hL : L ≤ 2 ^ 63) :
    ∃ s1 s2 : List ℕ, overflowMain L = some (s1, s2) ∧
      s1.length = s2.length ∧ (∃ k, s1.length = 2 ^ k) ∧ L ≤ s1.length ∧
      ∀ m : ℕ, L ≤ 2 ^ m → s1.length ≤ 2 ^ m := by
  have hclog : Nat.clog 2 L ≤ 63 := by
    rw [← Nat.le_pow_iff_clog_le (by norm_num)]
    exact hL
  have hfit : 2 ^ Nat.clog 2 L < 2 ^ 64 := by
    calc 2 ^ Nat.clog 2 L ≤ 2 ^ 63 := Nat.pow_le_pow_right (by norm_num) hclog
    _ < 2 ^ 64 := by norm_num
  refine ⟨(List.range (nextPowerOfTwo64 L)).map fun i => 97 + popcount i % 2,
    (List.range (nextPowerOfTwo64 L)).map fun i => 98 - popcount i % 2,
    rfl, by simp, ⟨Nat.clog 2 L, ?_⟩, ?_, ?_⟩
  · simp only [List.length_map, List.length_range]
    unfold nextPowerOfTwo64
    rw [if_pos hfit]
  · simp only [List.length_map, List.length_range]
    unfold nextPowerOfTwo64
    rw [if_pos hfit]
    rcases Nat.eq_zero_or_pos L with hz | hp
    · subst hz
      exact Nat.zero_le _
    · exact Nat.le_pow_clog (by norm_num) L
  · intro m hm
    simp only [List.length_map, List.length_range]
    unfold nextPowerOfTwo64
    rw [if_pos hfit]
    exact Nat.pow_le_pow_right (by norm_num)
      ((Nat.le_pow_iff_clog_le (by norm_num)).mp hm)

/-- **C5 amended, witness** at the documented default `L = 1024`. -/
theorem c5_amended_witness :
    (1024 : ℕ) ≤ 2 ^ 63 ∧
      ∃ s1 s2 : List ℕ, overflowMain 1024 = some (s1, s2) ∧
        s1.length = s2.length ∧ (∃ k, s1.length = 2 ^ k) ∧ 1024 ≤ s1.length ∧
        ∀ m : ℕ, 1024 ≤ 2 ^ m → s1.length ≤ 2 ^ m :=
  ⟨by norm_num, c5_amended 1024 (by norm_num)⟩

/-- **C4 counterexample.** `overflow_attack::find_collision(0)` returns the
pair of two empty strings, which are equal, contradicting the claim that
every solver only ever returns pairs with `s₁ ≠ s₂`. -/
theorem c4_counterexample : ∃ s : List ℕ, overflowFindCollision 0 = some (s, s) :=
  ⟨[], rfl⟩

/-! ## Birthday solver (`src/birthday_attack.rs`)

`u64` arithmetic follows the release profile: `+` and `*` wrap modulo
`2^64`; `%` by zero panics.  The RNG is an explicit stream with a cursor,
and the `(module as f64).sqrt() as usize` sample bound is an explicit
argument `bound` (floating point is outside the embedding; every theorem
below holds for an arbitrary bound, in particular for the real one). -/

/-- A word: list of Unicode codepoints. -/
abbrev Word := List ℕ

/-- `gen_string`: concatenate `len` random alphabet words; a draw from an
empty alphabet panics (`gen_range(0, 0)`).  Returns the generated word and
the advanced RNG cursor. -/
def genString (rng : ℕ → ℕ) (alphabet : List Word) : ℕ → ℕ → Option (Word × ℕ)
  | 0, cur => some ([], cur)
  | n + 1, cur =>
    if alphabet.length = 0 then none
    else
      match genString rng alphabet n (cur + 1) with
      | none => none
      | some (w, cur') => some (alphabet.getD (rng cur % alphabet.length) [] ++ w, cur')

/-- `get_hash`: Horner evaluation `res = (res * base + c) % module` over the
codepoints, with the `u64` multiply-add wrapping modulo `2^64`.
(The caller is responsible for the `module = 0` panic.) -/
def getHash (base module : ℕ) (word : Word) : ℕ :=
  word.foldl (fun res c => (res * base + c) % 2 ^ 64 % module) 0

/-- The ideal (claim-level) polynomial hash `(Σ s[i]·B^(|s|-1-i)) mod M`. -/
def mathHash (base module : ℕ) (s : Word) : ℕ :=
  (∑ i ∈ Finset.range s.length, s.getD i 0 * base ^ (s.length - 1 - i)) % module

/-- Inner sampling loop of `find_single_collision` for one trial length:
draw up to `n` more words, keeping the `hash → word` map as an association
list (`HashMap::insert` returns the displaced word). -/
def birthdayInner (rng : ℕ → ℕ) (base module : ℕ) (alphabet : List Word) (len : ℕ) :
    ℕ → List (ℕ × Word) → ℕ → Option (Option (Word × Word) × ℕ)
  | 0, _, cur => some (none, cur)
  | n + 1, samples, cur =>
    match genString rng alphabet len cur with
    | none => none
    | some (word, cur') =>
      if module = 0 ∧ word ≠ [] then none  -- `% 0` in `get_hash` panics
      else
        let hash := getHash base module word
        match samples.lookup hash with
        | some coll =>
          if word ≠ coll then some (some (word, coll), cur')
          else birthdayInner rng base module alphabet len n
            ((hash, word) :: samples.eraseP (fun p => p.1 == hash)) cur'
        | none =>
          birthdayInner rng base module alphabet len n ((hash, word) :: samples) cur'

/-- Outer loop of `find_single_collision` over the trial lengths, with the
sample map reset between lengths. -/
def birthdayOuter (rng : ℕ → ℕ) (bound base module : ℕ) (alphabet : List Word) :
    List ℕ → ℕ → Option (Option (Word × Word) × ℕ)
  | [], cur => some (none, cur)
  | len :: rest, cur =>
    match birthdayInner rng base module alphabet len bound [] cur with
    | none => none
    | some (some pair, cur') => some (some pair, cur')
    | some (none, cur') => birthdayOuter rng bound base module alphabet rest cur'

/-- The trial lengths `6, 7, …, 63` of `find_single_collision`. -/
def trialLens : List ℕ := (List.range 58).map fun i => 6 + i

/-- `birthday_attack::find_single_collision` with explicit RNG stream and
sample bound. -/
def birthdayFindSingle (rng : ℕ → ℕ) (bound base module : ℕ) (alphabet : List Word)
    (cur : ℕ) : Option (Option (Word × Word) × ℕ) :=
  birthdayOuter rng bound base module alphabet trialLens cur

/-- The multi-hash lifter loop shared by `birthday_attack::find_collision`:
run the single solver over the zipped `(base, module)` pairs, collapsing the
alphabet to the returned pair after each success. -/
def birthdayLift (rng : ℕ → ℕ) (boundFn : ℕ → ℕ) :
    List (ℕ × ℕ) → List Word → ℕ → Option (Option (List Word × ℕ))
  | [], alphabet, cur => some (some (alphabet, cur))
  | (b, m) :: rest, alphabet, cur =>
    match birthdayFindSingle rng (boundFn m) b m alphabet cur with
    | none => none
    | some (none, _) => some none
    | some (some (fi, se), cur') => birthdayLift rng boundFn rest [fi, se] cur'

/-- `birthday_attack::find_collision`.  The final `Vec::remove(1)` /
`remove(0)` panic when the remaining alphabet has fewer than two words. -/
def birthdayFindCollision (rng : ℕ → ℕ) (boundFn : ℕ → ℕ) (bases modules : List ℕ)
    (initAlphabet : List Word) (cur : ℕ) : Option (Option (Word × Word)) :=
  match birthdayLift rng boundFn (bases.zip modules) initAlphabet cur with
  | none => none
  | some none => some none
  | some (some (alphabet, _)) =>
    match alphabet with
    | a :: b :: _ => some (some (a, b))
    | _ => none

/-- The default `a..z` alphabet of `src/main.rs`. -/
def alpha26 : List Word := (List.range 26).map fun i => [97 + i]

/-- RNG stream for the C1 counterexample: draws `aaaaab` then `bbbbab`. -/
def c1Rng (n : ℕ) : ℕ := [0, 0, 0, 0, 0, 1, 1, 1, 1, 1, 0, 1].getD n 0

/-- RNG stream for the C8 counterexample: draws `aaaaaa` then `bbaaaaa`. -/
def c8Rng (n : ℕ) : ℕ := [0, 0, 0, 0, 0, 0, 1, 0, 0, 0, 0, 0].getD n 0

/-- **C8 counterexample.**  Over the ragged alphabet `["a", "bb"]` (words of
widths 1 and 2), with base 2 and module 4, the generated words `aaaaaa`
(6 bytes) and `bbaaaaa` (7 bytes) hash equally, so
`birthday_attack::find_collision` returns a pair of *different* byte
lengths: equal trial length does not imply equal byte length. -/
theorem c8_counterexample :
    ∃ s1 s2 : Word,
      birthdayFindCollision c8Rng (fun _ => 2) [2] [4] [[97], [98, 98]] 0 =
        some (some (s1, s2)) ∧ s1.length ≠ s2.length := by
  refine ⟨[98, 98, 97, 97, 97, 97, 97], [97, 97, 97, 97, 97, 97], ?_, ?_⟩
  · decide
  · decide

/-- **C10 counterexample.**  With empty coefficient lists and a one-word
alphabet, the final `Vec::remove(1)` panics instead of returning "the first
two words of the initial alphabet". -/
theorem c10_counterexample :
    birthdayFindCollision (fun _ => 0) (fun _ => 0) [] [] [[120]] 0 = none := by
  decide

/-- Zipping truncates to the shorter list: `as.zip bs` only sees the first
`min |as| |bs|` entries of either list. -/
theorem zip_eq_zip_take {α β : Type} (as : List α) (bs : List β) :
    as.zip bs = (as.take (min as.length bs.length)).zip
      (bs.take (min as.length bs.length)) := by
  induction as generalizing bs with
  | nil => simp
  | cons a as ih =>
    cases bs with
    | nil => simp
    | cons b bs =>
      simp only [List.zip_cons_cons, List.length_cons]
      have : min (as.length + 1) (bs.length + 1) = min as.length bs.length + 1 := by omega
      rw [this]
      simp only [List.take_succ_cons, List.zip_cons_cons, List.cons.injEq, true_and]
      exact ih bs

/-- `s` is a concatenation of exactly `n` words of `alphabet`. -/
def IsConcatN (alphabet : List Word) (n : ℕ) (s : Word) : Prop :=
  ∃ ws : List Word, ws.length = n ∧ (∀ x ∈ ws, x ∈ alphabet) ∧ s = ws.flatten

/-- `gen_string` yields a concatenation of `len` alphabet words and advances
the cursor by `len`. -/
theorem genString_spec {rng : ℕ → ℕ} {alphabet : List Word} {len cur : ℕ} {w : Word}
    {cur' : ℕ} (h : genString rng alphabet len cur = some (w, cur')) :
    IsConcatN alphabet len w := by
  induction len generalizing cur cur' w with
  | zero =>
    simp only [genString, Option.some.injEq, Prod.mk.injEq] at h
    exact ⟨[], rfl, by simp, by simp [← h.1]⟩
  | succ n ih =>
    simp only [genString] at h
    by_cases hz : alphabet.length = 0
    · simp [hz] at h
    · rw [if_neg hz] at h
      cases hrec : genString rng alphabet n (cur + 1) with
      | none => rw [hrec] at h; exact absurd h (by simp)
      | some p =>
        obtain ⟨w', c'⟩ := p
        rw [hrec] at h
        simp only [Option.some.injEq, Prod.mk.injEq] at h
        obtain ⟨ws, hwsl, hmem, hflat⟩ := ih hrec
        refine ⟨alphabet.getD (rng cur % alphabet.length) [] :: ws, by simp [hwsl], ?_, ?_⟩
        · intro x hx
          rcases List.mem_cons.mp hx with hx | hx
          · subst hx
            have hlt : rng cur % alphabet.length < alphabet.length :=
              Nat.mod_lt _ (Nat.pos_of_ne_zero hz)
            rw [List.getD_eq_getElem _ _ hlt]
            exact List.getElem_mem _
          · exact hmem x hx
        · rw [List.flatten_cons, ← hflat, h.1]

/-- Concatenations over an equal-width alphabet have length `n·width`. -/
theorem IsConcatN.length {alphabet : List Word} {n wdt : ℕ} {s : Word}
    (hw : ∀ x ∈ alphabet, x.length = wdt) (h : IsConcatN alphabet n s) :
    s.length = n * wdt := by
  obtain ⟨ws, hlen, hmem, rfl⟩ := h
  have key : ∀ vs : List Word, (∀ x ∈ vs, x.length = wdt) →
      vs.flatten.length = vs.length * wdt := by
    intro vs
    induction vs with
    | nil => simp
    | cons v vs ih =>
      intro hv
      rw [List.flatten_cons, List.length_append, List.length_cons,
        hv v (by simp), ih fun x hx => hv x (List.mem_cons_of_mem _ hx)]
      ring
  rw [key ws fun x hx => hw x (hmem x hx), hlen]

/-- One Horner step `(res * base + c) % module` without the `u64` wrap. -/
def hstep (base module : ℕ) : ℕ → ℕ → ℕ := fun res c => (res * base + c) % module

/-- The Horner hash without the `u64` wrap. -/
def hornerHash (base module : ℕ) (word : Word) : ℕ :=
  word.foldl (hstep base module) 0

theorem getHash_eq_hornerHash {base module : ℕ} {w : Word} (h1 : 1 ≤ module)
    (hB : base < 2 ^ 32) (hM : module < 2 ^ 32) (hw : ∀ c ∈ w, c < 2 ^ 32) :
    getHash base module w = hornerHash base module w := by
  unfold getHash hornerHash
  suffices key : ∀ u : Word, (∀ c ∈ u, c < 2 ^ 32) → ∀ r, r < module →
      u.foldl (fun res c => (res * base + c) % 2 ^ 64 % module) r =
        u.foldl (hstep base module) r by
    exact key w hw 0 h1
  intro u
  induction u with
  | nil => intro _ r _; rfl
  | cons c u ih =>
    intro hu r hr
    simp only [List.foldl_cons]
    have hsmall : r * base + c < 2 ^ 64 := by
      have h1' : r * base ≤ (2 ^ 32 - 2) * (2 ^ 32 - 1) :=
        Nat.mul_le_mul (by omega) (by omega)
      have hc : c < 2 ^ 32 := hu c (by simp)
      have h2' : (2 ^ 32 - 2) * (2 ^ 32 - 1) + 2 ^ 32 < 2 ^ 64 := by norm_num
      omega
    rw [Nat.mod_eq_of_lt hsmall]
    show List.foldl _ (hstep base module r c) u = _
    exact ih (fun x hx => hu x (List.mem_cons_of_mem _ hx)) _
      (Nat.mod_lt _ (by omega))

/-- Evaluating the Horner fold from an arbitrary start `r < M`:
`foldl hstep r u = (r · B^|u| + hornerHash u) % M`. -/
theorem horner_fold_eq {base module : ℕ} (h1 : 1 ≤ module) :
    ∀ (u : Word) (r : ℕ), r < module →
      u.foldl (hstep base module) r =
        (r * base ^ u.length + hornerHash base module u) % module := by
  intro u
  induction u with
  | nil =>
    intro r hr
    simp [hornerHash, Nat.mod_eq_of_lt hr]
  | cons c u ih =>
    intro r hr
    have hH : hornerHash base module (c :: u) =
        ((c % module) * base ^ u.length + hornerHash base module u) % module := by
      unfold hornerHash
      rw [List.foldl_cons]
      show List.foldl _ (hstep base module 0 c) u = _
      rw [ih (hstep base module 0 c) (Nat.mod_lt _ (by omega))]
      unfold hstep
      rw [Nat.zero_mul, Nat.zero_add]
      rfl
    rw [List.foldl_cons]
    show List.foldl _ (hstep base module r c) u = _
    rw [ih (hstep base module r c) (Nat.mod_lt _ (by omega)), hH]
    unfold hstep
    simp only [List.length_cons]
    -- both sides are ≡ r·B^(|u|+1) + c·B^|u| + H(u) mod M
    have lhs_eq : ((r * base + c) % module * base ^ u.length + hornerHash base module u) ≡
        (r * base + c) * base ^ u.length + hornerHash base module u [MOD module] :=
      Nat.ModEq.add_right _ (Nat.ModEq.mul_right _ (Nat.mod_modEq _ _))
    have rhs_eq : (r * base ^ (u.length + 1) +
        ((c % module) * base ^ u.length + hornerHash base module u) % module) ≡
        r * base ^ (u.length + 1) + (c * base ^ u.length + hornerHash base module u)
          [MOD module] := by
      refine Nat.ModEq.add_left _ ?_
      calc ((c % module) * base ^ u.length + hornerHash base module u) % module
          ≡ (c % module) * base ^ u.length + hornerHash base module u [MOD module] :=
            Nat.mod_modEq _ _
        _ ≡ c * base ^ u.length + hornerHash base module u [MOD module] :=
            Nat.ModEq.add_right _ (Nat.ModEq.mul_right _ (Nat.mod_modEq _ _))
    have : (r * base + c) * base ^ u.length + hornerHash base module u =
        r * base ^ (u.length + 1) + (c * base ^ u.length + hornerHash base module u) := by
      ring
    calc ((r * base + c) % module * base ^ u.length + hornerHash base module u) % module
        = ((r * base + c) * base ^ u.length + hornerHash base module u) % module :=
          lhs_eq
      _ = (r * base ^ (u.length + 1) +
            (c * base ^ u.length + hornerHash base module u)) % module := by rw [this]
      _ = (r * base ^ (u.length + 1) +
            ((c % module) * base ^ u.length + hornerHash base module u) % module) %
            module := rhs_eq.symm

/-- The raw Horner evaluation (no reduction) equals the raw polynomial sum. -/
theorem raw_horner_eq_sum (base : ℕ) (w : Word) :
    w.foldl (fun r c => r * base + c) 0 =
      ∑ i ∈ Finset.range w.length, w.getD i 0 * base ^ (w.length - 1 - i) := by
  induction w using List.reverseRecOn with
  | nil => simp
  | append_singleton u c ih =>
    rw [List.foldl_append, List.foldl_cons, List.foldl_nil, ih]
    rw [List.length_append, List.length_cons, List.length_nil]
    rw [Finset.sum_range_succ]
    have hgetc : (u ++ [c]).getD u.length 0 = c := by
      rw [List.getD_eq_getElem _ _ (by simp)]
      simp
    have hexp0 : u.length + 1 - 1 - u.length = 0 := by omega
    rw [hgetc, hexp0, pow_zero, mul_one]
    congr 1
    rw [Finset.sum_mul]
    refine Finset.sum_congr rfl fun i hi => ?_
    have hi' : i < u.length := Finset.mem_range.mp hi
    have hget : (u ++ [c]).getD i 0 = u.getD i 0 := by
      rw [List.getD_eq_getElem _ _
          (by rw [List.length_append, List.length_cons, List.length_nil]; omega),
        List.getD_eq_getElem _ _ hi']
      exact List.getElem_append_left hi'
    rw [hget]
    have he : u.length + 1 - 1 - i = (u.length - 1 - i) + 1 := by omega
    rw [he, pow_succ]
    ring

/-- The Horner hash coincides with the claim-level sum formula. -/
theorem hornerHash_eq_mathHash (base module : ℕ) (w : Word) :
    hornerHash base module w = mathHash base module w := by
  rcases Nat.eq_zero_or_pos module with hz | h1
  · -- module = 0: `% 0` is the identity, both sides are the raw values
    subst hz
    unfold hornerHash mathHash
    have hfun : hstep base 0 = fun r c => r * base + c := by
      funext r c
      simp [hstep]
    rw [hfun, Nat.mod_zero, raw_horner_eq_sum]
  · induction w using List.reverseRecOn with
    | nil => simp [hornerHash, mathHash]
    | append_singleton u c ih =>
      unfold hornerHash
      rw [List.foldl_append, List.foldl_cons, List.foldl_nil]
      show hstep base module (hornerHash base module u) c = _
      unfold hstep
      rw [ih]
      unfold mathHash
      rw [List.length_append, List.length_cons, List.length_nil]
      rw [Finset.sum_range_succ]
      have hgetc : (u ++ [c]).getD u.length 0 = c := by
        rw [List.getD_eq_getElem _ _ (by simp)]
        simp
      have hexp0 : u.length + 1 - 1 - u.length = 0 := by omega
      rw [hgetc, hexp0, pow_zero, mul_one]
      have hsum : (∑ i ∈ Finset.range u.length, (u ++ [c]).getD i 0 *
          base ^ (u.length + 1 - 1 - i)) =
          (∑ i ∈ Finset.range u.length, u.getD i 0 * base ^ (u.length - 1 - i)) * base := by
        rw [Finset.sum_mul]
        refine Finset.sum_congr rfl fun i hi => ?_
        have hi' : i < u.length := Finset.mem_range.mp hi
        have hget : (u ++ [c]).getD i 0 = u.getD i 0 := by
          rw [List.getD_eq_getElem _ _
              (by rw [List.length_append, List.length_cons, List.length_nil]; omega),
            List.getD_eq_getElem _ _ hi']
          exact List.getElem_append_left hi'
        rw [hget]
        have he : u.length + 1 - 1 - i = (u.length - 1 - i) + 1 := by omega
        rw [he, pow_succ]
        ring
      rw [hsum]
      exact Nat.ModEq.add_right _ (Nat.ModEq.mul_right _ (Nat.mod_modEq _ _))

/-- An association-list lookup hit is a member. -/
theorem lookup_mem_pair {k : ℕ} {v : Word} :
    ∀ {l : List (ℕ × Word)}, l.lookup k = some v → (k, v) ∈ l := by
  intro l
  induction l with
  | nil => intro h; simp [List.lookup] at h
  | cons p l ih =>
    intro h
    obtain ⟨k', v'⟩ := p
    by_cases he : k = k'
    · subst he
      have heq : List.lookup k ((k, v') :: l) = some v' := by
        simp [List.lookup]
      rw [heq] at h
      simp only [Option.some.injEq] at h
      subst h
      exact List.mem_cons_self _ _
    · have heq : List.lookup k ((k', v') :: l) = List.lookup k l := by
        have hb : (k == k') = false := by
          simpa using he
        simp [List.lookup, hb]
      rw [heq] at h
      exact List.mem_cons_of_mem _ (ih h)

/-- Soundness of the inner sampling loop: if it reports a collision, both
words are concatenations of `len` alphabet words, they differ, and their
(wrapping) hashes agree. -/
theorem birthdayInner_sound {rng : ℕ → ℕ} {base module : ℕ} {alphabet : List Word}
    {len : ℕ} :
    ∀ {n : ℕ} {samples : List (ℕ × Word)} {cur cur' : ℕ} {w1 w2 : Word},
      (∀ p ∈ samples, getHash base module p.2 = p.1 ∧ IsConcatN alphabet len p.2) →
      birthdayInner rng base module alphabet len n samples cur =
        some (some (w1, w2), cur') →
      getHash base module w1 = getHash base module w2 ∧ w1 ≠ w2 ∧
        IsConcatN alphabet len w1 ∧ IsConcatN alphabet len w2 := by
  intro n
  induction n with
  | zero =>
    intro samples cur cur' w1 w2 _ h
    simp [birthdayInner] at h
  | succ n ih =>
    intro samples cur cur' w1 w2 hinv h
    rw [birthdayInner] at h
    cases hgen : genString rng alphabet len cur with
    | none => rw [hgen] at h; exact absurd h (by simp)
    | some p =>
      obtain ⟨word, curg⟩ := p
      rw [hgen] at h
      dsimp only at h
      by_cases hpanic : module = 0 ∧ word ≠ []
      · rw [if_pos hpanic] at h
        exact absurd h (by simp)
      · rw [if_neg hpanic] at h
        cases hlook : (samples.lookup (getHash base module word)) with
        | some coll =>
          rw [hlook] at h
          dsimp only at h
          by_cases hne : word ≠ coll
          · rw [if_pos hne] at h
            simp only [Option.some.injEq, Prod.mk.injEq] at h
            obtain ⟨⟨h1, h2⟩, _⟩ := h
            obtain ⟨hch, hcc⟩ :=
              hinv (getHash base module word, coll) (lookup_mem_pair hlook)
            subst h1 h2
            exact ⟨hch.symm, hne, genString_spec hgen, hcc⟩
          · rw [if_neg hne] at h
            refine ih ?_ h
            intro p hp
            rcases List.mem_cons.mp hp with hp | hp
            · subst hp
              exact ⟨rfl, genString_spec hgen⟩
            · exact hinv p (List.mem_of_mem_eraseP hp)
        | none =>
          rw [hlook] at h
          dsimp only at h
          refine ih ?_ h
          intro p hp
          rcases List.mem_cons.mp hp with hp | hp
          · subst hp
            exact ⟨rfl, genString_spec hgen⟩
          · exact hinv p hp

/-- Soundness of the outer trial-length loop. -/
theorem birthdayOuter_sound {rng : ℕ → ℕ} {bound base module : ℕ}
    {alphabet : List Word} :
    ∀ {lens : List ℕ} {cur cur' : ℕ} {w1 w2 : Word},
      birthdayOuter rng bound base module alphabet lens cur =
        some (some (w1, w2), cur') →
      ∃ len ∈ lens,
        getHash base module w1 = getHash base module w2 ∧ w1 ≠ w2 ∧
          IsConcatN alphabet len w1 ∧ IsConcatN alphabet len w2 := by
  intro lens
  induction lens with
  | nil =>
    intro cur cur' w1 w2 h
    simp [birthdayOuter] at h
  | cons len rest ih =>
    intro cur cur' w1 w2 h
    rw [birthdayOuter] at h
    cases hinner : birthdayInner rng base module alphabet len bound [] cur with
    | none => rw [hinner] at h; exact absurd h (by simp)
    | some p =>
      obtain ⟨r, curi⟩ := p
      rw [hinner] at h
      cases r with
      | some pair =>
        simp only [Option.some.injEq, Prod.mk.injEq] at h
        obtain ⟨hpair, _⟩ := h
        subst hpair
        exact ⟨len, by simp,
          birthdayInner_sound (by simp) hinner⟩
      | none =>
        obtain ⟨l, hl, hp⟩ := ih h
        exact ⟨l, List.mem_cons_of_mem _ hl, hp⟩

/-- Soundness of `find_single_collision`: a returned pair consists of two
distinct equal-trial-length concatenations of alphabet words with equal
wrapping hashes, for some trial length in `[6, 64)`. -/
theorem birthdayFindSingle_sound {rng : ℕ → ℕ} {bound base module : ℕ}
    {alphabet : List Word} {cur cur' : ℕ} {w1 w2 : Word}
    (h : birthdayFindSingle rng bound base module alphabet cur =
      some (some (w1, w2), cur')) :
    ∃ len, 6 ≤ len ∧ len < 64 ∧
      getHash base module w1 = getHash base module w2 ∧ w1 ≠ w2 ∧
        IsConcatN alphabet len w1 ∧ IsConcatN alphabet len w2 := by
  obtain ⟨len, hmem, hp⟩ := birthdayOuter_sound h
  refine ⟨len, ?_, ?_, hp⟩
  · obtain ⟨i, hi, rfl⟩ := List.mem_map.mp hmem
    omega
  · obtain ⟨i, hi, rfl⟩ := List.mem_map.mp hmem
    have := List.mem_range.mp hi
    omega

/-- Codepoint bounds are inherited by concatenations. -/
theorem IsConcatN.codepoints {alphabet : List Word} {n : ℕ} {s : Word}
    (h : IsConcatN alphabet n s) {P : ℕ → Prop}
    (hP : ∀ x ∈ alphabet, ∀ c ∈ x, P c) : ∀ c ∈ s, P c := by
  obtain ⟨ws, _, hmem, rfl⟩ := h
  intro c hc
  obtain ⟨x, hx, hcx⟩ := List.mem_flatten.mp hc
  exact hP x (hmem x hx) c hcx

/-- Under `32`-bit base and module the wrapping hash is the ideal hash. -/
theorem getHash_eq_mathHash {base module : ℕ} {w : Word} (h1 : 1 ≤ module)
    (hB : base < 2 ^ 32) (hM : module < 2 ^ 32) (hw : ∀ c ∈ w, c < 2 ^ 32) :
    getHash base module w = mathHash base module w := by
  rw [getHash_eq_hornerHash h1 hB hM hw, hornerHash_eq_mathHash]

/-- Two concatenations of equally many words from an equal-width alphabet
whose words all hash alike have the same Horner hash. -/
theorem horner_concat_eq {base module : ℕ} (h1 : 1 ≤ module) {A : List Word}
    {wdt : ℕ} (hw : ∀ x ∈ A, x.length = wdt)
    (hh : ∀ x ∈ A, ∀ y ∈ A, hornerHash base module x = hornerHash base module y)
    {n : ℕ} {s t : Word} (hs : IsConcatN A n s) (ht : IsConcatN A n t) :
    hornerHash base module s = hornerHash base module t := by
  obtain ⟨ws, hwsl, hwsm, rfl⟩ := hs
  obtain ⟨vs, hvsl, hvsm, rfl⟩ := ht
  have key : ∀ (ws vs : List Word), ws.length = vs.length →
      (∀ x ∈ ws, x ∈ A) → (∀ x ∈ vs, x ∈ A) → ∀ r, r < module →
      ws.flatten.foldl (hstep base module) r = vs.flatten.foldl (hstep base module) r := by
    intro ws
    induction ws with
    | nil =>
      intro vs hlen _ _ r _
      have : vs = [] := List.eq_nil_of_length_eq_zero hlen.symm
      subst this
      rfl
    | cons x ws ih =>
      intro vs hlen hxm hvm r hr
      cases vs with
      | nil => simp at hlen
      | cons y vs =>
        rw [List.flatten_cons, List.flatten_cons, List.foldl_append, List.foldl_append]
        have hx : x ∈ A := hxm x (by simp)
        have hy : y ∈ A := hvm y (by simp)
        have hfx : x.foldl (hstep base module) r =
            (r * base ^ x.length + hornerHash base module x) % module :=
          horner_fold_eq h1 x r hr
        have hfy : y.foldl (hstep base module) r =
            (r * base ^ y.length + hornerHash base module y) % module :=
          horner_fold_eq h1 y r hr
        have heq : x.foldl (hstep base module) r = y.foldl (hstep base module) r := by
          rw [hfx, hfy, hw x hx, hw y hy, hh x hx y hy]
        rw [heq]
        exact ih vs (by simpa using hlen)
          (fun z hz => hxm z (List.mem_cons_of_mem _ hz))
          (fun z hz => hvm z (List.mem_cons_of_mem _ hz))
          _ (by rw [hfy]; exact Nat.mod_lt _ (by omega))
  exact key ws vs (by omega) hwsm hvsm 0 (by omega)

/-- Same-count concatenations of an alphabet whose words hash alike have
equal ideal hashes. -/
theorem mathHash_concat_eq {base module : ℕ} (h1 : 1 ≤ module) {A : List Word}
    {wdt : ℕ} (hw : ∀ x ∈ A, x.length = wdt)
    (hh : ∀ x ∈ A, ∀ y ∈ A, mathHash base module x = mathHash base module y)
    {n : ℕ} {s t : Word} (hs : IsConcatN A n s) (ht : IsConcatN A n t) :
    mathHash base module s = mathHash base module t := by
  rw [← hornerHash_eq_mathHash, ← hornerHash_eq_mathHash]
  refine horner_concat_eq h1 hw ?_ hs ht
  intro x hx y hy
  rw [hornerHash_eq_mathHash, hornerHash_eq_mathHash]
  exact hh x hx y hy

/-- Main induction for the birthday multi-hash lifter: widths, codepoint
bounds, pairwise distinctness and collisions under all processed hash pairs
are maintained by the alphabet-collapsing loop. -/
theorem birthdayLift_sound {rng boundFn : ℕ → ℕ} :
    ∀ (pairs E : List (ℕ × ℕ)) (A : List Word) (wdt cur : ℕ)
      (A' : List Word) (cur' : ℕ),
      (∀ x ∈ A, x.length = wdt) →
      (∀ x ∈ A, ∀ c ∈ x, c < 2 ^ 32) →
      A.Pairwise (· ≠ ·) →
      (∀ p ∈ pairs, p.1 < 2 ^ 32 ∧ 1 ≤ p.2 ∧ p.2 < 2 ^ 32) →
      (∀ p ∈ E, 1 ≤ p.2 ∧
        ∀ x ∈ A, ∀ y ∈ A, mathHash p.1 p.2 x = mathHash p.1 p.2 y) →
      birthdayLift rng boundFn pairs A cur = some (some (A', cur')) →
      (∃ wdt', (∀ x ∈ A', x.length = wdt') ∧
        (∀ x ∈ A', ∀ c ∈ x, c < 2 ^ 32) ∧
        A'.Pairwise (· ≠ ·) ∧
        (∀ p ∈ E ++ pairs, 1 ≤ p.2 ∧
          ∀ x ∈ A', ∀ y ∈ A', mathHash p.1 p.2 x = mathHash p.1 p.2 y)) ∧
      (pairs = [] → A' = A) := by
  intro pairs
  induction pairs with
  | nil =>
    intro E A wdt cur A' cur' hw hc hnd _ hE hrun
    rw [birthdayLift] at hrun
    simp only [Option.some.injEq, Prod.mk.injEq] at hrun
    obtain ⟨rfl, rfl⟩ := hrun
    exact ⟨⟨wdt, hw, hc, hnd, by simpa using fun p hp => hE p hp⟩, fun _ => rfl⟩
  | cons bm rest ih =>
    intro E A wdt cur A' cur' hw hc hnd hbm hE hrun
    obtain ⟨b, m⟩ := bm
    rw [birthdayLift] at hrun
    cases hsingle : birthdayFindSingle rng (boundFn m) b m A cur with
    | none => rw [hsingle] at hrun; exact absurd hrun (by simp)
    | some p =>
      obtain ⟨r, curs⟩ := p
      rw [hsingle] at hrun
      cases r with
      | none => simp at hrun
      | some pair =>
        obtain ⟨fi, se⟩ := pair
        dsimp only at hrun
        obtain ⟨len, h6, h64, hgh, hne, hcf, hcs⟩ := birthdayFindSingle_sound hsingle
        obtain ⟨hb32, hm1, hm32⟩ := hbm (b, m) (by simp)
        -- ideal collision for the current pair
        have hcp_fi : ∀ c ∈ fi, c < 2 ^ 32 := hcf.codepoints hc
        have hcp_se : ∀ c ∈ se, c < 2 ^ 32 := hcs.codepoints hc
        have hmh : mathHash b m fi = mathHash b m se := by
          rw [← getHash_eq_mathHash hm1 hb32 hm32 hcp_fi,
            ← getHash_eq_mathHash hm1 hb32 hm32 hcp_se]
          exact hgh
        -- widths
        have hwf := hcf.length hw
        have hws := hcs.length hw
        -- apply the induction hypothesis to the collapsed alphabet
        have hmain := ih (E ++ [(b, m)]) [fi, se] _ curs A' cur'
          (fun x hx => by
            rcases List.mem_cons.mp hx with rfl | hx
            · exact hwf
            · rcases List.mem_cons.mp hx with rfl | hx
              · exact hws
              · simp at hx)
          (fun x hx => by
            rcases List.mem_cons.mp hx with rfl | hx
            · exact hcp_fi
            · rcases List.mem_cons.mp hx with rfl | hx
              · exact hcp_se
              · simp at hx)
          (by simp [hne])
          (fun p hp => hbm p (List.mem_cons_of_mem _ hp))
          (fun p hp => by
            rcases List.mem_append.mp hp with hp | hp
            · obtain ⟨hp1, hpA⟩ := hE p hp
              refine ⟨hp1, ?_⟩
              intro x hx y hy
              have hEx : ∀ z ∈ ([fi, se] : List Word),
                  mathHash p.1 p.2 z = mathHash p.1 p.2 fi := by
                intro z hz
                rcases List.mem_cons.mp hz with rfl | hz
                · rfl
                · rcases List.mem_cons.mp hz with rfl | hz
                  · exact mathHash_concat_eq hp1 hw hpA hcs hcf
                  · simp at hz
              rw [hEx x hx, hEx y hy]
            · simp only [List.mem_singleton] at hp
              subst hp
              refine ⟨hm1, ?_⟩
              intro x hx y hy
              have hEx : ∀ z ∈ ([fi, se] : List Word),
                  mathHash b m z = mathHash b m fi := by
                intro z hz
                rcases List.mem_cons.mp hz with rfl | hz
                · rfl
                · rcases List.mem_cons.mp hz with rfl | hz
                  · exact hmh.symm
                  · simp at hz
              rw [hEx x hx, hEx y hy])
          hrun
        obtain ⟨⟨wdt', h1', h2', h3', h4'⟩, _⟩ := hmain
        refine ⟨⟨wdt', h1', h2', h3', ?_⟩, by simp⟩
        intro p hp
        refine h4' p ?_
        rcases List.mem_append.mp hp with hp | hp
        · exact List.mem_append.mpr (Or.inl (List.mem_append.mpr (Or.inl hp)))
        · rcases List.mem_cons.mp hp with rfl | hp
          · exact List.mem_append.mpr (Or.inl (List.mem_append.mpr (Or.inr (by simp))))
          · exact List.mem_append.mpr (Or.inr hp)

/-- End-to-end soundness of `birthday_attack::find_collision` under the
32-bit parameter bounds: the returned pair collides under every supplied
`(B, M)` in the ideal hash, is distinct, and has equal byte lengths. -/
theorem birthdayFindCollision_sound {rng boundFn : ℕ → ℕ} {bases modules : List ℕ}
    {A : List Word} {wdt cur : ℕ} {s1 s2 : Word}
    (hw : ∀ x ∈ A, x.length = wdt)
    (hc : ∀ x ∈ A, ∀ c ∈ x, c < 2 ^ 32)
    (hnd : A.Pairwise (· ≠ ·))
    (hbm : ∀ p ∈ bases.zip modules, p.1 < 2 ^ 32 ∧ 1 ≤ p.2 ∧ p.2 < 2 ^ 32)
    (hrun : birthdayFindCollision rng boundFn bases modules A cur =
      some (some (s1, s2))) :
    (∀ p ∈ bases.zip modules, mathHash p.1 p.2 s1 = mathHash p.1 p.2 s2) ∧
      s1 ≠ s2 ∧ s1.length = s2.length := by
  rw [birthdayFindCollision] at hrun
  cases hlift : birthdayLift rng boundFn (bases.zip modules) A cur with
  | none => rw [hlift] at hrun; exact absurd hrun (by simp)
  | some r =>
    rw [hlift] at hrun
    cases r with
    | none => simp at hrun
    | some p =>
      obtain ⟨A', cur'⟩ := p
      dsimp only at hrun
      obtain ⟨⟨wdt', h1', _, h3', h4'⟩, _⟩ :=
        birthdayLift_sound (bases.zip modules) [] A wdt cur A' cur'
          hw hc hnd hbm (by simp) hlift
      cases A' with
      | nil => simp at hrun
      | cons a A'' =>
        cases A'' with
        | nil => simp at hrun
        | cons b rest =>
          dsimp only at hrun
          simp only [Option.some.injEq, Prod.mk.injEq] at hrun
          obtain ⟨rfl, rfl⟩ := hrun
          have hmem1 : a ∈ a :: b :: rest := by simp
          have hmem2 : b ∈ a :: b :: rest := by simp
          refine ⟨?_, ?_, ?_⟩
          · intro p hp
            exact (h4' p (by simpa using hp)).2 a hmem1 b hmem2
          · exact (List.pairwise_cons.mp h3').1 b (by simp)
          · rw [h1' a hmem1, h1' b hmem2]

/-! ## Tree solver (`src/tree_attack.rs`)

`i128` arithmetic follows the release profile: every `+`, `-`, `*` and
`abs` wraps into `[-2^127, 2^127)`; `%` is the truncated remainder
(`Int.tmod`) and panics on a zero divisor.  `BinaryHeap` with
`MinComparator` over the tuple `(i128, usize, usize, bool)` pops the
lexicographically least entry, which is modelled by a sorted list (all
pushed tuples are distinct, so the tie behaviour of the real heap is
unobservable).  `sort_unstable_by_key` leaves the relative order of
equal keys unspecified, so sorting is abstracted into an `Oracle`
(together with the RNG); theorems take any oracle whose sorts are
key-sorted permutations, which the real sorts are. -/

/-- Two's-complement wrap into the `i128` range. -/
def wrap128 (x : ℤ) : ℤ := (x + 2 ^ 127) % 2 ^ 128 - 2 ^ 127

/-- `i128::abs` (wrapping: `abs i128::MIN = i128::MIN` in release). -/
def absW (z : ℤ) : ℤ := wrap128 |z|

/-- A tree node (`TreeAttackNode`): either an internal merge node with the
swap bits and child positions, or a leaf carrying an ordered word pair. -/
inductive TNode where
  | internal (sum : ℤ) (idx : ℕ) (revLeft revRight : Bool) (posLeft posRight : ℕ)
  | leaf (sum : ℤ) (idx : ℕ) (word1 word2 : Word)
deriving DecidableEq

/-- `TreeAttackNode::get_sum`. -/
def TNode.sum : TNode → ℤ
  | internal s _ _ _ _ _ => s
  | leaf s _ _ _ => s

/-- The `idx` field of a node. -/
def TNode.idx : TNode → ℕ
  | internal _ i _ _ _ _ => i
  | leaf _ i _ _ => i

/-- One character step of `new_leaf`:
`hash = (hash * base + c1 - c2 + module) % module` with wrapping `i128`
intermediates and truncated remainder. -/
def leafStep (base module : ℤ) (hash : ℤ) (c : ℕ × ℕ) : ℤ :=
  Int.tmod (wrap128 (wrap128 (wrap128 (wrap128 (hash * base) + c.1) - c.2) + module))
    module

/-- `TreeAttackNode::new_leaf`; `% 0` panics. -/
def newLeaf (idx : ℕ) (w1 w2 : Word) (base module pot : ℤ) : Option TNode :=
  if module = 0 then none
  else
    some (TNode.leaf
      (Int.tmod (wrap128 ((w1.zip w2).foldl (leafStep base module) 0 * pot)) module)
      idx w1 w2)

/-- The ordered distinct index pairs `(a, b)` in the `init_attack`
double-loop order. -/
def ordPairs (n : ℕ) : List (ℕ × ℕ) :=
  (List.range n).flatMap fun a =>
    (List.range n).filterMap fun b => if a = b then none else some (a, b)

/-- Helper for `dedupAdj`: `last` is the most recently kept node. -/
def dedupAdjAux (last : TNode) : List TNode → List TNode
  | [] => []
  | b :: rest =>
    if last.sum = b.sum then dedupAdjAux last rest else b :: dedupAdjAux b rest

/-- `Vec::dedup` with the sum-comparing `PartialEq`: drop an element whose
sum equals the previously kept one. -/
def dedupAdj : List TNode → List TNode
  | [] => []
  | a :: rest => a :: dedupAdjAux a rest

/-- The sorting and randomness oracle: abstract stand-ins for
`sort_unstable_by_key` (on node lists and on the level slice) and
`thread_rng`. -/
structure Oracle where
  sortN : (TNode → ℤ) → List TNode → List TNode
  sortL : (List TNode → ℤ) → List (List TNode) → List (List TNode)
  rng : ℕ → ℕ

/-- A sort oracle component is adequate if it returns a permutation that is
sorted by the requested key. -/
def KeySorts {α : Type} (f : (α → ℤ) → List α → List α) : Prop :=
  ∀ (key : α → ℤ) (l : List α),
    (f key l).Perm l ∧ (f key l).Sorted fun a b => key a ≤ key b

/-- Adequacy of the whole oracle (the RNG is unconstrained). -/
def Oracle.Good (o : Oracle) : Prop := KeySorts o.sortN ∧ KeySorts o.sortL

/-- One `pot = pot * base % module` update; `% 0` panics. -/
def potStep (base module pot : ℤ) : Option ℤ :=
  if module = 0 then none else some (Int.tmod (wrap128 (pot * base)) module)

/-- `word_len` many pot updates. -/
def potUpdates (base module : ℤ) : ℕ → ℤ → Option ℤ
  | 0, pot => some pot
  | k + 1, pot => do
    let pot' ← potStep base module pot
    potUpdates base module k pot'

/-- The `for i in (0..len).rev()` loop of `init_attack`: with `c` iterations
remaining, the current position is `i = c - 1`. -/
def initLoop (o : Oracle) (alphabet : List Word) (base module : ℤ)
    (wordLen len : ℕ) : ℕ → List (List TNode) → ℤ → Option (List (List TNode))
  | 0, tree, _ => some tree
  | c + 1, tree, pot => do
    let i := c
    let tree1 := tree.set i []
    let leaves ← (ordPairs alphabet.length).mapM fun ab =>
      newLeaf i (alphabet.getD ab.1 []) (alphabet.getD ab.2 []) base module pot
    let tree2 := tree1.set (i + len) (dedupAdj (o.sortN TNode.sum leaves))
    let pot' ← potUpdates base module wordLen pot
    initLoop o alphabet base module wordLen len c tree2 pot'

/-- `TreeAttack::init_attack`: resize the arena to `2·len` and build the
sorted deduplicated leaf lists. -/
def initAttack (o : Oracle) (alphabet : List Word) (base module : ℤ)
    (wordLen : ℕ) (tree : List (List TNode)) (len : ℕ) :
    Option (List (List TNode)) :=
  let tree0 := tree.take (2 * len) ++ List.replicate (2 * len - tree.length) []
  initLoop o alphabet base module wordLen len len tree0 1

/-- `TreeAttack::calc_sum` (panics on an out-of-range position). -/
def calcSum (l r : List TNode) (pl pr : ℕ) : Option ℤ := do
  let x ← l.get? pl
  let y ← r.get? pr
  some (wrap128 (x.sum + y.sum))

/-- `TreeAttack::calc_diff`. -/
def calcDiff (l r : List TNode) (pl pr : ℕ) : Option ℤ := do
  let x ← l.get? pl
  let y ← r.get? pr
  some (absW (wrap128 (x.sum - y.sum)))

/-- A heap entry `(sum, pos_left, pos_right, is_sum_stream)`. -/
abbrev HeapEnt := ℤ × ℕ × ℕ × Bool

/-- Lexicographic comparison of heap entries (Rust tuple `Ord`,
`false < true`). -/
def entLE (e1 e2 : HeapEnt) : Bool :=
  decide (e1.1 < e2.1 ∨ (e1.1 = e2.1 ∧ (e1.2.1 < e2.2.1 ∨ (e1.2.1 = e2.2.1 ∧
    (e1.2.2.1 < e2.2.2.1 ∨ (e1.2.2.1 = e2.2.2.1 ∧ e1.2.2.2 ≤ e2.2.2.2))))))

/-- Push into the sorted-list model of the min-heap. -/
def heapPush (h : List HeapEnt) (e : HeapEnt) : List HeapEnt :=
  match h with
  | [] => [e]
  | x :: rest => if entLE e x then e :: x :: rest else x :: heapPush rest e

/-- `HashSet::insert`: returns whether the key was new, and the new set. -/
def addedInsert (s : List (ℕ × ℕ × Bool)) (k : ℕ × ℕ × Bool) :
    Bool × List (ℕ × ℕ × Bool) :=
  if k ∈ s then (false, s) else (true, k :: s)

/-- The monotone `pr` advance of the diff-stream seeding loop
(`while pr + 1 < … && calc_diff(pl, pr+1) < calc_diff(pl, pr)`). -/
def advance (l r : List TNode) (pl : ℕ) : ℕ → ℕ → Option ℕ
  | 0, _ => none
  | fuel + 1, pr =>
    if pr + 1 < r.length then
      match calcDiff l r pl (pr + 1), calcDiff l r pl pr with
      | some d1, some d0 =>
        if d1 < d0 then advance l r pl fuel (pr + 1) else some pr
      | _, _ => none
    else some pr

/-- The per-`pl` diff-stream seeding loop of `run_phase`. -/
def seedLoop (l r : List TNode) :
    ℕ → ℕ → ℕ → List HeapEnt → List (ℕ × ℕ × Bool) →
    Option (List HeapEnt × List (ℕ × ℕ × Bool))
  | 0, _, _, heap, added => some (heap, added)
  | rem + 1, pl, pr, heap, added => do
    let pr' ← advance l r pl (r.length + 1) pr
    let s ← calcDiff l r pl pr'
    seedLoop l r rem (pl + 1) pr' (heapPush heap (s, pl, pr', false))
      (addedInsert added (pl, pr', false)).2

/-- Guarded sum-stream push (`cond && added.insert(…)` then `calc_sum`). -/
def pushSumIf (l r : List TNode) (cond : Bool) (heap : List HeapEnt)
    (added : List (ℕ × ℕ × Bool)) (pl pr : ℕ) :
    Option (List HeapEnt × List (ℕ × ℕ × Bool)) :=
  if cond then
    let res := addedInsert added (pl, pr, true)
    if res.1 then do
      let s ← calcSum l r pl pr
      some (heapPush heap (s, pl, pr, true), res.2)
    else some (heap, res.2)
  else some (heap, added)

/-- Guarded diff-stream push. -/
def pushDiffIf (l r : List TNode) (cond : Bool) (heap : List HeapEnt)
    (added : List (ℕ × ℕ × Bool)) (pl pr : ℕ) :
    Option (List HeapEnt × List (ℕ × ℕ × Bool)) :=
  if cond then
    let res := addedInsert added (pl, pr, false)
    if res.1 then do
      let s ← calcDiff l r pl pr
      some (heapPush heap (s, pl, pr, false), res.2)
    else some (heap, res.2)
  else some (heap, added)

/-- The heap-draining merge loop of `run_phase` for one slot `i`:
returns the built cluster list and whether a zero sum was popped. -/
def mergeLoop (l r : List TNode) (clusterSize i : ℕ) :
    ℕ → List HeapEnt → List (ℕ × ℕ × Bool) → List TNode → ℤ →
    Option (List TNode × Bool)
  | 0, _, _, _, _ => none
  | fuel + 1, heap, added, out, lastSum =>
    if out.length < clusterSize then
      match heap with
      | [] => some (out, false)
      | (s, pl, pr, b) :: heap' =>
        if b then
          let outLast :=
            if s ≠ lastSum then (out ++ [TNode.internal s i false false pl pr], s)
            else (out, lastSum)
          do
            let ha1 ← pushSumIf l r (decide (pl + 1 < l.length)) heap' added (pl + 1) pr
            let ha2 ← pushSumIf l r (decide (pr + 1 < r.length)) ha1.1 ha1.2 pl (pr + 1)
            let ha3 ← pushSumIf l r (decide (pl + 1 < l.length ∧ pr + 1 < r.length))
              ha2.1 ha2.2 (pl + 1) (pr + 1)
            if s = 0 then some (outLast.1, true)
            else mergeLoop l r clusterSize i fuel ha3.1 ha3.2 outLast.1 outLast.2
        else do
          let x ← l.get? pl
          let y ← r.get? pr
          let mlr := if x.sum > y.sum then (false, true) else (true, false)
          let outLast :=
            if s ≠ lastSum then
              (out ++ [TNode.internal s i mlr.1 mlr.2 pl pr], s)
            else (out, lastSum)
          let ha1 ← pushDiffIf l r (decide (0 < pr)) heap' added pl (pr - 1)
          let ha2 ← pushDiffIf l r (decide (pr + 1 < r.length)) ha1.1 ha1.2 pl (pr + 1)
          if s = 0 then some (outLast.1, true)
          else mergeLoop l r clusterSize i fuel ha2.1 ha2.2 outLast.1 outLast.2
    else some (out, false)

/-- Merge one slot `i` from its children `l = tree[2i]`, `r = tree[2i+1]`:
diff-stream seeding, the one unguarded sum seed, then the drain loop. -/
def mergeSlot (clusterSize i : ℕ) (l r : List TNode) : Option (List TNode × Bool) := do
  let ha ← seedLoop l r l.length 0 0 [] []
  let s0 ← calcSum l r 0 0
  mergeLoop l r clusterSize i (2 * l.length * r.length + l.length + 2)
    (heapPush ha.1 (s0, 0, 0, true)) ha.2 [] (-1)

/-- The slot loop `for i in z..2·z` of `run_phase`, with early return on a
zero-sum pop. -/
def phaseSlots (clusterSize : ℕ) : ℕ → ℕ → List (List TNode) →
    Option (List (List TNode) × Option ℕ)
  | 0, _, tree => some (tree, none)
  | c + 1, i, tree =>
    if 2 * i + 1 < tree.length then do
      let merged ← mergeSlot clusterSize i (tree.getD (2 * i) []) (tree.getD (2 * i + 1) [])
      let tree' := tree.set i merged.1
      if merged.2 then some (tree', some i)
      else phaseSlots clusterSize c (i + 1) tree'
    else none

/-- `TreeAttack::run_phase`: re-sort the child level by its head sums
(panicking on an empty child list), then merge every slot of level `p`. -/
def runPhase (o : Oracle) (clusterSize : ℕ) (tree : List (List TNode)) (p : ℕ) :
    Option (List (List TNode) × Option ℕ) :=
  let z := 2 ^ p
  if 4 * z ≤ tree.length then
    let slice := (tree.drop (2 * z)).take (2 * z)
    if slice.any (·.isEmpty) then none
    else
      let sorted := o.sortL (fun c => (c.headD (TNode.leaf 0 0 [] [])).sum) slice
      phaseSlots clusterSize z z (tree.take (2 * z) ++ sorted ++ tree.drop (4 * z))
  else none

/-- The BFS of `construct_solution`: walk the winning subtree, recording the
(possibly swapped) word pair of each leaf at its position. -/
def bfsLoop (tree : List (List TNode)) : ℕ → List (ℕ × ℕ × Bool) →
    List (Option (Word × Word)) → Option (List (Option (Word × Word)))
  | 0, _, _ => none
  | _ + 1, [], words => some words
  | fuel + 1, (x, pos, m) :: rest, words => do
    let slot ← tree.get? x
    let node ← slot.get? pos
    match node with
    | TNode.internal _ idx rl rr pl pr =>
      bfsLoop tree fuel (rest ++ [(2 * idx, pl, xor m rl), (2 * idx + 1, pr, xor m rr)])
        words
    | TNode.leaf _ idx w1 w2 =>
      if idx < words.length then
        bfsLoop tree fuel rest (words.set idx (some (if m then (w2, w1) else (w1, w2))))
      else none

/-- Assemble the two strings: assigned positions use the recorded pair,
unassigned positions draw one random alphabet word for both strings. -/
def fillWords (alphabet : List Word) (rng : ℕ → ℕ) :
    List (Option (Word × Word)) → ℕ → Word → Word → Option (Word × Word × ℕ)
  | [], cur, fi, se => some (fi, se, cur)
  | none :: rest, cur, fi, se =>
    if alphabet.length = 0 then none
    else
      let w := alphabet.getD (rng cur % alphabet.length) []
      fillWords alphabet rng rest (cur + 1) (fi ++ w) (se ++ w)
  | some (w1, w2) :: rest, cur, fi, se =>
    fillWords alphabet rng rest cur (fi ++ w1) (se ++ w2)

/-- `TreeAttack::construct_solution` starting from `tree[idx][0]`. -/
def constructSolution (o : Oracle) (alphabet : List Word)
    (tree : List (List TNode)) (len idx cur : ℕ) : Option (Word × Word × ℕ) := do
  let words ← bfsLoop tree (4 * len + 4) [(idx, 0, false)] (List.replicate len none)
  fillWords alphabet o.rng words cur [] []

/-- The phase loop of `try_attack` (`for i in (0..p).rev()`), returning the
final arena, the found pair if any, and the RNG cursor. -/
def tryPhases (o : Oracle) (clusterSize : ℕ) (alphabet : List Word) (len : ℕ) :
    ℕ → List (List TNode) → ℕ →
    Option (List (List TNode) × Option (Word × Word) × ℕ)
  | 0, tree, cur => some (tree, none, cur)
  | c + 1, tree, cur => do
    let pr ← runPhase o clusterSize tree c
    match pr.2 with
    | some idx => do
      let sol ← constructSolution o alphabet pr.1 len idx cur
      some (pr.1, some (sol.1, sol.2.1), sol.2.2)
    | none => tryPhases o clusterSize alphabet len c pr.1 cur

/-- `TreeAttack::try_attack`. -/
def tryAttack (o : Oracle) (alphabet : List Word) (base module : ℤ)
    (wordLen clusterSize : ℕ) (tree : List (List TNode)) (p cur : ℕ) :
    Option (List (List TNode) × Option (Word × Word) × ℕ) := do
  let len := 2 ^ p
  let tree1 ← initAttack o alphabet base module wordLen tree len
  tryPhases o clusterSize alphabet len p tree1 cur

/-- The `for i in 3..12` loop of `tree_attack::find_single_collision`. -/
def treeLoop (o : Oracle) (alphabet : List Word) (base module : ℤ)
    (wordLen clusterSize : ℕ) : ℕ → ℕ → List (List TNode) → ℕ →
    Option (Option (Word × Word) × ℕ)
  | _, 0, _, cur => some (none, cur)
  | p, c + 1, tree, cur => do
    let res ← tryAttack o alphabet base module wordLen clusterSize tree p cur
    match res.2.1 with
    | some pair => some (some pair, res.2.2)
    | none => treeLoop o alphabet base module wordLen clusterSize (p + 1) c res.1 res.2.2

/-- `tree_attack::find_single_collision` (the `alphabet[0]` read of
`TreeAttack::new` panics on an empty alphabet). -/
def treeFindSingle (o : Oracle) (base module clusterSize : ℕ)
    (alphabet : List Word) (cur : ℕ) : Option (Option (Word × Word) × ℕ) :=
  match alphabet with
  | [] => none
  | w :: _ =>
    treeLoop o alphabet (base : ℤ) (module : ℤ) w.length clusterSize 3 9 [] cur

/-- The multi-hash lifter loop of `tree_attack::find_collision`. -/
def treeLift (o : Oracle) (clusterSize : ℕ) :
    List (ℕ × ℕ) → List Word → ℕ → Option (Option (List Word × ℕ))
  | [], alphabet, cur => some (some (alphabet, cur))
  | (b, m) :: rest, alphabet, cur =>
    match treeFindSingle o b m clusterSize alphabet cur with
    | none => none
    | some (none, _) => some none
    | some (some (fi, se), cur') => treeLift o clusterSize rest [fi, se] cur'

/-- `tree_attack::find_collision`. -/
def treeFindCollision (o : Oracle) (bases modules : List ℕ) (clusterSize : ℕ)
    (initAlphabet : List Word) (cur : ℕ) : Option (Option (Word × Word)) :=
  match treeLift o clusterSize (bases.zip modules) initAlphabet cur with
  | none => none
  | some none => some none
  | some (some (alphabet, _)) =>
    match alphabet with
    | a :: b :: _ => some (some (a, b))
    | _ => none

/-- A concrete adequate oracle: insertion sort for both sort points. -/
def insOracle (rng : ℕ → ℕ) : Oracle where
  sortN := fun key l => l.insertionSort fun a b => key a ≤ key b
  sortL := fun key l => l.insertionSort fun a b => key a ≤ key b
  rng := rng

theorem keySorts_insertionSort {α : Type} :
    KeySorts (fun (key : α → ℤ) l => l.insertionSort fun a b => key a ≤ key b) := by
  intro key l
  constructor
  · exact List.perm_insertionSort _ l
  · exact @List.sorted_insertionSort α (fun a b => key a ≤ key b) _
      ⟨fun a b => le_total (key a) (key b)⟩
      ⟨fun a b c hab hbc => le_trans hab hbc⟩ l

theorem insOracle_good (rng : ℕ → ℕ) : (insOracle rng).Good :=
  ⟨keySorts_insertionSort, keySorts_insertionSort⟩

/-- **C1 counterexample** (two independent failures, one per lifter).
Birthday: with base `2^32` and module `2^64 − 1` (valid `u64` arguments of
`birthday_attack::find_collision`), the words `aaaaab` and `bbbbab` get the
same *wrapping* `u64` Horner hash, so the solver returns them as a
collision, but their ideal polynomial hashes `(Σ s[i]·B^(|s|-1-i)) mod M`
differ (`2^32` is the exact value of `(M as f64).sqrt() as usize` here).
Tree: with base 2 and module 25 over the equal-width two-word alphabet
`{"a", "{"}` (codepoints 97, 123), leaf sums go negative, a zero sum is
popped after negative ones, and `construct_solution(len, idx)` rebuilds
from position 0 of the cluster — the first-pushed, nonzero node — so
`tree_attack::find_collision` returns a non-colliding pair. -/
theorem c1_counterexample :
    (∃ s1 s2 : Word,
      birthdayFindCollision c1Rng (fun _ => 2 ^ 32) [2 ^ 32] [2 ^ 64 - 1] alpha26 0 =
        some (some (s1, s2)) ∧
      mathHash (2 ^ 32) (2 ^ 64 - 1) s1 ≠ mathHash (2 ^ 32) (2 ^ 64 - 1) s2) ∧
    (∃ t1 t2 : Word,
      treeFindCollision (insOracle fun _ => 0) [2] [25] 8 [[97], [123]] 0 =
        some (some (t1, t2)) ∧
      mathHash 2 25 t1 ≠ mathHash 2 25 t2) := by
  constructor
  · refine ⟨[98, 98, 98, 98, 97, 98], [97, 97, 97, 97, 97, 98], ?_, ?_⟩
    · decide
    · decide
  · refine ⟨[97, 97, 97, 97, 97, 97, 97, 97], [123, 97, 97, 97, 97, 123, 123, 123], ?_, ?_⟩
    · decide
    · decide

/-- Claim-side exact `new_leaf` character step: the same arithmetic as
`leafStep` but over unbounded integers (what the computation *means* when
no intermediate leaves the `i128` range). -/
def leafStepExact (base module : ℤ) (hash : ℤ) (c : ℕ × ℕ) : ℤ :=
  Int.tmod (hash * base + c.1 - c.2 + module) module

/-- Claim-side exact `new_leaf` (no `i128` wrap anywhere). -/
def newLeafExact (idx : ℕ) (w1 w2 : Word) (base module pot : ℤ) : Option TNode :=
  if module = 0 then none
  else
    some (TNode.leaf
      (Int.tmod ((w1.zip w2).foldl (leafStepExact base module) 0 * pot) module)
      idx w1 w2)

/-- **C3 counterexample.**  With the 64-bit parameters
`base = 2^64 − 2`, `module = 2^64 − 1` (accepted by the tree solver) and
the default-alphabet single-character words `a`, `b`, the pot reached after
one `init_attack` update is `2^64 − 2`, and the `hash * pot` product in
`new_leaf` is `(2^64−2)^2 > 2^127 − 1`: it leaves the signed 128-bit range,
so the wrapping computation differs from the exact one (sum `0` instead of
`1`). -/
theorem c3_counterexample :
    potUpdates (2 ^ 64 - 2 : ℤ) (2 ^ 64 - 1) 1 1 = some (2 ^ 64 - 2) ∧
    newLeaf 6 [97] [98] (2 ^ 64 - 2) (2 ^ 64 - 1) (2 ^ 64 - 2) ≠
      newLeafExact 6 [97] [98] (2 ^ 64 - 2) (2 ^ 64 - 1) (2 ^ 64 - 2) ∧
    newLeaf 6 [97] [98] (2 ^ 64 - 2) (2 ^ 64 - 1) (2 ^ 64 - 2) =
      some (TNode.leaf 0 6 [97] [98]) ∧
    newLeafExact 6 [97] [98] (2 ^ 64 - 2) (2 ^ 64 - 1) (2 ^ 64 - 2) =
      some (TNode.leaf 1 6 [97] [98]) := by
  refine ⟨?_, ?_, ?_, ?_⟩ <;> decide

/-- **C9 counterexample.**  With the non-empty single-word alphabet `["a"]`
(and any base, module, cluster size), every leaf list is empty, so the
`c[0]` key extraction of the level re-sort panics: the solver crashes for
every `p` instead of returning `None`, refuting the claimed
"returns `None` exactly when no `p` produces a zero-sum node". -/
theorem c9_counterexample :
    treeFindSingle (insOracle fun _ => 0) 10 97 5 [[97]] 0 = none := by
  decide

/-- **C10 amended.**  Both lifters only see the element-wise zip of the two
coefficient lists, so the call equals the call on the lists truncated to
the shorter length; with empty lists no search happens and the first two
alphabet words are returned — provided there are two (the final
`Vec::remove(1)` panics otherwise, see the counterexample). -/
theorem c10_amended :
    (∀ (rng boundFn : ℕ → ℕ) (bases modules : List ℕ) (A : List Word) (cur : ℕ),
      birthdayFindCollision rng boundFn bases modules A cur =
        birthdayFindCollision rng boundFn
          (bases.take (min bases.length modules.length))
          (modules.take (min bases.length modules.length)) A cur) ∧
    (∀ (o : Oracle) (bases modules : List ℕ) (C : ℕ) (A : List Word) (cur : ℕ),
      treeFindCollision o bases modules C A cur =
        treeFindCollision o
          (bases.take (min bases.length modules.length))
          (modules.take (min bases.length modules.length)) C A cur) ∧
    (∀ (rng boundFn : ℕ → ℕ) (a b : Word) (rest : List Word) (cur : ℕ),
      birthdayFindCollision rng boundFn [] [] (a :: b :: rest) cur =
        some (some (a, b))) ∧
    (∀ (o : Oracle) (C : ℕ) (a b : Word) (rest : List Word) (cur : ℕ),
      treeFindCollision o [] [] C (a :: b :: rest) cur = some (some (a, b))) := by
  refine ⟨?_, ?_, ?_, ?_⟩
  · intro rng boundFn bases modules A cur
    unfold birthdayFindCollision
    rw [← zip_eq_zip_take]
  · intro o bases modules C A cur
    unfold treeFindCollision
    rw [← zip_eq_zip_take]
  · intro rng boundFn a b rest cur
    rfl
  · intro o C a b rest cur
    rfl

/-! ### Arithmetic and container lemmas for the tree solver -/

theorem tmod_neg_left (a b : ℤ) : (-a).tmod b = -(a.tmod b) := by
  have h1 := Int.tdiv_add_tmod a b
  have h2 := Int.tdiv_add_tmod (-a) b
  rw [Int.neg_tdiv, mul_neg] at h2
  omega

theorem tmod_bounds {a M : ℤ} (hM : 0 < M) : -M < a.tmod M ∧ a.tmod M < M := by
  rcases le_or_lt 0 a with ha | ha
  · have h1 := Int.tmod_nonneg M ha
    have h2 := Int.tmod_lt_of_pos a hM
    omega
  · have he : a.tmod M = -((-a).tmod M) := by
      rw [tmod_neg_left, neg_neg]
    have h1 := Int.tmod_nonneg M (by omega : (0 : ℤ) ≤ -a)
    have h2 := Int.tmod_lt_of_pos (-a) hM
    omega

theorem tmod_modEq (a M : ℤ) : Int.ModEq M (a.tmod M) a := by
  have h := Int.tdiv_add_tmod a M
  exact Int.modEq_iff_dvd.mpr ⟨a.tdiv M, by omega⟩

theorem wrap128_id {x : ℤ} (h1 : -2 ^ 127 ≤ x) (h2 : x < 2 ^ 127) :
    wrap128 x = x := by
  unfold wrap128
  have hpow : (2 : ℤ) ^ 128 = 2 ^ 127 * 2 := by ring
  have heq : (x + 2 ^ 127) % 2 ^ 128 = x + 2 ^ 127 := by
    apply Int.emod_eq_of_lt
    · linarith
    · linarith
  rw [heq]
  ring

theorem entLE_iff {e1 e2 : HeapEnt} : entLE e1 e2 = true ↔
    (e1.1 < e2.1 ∨ (e1.1 = e2.1 ∧ (e1.2.1 < e2.2.1 ∨ (e1.2.1 = e2.2.1 ∧
      (e1.2.2.1 < e2.2.2.1 ∨ (e1.2.2.1 = e2.2.2.1 ∧ e1.2.2.2 ≤ e2.2.2.2)))))) := by
  unfold entLE
  exact decide_eq_true_iff

theorem entLE_refl (a : HeapEnt) : entLE a a = true := by
  rw [entLE_iff]
  tauto

theorem entLE_total (a b : HeapEnt) : entLE a b = true ∨ entLE b a = true := by
  rw [entLE_iff, entLE_iff]
  rcases lt_trichotomy a.1 b.1 with h | h | h
  · tauto
  · rcases lt_trichotomy a.2.1 b.2.1 with h' | h' | h'
    · tauto
    · rcases lt_trichotomy a.2.2.1 b.2.2.1 with h2 | h2 | h2
      · tauto
      · rcases Bool.le_total a.2.2.2 b.2.2.2 with h3 | h3 <;> tauto
      · tauto
    · tauto
  · tauto

theorem entLE_trans {a b c : HeapEnt} (h1 : entLE a b = true)
    (h2 : entLE b c = true) : entLE a c = true := by
  rw [entLE_iff] at *
  rcases h1 with h1 | ⟨e1, h1⟩ <;> rcases h2 with h2 | ⟨e2, h2⟩
  · exact Or.inl (lt_trans h1 h2)
  · exact Or.inl (e2 ▸ h1)
  · exact Or.inl (e1 ▸ h2)
  · refine Or.inr ⟨e1.trans e2, ?_⟩
    rcases h1 with h1 | ⟨f1, h1⟩ <;> rcases h2 with h2 | ⟨f2, h2⟩
    · exact Or.inl (lt_trans h1 h2)
    · exact Or.inl (f2 ▸ h1)
    · exact Or.inl (f1 ▸ h2)
    · refine Or.inr ⟨f1.trans f2, ?_⟩
      rcases h1 with h1 | ⟨g1, h1⟩ <;> rcases h2 with h2 | ⟨g2, h2⟩
      · exact Or.inl (lt_trans h1 h2)
      · exact Or.inl (g2 ▸ h1)
      · exact Or.inl (g1 ▸ h2)
      · exact Or.inr ⟨g1.trans g2, le_trans h1 h2⟩

theorem entLE_key {a b : HeapEnt} (h : entLE a b = true) : a.1 ≤ b.1 := by
  rw [entLE_iff] at h
  rcases h with h | ⟨e, _⟩
  · omega
  · omega

/-- The sorted-list heap invariant. -/
def HSorted (h : List HeapEnt) : Prop := h.Pairwise fun a b => entLE a b = true

theorem mem_heapPush {h : List HeapEnt} {e x : HeapEnt} :
    x ∈ heapPush h e ↔ x ∈ h ∨ x = e := by
  induction h with
  | nil => simp [heapPush]
  | cons y rest ih =>
    rw [heapPush]
    split_ifs
    · simp only [List.mem_cons]
      tauto
    · simp only [List.mem_cons, ih]
      tauto

theorem heapPush_sorted {h : List HeapEnt} {e : HeapEnt} (hs : HSorted h) :
    HSorted (heapPush h e) := by
  induction h with
  | nil => exact List.pairwise_singleton _ _
  | cons x rest ih =>
    rw [heapPush]
    obtain ⟨hx, hrest⟩ := List.pairwise_cons.mp hs
    split_ifs with hle
    · refine List.pairwise_cons.mpr ⟨?_, hs⟩
      intro y hy
      rcases List.mem_cons.mp hy with rfl | hy
      · exact hle
      · exact entLE_trans hle (hx y hy)
    · refine List.pairwise_cons.mpr ⟨?_, ih hrest⟩
      intro y hy
      rcases mem_heapPush.mp hy with hy | rfl
      · exact hx y hy
      · rcases entLE_total y x with h' | h'
        · exact absurd h' hle
        · exact h'

/-- Strictly-increasing-sums invariant for cluster lists. -/
def SSorted (l : List TNode) : Prop := l.Pairwise fun a b => a.sum < b.sum

theorem dedupAdjAux_spec {last : TNode} :
    ∀ {l : List TNode}, l.Pairwise (fun a b => a.sum ≤ b.sum) →
      (∀ b ∈ l, last.sum ≤ b.sum) →
      SSorted (dedupAdjAux last l) ∧
        (∀ b ∈ dedupAdjAux last l, last.sum < b.sum ∧ b ∈ l) := by
  intro l
  induction l generalizing last with
  | nil => intro _ _; exact ⟨List.Pairwise.nil, by simp [dedupAdjAux]⟩
  | cons b rest ih =>
    intro hs hge
    obtain ⟨hb, hrest⟩ := List.pairwise_cons.mp hs
    rw [dedupAdjAux]
    split_ifs with heq
    · have hge' : ∀ x ∈ rest, last.sum ≤ x.sum := by
        intro x hx
        calc last.sum = b.sum := heq
          _ ≤ x.sum := hb x hx
      obtain ⟨h1, h2⟩ := ih hrest hge'
      exact ⟨h1, fun x hx => ⟨(h2 x hx).1, List.mem_cons_of_mem _ (h2 x hx).2⟩⟩
    · have hlt : last.sum < b.sum := by
        have := hge b (by simp)
        omega
      obtain ⟨h1, h2⟩ := ih hrest hb
      refine ⟨List.pairwise_cons.mpr ⟨fun y hy => (h2 y hy).1, h1⟩, ?_⟩
      intro x hx
      rcases List.mem_cons.mp hx with rfl | hx
      · exact ⟨hlt, by simp⟩
      · exact ⟨lt_trans hlt (h2 x hx).1, List.mem_cons_of_mem _ (h2 x hx).2⟩

theorem dedupAdj_spec {l : List TNode}
    (hs : l.Pairwise fun a b => a.sum ≤ b.sum) :
    SSorted (dedupAdj l) ∧ ∀ x ∈ dedupAdj l, x ∈ l := by
  cases l with
  | nil => exact ⟨List.Pairwise.nil, by simp [dedupAdj]⟩
  | cons a rest =>
    obtain ⟨ha, hrest⟩ := List.pairwise_cons.mp hs
    obtain ⟨h1, h2⟩ := dedupAdjAux_spec hrest ha
    rw [dedupAdj]
    refine ⟨List.pairwise_cons.mpr ⟨fun y hy => (h2 y hy).1, h1⟩, ?_⟩
    intro x hx
    rcases List.mem_cons.mp hx with rfl | hx
    · simp
    · exact List.mem_cons_of_mem _ (h2 x hx).2

theorem dedupAdj_head {a : TNode} {rest : List TNode} :
    dedupAdj (a :: rest) = a :: dedupAdjAux a rest := rfl

/-! ### The merge ordering engine -/

/-- Dummy node for total indexing (never observed under the invariants). -/
def dummyN : TNode := TNode.leaf 0 0 [] []

/-- The sum stored at index `j`. -/
def nsum (l : List TNode) (j : ℕ) : ℤ := (l.getD j dummyN).sum

theorem getD_mem {l : List TNode} {j : ℕ} (h : j < l.length) :
    l.getD j dummyN ∈ l := by
  rw [List.getD_eq_getElem _ _ h]
  exact List.getElem_mem _

theorem ssorted_nsum {l : List TNode} (hs : SSorted l) {i j : ℕ} (hij : i < j)
    (hj : j < l.length) : nsum l i < nsum l j := by
  have hi : i < l.length := lt_trans hij hj
  unfold nsum
  rw [List.getD_eq_getElem _ _ hi, List.getD_eq_getElem _ _ hj]
  exact List.pairwise_iff_get.mp hs ⟨i, hi⟩ ⟨j, hj⟩ hij

/-- The diff-stream key `|x_pl − y_j|`. -/
def Dk (l r : List TNode) (pl j : ℕ) : ℤ := |nsum l pl - nsum r j|

/-- The sum-stream key `x_pl + y_pr`. -/
def Sk (l r : List TNode) (pl pr : ℕ) : ℤ := nsum l pl + nsum r pr

theorem calcSum_eq {l r : List TNode} {K : ℤ} (hbl : ∀ x ∈ l, |x.sum| ≤ K)
    (hbr : ∀ x ∈ r, |x.sum| ≤ K) (hK : 2 * K + 2 ≤ 2 ^ 127) {pl pr : ℕ}
    (hpl : pl < l.length) (hpr : pr < r.length) :
    calcSum l r pl pr = some (Sk l r pl pr) := by
  unfold calcSum
  rw [List.get?_eq_get hpl, List.get?_eq_get hpr]
  have hx := hbl _ (getD_mem hpl)
  have hy := hbr _ (getD_mem hpr)
  have hKnn : 0 ≤ K := le_trans (abs_nonneg _) hx
  show some (wrap128 _) = _
  have hget1 : l.get ⟨pl, hpl⟩ = l.getD pl dummyN := by
    rw [List.getD_eq_getElem _ _ hpl]
    rfl
  have hget2 : r.get ⟨pr, hpr⟩ = r.getD pr dummyN := by
    rw [List.getD_eq_getElem _ _ hpr]
    rfl
  rw [hget1, hget2]
  congr 1
  have h1 := abs_le.mp hx
  have h2 := abs_le.mp hy
  apply wrap128_id
  · linarith [h1.1, h2.1]
  · linarith [h1.2, h2.2]

theorem calcDiff_eq {l r : List TNode} {K : ℤ} (hbl : ∀ x ∈ l, |x.sum| ≤ K)
    (hbr : ∀ x ∈ r, |x.sum| ≤ K) (hK : 2 * K + 2 ≤ 2 ^ 127) {pl pr : ℕ}
    (hpl : pl < l.length) (hpr : pr < r.length) :
    calcDiff l r pl pr = some (Dk l r pl pr) := by
  unfold calcDiff
  rw [List.get?_eq_get hpl, List.get?_eq_get hpr]
  have hx := hbl _ (getD_mem hpl)
  have hy := hbr _ (getD_mem hpr)
  have hget1 : l.get ⟨pl, hpl⟩ = l.getD pl dummyN := by
    rw [List.getD_eq_getElem _ _ hpl]
    rfl
  have hget2 : r.get ⟨pr, hpr⟩ = r.getD pr dummyN := by
    rw [List.getD_eq_getElem _ _ hpr]
    rfl
  rw [hget1, hget2]
  show some (absW (wrap128 _)) = _
  have h1 := abs_le.mp hx
  have h2 := abs_le.mp hy
  have hdiff : wrap128 ((l.getD pl dummyN).sum - (r.getD pr dummyN).sum) =
      (l.getD pl dummyN).sum - (r.getD pr dummyN).sum := by
    apply wrap128_id
    · linarith [h1.1, h2.2]
    · linarith [h1.2, h2.1]
  rw [hdiff]
  unfold absW
  congr 1
  have habs : |(l.getD pl dummyN).sum - (r.getD pr dummyN).sum| ≤ 2 * K :=
    abs_le.mpr ⟨by linarith [h1.1, h2.2], by linarith [h1.2, h2.1]⟩
  apply wrap128_id
  · have := abs_nonneg ((l.getD pl dummyN).sum - (r.getD pr dummyN).sum)
    linarith
  · linarith

/-- Strict descent of the diff key on `[0, m]` for a fixed `pl`. -/
def DescTo (l r : List TNode) (pl m : ℕ) : Prop :=
  ∀ j, j + 1 ≤ m → Dk l r pl (j + 1) < Dk l r pl j

theorem z_pos_of_desc {l r : List TNode} (hsr : SSorted r) {pl m : ℕ}
    (hm : m < r.length) (hd : DescTo l r pl m) :
    ∀ j < m, 0 < nsum l pl - nsum r j := by
  intro j hj
  by_contra hle
  push_neg at hle
  have hylt : nsum r j < nsum r (j + 1) := ssorted_nsum hsr (by omega) (by omega)
  have h1 : Dk l r pl j = -(nsum l pl - nsum r j) := by
    unfold Dk
    rw [abs_of_nonpos (by omega)]
  have h2 : Dk l r pl (j + 1) = -(nsum l pl - nsum r (j + 1)) := by
    unfold Dk
    rw [abs_of_nonpos (by omega)]
  have := hd j (by omega)
  omega

/-- From the seeded minimum upward the diff key is non-decreasing. -/
theorem Dk_up_mono {l r : List TNode} (hsr : SSorted r) {pl m : ℕ}
    (hm : m < r.length)
    (hstop : m + 1 < r.length → Dk l r pl m ≤ Dk l r pl (m + 1)) :
    ∀ j, m ≤ j → j + 1 < r.length → Dk l r pl j ≤ Dk l r pl (j + 1) := by
  intro j hmj hj1
  rcases le_or_lt (nsum l pl - nsum r m) 0 with hz | hz
  · -- z_m ≤ 0: z_j ≤ 0 for all j ≥ m, D = −z increasing
    have hzj : nsum l pl - nsum r j ≤ 0 := by
      rcases eq_or_lt_of_le hmj with rfl | hlt
      · exact hz
      · have := ssorted_nsum hsr hlt (by omega)
        omega
    have hzj1 : nsum l pl - nsum r (j + 1) < 0 := by
      have := ssorted_nsum hsr (by omega : j < j + 1) hj1
      omega
    unfold Dk
    rw [abs_of_nonpos (by omega), abs_of_nonpos (by omega)]
    have := ssorted_nsum hsr (by omega : j < j + 1) hj1
    omega
  · -- z_m > 0
    rcases eq_or_lt_of_le hmj with rfl | hlt
    · exact hstop hj1
    · -- j ≥ m + 1: z_{m+1} < 0, hence z_j < 0
      have hm1 : m + 1 < r.length := by omega
      have hzm1 : nsum l pl - nsum r (m + 1) < 0 := by
        by_contra hge
        push_neg at hge
        have hylt : nsum r m < nsum r (m + 1) := ssorted_nsum hsr (by omega) hm1
        have hDm : Dk l r pl m = nsum l pl - nsum r m := by
          unfold Dk
          rw [abs_of_pos hz]
        have hDm1 : Dk l r pl (m + 1) = nsum l pl - nsum r (m + 1) := by
          unfold Dk
          rw [abs_of_nonneg hge]
        have := hstop hm1
        omega
      have hzj : nsum l pl - nsum r j ≤ nsum l pl - nsum r (m + 1) := by
        rcases eq_or_lt_of_le (by omega : m + 1 ≤ j) with heq | hlt2
        · rw [heq]
        · have := ssorted_nsum hsr hlt2 (by omega)
          omega
      have hzj1 : nsum l pl - nsum r (j + 1) < nsum l pl - nsum r j := by
        have := ssorted_nsum hsr (by omega : j < j + 1) hj1
        omega
      unfold Dk
      rw [abs_of_nonpos (by omega), abs_of_nonpos (by omega)]
      omega

/-- The strict descent prefix transfers to the next `pl`. -/
theorem desc_shift {l r : List TNode} (hsl : SSorted l) (hsr : SSorted r)
    {pl m : ℕ} (hm : m < r.length) (hpl1 : pl + 1 < l.length)
    (hd : DescTo l r pl m) : DescTo l r (pl + 1) m := by
  intro j hj
  have hdelta : nsum l pl < nsum l (pl + 1) := ssorted_nsum hsl (by omega) hpl1
  have hzj : 0 < nsum l pl - nsum r j := z_pos_of_desc hsr hm hd j (by omega)
  have hylt : nsum r j < nsum r (j + 1) := ssorted_nsum hsr (by omega) (by omega)
  have hzj' : 0 < nsum l (pl + 1) - nsum r j := by omega
  rcases le_or_lt (nsum l (pl + 1) - nsum r (j + 1)) 0 with hneg | hpos
  · -- can only happen at j + 1 = m: use the pl-descent bound
    have hDj : Dk l r pl j = nsum l pl - nsum r j := by
      unfold Dk; rw [abs_of_pos hzj]
    have hDj1 : Dk l r pl (j + 1) ≥ -(nsum l pl - nsum r (j + 1)) := by
      unfold Dk
      exact neg_le_abs _
    have hlt := hd j hj
    unfold Dk
    rw [abs_of_nonpos hneg, abs_of_pos hzj']
    omega
  · unfold Dk
    rw [abs_of_pos hpos, abs_of_pos hzj']
    omega

theorem advance_spec {l r : List TNode} {K : ℤ} (hbl : ∀ x ∈ l, |x.sum| ≤ K)
    (hbr : ∀ x ∈ r, |x.sum| ≤ K) (hK : 2 * K + 2 ≤ 2 ^ 127) {pl : ℕ}
    (hpl : pl < l.length) :
    ∀ {fuel pr₀ m : ℕ}, advance l r pl fuel pr₀ = some m →
      pr₀ < r.length → DescTo l r pl pr₀ →
      pr₀ ≤ m ∧ m < r.length ∧ DescTo l r pl m ∧
        (m + 1 < r.length → Dk l r pl m ≤ Dk l r pl (m + 1)) := by
  intro fuel
  induction fuel with
  | zero => intro pr₀ m h; simp [advance] at h
  | succ fuel ih =>
    intro pr₀ m h hpr hdesc
    rw [advance] at h
    by_cases hc : pr₀ + 1 < r.length
    · rw [if_pos hc, calcDiff_eq hbl hbr hK hpl hc,
        calcDiff_eq hbl hbr hK hpl hpr] at h
      dsimp only at h
      split_ifs at h with hlt
      · have hdesc' : DescTo l r pl (pr₀ + 1) := by
          intro j hj
          rcases Nat.lt_or_ge (j + 1) (pr₀ + 1) with hj' | hj'
          · exact hdesc j (by omega)
          · have : j = pr₀ := by omega
            subst this
            exact hlt
        obtain ⟨h1, h2, h3, h4⟩ := ih h hc hdesc'
        exact ⟨by omega, h2, h3, h4⟩
      · simp only [Option.some.injEq] at h
        subst h
        exact ⟨le_rfl, hpr, hdesc, fun h' => by omega⟩
    · rw [if_neg hc] at h
      simp only [Option.some.injEq] at h
      subst h
      exact ⟨le_rfl, hpr, hdesc, fun h' => absurd h' hc⟩

theorem advance_total {l r : List TNode} {K : ℤ} (hbl : ∀ x ∈ l, |x.sum| ≤ K)
    (hbr : ∀ x ∈ r, |x.sum| ≤ K) (hK : 2 * K + 2 ≤ 2 ^ 127) {pl : ℕ}
    (hpl : pl < l.length) :
    ∀ {fuel pr₀ : ℕ}, pr₀ < r.length → r.length ≤ fuel + pr₀ →
      ∃ m, advance l r pl fuel pr₀ = some m := by
  intro fuel
  induction fuel with
  | zero => intro pr₀ hpr hle; omega
  | succ fuel ih =>
    intro pr₀ hpr hle
    rw [advance]
    by_cases hc : pr₀ + 1 < r.length
    · rw [if_pos hc, calcDiff_eq hbl hbr hK hpl hc,
        calcDiff_eq hbl hbr hK hpl hpr]
      dsimp only
      split_ifs with hlt
      · exact ih hc (by omega)
      · exact ⟨pr₀, rfl⟩
    · rw [if_neg hc]
      exact ⟨pr₀, rfl⟩

/-- Specification of the diff-stream seeding loop: it returns per-`pl`
minima (with descent on the left and non-decrease on the right), pushes
exactly those diff entries, and records exactly those keys. -/
theorem seedLoop_spec {l r : List TNode} {K : ℤ} (hsl : SSorted l)
    (hsr : SSorted r) (hbl : ∀ x ∈ l, |x.sum| ≤ K)
    (hbr : ∀ x ∈ r, |x.sum| ≤ K) (hK : 2 * K + 2 ≤ 2 ^ 127) :
    ∀ {rem pl pr : ℕ} {heap heap' : List HeapEnt}
      {added added' : List (ℕ × ℕ × Bool)},
      pl + rem = l.length → pr < r.length ∨ rem = 0 →
      (0 < rem → DescTo l r pl pr) →
      seedLoop l r rem pl pr heap added = some (heap', added') →
      ∃ mf : ℕ → ℕ,
        (∀ p', pl ≤ p' → p' < l.length → mf p' < r.length ∧
          DescTo l r p' (mf p') ∧
          (mf p' + 1 < r.length → Dk l r p' (mf p') ≤ Dk l r p' (mf p' + 1))) ∧
        (∀ e, e ∈ heap' ↔ e ∈ heap ∨ ∃ p', pl ≤ p' ∧ p' < l.length ∧
          e = (Dk l r p' (mf p'), p', mf p', false)) ∧
        (∀ k, k ∈ added' ↔ k ∈ added ∨ ∃ p', pl ≤ p' ∧ p' < l.length ∧
          k = (p', mf p', false)) ∧
        (HSorted heap → HSorted heap') ∧
        (added.Nodup → added'.Nodup) := by
  intro rem
  induction rem with
  | zero =>
    intro pl pr heap heap' added added' hsum _ _ h
    rw [seedLoop] at h
    simp only [Option.some.injEq, Prod.mk.injEq] at h
    obtain ⟨rfl, rfl⟩ := h
    refine ⟨fun _ => 0, ?_, ?_, ?_, fun h => h, fun h => h⟩
    · intro p' hp1 hp2; omega
    · intro e; constructor
      · exact Or.inl
      · rintro (he | ⟨p', hp1, hp2, _⟩)
        · exact he
        · omega
    · intro k; constructor
      · exact Or.inl
      · rintro (hk | ⟨p', hp1, hp2, _⟩)
        · exact hk
        · omega
  | succ rem ih =>
    intro pl pr heap heap' added added' hsum hpr hdesc h
    have hpl : pl < l.length := by omega
    have hprlt : pr < r.length := by
      rcases hpr with h' | h'
      · exact h'
      · omega
    rw [seedLoop] at h
    obtain ⟨m, hm⟩ := advance_total hbl hbr hK hpl hprlt
      (by omega : r.length ≤ r.length + 1 + pr)
    rw [hm] at h
    simp only [Option.bind_eq_bind, Option.some_bind] at h
    obtain ⟨hple, hmlt, hmdesc, hmstop⟩ :=
      advance_spec hbl hbr hK hpl hm hprlt (hdesc (by omega))
    rw [calcDiff_eq hbl hbr hK hpl hmlt] at h
    have hnext : 0 < rem → DescTo l r (pl + 1) m := fun hrem =>
      desc_shift hsl hsr hmlt (by omega) hmdesc
    obtain ⟨mf, hmf1, hmf2, hmf3, hmf4, hmf5⟩ :=
      ih (by omega) (Or.inl hmlt) hnext h
    refine ⟨fun p' => if p' = pl then m else mf p', ?_, ?_, ?_, ?_, ?_⟩
    · intro p' hp1 hp2
      by_cases hp : p' = pl
      · subst hp
        simp only [if_pos rfl]
        exact ⟨hmlt, hmdesc, hmstop⟩
      · simp only [if_neg hp]
        exact hmf1 p' (by omega) hp2
    · intro e
      rw [hmf2 e, mem_heapPush]
      constructor
      · rintro ((he | rfl) | ⟨p', hp1, hp2, rfl⟩)
        · exact Or.inl he
        · exact Or.inr ⟨pl, le_rfl, hpl, by simp⟩
        · refine Or.inr ⟨p', by omega, hp2, ?_⟩
          simp only [if_neg (by omega : ¬ p' = pl)]
      · rintro (he | ⟨p', hp1, hp2, rfl⟩)
        · exact Or.inl (Or.inl he)
        · by_cases hp : p' = pl
          · subst hp
            simp only [if_pos rfl]
            exact Or.inl (Or.inr rfl)
          · refine Or.inr ⟨p', by omega, hp2, ?_⟩
            simp only [if_neg hp]
    · intro k
      rw [hmf3 k]
      unfold addedInsert
      constructor
      · rintro (hk | ⟨p', hp1, hp2, rfl⟩)
        · split_ifs at hk with hmem
          · exact Or.inl hk
          · rcases List.mem_cons.mp hk with rfl | hk
            · exact Or.inr ⟨pl, le_rfl, hpl, by simp⟩
            · exact Or.inl hk
        · refine Or.inr ⟨p', by omega, hp2, ?_⟩
          simp only [if_neg (by omega : ¬ p' = pl)]
      · rintro (hk | ⟨p', hp1, hp2, rfl⟩)
        · split_ifs with hmem
          · exact Or.inl hk
          · exact Or.inl (List.mem_cons_of_mem _ hk)
        · by_cases hp : p' = pl
          · subst hp
            simp only [if_pos rfl]
            split_ifs with hmem
            · exact Or.inl hmem
            · exact Or.inl (List.mem_cons_self _ _)
          · refine Or.inr ⟨p', by omega, hp2, ?_⟩
            simp only [if_neg hp]
    · intro hs
      exact hmf4 (heapPush_sorted hs)
    · intro hnd
      refine hmf5 ?_
      unfold addedInsert
      split_ifs with hmem
      · exact hnd
      · exact List.Nodup.cons hmem hnd

/-! ### The merge loop invariant -/

theorem heapPush_length {h : List HeapEnt} {e : HeapEnt} :
    (heapPush h e).length = h.length + 1 := by
  induction h with
  | nil => rfl
  | cons x rest ih =>
    rw [heapPush]
    split_ifs
    · rfl
    · simp only [List.length_cons, ih]

theorem seedLoop_heap_length {l r : List TNode} :
    ∀ {rem pl pr : ℕ} {heap heap' : List HeapEnt}
      {added added' : List (ℕ × ℕ × Bool)},
      seedLoop l r rem pl pr heap added = some (heap', added') →
      heap'.length = heap.length + rem := by
  intro rem
  induction rem with
  | zero =>
    intro pl pr heap heap' added added' h
    rw [seedLoop] at h
    simp only [Option.some.injEq, Prod.mk.injEq] at h
    obtain ⟨rfl, rfl⟩ := h
    rfl
  | succ rem ih =>
    intro pl pr heap heap' added added' h
    rw [seedLoop] at h
    cases hadv : advance l r pl (r.length + 1) pr with
    | none => rw [hadv] at h; simp at h
    | some m =>
      rw [hadv] at h
      simp only [Option.bind_eq_bind, Option.some_bind] at h
      cases hcd : calcDiff l r pl m with
      | none => rw [hcd] at h; simp at h
      | some s =>
        rw [hcd] at h
        simp only [Option.some_bind] at h
        have hrec := ih h
        rw [hrec, heapPush_length]
        omega

/-- Shape of a node emitted by the merge loop into slot `i`: an internal
node whose key is the true child sum (sum stream, no swap bits) or the
true child difference (diff stream, swap bits oriented by the sign
comparison of the two child sums). -/
def GoodOut (l r : List TNode) (i : ℕ) (x : TNode) : Prop :=
  ∃ s ml mr pl pr, x = TNode.internal s i ml mr pl pr ∧ pl < l.length ∧
    pr < r.length ∧
    ((ml = false ∧ mr = false ∧ s = Sk l r pl pr) ∨
      (s = Dk l r pl pr ∧
        ((nsum r pr < nsum l pl ∧ ml = false ∧ mr = true) ∨
          (¬ nsum r pr < nsum l pl ∧ ml = true ∧ mr = false))))

/-- The heap/added-set invariant of the merge loop: the heap is sorted,
its entries are correctly keyed, in range and at least `lb`, every diff
entry is recorded in the added set, and the added set is duplicate-free
and in range. -/
structure HAInv (l r : List TNode) (lb : ℤ) (heap : List HeapEnt)
    (added : List (ℕ × ℕ × Bool)) : Prop where
  hsort : HSorted heap
  hlb : ∀ e ∈ heap, lb ≤ e.1
  hdom : ∀ e ∈ heap, e.2.1 < l.length ∧ e.2.2.1 < r.length
  hkeys : ∀ e ∈ heap,
    (e.2.2.2 = true → e.1 = Sk l r e.2.1 e.2.2.1) ∧
    (e.2.2.2 = false → e.1 = Dk l r e.2.1 e.2.2.1)
  hrec : ∀ e ∈ heap, e.2.2.2 = false → (e.2.1, e.2.2.1, false) ∈ added
  hnd : added.Nodup
  hkdom : ∀ k ∈ added, k.1 < l.length ∧ k.2.1 < r.length

/-- Per left position the recorded diff keys form an interval `[lo, hi]`
around the seeded minimum `mf pl`. -/
def IvalInv (l r : List TNode) (mf lo hi : ℕ → ℕ)
    (added : List (ℕ × ℕ × Bool)) : Prop :=
  ∀ pl, pl < l.length → lo pl ≤ mf pl ∧ mf pl ≤ hi pl ∧ hi pl < r.length ∧
    ∀ j, ((pl, j, false) ∈ added ↔ lo pl ≤ j ∧ j ≤ hi pl)

/-- The output invariant of the merge loop: emitted nodes are strictly
sorted, bounded by `lastSum`, well shaped and nonzero; `lastSum` is the
`-1` sentinel or the last emitted sum, and is at most the last popped
key `lb`. -/
structure OutInv (l r : List TNode) (i : ℕ) (out : List TNode)
    (lastSum lb : ℤ) : Prop where
  hss : SSorted out
  hle : ∀ x ∈ out, x.sum ≤ lastSum
  hlbl : out ≠ [] → lastSum ≤ lb
  hgood : ∀ x ∈ out, GoodOut l r i x
  hnz : ∀ x ∈ out, x.sum ≠ 0
  hlast : lastSum = -1 ∨ ∃ x ∈ out, x.sum = lastSum

theorem added_length_le {L R : ℕ} {added : List (ℕ × ℕ × Bool)}
    (hnd : added.Nodup) (hdom : ∀ k ∈ added, k.1 < L ∧ k.2.1 < R) :
    added.length ≤ 2 * L * R := by
  classical
  have h1 : added.toFinset.card = added.length :=
    List.toFinset_card_of_nodup hnd
  have h2 : added.toFinset ⊆
      Finset.range L ×ˢ (Finset.range R ×ˢ (Finset.univ : Finset Bool)) := by
    intro k hk
    rw [List.mem_toFinset] at hk
    obtain ⟨hk1, hk2⟩ := hdom k hk
    simp only [Finset.mem_product, Finset.mem_range, Finset.mem_univ,
      and_true]
    exact ⟨hk1, hk2⟩
  have h3 := Finset.card_le_card h2
  rw [h1, Finset.card_product, Finset.card_product, Finset.card_range,
    Finset.card_range, Finset.card_univ] at h3
  have hcb : Fintype.card Bool = 2 := by decide
  rw [hcb] at h3
  have heq : L * (R * 2) = 2 * L * R := by ring
  linarith

theorem pushSumIf_spec {l r : List TNode} {K : ℤ}
    (hbl : ∀ x ∈ l, |x.sum| ≤ K) (hbr : ∀ x ∈ r, |x.sum| ≤ K)
    (hK : 2 * K + 2 ≤ 2 ^ 127) {lb : ℤ} {heap : List HeapEnt}
    {added : List (ℕ × ℕ × Bool)} {cond : Bool} {pl pr : ℕ}
    (hinv : HAInv l r lb heap added)
    (hcond : cond = true → pl < l.length ∧ pr < r.length ∧
      ((pl, pr, true) ∉ added → lb ≤ Sk l r pl pr)) :
    ∃ heap2 added2,
      pushSumIf l r cond heap added pl pr = some (heap2, added2) ∧
      HAInv l r lb heap2 added2 ∧
      heap2.length + added.length = heap.length + added2.length ∧
      (∀ k, k ∈ added2 ↔ k ∈ added ∨ (cond = true ∧ k = (pl, pr, true))) := by
  cases cond with
  | false =>
    refine ⟨heap, added, rfl, hinv, by omega, ?_⟩
    intro k
    simp
  | true =>
    obtain ⟨hpl, hpr, hdomi⟩ := hcond rfl
    rw [pushSumIf]
    rw [if_pos rfl]
    by_cases hmem : (pl, pr, true) ∈ added
    · rw [addedInsert, if_pos hmem]
      refine ⟨heap, added, rfl, hinv, by omega, ?_⟩
      intro k
      constructor
      · exact Or.inl
      · rintro (hk | ⟨_, rfl⟩)
        · exact hk
        · exact hmem
    · rw [addedInsert, if_neg hmem]
      simp only
      rw [calcSum_eq hbl hbr hK hpl hpr]
      refine ⟨heapPush heap (Sk l r pl pr, pl, pr, true),
        (pl, pr, true) :: added, rfl, ?_, ?_, ?_⟩
      · refine ⟨heapPush_sorted hinv.hsort, ?_, ?_, ?_, ?_, ?_, ?_⟩
        · intro e he
          rcases mem_heapPush.mp he with he | rfl
          · exact hinv.hlb e he
          · exact hdomi hmem
        · intro e he
          rcases mem_heapPush.mp he with he | rfl
          · exact hinv.hdom e he
          · exact ⟨hpl, hpr⟩
        · intro e he
          rcases mem_heapPush.mp he with he | rfl
          · exact hinv.hkeys e he
          · exact ⟨fun _ => rfl, fun hc => by simp at hc⟩
        · intro e he hfalse
          rcases mem_heapPush.mp he with he | rfl
          · exact List.mem_cons_of_mem _ (hinv.hrec e he hfalse)
          · simp at hfalse
        · exact List.Nodup.cons hmem hinv.hnd
        · intro k hk
          rcases List.mem_cons.mp hk with rfl | hk
          · exact ⟨hpl, hpr⟩
          · exact hinv.hkdom k hk
      · rw [heapPush_length]
        simp only [List.length_cons]
        omega
      · intro k
        simp only [List.mem_cons]
        tauto

theorem pushDiffIf_spec {l r : List TNode} {K : ℤ}
    (hbl : ∀ x ∈ l, |x.sum| ≤ K) (hbr : ∀ x ∈ r, |x.sum| ≤ K)
    (hK : 2 * K + 2 ≤ 2 ^ 127) {lb : ℤ} {heap : List HeapEnt}
    {added : List (ℕ × ℕ × Bool)} {cond : Bool} {pl pr : ℕ}
    (hinv : HAInv l r lb heap added)
    (hcond : cond = true → pl < l.length ∧ pr < r.length ∧
      ((pl, pr, false) ∉ added → lb ≤ Dk l r pl pr)) :
    ∃ heap2 added2,
      pushDiffIf l r cond heap added pl pr = some (heap2, added2) ∧
      HAInv l r lb heap2 added2 ∧
      heap2.length + added.length = heap.length + added2.length ∧
      (∀ k, k ∈ added2 ↔ k ∈ added ∨ (cond = true ∧ k = (pl, pr, false))) := by
  cases cond with
  | false =>
    refine ⟨heap, added, rfl, hinv, by omega, ?_⟩
    intro k
    simp
  | true =>
    obtain ⟨hpl, hpr, hdomi⟩ := hcond rfl
    rw [pushDiffIf]
    rw [if_pos rfl]
    by_cases hmem : (pl, pr, false) ∈ added
    · rw [addedInsert, if_pos hmem]
      refine ⟨heap, added, rfl, hinv, by omega, ?_⟩
      intro k
      constructor
      · exact Or.inl
      · rintro (hk | ⟨_, rfl⟩)
        · exact hk
        · exact hmem
    · rw [addedInsert, if_neg hmem]
      simp only
      rw [calcDiff_eq hbl hbr hK hpl hpr]
      refine ⟨heapPush heap (Dk l r pl pr, pl, pr, false),
        (pl, pr, false) :: added, rfl, ?_, ?_, ?_⟩
      · refine ⟨heapPush_sorted hinv.hsort, ?_, ?_, ?_, ?_, ?_, ?_⟩
        · intro e he
          rcases mem_heapPush.mp he with he | rfl
          · exact hinv.hlb e he
          · exact hdomi hmem
        · intro e he
          rcases mem_heapPush.mp he with he | rfl
          · exact hinv.hdom e he
          · exact ⟨hpl, hpr⟩
        · intro e he
          rcases mem_heapPush.mp he with he | rfl
          · exact hinv.hkeys e he
          · exact ⟨fun hc => by simp at hc, fun _ => rfl⟩
        · intro e he hfalse
          rcases mem_heapPush.mp he with he | rfl
          · exact List.mem_cons_of_mem _ (hinv.hrec e he hfalse)
          · exact List.mem_cons_self _ _
        · exact List.Nodup.cons hmem hinv.hnd
        · intro k hk
          rcases List.mem_cons.mp hk with rfl | hk
          · exact ⟨hpl, hpr⟩
          · exact hinv.hkdom k hk
      · rw [heapPush_length]
        simp only [List.length_cons]
        omega
      · intro k
        simp only [List.mem_cons]
        tauto

/-- Adding a sum-stream key to the set does not change the recorded diff
keys, so the interval invariant survives. -/
theorem ival_of_sum_char {l r : List TNode} {mf lo hi : ℕ → ℕ}
    {added added2 : List (ℕ × ℕ × Bool)} {cond : Bool} {pl pr : ℕ}
    (hiv : IvalInv l r mf lo hi added)
    (hc : ∀ k, k ∈ added2 ↔ k ∈ added ∨ (cond = true ∧ k = (pl, pr, true))) :
    IvalInv l r mf lo hi added2 := by
  intro p hp
  obtain ⟨h1, h2, h3, h4⟩ := hiv p hp
  refine ⟨h1, h2, h3, ?_⟩
  intro j
  rw [hc, ← h4 j]
  constructor
  · rintro (hk | ⟨_, hk⟩)
    · exact hk
    · simp at hk
  · exact Or.inl

theorem get_sum_eq_nsum {l : List TNode} {pl : ℕ} (h : pl < l.length) :
    (l.get ⟨pl, h⟩).sum = nsum l pl := by
  unfold nsum
  rw [List.getD_eq_getElem _ _ h]
  rfl

/-- Extending the recorded diff keys of `pl` one step to the left keeps
them an interval around the seeded minimum. -/
theorem ival_diff_left {l r : List TNode} {mf lo hi : ℕ → ℕ}
    {added added2 : List (ℕ × ℕ × Bool)} {pl jc : ℕ}
    (hiv : IvalInv l r mf lo hi added) (hpl : pl < l.length)
    (hjc : (pl, jc, false) ∈ added)
    (hc : ∀ k, k ∈ added2 ↔ k ∈ added ∨
      (decide (0 < jc) = true ∧ k = (pl, jc - 1, false))) :
    ∃ lo2, IvalInv l r mf lo2 hi added2 := by
  by_cases hpos : 0 < jc
  · by_cases hm : (pl, jc - 1, false) ∈ added
    · refine ⟨lo, ?_⟩
      intro p hp
      obtain ⟨h1, h2, h3, h4⟩ := hiv p hp
      refine ⟨h1, h2, h3, ?_⟩
      intro j
      rw [hc, ← h4 j]
      constructor
      · rintro (hk | ⟨_, hk⟩)
        · exact hk
        · obtain ⟨rfl, rfl, _⟩ := Prod.mk.injEq .. ▸ hk
          · exact hm
      · exact Or.inl
    · have hco : lo pl ≤ jc ∧ jc ≤ hi pl :=
        ((hiv pl hpl).2.2.2 jc).mp hjc
      have hlo : jc = lo pl := by
        by_contra hne
        exact hm (((hiv pl hpl).2.2.2 (jc - 1)).mpr (by omega))
      refine ⟨Function.update lo pl (jc - 1), ?_⟩
      intro p hp
      obtain ⟨h1, h2, h3, h4⟩ := hiv p hp
      by_cases hppl : p = pl
      · subst hppl
        simp only [Function.update_same]
        have hlomf := (hiv p hp).1
        refine ⟨by omega, h2, h3, ?_⟩
        intro j
        rw [hc, h4 j]
        constructor
        · rintro (hk | ⟨_, hk⟩)
          · omega
          · simp only [Prod.mk.injEq] at hk
            omega
        · intro hj
          by_cases hje : j = jc - 1
          · subst hje
            exact Or.inr ⟨by simp [hpos], rfl⟩
          · exact Or.inl (by omega)
      · simp only [Function.update_noteq hppl]
        refine ⟨h1, h2, h3, ?_⟩
        intro j
        rw [hc, ← h4 j]
        constructor
        · rintro (hk | ⟨_, hk⟩)
          · exact hk
          · obtain ⟨hppl2, _⟩ := Prod.mk.injEq .. ▸ hk
            exact absurd hppl2 hppl
        · exact Or.inl
  · refine ⟨lo, ?_⟩
    intro p hp
    obtain ⟨h1, h2, h3, h4⟩ := hiv p hp
    refine ⟨h1, h2, h3, ?_⟩
    intro j
    rw [hc, ← h4 j]
    constructor
    · rintro (hk | ⟨hd, _⟩)
      · exact hk
      · rw [decide_eq_true_iff] at hd
        exact absurd hd hpos
    · exact Or.inl

/-- Extending the recorded diff keys of `pl` one step to the right keeps
them an interval around the seeded minimum. -/
theorem ival_diff_right {l r : List TNode} {mf lo hi : ℕ → ℕ}
    {added added2 : List (ℕ × ℕ × Bool)} {pl jc : ℕ}
    (hiv : IvalInv l r mf lo hi added) (hpl : pl < l.length)
    (hjc : (pl, jc, false) ∈ added)
    (hc : ∀ k, k ∈ added2 ↔ k ∈ added ∨
      (decide (jc + 1 < r.length) = true ∧ k = (pl, jc + 1, false))) :
    ∃ hi2, IvalInv l r mf lo hi2 added2 := by
  by_cases hpos : jc + 1 < r.length
  · by_cases hm : (pl, jc + 1, false) ∈ added
    · refine ⟨hi, ?_⟩
      intro p hp
      obtain ⟨h1, h2, h3, h4⟩ := hiv p hp
      refine ⟨h1, h2, h3, ?_⟩
      intro j
      rw [hc, ← h4 j]
      constructor
      · rintro (hk | ⟨_, hk⟩)
        · exact hk
        · obtain ⟨rfl, rfl, _⟩ := Prod.mk.injEq .. ▸ hk
          · exact hm
      · exact Or.inl
    · have hco : lo pl ≤ jc ∧ jc ≤ hi pl :=
        ((hiv pl hpl).2.2.2 jc).mp hjc
      have hhi : jc = hi pl := by
        by_contra hne
        exact hm (((hiv pl hpl).2.2.2 (jc + 1)).mpr (by omega))
      refine ⟨Function.update hi pl (jc + 1), ?_⟩
      intro p hp
      obtain ⟨h1, h2, h3, h4⟩ := hiv p hp
      by_cases hppl : p = pl
      · subst hppl
        simp only [Function.update_same]
        refine ⟨h1, by omega, hpos, ?_⟩
        intro j
        rw [hc, h4 j]
        constructor
        · rintro (hk | ⟨_, hk⟩)
          · omega
          · simp only [Prod.mk.injEq] at hk
            omega
        · intro hj
          by_cases hje : j = jc + 1
          · subst hje
            exact Or.inr ⟨by simp [hpos], rfl⟩
          · exact Or.inl (by omega)
      · simp only [Function.update_noteq hppl]
        refine ⟨h1, h2, h3, ?_⟩
        intro j
        rw [hc, ← h4 j]
        constructor
        · rintro (hk | ⟨_, hk⟩)
          · exact hk
          · obtain ⟨hppl2, _⟩ := Prod.mk.injEq .. ▸ hk
            exact absurd hppl2 hppl
        · exact Or.inl
  · refine ⟨hi, ?_⟩
    intro p hp
    obtain ⟨h1, h2, h3, h4⟩ := hiv p hp
    refine ⟨h1, h2, h3, ?_⟩
    intro j
    rw [hc, ← h4 j]
    constructor
    · rintro (hk | ⟨hd, _⟩)
      · exact hk
      · rw [decide_eq_true_iff] at hd
        exact absurd hd hpos
    · exact Or.inl

/-- Appending a strictly larger emitted node keeps the output strictly
sorted. -/
theorem out_append_sorted {l r : List TNode} {i : ℕ} {out : List TNode}
    {lastSum lb s : ℤ} {node : TNode} (hout : OutInv l r i out lastSum lb)
    (hlbs : lb ≤ s) (hne : s ≠ lastSum) (hns : node.sum = s) :
    SSorted (out ++ [node]) := by
  unfold SSorted
  rw [List.pairwise_append]
  refine ⟨hout.hss, List.pairwise_singleton _ _, ?_⟩
  intro x hx y hy
  rcases List.mem_singleton.mp hy with rfl
  rw [hns]
  have h1 := hout.hle x hx
  have h2 := hout.hlbl (by intro hemp; subst hemp; simp at hx)
  omega

/-- One dedup-guarded emission step of the merge loop preserves the
output invariant, with the popped key as the new bound. -/
theorem outinv_step {l r : List TNode} {i : ℕ} {out : List TNode}
    {lastSum lb s : ℤ} {node : TNode} (hout : OutInv l r i out lastSum lb)
    (hlbs : lb ≤ s) (hns : node.sum = s) (hg : GoodOut l r i node)
    (hs0 : s ≠ 0) :
    OutInv l r i
      (if s ≠ lastSum then (out ++ [node], s) else (out, lastSum)).1
      (if s ≠ lastSum then (out ++ [node], s) else (out, lastSum)).2 s := by
  split_ifs with hne
  · refine ⟨out_append_sorted hout hlbs hne hns, ?_, fun _ => le_rfl,
      ?_, ?_, ?_⟩
    · intro x hx
      rcases List.mem_append.mp hx with hx | hx
      · have h1 := hout.hle x hx
        have h2 := hout.hlbl (by intro hemp; subst hemp; simp at hx)
        omega
      · rcases List.mem_singleton.mp hx with rfl
        omega
    · intro x hx
      rcases List.mem_append.mp hx with hx | hx
      · exact hout.hgood x hx
      · rcases List.mem_singleton.mp hx with rfl
        exact hg
    · intro x hx
      rcases List.mem_append.mp hx with hx | hx
      · exact hout.hnz x hx
      · rcases List.mem_singleton.mp hx with rfl
        omega
    · exact Or.inr ⟨node, by simp, hns⟩
  · push_neg at hne
    exact ⟨hout.hss, hout.hle, fun _ => by omega, hout.hgood, hout.hnz,
      hout.hlast⟩

/-- A popped zero key is never skipped by the dedup sentinel. -/
theorem zero_ne_lastSum {l r : List TNode} {i : ℕ} {out : List TNode}
    {lastSum lb : ℤ} (hout : OutInv l r i out lastSum lb) :
    (0 : ℤ) ≠ lastSum := by
  rcases hout.hlast with h | ⟨x, hx, hxs⟩
  · omega
  · intro h0
    exact hout.hnz x hx (by omega)

/-- The merge loop on an empty heap stops with an unset flag. -/
theorem mergeLoop_nil {l r : List TNode} {clusterSize i fuel : ℕ}
    {added : List (ℕ × ℕ × Bool)} {out : List TNode} {lastSum : ℤ} :
    mergeLoop l r clusterSize i (fuel + 1) [] added out lastSum =
      some (out, false) := by
  show (if out.length < clusterSize then some (out, false)
    else some (out, false)) = some (out, false)
  split_ifs <;> rfl

/-- Definitional unfolding of one sum-stream iteration of the merge
loop. -/
theorem mergeLoop_cons_sum {l r : List TNode} {clusterSize i fuel : ℕ}
    {heap' : List HeapEnt} {added : List (ℕ × ℕ × Bool)} {out : List TNode}
    {lastSum s : ℤ} {pl pr : ℕ} :
    mergeLoop l r clusterSize i (fuel + 1) ((s, pl, pr, true) :: heap')
      added out lastSum =
    if out.length < clusterSize then
      (do
        let ha1 ← pushSumIf l r (decide (pl + 1 < l.length)) heap' added
          (pl + 1) pr
        let ha2 ← pushSumIf l r (decide (pr + 1 < r.length)) ha1.1 ha1.2
          pl (pr + 1)
        let ha3 ← pushSumIf l r
          (decide (pl + 1 < l.length ∧ pr + 1 < r.length)) ha2.1 ha2.2
          (pl + 1) (pr + 1)
        if s = 0 then
          some ((if s ≠ lastSum then
            (out ++ [TNode.internal s i false false pl pr], s)
            else (out, lastSum)).1, true)
        else
          mergeLoop l r clusterSize i fuel ha3.1 ha3.2
            (if s ≠ lastSum then
              (out ++ [TNode.internal s i false false pl pr], s)
              else (out, lastSum)).1
            (if s ≠ lastSum then
              (out ++ [TNode.internal s i false false pl pr], s)
              else (out, lastSum)).2)
    else some (out, false) := rfl

/-- Definitional unfolding of one diff-stream iteration of the merge
loop. -/
theorem mergeLoop_cons_diff {l r : List TNode} {clusterSize i fuel : ℕ}
    {heap' : List HeapEnt} {added : List (ℕ × ℕ × Bool)} {out : List TNode}
    {lastSum s : ℤ} {pl pr : ℕ} :
    mergeLoop l r clusterSize i (fuel + 1) ((s, pl, pr, false) :: heap')
      added out lastSum =
    if out.length < clusterSize then
      (do
        let x ← l.get? pl
        let y ← r.get? pr
        let mlr := if x.sum > y.sum then (false, true) else (true, false)
        let outLast := if s ≠ lastSum then
          (out ++ [TNode.internal s i mlr.1 mlr.2 pl pr], s)
          else (out, lastSum)
        let ha1 ← pushDiffIf l r (decide (0 < pr)) heap' added pl (pr - 1)
        let ha2 ← pushDiffIf l r (decide (pr + 1 < r.length)) ha1.1 ha1.2
          pl (pr + 1)
        if s = 0 then some (outLast.1, true)
        else mergeLoop l r clusterSize i fuel ha2.1 ha2.2 outLast.1 outLast.2)
    else some (out, false) := rfl

/-- The merge loop terminates within its fuel and returns a strictly
sorted list of well-shaped nodes; a `true` flag means a zero-sum node was
emitted. -/
theorem mergeLoop_spec {l r : List TNode} {K : ℤ} (hsl : SSorted l)
    (hsr : SSorted r) (hbl : ∀ x ∈ l, |x.sum| ≤ K)
    (hbr : ∀ x ∈ r, |x.sum| ≤ K) (hK : 2 * K + 2 ≤ 2 ^ 127) {mf : ℕ → ℕ}
    (hmf : ∀ pl, pl < l.length → mf pl < r.length ∧ DescTo l r pl (mf pl) ∧
      (mf pl + 1 < r.length → Dk l r pl (mf pl) ≤ Dk l r pl (mf pl + 1)))
    {clusterSize i : ℕ} :
    ∀ {fuel : ℕ} {heap : List HeapEnt} {added : List (ℕ × ℕ × Bool)}
      {out : List TNode} {lastSum lb : ℤ} {lo hi : ℕ → ℕ},
      HAInv l r lb heap added → IvalInv l r mf lo hi added →
      OutInv l r i out lastSum lb →
      heap.length + 2 * l.length * r.length + 1 ≤ fuel + added.length →
      ∃ out2 flag,
        mergeLoop l r clusterSize i fuel heap added out lastSum =
          some (out2, flag) ∧
        SSorted out2 ∧ (∀ x ∈ out2, GoodOut l r i x) ∧
        (flag = true → ∃ x ∈ out2, x.sum = 0) := by
  intro fuel
  induction fuel with
  | zero =>
    intro heap added out lastSum lb lo hi hha hiv hout hfuel
    exfalso
    have hcard := added_length_le hha.hnd hha.hkdom
    linarith
  | succ fuel ih =>
    intro heap added out lastSum lb lo hi hha hiv hout hfuel
    cases heap with
    | nil =>
      exact ⟨out, false, mergeLoop_nil, hout.hss, hout.hgood, by simp⟩
    | cons e heap' =>
      obtain ⟨s, pl, pr, b⟩ := e
      by_cases hcs : out.length < clusterSize
      case neg =>
        refine ⟨out, false, ?_, hout.hss, hout.hgood, by simp⟩
        cases b with
        | true => rw [mergeLoop_cons_sum, if_neg hcs]
        | false => rw [mergeLoop_cons_diff, if_neg hcs]
      case pos =>
      have hmemh : (s, pl, pr, b) ∈ (s, pl, pr, b) :: heap' :=
        List.mem_cons_self _ _
      obtain ⟨hdl0, hdr0⟩ := hha.hdom _ hmemh
      have hdl : pl < l.length := hdl0
      have hdr : pr < r.length := hdr0
      have hk : (b = true → s = Sk l r pl pr) ∧
          (b = false → s = Dk l r pl pr) := hha.hkeys _ hmemh
      have hlbs : lb ≤ s := hha.hlb _ hmemh
      obtain ⟨hhead, hsort2⟩ := List.pairwise_cons.mp hha.hsort
      have hge : ∀ e ∈ heap', s ≤ e.1 := fun e he => entLE_key (hhead e he)
      have hha2 : HAInv l r s heap' added :=
        ⟨hsort2, hge, fun e he => hha.hdom e (List.mem_cons_of_mem _ he),
          fun e he => hha.hkeys e (List.mem_cons_of_mem _ he),
          fun e he => hha.hrec e (List.mem_cons_of_mem _ he),
          hha.hnd, hha.hkdom⟩
      have hfuel2 : heap'.length + 2 * l.length * r.length + 1 ≤
          fuel + added.length := by
        simp only [List.length_cons] at hfuel
        omega
      cases b with
      | true =>
        have hsS : s = Sk l r pl pr := hk.1 rfl
        have hc1 : decide (pl + 1 < l.length) = true →
            pl + 1 < l.length ∧ pr < r.length ∧
            ((pl + 1, pr, true) ∉ added → s ≤ Sk l r (pl + 1) pr) := by
          intro hc
          have hcl := of_decide_eq_true hc
          refine ⟨hcl, hdr, fun _ => ?_⟩
          rw [hsS]
          unfold Sk
          have := ssorted_nsum hsl (by omega : pl < pl + 1) hcl
          omega
        obtain ⟨h1, a1, heq1, hinv1, hlen1, hmem1⟩ :=
          pushSumIf_spec hbl hbr hK hha2 hc1
        have hc2 : decide (pr + 1 < r.length) = true →
            pl < l.length ∧ pr + 1 < r.length ∧
            ((pl, pr + 1, true) ∉ a1 → s ≤ Sk l r pl (pr + 1)) := by
          intro hc
          have hcr := of_decide_eq_true hc
          refine ⟨hdl, hcr, fun _ => ?_⟩
          rw [hsS]
          unfold Sk
          have := ssorted_nsum hsr (by omega : pr < pr + 1) hcr
          omega
        obtain ⟨h2, a2, heq2, hinv2, hlen2, hmem2⟩ :=
          pushSumIf_spec hbl hbr hK hinv1 hc2
        have hc3 : decide (pl + 1 < l.length ∧ pr + 1 < r.length) = true →
            pl + 1 < l.length ∧ pr + 1 < r.length ∧
            ((pl + 1, pr + 1, true) ∉ a2 → s ≤ Sk l r (pl + 1) (pr + 1)) := by
          intro hc
          obtain ⟨hcl, hcr⟩ := of_decide_eq_true hc
          refine ⟨hcl, hcr, fun _ => ?_⟩
          rw [hsS]
          unfold Sk
          have hx := ssorted_nsum hsl (by omega : pl < pl + 1) hcl
          have hy := ssorted_nsum hsr (by omega : pr < pr + 1) hcr
          omega
        obtain ⟨h3, a3, heq3, hinv3, hlen3, hmem3⟩ :=
          pushSumIf_spec hbl hbr hK hinv2 hc3
        have hiv1 := ival_of_sum_char hiv hmem1
        have hiv2 := ival_of_sum_char hiv1 hmem2
        have hiv3 := ival_of_sum_char hiv2 hmem3
        have hg : GoodOut l r i (TNode.internal s i false false pl pr) :=
          ⟨s, false, false, pl, pr, rfl, hdl, hdr, Or.inl ⟨rfl, rfl, hsS⟩⟩
        by_cases hz : s = 0
        · have hne : s ≠ lastSum := by
            rw [hz]
            exact zero_ne_lastSum hout
          refine ⟨out ++ [TNode.internal s i false false pl pr], true,
            ?_, out_append_sorted hout hlbs hne rfl, ?_, ?_⟩
          · rw [mergeLoop_cons_sum, if_pos hcs, heq1]
            simp only [Option.bind_eq_bind, Option.some_bind]
            rw [heq2]
            simp only [Option.some_bind]
            rw [heq3]
            simp only [Option.some_bind]
            rw [if_pos hz, if_pos hne]
          · intro x hx
            rcases List.mem_append.mp hx with hx | hx
            · exact hout.hgood x hx
            · rcases List.mem_singleton.mp hx with rfl
              exact hg
          · intro _
            exact ⟨TNode.internal s i false false pl pr, by simp, hz⟩
        · have houtn := outinv_step hout hlbs
            (show (TNode.internal s i false false pl pr).sum = s from rfl)
            hg hz
          obtain ⟨out2, flag, heqm, hss2, hgood2, hz2⟩ :=
            ih hinv3 hiv3 houtn (by linarith [hfuel2, hlen1, hlen2, hlen3])
          refine ⟨out2, flag, ?_, hss2, hgood2, hz2⟩
          rw [mergeLoop_cons_sum, if_pos hcs, heq1]
          simp only [Option.bind_eq_bind, Option.some_bind]
          rw [heq2]
          simp only [Option.some_bind]
          rw [heq3]
          simp only [Option.some_bind]
          rw [if_neg hz]
          exact heqm
      | false =>
        have hsD : s = Dk l r pl pr := hk.2 rfl
        have hrech : (pl, pr, false) ∈ added := hha.hrec _ hmemh rfl
        have hc1 : decide (0 < pr) = true →
            pl < l.length ∧ pr - 1 < r.length ∧
            ((pl, pr - 1, false) ∉ added → s ≤ Dk l r pl (pr - 1)) := by
          intro hc
          have hpos := of_decide_eq_true hc
          refine ⟨hdl, by omega, ?_⟩
          intro hnm
          obtain ⟨hivl, hivm, hivr, hiviff⟩ := hiv pl hdl
          have hco := (hiviff pr).mp hrech
          have hlo : pr = lo pl := by
            by_contra hne2
            exact hnm ((hiviff (pr - 1)).mpr (by omega))
          obtain ⟨hmfr, hdesc, hstop⟩ := hmf pl hdl
          have hd := hdesc (pr - 1) (by omega)
          have hpr1 : pr - 1 + 1 = pr := by omega
          rw [hpr1] at hd
          rw [hsD]
          linarith
        obtain ⟨h1, a1, heq1, hinv1, hlen1, hmem1⟩ :=
          pushDiffIf_spec hbl hbr hK hha2 hc1
        obtain ⟨lo1, hivn1⟩ := ival_diff_left hiv hdl hrech hmem1
        have hrech1 : (pl, pr, false) ∈ a1 := (hmem1 _).mpr (Or.inl hrech)
        have hc2 : decide (pr + 1 < r.length) = true →
            pl < l.length ∧ pr + 1 < r.length ∧
            ((pl, pr + 1, false) ∉ a1 → s ≤ Dk l r pl (pr + 1)) := by
          intro hc
          have hpos := of_decide_eq_true hc
          refine ⟨hdl, hpos, ?_⟩
          intro hnm
          obtain ⟨hivl, hivm, hivr, hiviff⟩ := hivn1 pl hdl
          have hco := (hiviff pr).mp hrech1
          have hhi : pr = hi pl := by
            by_contra hne2
            exact hnm ((hiviff (pr + 1)).mpr (by omega))
          obtain ⟨hmfr, hdesc, hstop⟩ := hmf pl hdl
          have hup := Dk_up_mono hsr hmfr hstop pr (by omega) hpos
          rw [hsD]
          linarith
        obtain ⟨h2, a2, heq2, hinv2, hlen2, hmem2⟩ :=
          pushDiffIf_spec hbl hbr hK hinv1 hc2
        obtain ⟨hi2, hivn2⟩ := ival_diff_right hivn1 hdl hrech1 hmem2
        have hgl : (l.get ⟨pl, hdl⟩).sum = nsum l pl := get_sum_eq_nsum hdl
        have hgr : (r.get ⟨pr, hdr⟩).sum = nsum r pr := get_sum_eq_nsum hdr
        by_cases hcmp : nsum r pr < nsum l pl
        · have hg : GoodOut l r i (TNode.internal s i false true pl pr) :=
            ⟨s, false, true, pl, pr, rfl, hdl, hdr,
              Or.inr ⟨hsD, Or.inl ⟨hcmp, rfl, rfl⟩⟩⟩
          by_cases hz : s = 0
          · have hne : s ≠ lastSum := by
              rw [hz]
              exact zero_ne_lastSum hout
            refine ⟨out ++ [TNode.internal s i false true pl pr], true,
              ?_, out_append_sorted hout hlbs hne rfl, ?_, ?_⟩
            · rw [mergeLoop_cons_diff, if_pos hcs, List.get?_eq_get hdl,
                List.get?_eq_get hdr]
              simp only [Option.bind_eq_bind, Option.some_bind]
              rw [hgl, hgr, if_pos (show nsum l pl > nsum r pr from hcmp),
                heq1]
              simp only [Option.some_bind]
              rw [heq2]
              simp only [Option.some_bind]
              rw [if_pos hz, if_pos hne]
            · intro x hx
              rcases List.mem_append.mp hx with hx | hx
              · exact hout.hgood x hx
              · rcases List.mem_singleton.mp hx with rfl
                exact hg
            · intro _
              exact ⟨TNode.internal s i false true pl pr, by simp, hz⟩
          · have houtn := outinv_step hout hlbs
              (show (TNode.internal s i false true pl pr).sum = s from rfl)
              hg hz
            obtain ⟨out2, flag, heqm, hss2, hgood2, hz2⟩ :=
              ih hinv2 hivn2 houtn (by linarith [hfuel2, hlen1, hlen2])
            refine ⟨out2, flag, ?_, hss2, hgood2, hz2⟩
            rw [mergeLoop_cons_diff, if_pos hcs, List.get?_eq_get hdl,
              List.get?_eq_get hdr]
            simp only [Option.bind_eq_bind, Option.some_bind]
            rw [hgl, hgr, if_pos (show nsum l pl > nsum r pr from hcmp),
              heq1]
            simp only [Option.some_bind]
            rw [heq2]
            simp only [Option.some_bind]
            rw [if_neg hz]
            exact heqm
        · have hg : GoodOut l r i (TNode.internal s i true false pl pr) :=
            ⟨s, true, false, pl, pr, rfl, hdl, hdr,
              Or.inr ⟨hsD, Or.inr ⟨hcmp, rfl, rfl⟩⟩⟩
          by_cases hz : s = 0
          · have hne : s ≠ lastSum := by
              rw [hz]
              exact zero_ne_lastSum hout
            refine ⟨out ++ [TNode.internal s i true false pl pr], true,
              ?_, out_append_sorted hout hlbs hne rfl, ?_, ?_⟩
            · rw [mergeLoop_cons_diff, if_pos hcs, List.get?_eq_get hdl,
                List.get?_eq_get hdr]
              simp only [Option.bind_eq_bind, Option.some_bind]
              rw [hgl, hgr, if_neg (show ¬nsum l pl > nsum r pr from hcmp),
                heq1]
              simp only [Option.some_bind]
              rw [heq2]
              simp only [Option.some_bind]
              rw [if_pos hz, if_pos hne]
            · intro x hx
              rcases List.mem_append.mp hx with hx | hx
              · exact hout.hgood x hx
              · rcases List.mem_singleton.mp hx with rfl
                exact hg
            · intro _
              exact ⟨TNode.internal s i true false pl pr, by simp, hz⟩
          · have houtn := outinv_step hout hlbs
              (show (TNode.internal s i true false pl pr).sum = s from rfl)
              hg hz
            obtain ⟨out2, flag, heqm, hss2, hgood2, hz2⟩ :=
              ih hinv2 hivn2 houtn (by linarith [hfuel2, hlen1, hlen2])
            refine ⟨out2, flag, ?_, hss2, hgood2, hz2⟩
            rw [mergeLoop_cons_diff, if_pos hcs, List.get?_eq_get hdl,
              List.get?_eq_get hdr]
            simp only [Option.bind_eq_bind, Option.some_bind]
            rw [hgl, hgr, if_neg (show ¬nsum l pl > nsum r pr from hcmp),
              heq1]
            simp only [Option.some_bind]
            rw [heq2]
            simp only [Option.some_bind]
            rw [if_neg hz]
            exact heqm

/-- The seeding loop never panics under the usual bounds. -/
theorem seedLoop_total {l r : List TNode} {K : ℤ} (hsl : SSorted l)
    (hsr : SSorted r) (hbl : ∀ x ∈ l, |x.sum| ≤ K)
    (hbr : ∀ x ∈ r, |x.sum| ≤ K) (hK : 2 * K + 2 ≤ 2 ^ 127) :
    ∀ {rem pl pr : ℕ} {heap : List HeapEnt}
      {added : List (ℕ × ℕ × Bool)},
      pl + rem = l.length → pr < r.length ∨ rem = 0 →
      (0 < rem → DescTo l r pl pr) →
      ∃ ha, seedLoop l r rem pl pr heap added = some ha := by
  intro rem
  induction rem with
  | zero =>
    intro pl pr heap added _ _ _
    exact ⟨(heap, added), rfl⟩
  | succ rem ih =>
    intro pl pr heap added hsum hpr hdesc
    have hpl : pl < l.length := by omega
    have hprlt : pr < r.length := by
      rcases hpr with h | h
      · exact h
      · omega
    obtain ⟨m, hm⟩ := advance_total hbl hbr hK hpl hprlt
      (by omega : r.length ≤ r.length + 1 + pr)
    obtain ⟨hple, hmlt, hmdesc, hmstop⟩ :=
      advance_spec hbl hbr hK hpl hm hprlt (hdesc (by omega))
    rw [seedLoop, hm]
    simp only [Option.bind_eq_bind, Option.some_bind]
    rw [calcDiff_eq hbl hbr hK hpl hmlt]
    simp only [Option.some_bind]
    exact ih (by omega) (Or.inl hmlt)
      (fun hrem => desc_shift hsl hsr hmlt (by omega) hmdesc)

/-- `mergeSlot` succeeds on nonempty sorted bounded children and returns
a strictly sorted list of well-shaped merge nodes; a `true` flag reports
an emitted zero-sum node. -/
theorem mergeSlot_spec {l r : List TNode} {K : ℤ} (hsl : SSorted l)
    (hsr : SSorted r) (hbl : ∀ x ∈ l, |x.sum| ≤ K)
    (hbr : ∀ x ∈ r, |x.sum| ≤ K) (hK : 2 * K + 2 ≤ 2 ^ 127)
    (hln : l ≠ []) (hrn : r ≠ []) (clusterSize i : ℕ) :
    ∃ out flag, mergeSlot clusterSize i l r = some (out, flag) ∧
      SSorted out ∧ (∀ x ∈ out, GoodOut l r i x) ∧
      (flag = true → ∃ x ∈ out, x.sum = 0) := by
  have hl0 : 0 < l.length := List.length_pos.mpr hln
  have hr0 : 0 < r.length := List.length_pos.mpr hrn
  have hK0 : 0 ≤ K := by
    obtain ⟨x, hx⟩ := List.exists_mem_of_ne_nil l hln
    exact le_trans (abs_nonneg _) (hbl x hx)
  have hdesc0 : (0 : ℕ) < l.length → DescTo l r 0 0 :=
    fun _ j hj => absurd hj (by omega)
  obtain ⟨⟨heap1, added1⟩, hseed⟩ :=
    seedLoop_total hsl hsr hbl hbr hK (by omega) (Or.inl hr0) hdesc0
  obtain ⟨mf, hmf0, hheap1, hadded1, hhs1, hnd1⟩ :=
    seedLoop_spec hsl hsr hbl hbr hK (by omega) (Or.inl hr0) hdesc0 hseed
  have hmf : ∀ pl, pl < l.length → mf pl < r.length ∧
      DescTo l r pl (mf pl) ∧
      (mf pl + 1 < r.length → Dk l r pl (mf pl) ≤ Dk l r pl (mf pl + 1)) :=
    fun pl hpl => hmf0 pl (Nat.zero_le _) hpl
  have hnb0l : |nsum l 0| ≤ K := hbl _ (getD_mem hl0)
  have hnb0r : |nsum r 0| ≤ K := hbr _ (getD_mem hr0)
  have hha : HAInv l r (-(2 * K) - 1)
      (heapPush heap1 (Sk l r 0 0, 0, 0, true)) added1 := by
    refine ⟨heapPush_sorted (hhs1 List.Pairwise.nil), ?_, ?_, ?_, ?_,
      hnd1 List.nodup_nil, ?_⟩
    · intro e he
      rcases mem_heapPush.mp he with he | rfl
      · rcases (hheap1 e).mp he with he | ⟨p, hp1, hp2, rfl⟩
        · simp at he
        · have := abs_nonneg (nsum l p - nsum r (mf p))
          unfold Dk
          simp only
          omega
      · unfold Sk
        simp only
        have h1 := abs_le.mp hnb0l
        have h2 := abs_le.mp hnb0r
        omega
    · intro e he
      rcases mem_heapPush.mp he with he | rfl
      · rcases (hheap1 e).mp he with he | ⟨p, hp1, hp2, rfl⟩
        · simp at he
        · exact ⟨hp2, (hmf p hp2).1⟩
      · exact ⟨hl0, hr0⟩
    · intro e he
      rcases mem_heapPush.mp he with he | rfl
      · rcases (hheap1 e).mp he with he | ⟨p, hp1, hp2, rfl⟩
        · simp at he
        · exact ⟨fun hc => by simp at hc, fun _ => rfl⟩
      · exact ⟨fun _ => rfl, fun hc => by simp at hc⟩
    · intro e he hf
      rcases mem_heapPush.mp he with he | rfl
      · rcases (hheap1 e).mp he with he | ⟨p, hp1, hp2, rfl⟩
        · simp at he
        · exact (hadded1 _).mpr (Or.inr ⟨p, hp1, hp2, rfl⟩)
      · simp at hf
    · intro k hk
      rcases (hadded1 k).mp hk with hk | ⟨p, hp1, hp2, rfl⟩
      · simp at hk
      · exact ⟨hp2, (hmf p hp2).1⟩
  have hiv : IvalInv l r mf mf mf added1 := by
    intro pl hpl
    refine ⟨le_rfl, le_rfl, (hmf pl hpl).1, ?_⟩
    intro j
    rw [hadded1]
    constructor
    · rintro (hk | ⟨p, hp1, hp2, hk⟩)
      · simp at hk
      · simp only [Prod.mk.injEq] at hk
        obtain ⟨rfl, rfl, -⟩ := hk
        exact ⟨le_rfl, le_rfl⟩
    · intro hj
      exact Or.inr ⟨pl, Nat.zero_le _, hpl, by
        have : j = mf pl := by omega
        rw [this]⟩
  have hout : OutInv l r i ([] : List TNode) (-1)
      (-(2 * K) - 1) :=
    ⟨List.Pairwise.nil, by simp, fun h => absurd rfl h, by simp, by simp,
      Or.inl rfl⟩
  have hlen1 : heap1.length = l.length := by
    have := seedLoop_heap_length hseed
    simpa using this
  have hfuel : (heapPush heap1 (Sk l r 0 0, 0, 0, true)).length +
      2 * l.length * r.length + 1 ≤
      (2 * l.length * r.length + l.length + 2) + added1.length := by
    rw [heapPush_length, hlen1]
    have : (0 : ℕ) ≤ added1.length := Nat.zero_le _
    linarith
  obtain ⟨out2, flag, heqm, hss2, hgood2, hz2⟩ :=
    mergeLoop_spec hsl hsr hbl hbr hK hmf hha hiv hout hfuel
  refine ⟨out2, flag, ?_, hss2, hgood2, hz2⟩
  unfold mergeSlot
  rw [hseed]
  simp only [Option.bind_eq_bind, Option.some_bind]
  rw [calcSum_eq hbl hbr hK hl0 hr0]
  simp only [Option.some_bind]
  exact heqm

theorem getD_mem_list {α : Type} {l : List α} {j : ℕ} {d : α}
    (h : j < l.length) : l.getD j d ∈ l := by
  rw [List.getD_eq_getElem _ _ h]
  exact List.getElem_mem _

theorem getD_set_ne {α : Type} {l : List α} {i j : ℕ} {v d : α}
    (h : i ≠ j) : (l.set i v).getD j d = l.getD j d := by
  rcases lt_or_ge j l.length with hj | hj
  · rw [List.getD_eq_getElem _ _ (by simpa using hj),
      List.getD_eq_getElem _ _ hj]
    exact List.getElem_set_ne h _
  · rw [List.getD_eq_default _ _ (by simpa using hj),
      List.getD_eq_default _ _ hj]

theorem getD_set_eq {α : Type} {l : List α} {i : ℕ} {v d : α}
    (h : i < l.length) : (l.set i v).getD i d = v := by
  rw [List.getD_eq_getElem _ _ (by simpa using h)]
  exact List.getElem_set_self ..

/-- Definitional unfolding of one slot of the `for i in z..2*z` loop. -/
theorem phaseSlots_succ {clusterSize c i : ℕ} {tree : List (List TNode)} :
    phaseSlots clusterSize (c + 1) i tree =
    if 2 * i + 1 < tree.length then
      (do
        let merged ← mergeSlot clusterSize i (tree.getD (2 * i) [])
          (tree.getD (2 * i + 1) [])
        let tree2 := tree.set i merged.1
        if merged.2 then some (tree2, some i)
        else phaseSlots clusterSize c (i + 1) tree2)
    else none := rfl

/-- The slot loop of `run_phase` succeeds and keeps every cluster list
strictly sorted, provided the whole arena is sorted and the child region
is bounded and nonempty. -/
theorem phaseSlots_spec {K : ℤ} (hK : 2 * K + 2 ≤ 2 ^ 127)
    {clusterSize : ℕ} :
    ∀ {c i0 : ℕ} {tree : List (List TNode)},
      (∀ slot ∈ tree, SSorted slot) →
      (∀ j, 2 * i0 ≤ j → j < tree.length →
        ∀ x ∈ tree.getD j [], |x.sum| ≤ K) →
      (∀ j, 2 * i0 ≤ j → j < 2 * i0 + 2 * c → j < tree.length →
        tree.getD j [] ≠ []) →
      2 * (i0 + c) ≤ tree.length →
      ∃ res, phaseSlots clusterSize c i0 tree = some res ∧
        ∀ slot ∈ res.1, SSorted slot := by
  intro c
  induction c with
  | zero =>
    intro i0 tree hs hb hne hlen
    exact ⟨(tree, none), rfl, hs⟩
  | succ c ih =>
    intro i0 tree hs hb hne hlen
    have hguard : 2 * i0 + 1 < tree.length := by omega
    have hl2 : 2 * i0 < tree.length := by omega
    have hlc : tree.getD (2 * i0) [] ∈ tree := getD_mem_list hl2
    have hrc : tree.getD (2 * i0 + 1) [] ∈ tree := getD_mem_list hguard
    obtain ⟨out, flag, heqm, hssm, hgoodm, hzm⟩ :=
      mergeSlot_spec (hs _ hlc) (hs _ hrc) (hb _ (by omega) hl2)
        (hb _ (by omega) hguard) hK (hne _ (by omega) (by omega) hl2)
        (hne _ (by omega) (by omega) hguard) clusterSize i0
    have hset : ∀ slot ∈ tree.set i0 out, SSorted slot := by
      intro slot hslot
      rcases List.mem_or_eq_of_mem_set hslot with hslot | rfl
      · exact hs _ hslot
      · exact hssm
    cases flag with
    | true =>
      refine ⟨(tree.set i0 out, some i0), ?_, hset⟩
      rw [phaseSlots_succ, if_pos hguard, heqm]
      simp only [Option.bind_eq_bind, Option.some_bind]
      rfl
    | false =>
      have hlenset : (tree.set i0 out).length = tree.length :=
        List.length_set tree i0 out
      obtain ⟨res, heqr, hsr2⟩ := @ih (i0 + 1) (tree.set i0 out) hset
        (by
          intro j hj hjl
          rw [getD_set_ne (by omega : i0 ≠ j)]
          rw [hlenset] at hjl
          exact hb j (by omega) hjl)
        (by
          intro j hj hjr hjl
          rw [getD_set_ne (by omega : i0 ≠ j)]
          rw [hlenset] at hjl
          exact hne j (by omega) (by omega) hjl)
        (by omega)
      refine ⟨res, ?_, hsr2⟩
      rw [phaseSlots_succ, if_pos hguard, heqm]
      simp only [Option.bind_eq_bind, Option.some_bind]
      exact heqr

/-- Shape facts about the re-sorted arena built by `run_phase`: its
length, its slots and the nonemptiness of the child region. -/
theorem slice_props {o : Oracle} (hgood : o.Good)
    {tree : List (List TNode)} {p : ℕ} {T : List (List TNode)}
    (hlen : 4 * 2 ^ p ≤ tree.length)
    (hany : ((tree.drop (2 * 2 ^ p)).take (2 * 2 ^ p)).any (·.isEmpty) =
      false)
    (hT : T = tree.take (2 * 2 ^ p) ++
      o.sortL (fun c => (c.headD (TNode.leaf 0 0 [] [])).sum)
        ((tree.drop (2 * 2 ^ p)).take (2 * 2 ^ p)) ++
      tree.drop (4 * 2 ^ p)) :
    T.length = tree.length ∧ (∀ slot ∈ T, slot ∈ tree) ∧
      ∀ j, 2 * 2 ^ p ≤ j → j < 2 * 2 ^ p + 2 * 2 ^ p → T.getD j [] ≠ [] := by
  have hslice_len :
      ((tree.drop (2 * 2 ^ p)).take (2 * 2 ^ p)).length = 2 * 2 ^ p := by
    rw [List.length_take, List.length_drop]
    omega
  have hperm := (hgood.2 (fun c => (c.headD (TNode.leaf 0 0 [] [])).sum)
    ((tree.drop (2 * 2 ^ p)).take (2 * 2 ^ p))).1
  have hsort_len : (o.sortL (fun c => (c.headD (TNode.leaf 0 0 [] [])).sum)
      ((tree.drop (2 * 2 ^ p)).take (2 * 2 ^ p))).length = 2 * 2 ^ p := by
    rw [hperm.length_eq, hslice_len]
  have htake_len : (tree.take (2 * 2 ^ p)).length = 2 * 2 ^ p := by
    rw [List.length_take]
    omega
  have hslice_sub : ∀ x ∈ (tree.drop (2 * 2 ^ p)).take (2 * 2 ^ p),
      x ∈ tree := fun x hx =>
    List.drop_subset _ _ (List.take_subset _ _ hx)
  have hslice_ne : ∀ x ∈ (tree.drop (2 * 2 ^ p)).take (2 * 2 ^ p),
      x ≠ [] := by
    intro x hx
    rw [List.any_eq_false] at hany
    have := hany x hx
    cases x with
    | nil => simp at this
    | cons a t => simp
  refine ⟨?_, ?_, ?_⟩
  · rw [hT]
    simp only [List.length_append, List.length_drop, htake_len, hsort_len]
    omega
  · intro slot hslot
    rw [hT] at hslot
    rcases List.mem_append.mp hslot with hslot | hslot
    · rcases List.mem_append.mp hslot with hslot | hslot
      · exact List.take_subset _ _ hslot
      · exact hslice_sub _ (hperm.mem_iff.mp hslot)
    · exact List.drop_subset _ _ hslot
  · intro j hj1 hj2
    have hjlt : j < ((tree.take (2 * 2 ^ p)) ++
        o.sortL (fun c => (c.headD (TNode.leaf 0 0 [] [])).sum)
          ((tree.drop (2 * 2 ^ p)).take (2 * 2 ^ p))).length := by
      rw [List.length_append, htake_len, hsort_len]
      omega
    rw [hT, List.getD_append _ _ _ _ hjlt,
      List.getD_append_right _ _ _ _ (by rw [htake_len]; omega)]
    rw [htake_len]
    have hidx : j - 2 * 2 ^ p <
        (o.sortL (fun c => (c.headD (TNode.leaf 0 0 [] [])).sum)
          ((tree.drop (2 * 2 ^ p)).take (2 * 2 ^ p))).length := by
      rw [hsort_len]
      omega
    have hmem := @getD_mem_list (List TNode) _ _ ([] : List TNode) hidx
    exact hslice_ne _ (hperm.mem_iff.mp hmem)

/-- Whenever `run_phase` returns, every cluster list of the returned
arena is strictly sorted. -/
theorem runPhase_sorted {o : Oracle} (hgood : o.Good) {K : ℤ}
    (hK : 2 * K + 2 ≤ 2 ^ 127) {clusterSize : ℕ}
    {tree : List (List TNode)} {p : ℕ}
    {res : List (List TNode) × Option ℕ}
    (hsorted : ∀ slot ∈ tree, SSorted slot)
    (hbound : ∀ slot ∈ tree, ∀ x ∈ slot, |x.sum| ≤ K)
    (heq : runPhase o clusterSize tree p = some res) :
    ∀ slot ∈ res.1, SSorted slot := by
  unfold runPhase at heq
  by_cases hlen : 4 * 2 ^ p ≤ tree.length
  case neg =>
    rw [if_neg hlen] at heq
    simp at heq
  rw [if_pos hlen] at heq
  by_cases hany : ((tree.drop (2 * 2 ^ p)).take (2 * 2 ^ p)).any
      (·.isEmpty) = true
  case pos =>
    rw [if_pos hany] at heq
    simp at heq
  rw [if_neg hany] at heq
  rw [Bool.not_eq_true] at hany
  obtain ⟨hTlen, hTmem, hTne⟩ := slice_props hgood hlen hany rfl
  obtain ⟨res2, heq2, hs2⟩ := phaseSlots_spec hK
    (fun slot hslot => hsorted _ (hTmem _ hslot))
    (fun j hj hjl x hx =>
      hbound _ (hTmem _ (getD_mem_list hjl)) x hx)
    (fun j hj1 hj2 _ => hTne j hj1 hj2)
    (by rw [hTlen]; omega)
  rw [heq2] at heq
  obtain rfl := Option.some.inj heq
  exact hs2

/-- Definitional unfolding of one iteration of the `init_attack` loop. -/
theorem initLoop_succ {o : Oracle} {alphabet : List Word}
    {base module : ℤ} {wordLen len c : ℕ} {tree : List (List TNode)}
    {pot : ℤ} :
    initLoop o alphabet base module wordLen len (c + 1) tree pot =
    (do
      let leaves ← (ordPairs alphabet.length).mapM fun ab =>
        newLeaf c (alphabet.getD ab.1 []) (alphabet.getD ab.2 [])
          base module pot
      let tree2 := (tree.set c []).set (c + len)
        (dedupAdj (o.sortN TNode.sum leaves))
      let pot' ← potUpdates base module wordLen pot
      initLoop o alphabet base module wordLen len c tree2 pot') := rfl

/-- The `init_attack` loop clears the bottom slots and leaves every leaf
slot sorted and duplicate-free. -/
theorem initLoop_sorted {o : Oracle} (hgood : o.Good)
    {alphabet : List Word} {base module : ℤ} {wordLen len : ℕ} :
    ∀ {c : ℕ} {tree tree' : List (List TNode)} {pot : ℤ},
      c ≤ len → tree.length = 2 * len →
      (∀ j, c + len ≤ j → j < tree.length → SSorted (tree.getD j [])) →
      initLoop o alphabet base module wordLen len c tree pot =
        some tree' →
      tree'.length = 2 * len ∧
      (∀ j, len ≤ j → j < tree'.length → SSorted (tree'.getD j [])) ∧
      (∀ j, j < c → tree'.getD j [] = []) ∧
      (∀ j, c ≤ j → j < len → tree'.getD j [] = tree.getD j []) := by
  intro c
  induction c with
  | zero =>
    intro tree tree' pot hc htl hs h
    rw [initLoop] at h
    obtain rfl := Option.some.inj h
    exact ⟨htl, fun j hj hjl => hs j (by omega) hjl, by omega,
      fun j hj hjl => rfl⟩
  | succ c ih =>
    intro tree tree' pot hc htl hs h
    rw [initLoop_succ] at h
    cases hm : (ordPairs alphabet.length).mapM fun ab =>
        newLeaf c (alphabet.getD ab.1 []) (alphabet.getD ab.2 [])
          base module pot with
    | none => rw [hm] at h; simp at h
    | some leaves =>
      rw [hm] at h
      simp only [Option.bind_eq_bind, Option.some_bind] at h
      cases hp : potUpdates base module wordLen pot with
      | none => rw [hp] at h; simp at h
      | some pot2 =>
        rw [hp] at h
        simp only [Option.some_bind] at h
        have hclen : c < len := by omega
        have htl2 : ((tree.set c []).set (c + len)
            (dedupAdj (o.sortN TNode.sum leaves))).length = 2 * len := by
          simp only [List.length_set]
          exact htl
        have hsorted_leaves :
            (o.sortN TNode.sum leaves).Pairwise
              fun a b => a.sum ≤ b.sum := (hgood.1 TNode.sum leaves).2
        have hded := dedupAdj_spec hsorted_leaves
        have hs2 : ∀ j, c + len ≤ j →
            j < ((tree.set c []).set (c + len)
              (dedupAdj (o.sortN TNode.sum leaves))).length →
            SSorted (((tree.set c []).set (c + len)
              (dedupAdj (o.sortN TNode.sum leaves))).getD j []) := by
          intro j hj hjl
          rw [htl2] at hjl
          by_cases hje : j = c + len
          · subst hje
            rw [getD_set_eq (by simp only [List.length_set]; omega)]
            exact hded.1
          · rw [getD_set_ne (by omega : c + len ≠ j),
              getD_set_ne (by omega : c ≠ j)]
            exact hs j (by omega) (by omega)
        obtain ⟨hA, hB, hC, hD⟩ := ih (by omega) htl2 hs2 h
        refine ⟨hA, hB, ?_, ?_⟩
        · intro j hj
          rcases Nat.lt_or_ge j c with hjc | hjc
          · exact hC j hjc
          · have hjceq : j = c := by omega
            rw [hjceq, hD c le_rfl hclen,
              getD_set_ne (by omega : c + len ≠ c),
              getD_set_eq (by omega)]
        · intro j hj hjl
          rw [hD j (by omega) hjl,
            getD_set_ne (by omega : c + len ≠ j),
            getD_set_ne (by omega : c ≠ j)]

/-- `init_attack` produces an arena of `2·len` strictly sorted cluster
lists (the bottom half empty, the top half the deduplicated sorted leaf
lists). -/
theorem initAttack_sorted {o : Oracle} (hgood : o.Good)
    {alphabet : List Word} {base module : ℤ} {wordLen : ℕ}
    {tree tree' : List (List TNode)} {len : ℕ}
    (heq : initAttack o alphabet base module wordLen tree len =
      some tree') :
    tree'.length = 2 * len ∧ ∀ slot ∈ tree', SSorted slot := by
  unfold initAttack at heq
  have h0 : (tree.take (2 * len) ++
      List.replicate (2 * len - tree.length)
        ([] : List TNode)).length = 2 * len := by
    rw [List.length_append, List.length_take, List.length_replicate]
    omega
  obtain ⟨hA, hB, hC, hD⟩ := initLoop_sorted hgood le_rfl h0
    (fun j hj hjl => absurd hjl (by omega)) heq
  refine ⟨hA, ?_⟩
  intro slot hslot
  obtain ⟨j, hj, rfl⟩ := List.mem_iff_getElem.mp hslot
  rw [← List.getD_eq_getElem _ ([] : List TNode) hj]
  rcases Nat.lt_or_ge j len with hjl | hjl
  · rw [hC j hjl]
    exact List.Pairwise.nil
  · exact hB j hjl hj

/-- **C7.** Tree-solver cluster-list invariant: after `init_attack` every
cluster list of the arena is strictly increasing in `sum` (sorted in
non-decreasing order with no two entries of equal sum), and whenever
`run_phase` returns, every cluster list of the updated arena is again
strictly increasing in `sum`. -/
theorem c7_cluster_invariant {o : Oracle} (hgood : o.Good) :
    (∀ (alphabet : List Word) (base module : ℤ) (wordLen : ℕ)
      (tree tree' : List (List TNode)) (len : ℕ),
      initAttack o alphabet base module wordLen tree len = some tree' →
      ∀ slot ∈ tree', SSorted slot) ∧
    (∀ K : ℤ, 2 * K + 2 ≤ 2 ^ 127 →
      ∀ (clusterSize : ℕ) (tree : List (List TNode)) (p : ℕ)
        (res : List (List TNode) × Option ℕ),
      (∀ slot ∈ tree, SSorted slot) →
      (∀ slot ∈ tree, ∀ x ∈ slot, |x.sum| ≤ K) →
      runPhase o clusterSize tree p = some res →
      ∀ slot ∈ res.1, SSorted slot) := by
  constructor
  · intro alphabet base module wordLen tree tree' len heq
    exact (initAttack_sorted hgood heq).2
  · intro K hK clusterSize tree p res hs hb heq
    exact runPhase_sorted hgood hK hs hb heq

instance instDecidableSSorted (l : List TNode) : Decidable (SSorted l) :=
  inferInstanceAs
    (Decidable (l.Pairwise fun a b : TNode => a.sum < b.sum))

/-- A fixed zero randomness stream for concrete runs. -/
def c7Rng0 : ℕ → ℕ := fun _ => 0

/-- The arena built by `init_attack` at base 2, module 5 over the
alphabet `["a", "b"]` and length 8. -/
def c7Arena : List (List TNode) := [[], [], [], [], [], [], [], [],
  [TNode.leaf 2 0 [97] [98], TNode.leaf 3 0 [98] [97]],
  [TNode.leaf 1 1 [97] [98], TNode.leaf 4 1 [98] [97]],
  [TNode.leaf 2 2 [98] [97], TNode.leaf 3 2 [97] [98]],
  [TNode.leaf 1 3 [98] [97], TNode.leaf 4 3 [97] [98]],
  [TNode.leaf 2 4 [97] [98], TNode.leaf 3 4 [98] [97]],
  [TNode.leaf 1 5 [97] [98], TNode.leaf 4 5 [98] [97]],
  [TNode.leaf 2 6 [98] [97], TNode.leaf 3 6 [97] [98]],
  [TNode.leaf 1 7 [98] [97], TNode.leaf 4 7 [97] [98]]]

/-- The arena and winning slot returned by `run_phase 2` on `c7Arena`. -/
def c7Res : List (List TNode) × Option ℕ :=
  ([[], [], [], [], [TNode.internal 0 4 true false 0 0], [], [], [],
    [TNode.leaf 1 1 [97] [98], TNode.leaf 4 1 [98] [97]],
    [TNode.leaf 1 3 [98] [97], TNode.leaf 4 3 [97] [98]],
    [TNode.leaf 1 5 [97] [98], TNode.leaf 4 5 [98] [97]],
    [TNode.leaf 1 7 [98] [97], TNode.leaf 4 7 [97] [98]],
    [TNode.leaf 2 0 [97] [98], TNode.leaf 3 0 [98] [97]],
    [TNode.leaf 2 2 [98] [97], TNode.leaf 3 2 [97] [98]],
    [TNode.leaf 2 4 [97] [98], TNode.leaf 3 4 [98] [97]],
    [TNode.leaf 2 6 [98] [97], TNode.leaf 3 6 [97] [98]]], some 4)

theorem c7_cluster_invariant_witness :
    (∃ tree', initAttack (insOracle c7Rng0) [[97], [98]] 2 5 1 [] 8 =
      some tree' ∧ ∀ slot ∈ tree', SSorted slot) ∧
    (∃ res, runPhase (insOracle c7Rng0) 3 c7Arena 2 = some res ∧
      ∀ slot ∈ res.1, SSorted slot) := by
  constructor
  · refine ⟨c7Arena, by decide, ?_⟩
    exact (c7_cluster_invariant (insOracle_good c7Rng0)).1 [[97], [98]]
      2 5 1 [] c7Arena 8 (by decide)
  · refine ⟨c7Res, by decide, ?_⟩
    exact (c7_cluster_invariant (insOracle_good c7Rng0)).2 5 (by norm_num)
      3 c7Arena 2 c7Res (by decide) (by decide) (by decide)

/-! ### Exact leaf and pot arithmetic in the in-range regime -/

theorem polySumZ_cons {B : ℤ} {c : ℕ} {rest : List ℕ} :
    polySumZ B (c :: rest) = (c : ℤ) * B ^ rest.length + polySumZ B rest := by
  unfold polySumZ
  simp only [List.length_cons]
  rw [Finset.sum_range_succ']
  simp only [List.getD_cons_succ, List.getD_cons_zero]
  rw [add_comm]
  have he : rest.length + 1 - 1 - 0 = rest.length := by omega
  rw [he]
  congr 1
  apply Finset.sum_congr rfl
  intro i hi
  have he2 : rest.length + 1 - 1 - (i + 1) = rest.length - 1 - i := by omega
  rw [he2]

/-- The difference polynomial of a zipped word pair, in Horner order. -/
def dpoly (B : ℤ) : List (ℕ × ℕ) → ℤ
  | [] => 0
  | c :: rest => ((c.1 : ℤ) - c.2) * B ^ rest.length + dpoly B rest

theorem dpoly_zip {B : ℤ} :
    ∀ {w1 w2 : List ℕ}, w1.length = w2.length →
      dpoly B (w1.zip w2) = polySumZ B w1 - polySumZ B w2 := by
  intro w1
  induction w1 with
  | nil =>
    intro w2 h
    have : w2 = [] := List.length_eq_zero.mp h.symm
    subst this
    simp [dpoly, polySumZ]
  | cons c rest ih =>
    intro w2 h
    cases w2 with
    | nil => simp at h
    | cons d rest2 =>
      have hzc : (c :: rest).zip (d :: rest2) = (c, d) :: rest.zip rest2 :=
        rfl
      rw [hzc]
      rw [show dpoly B ((c, d) :: rest.zip rest2) =
        ((c : ℤ) - d) * B ^ (rest.zip rest2).length +
          dpoly B (rest.zip rest2) from rfl]
      rw [polySumZ_cons, polySumZ_cons, ih (by simpa using h)]
      have h2 : rest2.length = rest.length := by simpa using h.symm
      have hlen : (rest.zip rest2).length = rest.length := by
        rw [List.length_zip]
        omega
      rw [hlen, h2]
      ring

/-- One `new_leaf` character step stays in `[0, M)` and tracks the exact
Horner value, in the in-range regime. -/
theorem leafStep_exact {B M : ℤ} (hB0 : 0 ≤ B) (hB : B ≤ 2 ^ 64)
    (hM1 : 1 ≤ M) (hM : M ≤ 2 ^ 63) {h : ℤ} (hh0 : 0 ≤ h) (hh : h < M)
    {c : ℕ × ℕ} (hc1 : (c.1 : ℤ) < M) (hc2 : (c.2 : ℤ) < M) :
    0 ≤ leafStep B M h c ∧ leafStep B M h c < M ∧
      Int.ModEq M (leafStep B M h c) (h * B + c.1 - c.2) := by
  have hc10 : (0 : ℤ) ≤ c.1 := Int.natCast_nonneg _
  have hc20 : (0 : ℤ) ≤ c.2 := Int.natCast_nonneg _
  have hhB0 : 0 ≤ h * B := mul_nonneg hh0 hB0
  have hhB2 : h * B ≤ (M - 1) * 2 ^ 64 :=
    mul_le_mul (by omega) hB hB0 (by omega)
  have hMB : (M - 1) * 2 ^ 64 ≤ 2 ^ 127 - 2 ^ 64 := by nlinarith
  have w1 : wrap128 (h * B) = h * B :=
    wrap128_id (by linarith) (by linarith)
  have w2 : wrap128 (h * B + (c.1 : ℤ)) = h * B + c.1 :=
    wrap128_id (by linarith) (by linarith)
  have w3 : wrap128 (h * B + (c.1 : ℤ) - c.2) = h * B + c.1 - c.2 :=
    wrap128_id (by linarith) (by linarith)
  have w4 : wrap128 (h * B + (c.1 : ℤ) - c.2 + M) =
      h * B + c.1 - c.2 + M :=
    wrap128_id (by linarith) (by linarith)
  unfold leafStep
  rw [w1, w2, w3, w4]
  have hv0 : 0 < h * B + (c.1 : ℤ) - c.2 + M := by linarith
  refine ⟨Int.tmod_nonneg M (by linarith), (tmod_bounds (by omega)).2, ?_⟩
  refine Int.ModEq.trans (tmod_modEq _ _) ?_
  exact Int.modEq_iff_dvd.mpr ⟨-1, by ring⟩

/-- The `new_leaf` character fold stays in `[0, M)` and computes the
difference polynomial of the word pair modulo `M`. -/
theorem leafFold_exact {B M : ℤ} (hB0 : 0 ≤ B) (hB : B ≤ 2 ^ 64)
    (hM1 : 1 ≤ M) (hM : M ≤ 2 ^ 63) :
    ∀ {l : List (ℕ × ℕ)} {h a : ℤ},
      (∀ c ∈ l, (c.1 : ℤ) < M ∧ (c.2 : ℤ) < M) →
      0 ≤ h → h < M → Int.ModEq M h a →
      0 ≤ l.foldl (leafStep B M) h ∧ l.foldl (leafStep B M) h < M ∧
        Int.ModEq M (l.foldl (leafStep B M) h)
          (a * B ^ l.length + dpoly B l) := by
  intro l
  induction l with
  | nil =>
    intro h a _ hh0 hh hma
    refine ⟨hh0, hh, ?_⟩
    simpa [dpoly] using hma
  | cons c rest ih =>
    intro h a hc hh0 hh hma
    obtain ⟨hc1, hc2⟩ := hc c (by simp)
    obtain ⟨hs0, hs1, hs2⟩ := leafStep_exact hB0 hB hM1 hM hh0 hh hc1 hc2
    have hstep : Int.ModEq M (leafStep B M h c) (a * B + (c.1 - c.2)) := by
      refine hs2.trans ?_
      have : Int.ModEq M h a := hma
      calc h * B + (c.1 : ℤ) - c.2 = h * B + (c.1 - c.2) := by ring
        _ ≡ a * B + (c.1 - c.2) [ZMOD M] :=
          Int.ModEq.add_right _ (Int.ModEq.mul_right B hma)
    obtain ⟨hf0, hf1, hf2⟩ := ih (fun d hd => hc d (by simp [hd])) hs0 hs1
      hstep
    refine ⟨hf0, hf1, ?_⟩
    refine hf2.trans ?_
    have : (a * B + ((c.1 : ℤ) - c.2)) * B ^ rest.length + dpoly B rest =
        a * B ^ (rest.length + 1) +
          (((c.1 : ℤ) - c.2) * B ^ rest.length + dpoly B rest) := by
      ring
    rw [this]
    rfl

/-- `new_leaf` in the in-range regime: succeeds with a sum in `[0, M)`
congruent to the pot-scaled difference polynomial of the word pair. -/
theorem newLeaf_exact_sem {B M : ℤ} (hB0 : 0 ≤ B) (hB : B ≤ 2 ^ 64)
    (hM1 : 1 ≤ M) (hM : M ≤ 2 ^ 63) {idx : ℕ} {w1 w2 : Word} {pot : ℤ}
    (hp0 : 0 ≤ pot) (hp : pot < M)
    (hw : ∀ c ∈ w1.zip w2, (c.1 : ℤ) < M ∧ (c.2 : ℤ) < M) :
    ∃ s, newLeaf idx w1 w2 B M pot = some (TNode.leaf s idx w1 w2) ∧
      0 ≤ s ∧ s < M ∧
      Int.ModEq M s (dpoly B (w1.zip w2) * pot) := by
  obtain ⟨hf0, hf1, hf2⟩ := leafFold_exact hB0 hB hM1 hM hw le_rfl
    (by omega) (Int.ModEq.refl 0)
  rw [newLeaf, if_neg (by omega : ¬M = 0)]
  refine ⟨_, rfl, ?_, ?_, ?_⟩
  · have hpr : 0 ≤ (w1.zip w2).foldl (leafStep B M) 0 * pot :=
      mul_nonneg hf0 hp0
    have hw128 : wrap128 ((w1.zip w2).foldl (leafStep B M) 0 * pot) =
        (w1.zip w2).foldl (leafStep B M) 0 * pot := by
      apply wrap128_id
      · linarith
      · have : (w1.zip w2).foldl (leafStep B M) 0 * pot ≤
            (M - 1) * (M - 1) := by nlinarith
        nlinarith
    rw [hw128]
    exact Int.tmod_nonneg M hpr
  · have hpr : 0 ≤ (w1.zip w2).foldl (leafStep B M) 0 * pot :=
      mul_nonneg hf0 hp0
    have hw128 : wrap128 ((w1.zip w2).foldl (leafStep B M) 0 * pot) =
        (w1.zip w2).foldl (leafStep B M) 0 * pot := by
      apply wrap128_id
      · linarith
      · have : (w1.zip w2).foldl (leafStep B M) 0 * pot ≤
            (M - 1) * (M - 1) := by nlinarith
        nlinarith
    rw [hw128]
    exact (tmod_bounds (by omega)).2
  · have hw128 : wrap128 ((w1.zip w2).foldl (leafStep B M) 0 * pot) =
        (w1.zip w2).foldl (leafStep B M) 0 * pot := by
      apply wrap128_id
      · have := mul_nonneg hf0 hp0
        linarith
      · have : (w1.zip w2).foldl (leafStep B M) 0 * pot ≤
            (M - 1) * (M - 1) := by nlinarith
        nlinarith
    rw [hw128]
    refine (tmod_modEq _ _).trans ?_
    have hf2s : Int.ModEq M ((w1.zip w2).foldl (leafStep B M) 0)
        (dpoly B (w1.zip w2)) := by
      simpa using hf2
    exact Int.ModEq.mul_right pot hf2s

/-- One pot update in the in-range regime. -/
theorem potStep_exact {B M : ℤ} (hB0 : 0 ≤ B) (hB : B ≤ 2 ^ 64)
    (hM1 : 1 ≤ M) (hM : M ≤ 2 ^ 63) {pot : ℤ} (hp0 : 0 ≤ pot)
    (hp : pot < M) :
    ∃ pot2, potStep B M pot = some pot2 ∧ 0 ≤ pot2 ∧ pot2 < M ∧
      Int.ModEq M pot2 (pot * B) := by
  rw [potStep, if_neg (by omega : ¬M = 0)]
  have hpr : 0 ≤ pot * B := mul_nonneg hp0 hB0
  have hub : pot * B ≤ (M - 1) * 2 ^ 64 :=
    mul_le_mul (by omega) hB hB0 (by omega)
  have hMB : (M - 1) * 2 ^ 64 ≤ 2 ^ 127 - 2 ^ 64 := by nlinarith
  have hw128 : wrap128 (pot * B) = pot * B :=
    wrap128_id (by linarith) (by linarith)
  rw [hw128]
  exact ⟨_, rfl, Int.tmod_nonneg M hpr, (tmod_bounds (by omega)).2,
    tmod_modEq _ _⟩

/-- `word_len` many pot updates multiply by `B^wordLen` modulo `M`. -/
theorem potUpdates_exact {B M : ℤ} (hB0 : 0 ≤ B) (hB : B ≤ 2 ^ 64)
    (hM1 : 1 ≤ M) (hM : M ≤ 2 ^ 63) :
    ∀ {k : ℕ} {pot : ℤ}, 0 ≤ pot → pot < M →
      ∃ pot2, potUpdates B M k pot = some pot2 ∧ 0 ≤ pot2 ∧ pot2 < M ∧
        Int.ModEq M pot2 (pot * B ^ k) := by
  intro k
  induction k with
  | zero =>
    intro pot hp0 hp
    exact ⟨pot, rfl, hp0, hp, by simp⟩
  | succ k ih =>
    intro pot hp0 hp
    obtain ⟨pot1, h1, h10, h11, h12⟩ := potStep_exact hB0 hB hM1 hM hp0 hp
    obtain ⟨pot2, h2, h20, h21, h22⟩ := ih h10 h11
    refine ⟨pot2, ?_, h20, h21, ?_⟩
    · rw [potUpdates, h1]
      simpa using h2
    · refine h22.trans ?_
      calc pot1 * B ^ k ≡ pot * B * B ^ k [ZMOD M] :=
            Int.ModEq.mul_right _ h12
        _ = pot * B ^ (k + 1) := by ring

/-! ### Denotation of tree nodes -/

/-- Denotation judgment for a node of the arena: reading only slots
`≥ b`, the node covers the string positions `cov`; every covered leaf
holds an alphabet word pair satisfying `P` and a sum congruent to its
position-weighted difference polynomial, and an internal node combines
its recorded children according to its swap bits. -/
inductive Den (B M : ℤ) (len w : ℕ) (A : List Word)
    (P : Word → Word → Prop) (tree : List (List TNode)) :
    ℕ → TNode → Finset ℕ → Prop where
  | leaf : ∀ {b : ℕ} {s : ℤ} {idx : ℕ} {w1 w2 : Word},
      idx < len → w1 ∈ A → w2 ∈ A → P w1 w2 →
      Int.ModEq M s
        ((polySumZ B w1 - polySumZ B w2) * B ^ ((len - 1 - idx) * w)) →
      Den B M len w A P tree b (TNode.leaf s idx w1 w2) {idx}
  | internal : ∀ {b : ℕ} {s : ℤ} {i : ℕ} {ml mr : Bool} {pL pR : ℕ}
      {ndL ndR : TNode} {covL covR : Finset ℕ},
      b ≤ 2 * i →
      (tree.getD (2 * i) []).get? pL = some ndL →
      (tree.getD (2 * i + 1) []).get? pR = some ndR →
      Den B M len w A P tree b ndL covL →
      Den B M len w A P tree b ndR covR →
      Disjoint covL covR →
      s = (if ml then -ndL.sum else ndL.sum) +
        (if mr then -ndR.sum else ndR.sum) →
      Den B M len w A P tree b (TNode.internal s i ml mr pL pR)
        (covL ∪ covR)

/-- Weakening the slot lower bound. -/
theorem den_mono {B M : ℤ} {len w : ℕ} {A : List Word}
    {P : Word → Word → Prop} {tree : List (List TNode)} {b b2 : ℕ}
    {nd : TNode} {cov : Finset ℕ} (hb : b2 ≤ b)
    (h : Den B M len w A P tree b nd cov) :
    Den B M len w A P tree b2 nd cov := by
  induction h with
  | leaf h1 h2 h3 h4 h5 => exact Den.leaf h1 h2 h3 h4 h5
  | internal hbi hL hR hdL hdR hdisj hv ihL ihR =>
    exact Den.internal (by omega) hL hR ihL ihR hdisj hv

/-- A denotation only reads slots at least `b`, so it transports to any
arena agreeing there. -/
theorem den_transport {B M : ℤ} {len w : ℕ} {A : List Word}
    {P : Word → Word → Prop} {tree tree2 : List (List TNode)} {b : ℕ}
    {nd : TNode} {cov : Finset ℕ}
    (hagree : ∀ j, b ≤ j → tree2.getD j [] = tree.getD j [])
    (h : Den B M len w A P tree b nd cov) :
    Den B M len w A P tree2 b nd cov := by
  induction h with
  | leaf h1 h2 h3 h4 h5 => exact Den.leaf h1 h2 h3 h4 h5
  | internal hbi hL hR hdL hdR hdisj hv ihL ihR =>
    refine Den.internal hbi ?_ ?_ ihL ihR hdisj hv
    · rw [hagree _ (by omega)]
      exact hL
    · rw [hagree _ (by omega)]
      exact hR

theorem den_nonempty {B M : ℤ} {len w : ℕ} {A : List Word}
    {P : Word → Word → Prop} {tree : List (List TNode)} {b : ℕ}
    {nd : TNode} {cov : Finset ℕ}
    (h : Den B M len w A P tree b nd cov) : cov.Nonempty := by
  induction h with
  | leaf => exact ⟨_, Finset.mem_singleton_self _⟩
  | internal _ _ _ _ _ _ _ ihL _ =>
    exact ihL.mono Finset.subset_union_left

theorem den_cov_lt {B M : ℤ} {len w : ℕ} {A : List Word}
    {P : Word → Word → Prop} {tree : List (List TNode)} {b : ℕ}
    {nd : TNode} {cov : Finset ℕ}
    (h : Den B M len w A P tree b nd cov) : ∀ j ∈ cov, j < len := by
  induction h with
  | leaf h1 =>
    intro j hj
    rw [Finset.mem_singleton] at hj
    subst hj
    exact h1
  | internal _ _ _ _ _ _ _ ihL ihR =>
    intro j hj
    rcases Finset.mem_union.mp hj with hj | hj
    · exact ihL j hj
    · exact ihR j hj

/-- The cover of a node is determined by the node and the arena. -/
theorem den_unique {B M : ℤ} {len w : ℕ} {A : List Word}
    {P : Word → Word → Prop} {tree : List (List TNode)} :
    ∀ {b1 : ℕ} {nd : TNode} {c1 : Finset ℕ},
      Den B M len w A P tree b1 nd c1 →
      ∀ {b2 : ℕ} {c2 : Finset ℕ}, Den B M len w A P tree b2 nd c2 →
      c1 = c2 := by
  intro b1 nd c1 h1
  induction h1 with
  | leaf =>
    intro b2 c2 h2
    cases h2
    rfl
  | internal hbi hL hR hdL hdR hdisj hv ihL ihR =>
    intro b2 c2 h2
    cases h2 with
    | internal hbi2 hL2 hR2 hdL2 hdR2 hdisj2 hv2 =>
      rw [hL2] at hL
      rw [hR2] at hR
      obtain rfl := Option.some.inj hL
      obtain rfl := Option.some.inj hR
      rw [ihL hdL2, ihR hdR2]

theorem mapM_option_mem {α β : Type} {f : α → Option β} :
    ∀ {l : List α} {out : List β}, l.mapM f = some out →
      ∀ y ∈ out, ∃ x ∈ l, f x = some y := by
  intro l
  induction l with
  | nil =>
    intro out h
    simp only [List.mapM_nil, Option.pure_def, Option.some.injEq] at h
    subst h
    simp
  | cons a rest ih =>
    intro out h
    rw [List.mapM_cons] at h
    cases hf : f a with
    | none => rw [hf] at h; simp at h
    | some b =>
      rw [hf] at h
      simp only [Option.pure_def, Option.bind_eq_bind, Option.some_bind]
        at h
      cases hr : rest.mapM f with
      | none => rw [hr] at h; simp at h
      | some bs =>
        rw [hr] at h
        simp only [Option.some_bind, Option.some.injEq] at h
        subst h
        intro y hy
        rcases List.mem_cons.mp hy with rfl | hy
        · exact ⟨a, by simp, hf⟩
        · obtain ⟨x, hx, hfx⟩ := ih hr y hy
          exact ⟨x, by simp [hx], hfx⟩

theorem ordPairs_mem {n : ℕ} : ∀ ab ∈ ordPairs n,
    ab.1 < n ∧ ab.2 < n ∧ ab.1 ≠ ab.2 := by
  intro ab hab
  unfold ordPairs at hab
  rw [List.mem_flatMap] at hab
  obtain ⟨a, ha, hab2⟩ := hab
  rw [List.mem_filterMap] at hab2
  obtain ⟨b, hb, hf⟩ := hab2
  rw [List.mem_range] at ha hb
  by_cases heq : a = b
  · rw [if_pos heq] at hf
    simp at hf
  · rw [if_neg heq] at hf
    obtain rfl := Option.some.inj hf
    exact ⟨ha, hb, heq⟩

/-- A leaf-level slot: all its nodes are leaves for the same position
`idx`, with alphabet word pairs satisfying `P` and in-range sums
congruent to the position-weighted difference polynomial. -/
def LeafSlot (B M : ℤ) (len wl : ℕ) (A : List Word)
    (P : Word → Word → Prop) (slot : List TNode) (idx : ℕ) : Prop :=
  ∀ nd ∈ slot, ∃ s w1 w2, nd = TNode.leaf s idx w1 w2 ∧ w1 ∈ A ∧
    w2 ∈ A ∧ P w1 w2 ∧ 0 ≤ s ∧ s < M ∧
    Int.ModEq M s
      ((polySumZ B w1 - polySumZ B w2) * B ^ ((len - 1 - idx) * wl))

/-- The `init_attack` loop fills every leaf slot `i + len` with sorted
leaves for position `i` built from distinct-index alphabet pairs. -/
theorem initLoop_leafs {o : Oracle} (hgood : o.Good) {A : List Word}
    {B M : ℤ} (hB0 : 0 ≤ B) (hB : B ≤ 2 ^ 64) (hM1 : 1 ≤ M)
    (hM : M ≤ 2 ^ 63) {wl len : ℕ} {P : Word → Word → Prop}
    (halpha : ∀ wd ∈ A, ∀ ch ∈ wd, (ch : ℤ) < M)
    (hwidth : ∀ wd ∈ A, wd.length = wl)
    (hP : ∀ a b : ℕ, a < A.length → b < A.length → a ≠ b →
      P (A.getD a []) (A.getD b [])) :
    ∀ {c : ℕ} {tree tree' : List (List TNode)} {pot : ℤ},
      c ≤ len → 0 ≤ pot → pot < M →
      Int.ModEq M pot (B ^ ((len - c) * wl)) →
      (∀ j, c + len ≤ j → j < 2 * len →
        LeafSlot B M len wl A P (tree.getD j []) (j - len)) →
      initLoop o A B M wl len c tree pot = some tree' →
      ∀ j, len ≤ j → j < 2 * len →
        LeafSlot B M len wl A P (tree'.getD j []) (j - len) := by
  intro c
  induction c with
  | zero =>
    intro tree tree' pot hc hp0 hp hpc hinv h
    rw [initLoop] at h
    obtain rfl := Option.some.inj h
    intro j hj hjl
    exact hinv j (by omega) hjl
  | succ c ih =>
    intro tree tree' pot hc hp0 hp hpc hinv h
    rw [initLoop_succ] at h
    cases hm : (ordPairs A.length).mapM fun ab =>
        newLeaf c (A.getD ab.1 []) (A.getD ab.2 []) B M pot with
    | none => rw [hm] at h; simp at h
    | some leaves =>
      rw [hm] at h
      simp only [Option.bind_eq_bind, Option.some_bind] at h
      cases hpu : potUpdates B M wl pot with
      | none => rw [hpu] at h; simp at h
      | some pot2 =>
        rw [hpu] at h
        simp only [Option.some_bind] at h
        obtain ⟨pot3, hpu2, hp30, hp31, hp32⟩ :=
          @potUpdates_exact B M hB0 hB hM1 hM wl pot hp0 hp
        rw [hpu2] at hpu
        obtain rfl := Option.some.inj hpu
        have hleaf : LeafSlot B M len wl A P leaves c := by
          intro nd hnd
          obtain ⟨ab, hab, hf⟩ := mapM_option_mem hm nd hnd
          obtain ⟨ha, hb, hne⟩ := ordPairs_mem ab hab
          have hw1 : A.getD ab.1 [] ∈ A := getD_mem_list ha
          have hw2 : A.getD ab.2 [] ∈ A := getD_mem_list hb
          have hwz : ∀ cc ∈ (A.getD ab.1 []).zip (A.getD ab.2 []),
              ((cc.1 : ℤ) < M ∧ (cc.2 : ℤ) < M) := by
            intro cc hcc
            obtain ⟨hc1, hc2⟩ := List.of_mem_zip
              (show (cc.1, cc.2) ∈ _ from hcc)
            exact ⟨halpha _ hw1 _ hc1, halpha _ hw2 _ hc2⟩
          obtain ⟨s, hleq, hs0, hs1, hs2⟩ :=
            @newLeaf_exact_sem B M hB0 hB hM1 hM c (A.getD ab.1 [])
              (A.getD ab.2 []) pot hp0 hp hwz
          rw [hleq] at hf
          obtain rfl := Option.some.inj hf
          refine ⟨s, _, _, rfl, hw1, hw2, hP _ _ ha hb hne, hs0, hs1, ?_⟩
          refine hs2.trans ?_
          rw [dpoly_zip (by rw [hwidth _ hw1, hwidth _ hw2])]
          have hexp : len - (c + 1) = len - 1 - c := by omega
          rw [hexp] at hpc
          exact Int.ModEq.mul_left _ hpc
        have hdsub : ∀ nd ∈ dedupAdj (o.sortN TNode.sum leaves),
            nd ∈ leaves := by
          intro nd hnd
          have hsorted : (o.sortN TNode.sum leaves).Pairwise
              fun a b => a.sum ≤ b.sum := (hgood.1 TNode.sum leaves).2
          have := (dedupAdj_spec hsorted).2 nd hnd
          exact (hgood.1 TNode.sum leaves).1.mem_iff.mp this
        refine ih (by omega) hp30 hp31 ?_ ?_ h
        · refine hp32.trans ?_
          have hpc2 := Int.ModEq.mul_right (B ^ wl) hpc
          refine hpc2.trans ?_
          rw [← pow_add]
          have : (len - (c + 1)) * wl + wl = (len - c) * wl := by
            have : len - c = (len - (c + 1)) + 1 := by omega
            rw [this]
            ring
          rw [this]
        · intro j hj hjl
          by_cases hje : j = c + len
          · subst hje
            have hlt : c + len < tree.length ∨ ¬(c + len < tree.length) :=
              em _
            intro nd hnd
            rcases Nat.lt_or_ge (c + len)
              ((tree.set c []).length) with hlen2 | hlen2
            · rw [getD_set_eq hlen2] at hnd
              have hmem := hdsub nd hnd
              have := hleaf nd hmem
              simpa using this
            · rw [List.getD_eq_default _ _ (by
                simpa using hlen2)] at hnd
              simp at hnd
          · rw [getD_set_ne (by omega : c + len ≠ j),
              getD_set_ne (by omega : c ≠ j)]
            intro nd hnd
            have := hinv j (by omega) hjl nd hnd
            exact this

/-! ### The level invariant of the tree attack -/

/-- Per-slot denotation: every node of the slot denotes with the common
cover `cov` and its sum lies in `[0, K]`. -/
def SlotDen (B M : ℤ) (len w : ℕ) (A : List Word)
    (P : Word → Word → Prop) (tree : List (List TNode)) (b : ℕ) (K : ℤ)
    (slot : List TNode) (cov : Finset ℕ) : Prop :=
  ∀ nd ∈ slot, Den B M len w A P tree b nd cov ∧ 0 ≤ nd.sum ∧ nd.sum ≤ K

/-- Cross-slot cover disjointness. -/
def DisjRel (B M : ℤ) (len w : ℕ) (A : List Word)
    (P : Word → Word → Prop) (tree : List (List TNode)) (b : ℕ)
    (s1 s2 : List TNode) : Prop :=
  ∀ nd1 ∈ s1, ∀ nd2 ∈ s2, ∀ c1 c2, Den B M len w A P tree b nd1 c1 →
    Den B M len w A P tree b nd2 c2 → Disjoint c1 c2

/-- The level invariant: every slot of `[z, 2z)` denotes with some
cover, all sums lie in `[0, K]`, and the covers of the level are
pairwise disjoint. -/
structure PhaseInv (B M : ℤ) (len w : ℕ) (A : List Word)
    (P : Word → Word → Prop) (tree : List (List TNode)) (K : ℤ)
    (z : ℕ) : Prop where
  hden : ∀ x, z ≤ x → x < 2 * z → ∃ cov,
    SlotDen B M len w A P tree (2 * z) K (tree.getD x []) cov
  hdisj : ((tree.drop z).take z).Pairwise
    (DisjRel B M len w A P tree (2 * z))

theorem slice_getD {α : Type} {tree : List α} {z c k : ℕ} {d : α}
    (hk : k < c) (hzk : z + k < tree.length) :
    ((tree.drop z).take c).getD k d = tree.getD (z + k) d := by
  have h1 : k < ((tree.drop z).take c).length := by
    rw [List.length_take, List.length_drop]
    omega
  rw [List.getD_eq_getElem _ _ h1, List.getD_eq_getElem _ _ hzk]
  rw [List.getElem_take _, List.getElem_drop _]

/-- In a strictly sorted nonnegative cluster a zero-sum node sits at the
head. -/
theorem ssorted_zero_head {l : List TNode} (hs : SSorted l)
    (hnn : ∀ y ∈ l, 0 ≤ y.sum) {x : TNode} (hx : x ∈ l)
    (hxz : x.sum = 0) : l.get? 0 = some x := by
  cases l with
  | nil => simp at hx
  | cons a rest =>
    rcases List.mem_cons.mp hx with rfl | hx2
    · rfl
    · obtain ⟨ha, _⟩ := List.pairwise_cons.mp hs
      have h1 := ha x hx2
      have h2 := hnn a (by simp)
      omega

/-- After `init_attack` the leaf level satisfies the level invariant
with bound `M`. -/
theorem initAttack_den {o : Oracle} (hgood : o.Good) {A : List Word}
    {B M : ℤ} (hB0 : 0 ≤ B) (hB : B ≤ 2 ^ 64) (hM2 : 1 < M)
    (hM : M ≤ 2 ^ 63) {wl : ℕ} {P : Word → Word → Prop}
    {tree tree' : List (List TNode)} {len : ℕ} (hlen0 : 0 < len)
    (halpha : ∀ wd ∈ A, ∀ ch ∈ wd, (ch : ℤ) < M)
    (hwidth : ∀ wd ∈ A, wd.length = wl)
    (hP : ∀ a b : ℕ, a < A.length → b < A.length → a ≠ b →
      P (A.getD a []) (A.getD b []))
    (heq : initAttack o A B M wl tree len = some tree') :
    PhaseInv B M len wl A P tree' M len ∧ tree'.length = 2 * len ∧
      ∀ slot ∈ tree', ∀ nd ∈ slot, 0 ≤ nd.sum ∧ nd.sum ≤ M := by
  have hlen2 := (initAttack_sorted hgood heq).1
  have hleafs : ∀ j, len ≤ j → j < 2 * len →
      LeafSlot B M len wl A P (tree'.getD j []) (j - len) := by
    unfold initAttack at heq
    refine initLoop_leafs hgood hB0 hB (by omega) hM halpha hwidth hP
      le_rfl (by omega) (by omega) ?_ (fun j hj hjl => ?_) heq
    · simp
    · omega
  have hdenx : ∀ x, len ≤ x → x < 2 * len → ∀ nd ∈ tree'.getD x [],
      Den B M len wl A P tree' (2 * len) nd {x - len} ∧
        0 ≤ nd.sum ∧ nd.sum ≤ M := by
    intro x hx hxl nd hnd
    obtain ⟨s, w1, w2, rfl, h1, h2, h3, h4, h5, h6⟩ :=
      hleafs x hx hxl nd hnd
    exact ⟨Den.leaf (by omega) h1 h2 h3 h6, h4, show s ≤ M by omega⟩
  constructor
  · constructor
    · intro x hx hxl
      exact ⟨{x - len}, fun nd hnd => hdenx x hx hxl nd hnd⟩
    · rw [List.pairwise_iff_getElem]
      intro a b ha hb hab
      have hla : ((tree'.drop len).take len).length = len := by
        rw [List.length_take, List.length_drop]
        omega
      rw [hla] at ha hb
      have hga : ((tree'.drop len).take len)[a] =
          tree'.getD (len + a) [] := by
        rw [List.getElem_take _, List.getElem_drop _]
        rw [List.getD_eq_getElem _ _ (by omega)]
      have hgb : ((tree'.drop len).take len)[b] =
          tree'.getD (len + b) [] := by
        rw [List.getElem_take _, List.getElem_drop _]
        rw [List.getD_eq_getElem _ _ (by omega)]
      rw [hga, hgb]
      intro nd1 hnd1 nd2 hnd2 c1 c2 hd1 hd2
      obtain ⟨s1, w1, w2, rfl, -, -, -, -, -, -⟩ :=
        hleafs _ (by omega) (by omega) nd1 hnd1
      obtain ⟨s2, w3, w4, rfl, -, -, -, -, -, -⟩ :=
        hleafs _ (by omega) (by omega) nd2 hnd2
      cases hd1
      cases hd2
      have hab2 : len + a - len ≠ len + b - len := by omega
      simp only [Finset.disjoint_singleton_left,
        Finset.mem_singleton]
      omega
  · refine ⟨hlen2, ?_⟩
    have hclr : ∀ j, j < len → tree'.getD j [] = [] := by
      unfold initAttack at heq
      have h0 : (tree.take (2 * len) ++
          List.replicate (2 * len - tree.length)
            ([] : List TNode)).length = 2 * len := by
        rw [List.length_append, List.length_take, List.length_replicate]
        omega
      obtain ⟨-, -, hC, -⟩ := initLoop_sorted hgood le_rfl h0
        (fun j hj hjl => absurd hjl (by omega)) heq
      exact hC
    intro slot hslot nd hnd
    obtain ⟨j, hj, hjs⟩ := List.mem_iff_getElem.mp hslot
    have hgd : tree'.getD j [] = slot := by
      rw [List.getD_eq_getElem _ _ hj, hjs]
    rw [hlen2] at hj
    rcases lt_or_ge j len with hjl | hjl
    · rw [hclr j hjl] at hgd
      rw [← hgd] at hnd
      simp at hnd
    · obtain ⟨s, w1, w2, rfl, h1, h2, h3, h4, h5, h6⟩ :=
        hleafs j hjl (by omega) nd (by rw [hgd]; exact hnd)
      refine ⟨h4, ?_⟩
      show s ≤ M
      omega

theorem get?_getD {l : List TNode} {p : ℕ} (h : p < l.length) :
    l.get? p = some (l.getD p dummyN) := by
  rw [List.get?_eq_get h]
  congr 1
  rw [List.getD_eq_getElem _ _ h]
  rfl

/-- Canonical covers upgrade an old-arena disjointness relation to the
re-sorted arena. -/
theorem disjrel_upgrade {B M : ℤ} {len w : ℕ} {A : List Word}
    {P : Word → Word → Prop} {tree T : List (List TNode)} {b b2 : ℕ}
    {s1 s2 : List TNode}
    (hagree : ∀ j, b ≤ j → T.getD j [] = tree.getD j [])
    (h1 : ∀ nd ∈ s1, ∃ cov, Den B M len w A P tree b nd cov)
    (h2 : ∀ nd ∈ s2, ∃ cov, Den B M len w A P tree b nd cov)
    (h : DisjRel B M len w A P tree b s1 s2) :
    DisjRel B M len w A P T b2 s1 s2 := by
  intro nd1 hnd1 nd2 hnd2 c1 c2 hd1 hd2
  obtain ⟨covx, hcx⟩ := h1 nd1 hnd1
  obtain ⟨covy, hcy⟩ := h2 nd2 hnd2
  have hcx2 : Den B M len w A P T b nd1 covx := den_transport hagree hcx
  have hcy2 : Den B M len w A P T b nd2 covy := den_transport hagree hcy
  obtain rfl : c1 = covx := den_unique hd1 hcx2
  obtain rfl : c2 = covy := den_unique hd2 hcy2
  exact h nd1 hnd1 nd2 hnd2 c1 c2 hcx hcy

/-- One merge slot, semantically: the produced cluster denotes with the
union of the child covers, sums stay in `[0, 2K]`, and a raised flag
places a zero-sum node at the head. -/
theorem mergeSlot_den {B M : ℤ} {len w : ℕ} {A : List Word}
    {P : Word → Word → Prop} {tree : List (List TNode)} {K : ℤ}
    (hK0 : 0 ≤ K) (hK : 2 * K + 2 ≤ 2 ^ 127) {b i : ℕ}
    (hb : b ≤ 2 * i) {covL covR : Finset ℕ}
    (hL : SlotDen B M len w A P tree b K (tree.getD (2 * i) []) covL)
    (hR : SlotDen B M len w A P tree b K (tree.getD (2 * i + 1) []) covR)
    (hdisj : Disjoint covL covR)
    (hsl : SSorted (tree.getD (2 * i) []))
    (hsr : SSorted (tree.getD (2 * i + 1) []))
    (hln : tree.getD (2 * i) [] ≠ []) (hrn : tree.getD (2 * i + 1) [] ≠ [])
    (clusterSize : ℕ) :
    ∃ out flag, mergeSlot clusterSize i (tree.getD (2 * i) [])
      (tree.getD (2 * i + 1) []) = some (out, flag) ∧ SSorted out ∧
      SlotDen B M len w A P tree b (2 * K) out (covL ∪ covR) ∧
      (flag = true → ∃ nd, out.get? 0 = some nd ∧ nd.sum = 0) := by
  have hbl : ∀ x ∈ tree.getD (2 * i) [], |x.sum| ≤ K := by
    intro x hx
    obtain ⟨-, h1, h2⟩ := hL x hx
    rw [abs_of_nonneg h1]
    exact h2
  have hbr : ∀ x ∈ tree.getD (2 * i + 1) [], |x.sum| ≤ K := by
    intro x hx
    obtain ⟨-, h1, h2⟩ := hR x hx
    rw [abs_of_nonneg h1]
    exact h2
  obtain ⟨out, flag, heqm, hssm, hgoodm, hzm⟩ :=
    mergeSlot_spec hsl hsr hbl hbr hK hln hrn clusterSize i
  have hsden : SlotDen B M len w A P tree b (2 * K) out (covL ∪ covR) := by
    intro nd hnd
    obtain ⟨s, ml, mr, pl, pr, rfl, hpl, hpr, hcase⟩ := hgoodm nd hnd
    have hgl : (tree.getD (2 * i) []).get? pl =
        some ((tree.getD (2 * i) []).getD pl dummyN) := get?_getD hpl
    have hgr : (tree.getD (2 * i + 1) []).get? pr =
        some ((tree.getD (2 * i + 1) []).getD pr dummyN) := get?_getD hpr
    obtain ⟨hdL, hL0, hL1⟩ := hL _ (getD_mem hpl)
    obtain ⟨hdR, hR0, hR1⟩ := hR _ (getD_mem hpr)
    have hnsl : nsum (tree.getD (2 * i) []) pl =
        ((tree.getD (2 * i) []).getD pl dummyN).sum := rfl
    have hnsr : nsum (tree.getD (2 * i + 1) []) pr =
        ((tree.getD (2 * i + 1) []).getD pr dummyN).sum := rfl
    rcases hcase with ⟨rfl, rfl, hs⟩ | ⟨hs, hor⟩
    · rw [Sk, hnsl, hnsr] at hs
      refine ⟨Den.internal hb hgl hgr hdL hdR hdisj ?_, ?_, ?_⟩
      · show s = ((tree.getD (2 * i) []).getD pl dummyN).sum +
          ((tree.getD (2 * i + 1) []).getD pr dummyN).sum
        omega
      · show 0 ≤ s
        omega
      · show s ≤ 2 * K
        omega
    · rw [Dk, hnsl, hnsr] at hs
      rcases hor with ⟨hcmp, rfl, rfl⟩ | ⟨hcmp, rfl, rfl⟩
      · rw [hnsl, hnsr] at hcmp
        rw [abs_of_pos (by omega)] at hs
        refine ⟨Den.internal hb hgl hgr hdL hdR hdisj ?_, ?_, ?_⟩
        · show s = ((tree.getD (2 * i) []).getD pl dummyN).sum +
            -((tree.getD (2 * i + 1) []).getD pr dummyN).sum
          omega
        · show 0 ≤ s
          omega
        · show s ≤ 2 * K
          omega
      · rw [hnsl, hnsr] at hcmp
        rw [abs_of_nonpos (by omega)] at hs
        refine ⟨Den.internal hb hgl hgr hdL hdR hdisj ?_, ?_, ?_⟩
        · show s = -((tree.getD (2 * i) []).getD pl dummyN).sum +
            ((tree.getD (2 * i + 1) []).getD pr dummyN).sum
          omega
        · show 0 ≤ s
          omega
        · show s ≤ 2 * K
          omega
  refine ⟨out, flag, heqm, hssm, hsden, ?_⟩
  intro hflag
  obtain ⟨nd, hndm, hndz⟩ := hzm hflag
  refine ⟨nd, ?_, hndz⟩
  exact ssorted_zero_head hssm (fun y hy => (hsden y hy).2.1) hndm hndz

/-- The slot loop of `run_phase`, semantically: it succeeds on denoting
nonempty children, keeps the arena sorted and `[0, 2K]`-bounded, fills
every written slot with a denoting cluster, keeps all covers pairwise
disjoint, and on an early return places a zero-sum denoting node at the
head of the flagged slot. -/
theorem phaseSlots_den {B M : ℤ} {len w : ℕ} {A : List Word}
    {P : Word → Word → Prop} {K : ℤ} (hK0 : 0 ≤ K)
    (hK : 2 * K + 2 ≤ 2 ^ 127) {clusterSize bc z0 : ℕ} :
    ∀ {c i0 : ℕ} {tree : List (List TNode)},
      bc ≤ 2 * i0 → z0 ≤ i0 → i0 + c ≤ bc →
      (∀ slot ∈ tree, SSorted slot) →
      (∀ slot ∈ tree, ∀ nd ∈ slot, 0 ≤ nd.sum ∧ nd.sum ≤ 2 * K) →
      (∀ x, 2 * i0 ≤ x → x < 2 * (i0 + c) → x < tree.length →
        tree.getD x [] ≠ []) →
      (∀ x, 2 * i0 ≤ x → x < 2 * (i0 + c) → ∃ cov,
        SlotDen B M len w A P tree bc K (tree.getD x []) cov) →
      (∀ x, z0 ≤ x → x < i0 → ∃ cov,
        SlotDen B M len w A P tree bc (2 * K) (tree.getD x []) cov) →
      (∀ x y, x ≠ y →
        (z0 ≤ x ∧ x < i0 ∨ 2 * i0 ≤ x ∧ x < 2 * (i0 + c)) →
        (z0 ≤ y ∧ y < i0 ∨ 2 * i0 ≤ y ∧ y < 2 * (i0 + c)) →
        DisjRel B M len w A P tree bc (tree.getD x [])
          (tree.getD y [])) →
      2 * (i0 + c) ≤ tree.length →
      ∃ res, phaseSlots clusterSize c i0 tree = some res ∧
        res.1.length = tree.length ∧
        (∀ slot ∈ res.1, SSorted slot) ∧
        (∀ slot ∈ res.1, ∀ nd ∈ slot, 0 ≤ nd.sum ∧ nd.sum ≤ 2 * K) ∧
        (∀ j, j < z0 ∨ i0 + c ≤ j → res.1.getD j [] = tree.getD j []) ∧
        (res.2 = none →
          (∀ x, z0 ≤ x → x < i0 + c → ∃ cov,
            SlotDen B M len w A P res.1 bc (2 * K) (res.1.getD x [])
              cov) ∧
          ∀ x y, z0 ≤ x → x < i0 + c → z0 ≤ y → y < i0 + c → x ≠ y →
            DisjRel B M len w A P res.1 bc (res.1.getD x [])
              (res.1.getD y [])) ∧
        ∀ i2, res.2 = some i2 → z0 ≤ i2 ∧ i2 < i0 + c ∧
          ∃ nd cov, (res.1.getD i2 []).get? 0 = some nd ∧ nd.sum = 0 ∧
            Den B M len w A P res.1 bc nd cov := by
  intro c
  induction c with
  | zero =>
    intro i0 tree hbc hz0 hic hsort hgb hne hcd hwr hmix hlen
    refine ⟨(tree, none), rfl, rfl, hsort, hgb, fun j hj => rfl, ?_, ?_⟩
    · intro _
      refine ⟨fun x hx hxl => hwr x hx (by omega), ?_⟩
      intro x y hx hxl hy hyl hxy
      exact hmix x y hxy (Or.inl ⟨hx, by omega⟩) (Or.inl ⟨hy, by omega⟩)
    · intro i2 h
      simp at h
  | succ c ih =>
    intro i0 tree hbc hz0 hic hsort hgb hne hcd hwr hmix hlen
    have hi0bc : i0 < bc := by omega
    have hi0len : i0 < tree.length := by omega
    have hguard : 2 * i0 + 1 < tree.length := by omega
    obtain ⟨covL, hcovL⟩ := hcd (2 * i0) (by omega) (by omega)
    obtain ⟨covR, hcovR⟩ := hcd (2 * i0 + 1) (by omega) (by omega)
    have hneL : tree.getD (2 * i0) [] ≠ [] :=
      hne _ (by omega) (by omega) (by omega)
    have hneR : tree.getD (2 * i0 + 1) [] ≠ [] :=
      hne _ (by omega) (by omega) hguard
    have hLR : Disjoint covL covR := by
      obtain ⟨ndL, hndL⟩ := List.exists_mem_of_ne_nil _ hneL
      obtain ⟨ndR, hndR⟩ := List.exists_mem_of_ne_nil _ hneR
      exact hmix (2 * i0) (2 * i0 + 1) (by omega)
        (Or.inr ⟨by omega, by omega⟩) (Or.inr ⟨by omega, by omega⟩)
        ndL hndL ndR hndR covL covR (hcovL ndL hndL).1 (hcovR ndR hndR).1
    obtain ⟨out, flag, heqm, hssm, hsdm, hzm⟩ :=
      mergeSlot_den hK0 hK hbc hcovL hcovR hLR
        (hsort _ (getD_mem_list (by omega)))
        (hsort _ (getD_mem_list hguard)) hneL hneR clusterSize
    have hagree : ∀ j, bc ≤ j →
        (tree.set i0 out).getD j [] = tree.getD j [] :=
      fun j hj => getD_set_ne (by omega)
    have hsort2 : ∀ slot ∈ tree.set i0 out, SSorted slot := by
      intro slot hslot
      rcases List.mem_or_eq_of_mem_set hslot with hslot | rfl
      · exact hsort _ hslot
      · exact hssm
    have hgb2 : ∀ slot ∈ tree.set i0 out, ∀ nd ∈ slot,
        0 ≤ nd.sum ∧ nd.sum ≤ 2 * K := by
      intro slot hslot nd hnd
      rcases List.mem_or_eq_of_mem_set hslot with hslot | rfl
      · exact hgb _ hslot nd hnd
      · exact ⟨(hsdm nd hnd).2.1, (hsdm nd hnd).2.2⟩
    have hset_i0 : (tree.set i0 out).getD i0 [] = out := getD_set_eq hi0len
    have hsd2 : SlotDen B M len w A P (tree.set i0 out) bc (2 * K) out
        (covL ∪ covR) := by
      intro nd hnd
      obtain ⟨hd, h0, h1⟩ := hsdm nd hnd
      exact ⟨den_transport hagree hd, h0, h1⟩
    have htrans_slot : ∀ x, x ≠ i0 →
        (tree.set i0 out).getD x [] = tree.getD x [] :=
      fun x hx => getD_set_ne (by omega)
    have hcd2 : ∀ x, 2 * (i0 + 1) ≤ x → x < 2 * (i0 + 1 + c) → ∃ cov,
        SlotDen B M len w A P (tree.set i0 out) bc K
          ((tree.set i0 out).getD x []) cov := by
      intro x hx hxl
      obtain ⟨cov, hcov⟩ := hcd x (by omega) (by omega)
      refine ⟨cov, ?_⟩
      rw [htrans_slot x (by omega)]
      intro nd hnd
      obtain ⟨hd, h0, h1⟩ := hcov nd hnd
      exact ⟨den_transport hagree hd, h0, h1⟩
    have hwr2 : ∀ x, z0 ≤ x → x < i0 + 1 → ∃ cov,
        SlotDen B M len w A P (tree.set i0 out) bc (2 * K)
          ((tree.set i0 out).getD x []) cov := by
      intro x hx hxl
      by_cases hxe : x = i0
      · subst hxe
        rw [hset_i0]
        exact ⟨covL ∪ covR, hsd2⟩
      · obtain ⟨cov, hcov⟩ := hwr x hx (by omega)
        refine ⟨cov, ?_⟩
        rw [htrans_slot x hxe]
        intro nd hnd
        obtain ⟨hd, h0, h1⟩ := hcov nd hnd
        exact ⟨den_transport hagree hd, h0, h1⟩
    have hcanon : ∀ u, u ≠ i0 →
        (z0 ≤ u ∧ u < i0 ∨ 2 * i0 ≤ u ∧ u < 2 * (i0 + (c + 1))) →
        ∀ nd ∈ (tree.set i0 out).getD u [], ∃ cov,
          Den B M len w A P (tree.set i0 out) bc nd cov := by
      intro u hu hran nd hnd
      rw [htrans_slot u hu] at hnd
      rcases hran with ⟨h1, h2⟩ | ⟨h1, h2⟩
      · obtain ⟨cov, hcov⟩ := hwr u h1 h2
        exact ⟨cov, den_transport hagree (hcov nd hnd).1⟩
      · obtain ⟨cov, hcov⟩ := hcd u h1 h2
        exact ⟨cov, den_transport hagree (hcov nd hnd).1⟩
    have hmix2 : ∀ x y, x ≠ y →
        (z0 ≤ x ∧ x < i0 + 1 ∨ 2 * (i0 + 1) ≤ x ∧ x < 2 * (i0 + 1 + c)) →
        (z0 ≤ y ∧ y < i0 + 1 ∨ 2 * (i0 + 1) ≤ y ∧ y < 2 * (i0 + 1 + c)) →
        DisjRel B M len w A P (tree.set i0 out) bc
          ((tree.set i0 out).getD x []) ((tree.set i0 out).getD y []) := by
      intro x y hxy hx hy
      have hmain : ∀ v, v ≠ i0 →
          (z0 ≤ v ∧ v < i0 ∨ 2 * (i0 + 1) ≤ v ∧ v < 2 * (i0 + (c + 1))) →
          DisjRel B M len w A P (tree.set i0 out) bc
            ((tree.set i0 out).getD i0 []) ((tree.set i0 out).getD v [])
          := by
        intro v hvne hvran
        have hvran2 : z0 ≤ v ∧ v < i0 ∨
            2 * i0 ≤ v ∧ v < 2 * (i0 + (c + 1)) := by
          rcases hvran with ⟨h1, h2⟩ | ⟨h1, h2⟩
          · exact Or.inl ⟨h1, h2⟩
          · exact Or.inr ⟨by omega, h2⟩
        rw [hset_i0]
        intro nd1 hnd1 nd2 hnd2 c1 c2 hd1 hd2
        have hc1e : c1 = covL ∪ covR := den_unique hd1 (hsd2 nd1 hnd1).1
        obtain ⟨covv, hcovv⟩ := hcanon v hvne hvran2 nd2
          ((htrans_slot v hvne).symm ▸ hnd2)
        have hc2e : c2 = covv := den_unique hd2 hcovv
        rw [hc1e, hc2e, Finset.disjoint_union_left]
        obtain ⟨ndL, hndL⟩ := List.exists_mem_of_ne_nil _ hneL
        obtain ⟨ndR, hndR⟩ := List.exists_mem_of_ne_nil _ hneR
        have hnd2t : nd2 ∈ tree.getD v [] := by
          rw [← htrans_slot v hvne]
          exact hnd2
        have hcovv_t : Den B M len w A P tree bc nd2 covv := by
          have : ∀ nd ∈ tree.getD v [], ∃ cov,
              Den B M len w A P tree bc nd cov := by
            intro nd hnd
            rcases hvran with ⟨h1, h2⟩ | ⟨h1, h2⟩
            · exact ⟨_, ((hwr v h1 h2) |>.choose_spec nd hnd).1⟩
            · exact ⟨_, ((hcd v (by omega) h2) |>.choose_spec nd hnd).1⟩
          obtain ⟨cov2, hcov2⟩ := this nd2 hnd2t
          have hden2 := den_transport hagree hcov2
          rw [den_unique hcovv hden2]
          exact hcov2
        constructor
        · exact hmix (2 * i0) v (by omega)
            (Or.inr ⟨by omega, by omega⟩) hvran2 ndL hndL nd2 hnd2t
            covL covv (hcovL ndL hndL).1 hcovv_t
        · exact hmix (2 * i0 + 1) v (by omega)
            (Or.inr ⟨by omega, by omega⟩) hvran2 ndR hndR nd2 hnd2t
            covR covv (hcovR ndR hndR).1 hcovv_t
      by_cases hxe : x = i0
      · rw [hxe]
        refine hmain y (by omega) ?_
        rcases hy with ⟨h1, h2⟩ | ⟨h1, h2⟩
        · exact Or.inl ⟨h1, by omega⟩
        · exact Or.inr ⟨by omega, by omega⟩
      · by_cases hye : y = i0
        · rw [hye]
          have := hmain x hxe (by
            rcases hx with ⟨h1, h2⟩ | ⟨h1, h2⟩
            · exact Or.inl ⟨h1, by omega⟩
            · exact Or.inr ⟨by omega, by omega⟩)
          intro nd1 hnd1 nd2 hnd2 c1 c2 hd1 hd2
          exact (this nd2 hnd2 nd1 hnd1 c2 c1 hd2 hd1).symm
        · have hxran : z0 ≤ x ∧ x < i0 ∨
              2 * i0 ≤ x ∧ x < 2 * (i0 + (c + 1)) := by
            rcases hx with ⟨h1, h2⟩ | ⟨h1, h2⟩
            · exact Or.inl ⟨h1, by omega⟩
            · exact Or.inr ⟨by omega, by omega⟩
          have hyran : z0 ≤ y ∧ y < i0 ∨
              2 * i0 ≤ y ∧ y < 2 * (i0 + (c + 1)) := by
            rcases hy with ⟨h1, h2⟩ | ⟨h1, h2⟩
            · exact Or.inl ⟨h1, by omega⟩
            · exact Or.inr ⟨by omega, by omega⟩
          rw [htrans_slot x hxe, htrans_slot y hye]
          refine disjrel_upgrade hagree ?_ ?_ (hmix x y hxy hxran hyran)
          · intro nd hnd
            rcases hxran with ⟨h1, h2⟩ | ⟨h1, h2⟩
            · exact ⟨_, ((hwr x h1 h2).choose_spec nd hnd).1⟩
            · exact ⟨_, ((hcd x h1 h2).choose_spec nd hnd).1⟩
          · intro nd hnd
            rcases hyran with ⟨h1, h2⟩ | ⟨h1, h2⟩
            · exact ⟨_, ((hwr y h1 h2).choose_spec nd hnd).1⟩
            · exact ⟨_, ((hcd y h1 h2).choose_spec nd hnd).1⟩
    have hne2 : ∀ x, 2 * (i0 + 1) ≤ x → x < 2 * (i0 + 1 + c) →
        x < (tree.set i0 out).length → (tree.set i0 out).getD x [] ≠ [] :=
      by
      intro x hx hxl hxlen
      rw [htrans_slot x (by omega)]
      rw [List.length_set] at hxlen
      exact hne x (by omega) (by omega) hxlen
    have hlen2 : 2 * (i0 + 1 + c) ≤ (tree.set i0 out).length := by
      rw [List.length_set]
      omega
    cases flag with
    | true =>
      obtain ⟨nd0, hnd0, hnd0z⟩ := hzm rfl
      refine ⟨(tree.set i0 out, some i0), ?_, ?_, hsort2, hgb2, ?_, ?_,
        ?_⟩
      · rw [phaseSlots_succ, if_pos hguard, heqm]
        simp only [Option.bind_eq_bind, Option.some_bind]
        rfl
      · exact List.length_set tree i0 out
      · intro j hj
        exact htrans_slot j (by omega)
      · intro h
        simp at h
      · intro i2 h
        obtain rfl : i0 = i2 := by
          simpa using h
        refine ⟨hz0, by omega, nd0, covL ∪ covR, ?_, hnd0z, ?_⟩
        · rw [hset_i0]
          exact hnd0
        · have hnd0m : nd0 ∈ out := by
            cases out with
            | nil => simp at hnd0
            | cons a rest =>
              obtain rfl := Option.some.inj hnd0
              simp
          exact (hsd2 nd0 hnd0m).1
    | false =>
      obtain ⟨res, heqr, hrlen, hrsort, hrgb, hrkeep, hrnone, hrflag⟩ :=
        ih (by omega) (by omega) (by omega) hsort2 hgb2 hne2 hcd2 hwr2
          hmix2 hlen2
      have heqfull : phaseSlots clusterSize (c + 1) i0 tree = some res := by
        rw [phaseSlots_succ, if_pos hguard, heqm]
        simp only [Option.bind_eq_bind, Option.some_bind]
        exact heqr
      refine ⟨res, heqfull, ?_, hrsort, hrgb, ?_, ?_, ?_⟩
      · rw [hrlen, List.length_set]
      · intro j hj
        rw [hrkeep j (by omega), htrans_slot j (by omega)]
      · intro hnone
        obtain ⟨h1, h2⟩ := hrnone hnone
        refine ⟨fun x hx hxl => h1 x hx (by omega), ?_⟩
        intro x y hx hxl hy hyl hxy
        exact h2 x y hx (by omega) hy (by omega) hxy
      · intro i2 h
        obtain ⟨ha, hb2, hc2⟩ := hrflag i2 h
        exact ⟨ha, by omega, hc2⟩

/-- Slot reads in the spliced arena `take ++ S ++ drop` of `run_phase`. -/
theorem arenaT_getD {tree S : List (List TNode)} {z : ℕ}
    (hS : S.length = 2 * z) (hlen : 4 * z ≤ tree.length) (x : ℕ) :
    (x < 2 * z →
      (tree.take (2 * z) ++ S ++ tree.drop (4 * z)).getD x [] =
        tree.getD x []) ∧
    (2 * z ≤ x → x < 4 * z →
      (tree.take (2 * z) ++ S ++ tree.drop (4 * z)).getD x [] =
        S.getD (x - 2 * z) []) ∧
    (4 * z ≤ x →
      (tree.take (2 * z) ++ S ++ tree.drop (4 * z)).getD x [] =
        tree.getD x []) := by
  have htake_len : (tree.take (2 * z)).length = 2 * z := by
    rw [List.length_take]
    omega
  refine ⟨?_, ?_, ?_⟩
  · intro hx
    have hjlt : x < ((tree.take (2 * z)) ++ S).length := by
      rw [List.length_append, htake_len, hS]
      omega
    rw [List.getD_append _ _ _ _ hjlt,
      List.getD_append _ _ _ _ (by rw [htake_len]; omega)]
    rw [List.getD_eq_getElem _ _ (by rw [htake_len]; omega),
      List.getD_eq_getElem _ _ (show x < tree.length by omega)]
    rw [List.getElem_take _]
  · intro hx1 hx2
    have hjlt : x < ((tree.take (2 * z)) ++ S).length := by
      rw [List.length_append, htake_len, hS]
      omega
    rw [List.getD_append _ _ _ _ hjlt,
      List.getD_append_right _ _ _ _ (by rw [htake_len]; omega)]
    rw [htake_len]
  · intro hx
    have hfl : ((tree.take (2 * z)) ++ S).length = 4 * z := by
      rw [List.length_append, htake_len, hS]
      omega
    rw [List.getD_append_right _ _ _ _ (by rw [hfl]; omega), hfl]
    by_cases hxl : x < tree.length
    · obtain ⟨k, rfl⟩ : ∃ k, x = 4 * z + k := ⟨x - 4 * z, by omega⟩
      have hke : 4 * z + k - 4 * z = k := by omega
      rw [hke]
      rw [List.getD_eq_getElem _ _
          (show k < (tree.drop (4 * z)).length by
            rw [List.length_drop]; omega),
        List.getD_eq_getElem _ _ (show 4 * z + k < tree.length by omega)]
      rw [List.getElem_drop _]
    · rw [List.getD_eq_default _ _ (by rw [List.length_drop]; omega),
        List.getD_eq_default _ _ (by omega)]

/-- The heart of `run_phase`, semantically: merging every slot of the
re-sorted arena either re-establishes the level invariant one level up
or flags a slot headed by a zero-sum denoting node. -/
theorem runPhase_den_core {B M : ℤ} {len w : ℕ} {A : List Word}
    {P : Word → Word → Prop} {K : ℤ} (hK0 : 0 ≤ K)
    (hK : 2 * K + 2 ≤ 2 ^ 127) (clusterSize : ℕ)
    {tree S : List (List TNode)} {z : ℕ}
    (hlen : 4 * z ≤ tree.length)
    (hS : S.Perm ((tree.drop (2 * z)).take (2 * z)))
    (hsorted : ∀ slot ∈ tree, SSorted slot)
    (hgb : ∀ slot ∈ tree, ∀ nd ∈ slot, 0 ≤ nd.sum ∧ nd.sum ≤ 2 * K)
    (hne : ∀ x, 2 * z ≤ x → x < 4 * z →
      (tree.take (2 * z) ++ S ++ tree.drop (4 * z)).getD x [] ≠ [])
    (hinv : PhaseInv B M len w A P tree K (2 * z)) :
    ∃ res, phaseSlots clusterSize z z
        (tree.take (2 * z) ++ S ++ tree.drop (4 * z)) = some res ∧
      res.1.length = tree.length ∧
      (∀ slot ∈ res.1, SSorted slot) ∧
      (∀ slot ∈ res.1, ∀ nd ∈ slot, 0 ≤ nd.sum ∧ nd.sum ≤ 2 * K) ∧
      (∀ j, j < z → res.1.getD j [] = tree.getD j []) ∧
      (res.2 = none → PhaseInv B M len w A P res.1 (2 * K) z) ∧
      (∀ i2, res.2 = some i2 → z ≤ i2 ∧ i2 < 2 * z ∧
        ∃ nd cov, (res.1.getD i2 []).get? 0 = some nd ∧ nd.sum = 0 ∧
          Den B M len w A P res.1 (2 * z) nd cov) := by
  have htake_len : (tree.take (2 * z)).length = 2 * z := by
    rw [List.length_take]
    omega
  have hS_len : S.length = 2 * z := by
    rw [hS.length_eq, List.length_take, List.length_drop]
    omega
  have hTlen : (tree.take (2 * z) ++ S ++ tree.drop (4 * z)).length
      = tree.length := by
    simp only [List.length_append, htake_len, hS_len, List.length_drop]
    omega
  have hTlow : ∀ x, x < 2 * z →
      (tree.take (2 * z) ++ S ++ tree.drop (4 * z)).getD x [] =
        tree.getD x [] :=
    fun x hx => (arenaT_getD hS_len hlen x).1 hx
  have hTmid : ∀ x, 2 * z ≤ x → x < 4 * z →
      (tree.take (2 * z) ++ S ++ tree.drop (4 * z)).getD x [] =
        S.getD (x - 2 * z) [] :=
    fun x hx1 hx2 => (arenaT_getD hS_len hlen x).2.1 hx1 hx2
  have hagree : ∀ j, 2 * (2 * z) ≤ j →
      (tree.take (2 * z) ++ S ++ tree.drop (4 * z)).getD j [] =
        tree.getD j [] :=
    fun j hj => (arenaT_getD hS_len hlen j).2.2 (by omega)
  have hTmem : ∀ slot ∈ tree.take (2 * z) ++ S ++ tree.drop (4 * z),
      slot ∈ tree := by
    intro slot hslot
    rcases List.mem_append.mp hslot with h | h
    · rcases List.mem_append.mp h with h | h
      · exact List.take_subset _ _ h
      · exact List.drop_subset _ _
          (List.take_subset _ _ (hS.mem_iff.mp h))
    · exact List.drop_subset _ _ h
  have hSslot : ∀ k, k < 2 * z → ∃ y, 2 * z ≤ y ∧ y < 4 * z ∧
      S.getD k [] = tree.getD y [] := by
    intro k hk
    have hkS : k < S.length := by
      rw [hS_len]
      omega
    have hmem : S.getD k [] ∈ S :=
      @getD_mem_list (List TNode) _ _ ([] : List TNode) hkS
    obtain ⟨j, hj, hjeq⟩ := List.mem_iff_getElem.mp (hS.mem_iff.mp hmem)
    have hjlen : j < 2 * z := by
      rw [List.length_take, List.length_drop] at hj
      omega
    have hge : ((tree.drop (2 * z)).take (2 * z)).getD j [] =
        ((tree.drop (2 * z)).take (2 * z))[j] :=
      List.getD_eq_getElem _ _ hj
    refine ⟨2 * z + j, by omega, by omega, ?_⟩
    rw [← hjeq, ← hge, slice_getD hjlen (by omega)]
  have hsortT : ∀ slot ∈ tree.take (2 * z) ++ S ++ tree.drop (4 * z),
      SSorted slot := fun slot hs => hsorted _ (hTmem _ hs)
  have hgbT : ∀ slot ∈ tree.take (2 * z) ++ S ++ tree.drop (4 * z),
      ∀ nd ∈ slot, 0 ≤ nd.sum ∧ nd.sum ≤ 2 * K :=
    fun slot hs => hgb _ (hTmem _ hs)
  have hcdT : ∀ x, 2 * z ≤ x → x < 2 * (z + z) → ∃ cov,
      SlotDen B M len w A P
        (tree.take (2 * z) ++ S ++ tree.drop (4 * z)) (2 * z) K
        ((tree.take (2 * z) ++ S ++ tree.drop (4 * z)).getD x [])
        cov := by
    intro x hx hxl
    obtain ⟨y, hy1, hy2, hyeq⟩ := hSslot (x - 2 * z) (by omega)
    obtain ⟨cov, hcov⟩ := hinv.hden y hy1 (by omega)
    refine ⟨cov, ?_⟩
    rw [hTmid x hx (by omega), hyeq]
    intro nd hnd
    obtain ⟨hd, h0, h1⟩ := hcov nd hnd
    exact ⟨den_mono (by omega) (den_transport hagree hd), h0, h1⟩
  have hwrT : ∀ x, z ≤ x → x < z → ∃ cov,
      SlotDen B M len w A P
        (tree.take (2 * z) ++ S ++ tree.drop (4 * z)) (2 * z) (2 * K)
        ((tree.take (2 * z) ++ S ++ tree.drop (4 * z)).getD x [])
        cov :=
    fun x hx hxl => absurd hxl (by omega)
  have hsymm : Symmetric
      (DisjRel B M len w A P tree (2 * (2 * z))) := by
    intro s1 s2 h nd2 hnd2 nd1 hnd1 c2 c1 hd2 hd1
    exact (h nd1 hnd1 nd2 hnd2 c1 c2 hd1 hd2).symm
  have hSpair : S.Pairwise (DisjRel B M len w A P tree (2 * (2 * z))) :=
    (hS.pairwise_iff fun h12 => hsymm h12).mpr hinv.hdisj
  have hcanS : ∀ k, k < 2 * z → ∀ nd ∈ S.getD k [], ∃ cov,
      Den B M len w A P tree (2 * (2 * z)) nd cov := by
    intro k hk
    obtain ⟨y, hy1, hy2, hyeq⟩ := hSslot k hk
    rw [hyeq]
    intro nd hnd
    obtain ⟨cov, hcov⟩ := hinv.hden y hy1 (by omega)
    exact ⟨cov, (hcov nd hnd).1⟩
  have hmixT : ∀ x y, x ≠ y →
      (z ≤ x ∧ x < z ∨ 2 * z ≤ x ∧ x < 2 * (z + z)) →
      (z ≤ y ∧ y < z ∨ 2 * z ≤ y ∧ y < 2 * (z + z)) →
      DisjRel B M len w A P
        (tree.take (2 * z) ++ S ++ tree.drop (4 * z)) (2 * z)
        ((tree.take (2 * z) ++ S ++ tree.drop (4 * z)).getD x [])
        ((tree.take (2 * z) ++ S ++ tree.drop (4 * z)).getD y []) := by
    intro x y hxy hx hy
    have hx2 : 2 * z ≤ x ∧ x < 4 * z := by
      rcases hx with ⟨h1, h2⟩ | ⟨h1, h2⟩ <;> omega
    have hy2 : 2 * z ≤ y ∧ y < 4 * z := by
      rcases hy with ⟨h1, h2⟩ | ⟨h1, h2⟩ <;> omega
    rw [hTmid x hx2.1 hx2.2, hTmid y hy2.1 hy2.2]
    have hxS : x - 2 * z < S.length := by
      rw [hS_len]
      omega
    have hyS : y - 2 * z < S.length := by
      rw [hS_len]
      omega
    have hpair := List.pairwise_iff_getElem.mp hSpair
    have hgx : S.getD (x - 2 * z) [] = S[x - 2 * z] :=
      List.getD_eq_getElem _ _ hxS
    have hgy : S.getD (y - 2 * z) [] = S[y - 2 * z] :=
      List.getD_eq_getElem _ _ hyS
    have hdrel : DisjRel B M len w A P tree (2 * (2 * z))
        (S.getD (x - 2 * z) []) (S.getD (y - 2 * z) []) := by
      rcases Nat.lt_or_ge (x - 2 * z) (y - 2 * z) with hlt | hge
      · rw [hgx, hgy]
        exact hpair _ _ hxS hyS hlt
      · have hgt : y - 2 * z < x - 2 * z := by omega
        rw [hgx, hgy]
        exact hsymm (hpair _ _ hyS hxS hgt)
    exact disjrel_upgrade hagree
      (hcanS (x - 2 * z) (by omega)) (hcanS (y - 2 * z) (by omega))
      hdrel
  have hneT : ∀ x, 2 * z ≤ x → x < 2 * (z + z) →
      x < (tree.take (2 * z) ++ S ++ tree.drop (4 * z)).length →
      (tree.take (2 * z) ++ S ++ tree.drop (4 * z)).getD x [] ≠ [] :=
    fun x h1 h2 _ => hne x h1 (by omega)
  have hlenT : 2 * (z + z) ≤
      (tree.take (2 * z) ++ S ++ tree.drop (4 * z)).length := by
    rw [hTlen]
    omega
  obtain ⟨res, heqps, hlen2, hsort2, hgb2, hkeep2, hnone2, hflag2⟩ :=
    @phaseSlots_den B M len w A P K hK0 hK clusterSize (2 * z) z z z
      (tree.take (2 * z) ++ S ++ tree.drop (4 * z))
      (by omega) (by omega) (by omega) hsortT hgbT hneT hcdT hwrT
      hmixT hlenT
  refine ⟨res, heqps, ?_, hsort2, hgb2, ?_, ?_, ?_⟩
  · rw [hlen2, hTlen]
  · intro j hj
    rw [hkeep2 j (Or.inl hj), hTlow j (by omega)]
  · intro hnone
    obtain ⟨hwr3, hdj3⟩ := hnone2 hnone
    refine ⟨?_, ?_⟩
    · intro x hx hxl
      exact hwr3 x hx (by omega)
    · rw [List.pairwise_iff_getElem]
      intro a b ha hb hab
      have hsl : ((res.1.drop z).take z).length = z := by
        rw [List.length_take, List.length_drop, hlen2, hTlen]
        omega
      rw [hsl] at ha hb
      have hrl : res.1.length = tree.length := by
        rw [hlen2, hTlen]
      have hgEa : ((res.1.drop z).take z)[a] = res.1.getD (z + a) [] := by
        rw [List.getElem_take _, List.getElem_drop _]
        rw [List.getD_eq_getElem _ _ (by rw [hrl]; omega)]
      have hgEb : ((res.1.drop z).take z)[b] = res.1.getD (z + b) [] := by
        rw [List.getElem_take _, List.getElem_drop _]
        rw [List.getD_eq_getElem _ _ (by rw [hrl]; omega)]
      rw [hgEa, hgEb]
      exact hdj3 (z + a) (z + b) (by omega) (by omega) (by omega)
        (by omega) (by omega)
  · intro i2 h
    obtain ⟨h1, h2, h3⟩ := hflag2 i2 h
    exact ⟨h1, by omega, h3⟩

/-- `run_phase`, semantically: the returned arena keeps its shape,
stays sorted and bounded, leaves the older levels untouched, and either
re-establishes the level invariant one level up (no flag) or flags a
slot whose head is a zero-sum denoting node. -/
theorem runPhase_den {o : Oracle} (hgood : o.Good) {B M : ℤ}
    {len w : ℕ} {A : List Word} {P : Word → Word → Prop} {K : ℤ}
    (hK0 : 0 ≤ K) (hK : 2 * K + 2 ≤ 2 ^ 127) {clusterSize : ℕ}
    {tree : List (List TNode)} {p : ℕ}
    {res : List (List TNode) × Option ℕ}
    (hsorted : ∀ slot ∈ tree, SSorted slot)
    (hgb : ∀ slot ∈ tree, ∀ nd ∈ slot, 0 ≤ nd.sum ∧ nd.sum ≤ 2 * K)
    (hinv : PhaseInv B M len w A P tree K (2 * 2 ^ p))
    (heq : runPhase o clusterSize tree p = some res) :
    4 * 2 ^ p ≤ tree.length ∧
    res.1.length = tree.length ∧
    (∀ slot ∈ res.1, SSorted slot) ∧
    (∀ slot ∈ res.1, ∀ nd ∈ slot, 0 ≤ nd.sum ∧ nd.sum ≤ 2 * K) ∧
    (∀ j, j < 2 ^ p → res.1.getD j [] = tree.getD j []) ∧
    (res.2 = none → PhaseInv B M len w A P res.1 (2 * K) (2 ^ p)) ∧
    (∀ i2, res.2 = some i2 → 2 ^ p ≤ i2 ∧ i2 < 2 * 2 ^ p ∧
      ∃ nd cov, (res.1.getD i2 []).get? 0 = some nd ∧ nd.sum = 0 ∧
        Den B M len w A P res.1 (2 * 2 ^ p) nd cov) := by
  unfold runPhase at heq
  by_cases hlen : 4 * 2 ^ p ≤ tree.length
  case neg =>
    rw [if_neg hlen] at heq
    simp at heq
  rw [if_pos hlen] at heq
  by_cases hany : ((tree.drop (2 * 2 ^ p)).take (2 * 2 ^ p)).any
      (·.isEmpty) = true
  case pos =>
    rw [if_pos hany] at heq
    simp at heq
  rw [if_neg hany] at heq
  rw [Bool.not_eq_true] at hany
  obtain ⟨hTlen, hTmem, hTne⟩ := slice_props hgood hlen hany rfl
  have hperm := (hgood.2 (fun c => (c.headD (TNode.leaf 0 0 [] [])).sum)
    ((tree.drop (2 * 2 ^ p)).take (2 * 2 ^ p))).1
  obtain ⟨res2, heq2, hc1, hc2, hc3, hc4, hc5, hc6⟩ :=
    runPhase_den_core hK0 hK clusterSize hlen hperm hsorted hgb
      (fun x h1 h2 => hTne x h1 (by omega)) hinv
  rw [heq2] at heq
  obtain rfl := Option.some.inj heq
  exact ⟨hlen, hc1, hc2, hc3, hc4, hc5, hc6⟩

/-! ### Semantics of `construct_solution` -/

/-- Sign applied by a flip bit. -/
def sgnIf (m : Bool) (v : ℤ) : ℤ := if m then -v else v

/-- Total recorded polynomial contribution of a words array. -/
def wcontrib (B : ℤ) (len w : ℕ)
    (words : List (Option (Word × Word))) : ℤ :=
  ∑ j ∈ Finset.range words.length,
    ((words.getD j none).elim 0 fun pr =>
      (polySumZ B pr.1 - polySumZ B pr.2) * B ^ ((len - 1 - j) * w))

theorem wcontrib_set {B : ℤ} {len w : ℕ}
    {words : List (Option (Word × Word))} {idx : ℕ} {pr : Word × Word}
    (hidx : idx < words.length)
    (hnone : words.getD idx none = none) :
    wcontrib B len w (words.set idx (some pr)) =
      wcontrib B len w words +
        (polySumZ B pr.1 - polySumZ B pr.2) *
          B ^ ((len - 1 - idx) * w) := by
  unfold wcontrib
  rw [List.length_set]
  rw [← Finset.sum_erase_add _ _ (Finset.mem_range.mpr hidx)]
  conv_rhs => rw [← Finset.sum_erase_add _ _ (Finset.mem_range.mpr hidx)]
  have hfi : ∀ j ∈ (Finset.range words.length).erase idx,
      (((words.set idx (some pr)).getD j none).elim 0 fun pr2 =>
        (polySumZ B pr2.1 - polySumZ B pr2.2) *
          B ^ ((len - 1 - j) * w)) =
      ((words.getD j none).elim 0 fun pr2 =>
        (polySumZ B pr2.1 - polySumZ B pr2.2) *
          B ^ ((len - 1 - j) * w)) := by
    intro j hj
    rw [getD_set_ne (Ne.symm (Finset.mem_erase.mp hj).1)]
  rw [Finset.sum_congr rfl hfi, getD_set_eq hidx, hnone]
  simp only [Option.elim_none, Option.elim_some]
  ring

theorem sgnIf_split {m ml mr : Bool} {sl sr : ℤ} :
    sgnIf m ((if ml then -sl else sl) + (if mr then -sr else sr)) =
      sgnIf (xor m ml) sl + sgnIf (xor m mr) sr := by
  cases m <;> cases ml <;> cases mr <;> simp [sgnIf] <;> ring

/-- A BFS queue entry together with the node it addresses and that
node's cover. -/
def QEnt (B M : ℤ) (len w : ℕ) (A : List Word)
    (P : Word → Word → Prop) (tree : List (List TNode)) (b : ℕ)
    (q : (ℕ × ℕ × Bool) × TNode × Finset ℕ) : Prop :=
  ∃ slot, tree.get? q.1.1 = some slot ∧
    slot.get? q.1.2.1 = some q.2.1 ∧
    Den B M len w A P tree b q.2.1 q.2.2

theorem get?_eq_getD {α : Type} {l : List α} {i : ℕ} {d : α}
    (h : i < l.length) : l.get? i = some (l.getD i d) := by
  rw [List.get?_eq_get h]
  congr 1
  rw [List.getD_eq_getElem _ _ h]
  rfl

/-- Definitional unfolding of one BFS step. -/
theorem bfsLoop_cons {tree : List (List TNode)} {fuel x pos : ℕ}
    {m : Bool} {rest : List (ℕ × ℕ × Bool)}
    {words : List (Option (Word × Word))} :
    bfsLoop tree (fuel + 1) ((x, pos, m) :: rest) words =
    (do
      let slot ← tree.get? x
      let node ← slot.get? pos
      match node with
      | TNode.internal _ idx rl rr pl pr =>
        bfsLoop tree fuel
          (rest ++ [(2 * idx, pl, xor m rl), (2 * idx + 1, pr, xor m rr)])
          words
      | TNode.leaf _ idx w1 w2 =>
        if idx < words.length then
          bfsLoop tree fuel rest
            (words.set idx (some (if m then (w2, w1) else (w1, w2))))
        else none) := rfl

@[reducible] def qChildren (i pL pR : ℕ) (m ml mr : Bool)
    (ndL ndR : TNode) (covL covR : Finset ℕ) :
    List ((ℕ × ℕ × Bool) × TNode × Finset ℕ) :=
  [⟨(2 * i, pL, xor m ml), ndL, covL⟩,
    ⟨(2 * i + 1, pR, xor m mr), ndR, covR⟩]

/-- The BFS records, at every covered position, an alphabet pair related
by `P` (in recorded or swapped order), and adds to the recorded
contribution the flip-signed sum of every queued node, modulo `M`. -/
theorem bfsLoop_sem {B M : ℤ} {len w : ℕ} {A : List Word}
    {P : Word → Word → Prop} {tree : List (List TNode)} {b : ℕ} :
    ∀ {fuel : ℕ} {qs : List ((ℕ × ℕ × Bool) × TNode × Finset ℕ)}
      {words : List (Option (Word × Word))},
      (∀ q ∈ qs, QEnt B M len w A P tree b q) →
      qs.Pairwise (fun q1 q2 => Disjoint q1.2.2 q2.2.2) →
      (∀ q ∈ qs, ∀ j ∈ q.2.2, words.getD j none = none) →
      (∀ q ∈ qs, ∀ j ∈ q.2.2, j < words.length) →
      (qs.map fun q => 2 * q.2.2.card - 1).sum + 1 ≤ fuel →
      ∃ words2,
        bfsLoop tree fuel (qs.map fun q => q.1) words = some words2 ∧
        words2.length = words.length ∧
        (∀ j, words.getD j none ≠ none →
          words2.getD j none = words.getD j none) ∧
        (∀ j, words2.getD j none ≠ none →
          words.getD j none ≠ none ∨ ∃ q ∈ qs, j ∈ q.2.2) ∧
        (∀ q ∈ qs, ∀ j ∈ q.2.2, ∃ a c, a ∈ A ∧ c ∈ A ∧ P a c ∧
          (words2.getD j none = some (a, c) ∨
            words2.getD j none = some (c, a))) ∧
        Int.ModEq M (wcontrib B len w words2)
          (wcontrib B len w words +
            (qs.map fun q => sgnIf q.1.2.2 q.2.1.sum).sum) := by
  intro fuel
  induction fuel with
  | zero =>
    intro qs words hq hpw hfree hlt hfuel
    exact absurd hfuel (by omega)
  | succ f ih =>
    intro qs words hq hpw hfree hlt hfuel
    cases qs with
    | nil =>
      refine ⟨words, rfl, rfl, fun j h => rfl, fun j h => Or.inl h,
        ?_, ?_⟩
      · intro q hq2
        simp at hq2
      · simp only [List.map_nil, List.sum_nil, add_zero]
        exact Int.ModEq.refl _
    | cons q rest =>
      obtain ⟨⟨x, pos, m⟩, nd, cov⟩ := q
      obtain ⟨slot, hslot, hnode, hden⟩ := hq _ (List.mem_cons_self _ _)
      obtain ⟨hhead, hrest_pw⟩ := List.pairwise_cons.mp hpw
      have hqrest : ∀ q' ∈ rest, QEnt B M len w A P tree b q' :=
        fun q' h => hq _ (List.mem_cons_of_mem _ h)
      cases hden with
      | @leaf s idx w1 w2 hidx hw1 hw2 hPw hmod =>
        have hstep : bfsLoop tree (f + 1)
            ((x, pos, m) :: rest.map fun q2 => q2.1) words =
            if idx < words.length then
              bfsLoop tree f (rest.map fun q2 => q2.1)
                (words.set idx (some (if m then (w2, w1) else (w1, w2))))
            else none := by
          rw [bfsLoop_cons, hslot]
          simp only [Option.bind_eq_bind, Option.some_bind]
          rw [hnode]
          simp only [Option.some_bind]
        have hlt0 : idx < words.length :=
          hlt _ (List.mem_cons_self _ _) idx (Finset.mem_singleton_self idx)
        rw [if_pos hlt0] at hstep
        have hfree0 : words.getD idx none = none :=
          hfree _ (List.mem_cons_self _ _) idx
            (Finset.mem_singleton_self idx)
        have hfree2 : ∀ q' ∈ rest, ∀ j ∈ q'.2.2,
            (words.set idx
              (some (if m then (w2, w1) else (w1, w2)))).getD j none =
              none := by
          intro q' h j hj
          have hd := hhead q' h
          have hne : idx ≠ j := by
            intro he
            subst he
            exact (Finset.disjoint_singleton_left.mp hd) hj
          rw [getD_set_ne hne]
          exact hfree _ (List.mem_cons_of_mem _ h) j hj
        have hlenset :
            (words.set idx
              (some (if m then (w2, w1) else (w1, w2)))).length =
              words.length := List.length_set _ _ _
        have hlt2 : ∀ q' ∈ rest, ∀ j ∈ q'.2.2,
            j < (words.set idx
              (some (if m then (w2, w1) else (w1, w2)))).length := by
          intro q' h j hj
          rw [hlenset]
          exact hlt _ (List.mem_cons_of_mem _ h) j hj
        have hfuel0 : 2 * ({idx} : Finset ℕ).card - 1 +
            ((rest.map fun q2 => 2 * q2.2.2.card - 1).sum) + 1 ≤ f + 1 :=
          hfuel
        have hfuel2 :
            (rest.map fun q2 => 2 * q2.2.2.card - 1).sum + 1 ≤ f := by
          rw [Finset.card_singleton] at hfuel0
          omega
        obtain ⟨words2, heq2, hlen2, hkeep2, hnew2, hcov2, hmod2⟩ :=
          ih hqrest hrest_pw hfree2 hlt2 hfuel2
        refine ⟨words2, ?_, ?_, ?_, ?_, ?_, ?_⟩
        · exact hstep.trans heq2
        · rw [hlen2, hlenset]
        · intro j hj
          have hne : idx ≠ j := by
            intro he
            subst he
            exact hj hfree0
          have hsetj : (words.set idx
              (some (if m then (w2, w1) else (w1, w2)))).getD j none =
              words.getD j none := getD_set_ne hne
          rw [hkeep2 j (by rw [hsetj]; exact hj), hsetj]
        · intro j hj
          rcases hnew2 j hj with h | ⟨q', hq', hjq⟩
          · by_cases hje : j = idx
            · subst hje
              exact Or.inr ⟨_, List.mem_cons_self _ _,
                Finset.mem_singleton_self j⟩
            · rw [getD_set_ne (Ne.symm hje)] at h
              exact Or.inl h
          · exact Or.inr ⟨q', List.mem_cons_of_mem _ hq', hjq⟩
        · intro q' hmem j hj
          rcases List.mem_cons.mp hmem with rfl | h
          · have hje : j = idx := Finset.mem_singleton.mp hj
            subst hje
            have hset : (words.set j
                (some (if m then (w2, w1) else (w1, w2)))).getD j none =
                some (if m then (w2, w1) else (w1, w2)) :=
              getD_set_eq hlt0
            have hkj : words2.getD j none =
                some (if m then (w2, w1) else (w1, w2)) := by
              rw [hkeep2 j (by rw [hset]; simp), hset]
            refine ⟨w1, w2, hw1, hw2, hPw, ?_⟩
            cases m
            · exact Or.inl (by simpa using hkj)
            · exact Or.inr (by simpa using hkj)
          · exact hcov2 q' h j hj
        · have hws : wcontrib B len w
              (words.set idx (some (if m then (w2, w1) else (w1, w2)))) =
              wcontrib B len w words +
                (polySumZ B (if m then (w2, w1) else (w1, w2)).1 -
                  polySumZ B (if m then (w2, w1) else (w1, w2)).2) *
                  B ^ ((len - 1 - idx) * w) :=
            wcontrib_set hlt0 hfree0
          have hsgn : (polySumZ B (if m then (w2, w1) else (w1, w2)).1 -
              polySumZ B (if m then (w2, w1) else (w1, w2)).2) *
                B ^ ((len - 1 - idx) * w) =
              sgnIf m ((polySumZ B w1 - polySumZ B w2) *
                B ^ ((len - 1 - idx) * w)) := by
            cases m <;> simp [sgnIf] <;> ring
          have hterm : Int.ModEq M
              (sgnIf m ((polySumZ B w1 - polySumZ B w2) *
                B ^ ((len - 1 - idx) * w))) (sgnIf m s) := by
            cases m
            · exact hmod.symm
            · exact Int.ModEq.neg hmod.symm
          have h1 := hmod2
          rw [hws, hsgn] at h1
          have h2 : Int.ModEq M
              (wcontrib B len w words +
                sgnIf m ((polySumZ B w1 - polySumZ B w2) *
                  B ^ ((len - 1 - idx) * w)) +
                (rest.map fun q2 => sgnIf q2.1.2.2 q2.2.1.sum).sum)
              (wcontrib B len w words + (sgnIf m s +
                (rest.map fun q2 => sgnIf q2.1.2.2 q2.2.1.sum).sum)) := by
            have h3 := Int.ModEq.add_right
              ((rest.map fun q2 => sgnIf q2.1.2.2 q2.2.1.sum).sum)
              (Int.ModEq.add_left (wcontrib B len w words) hterm)
            refine h3.trans ?_
            rw [add_assoc]
          exact h1.trans h2
      | @internal s i ml mr pL pR ndL ndR covL covR hb2 hgL hgR hdL
          hdR hdisj2 hveq =>
        have hstep : bfsLoop tree (f + 1)
            ((x, pos, m) :: rest.map fun q2 => q2.1) words =
            bfsLoop tree f ((rest.map fun q2 => q2.1) ++
              [(2 * i, pL, xor m ml), (2 * i + 1, pR, xor m mr)])
              words := by
          rw [bfsLoop_cons, hslot]
          simp only [Option.bind_eq_bind, Option.some_bind]
          rw [hnode]
          simp only [Option.some_bind]
        have hxlen : 2 * i < tree.length := by
          by_contra hcon
          rw [List.getD_eq_default _ _ (by omega)] at hgL
          simp at hgL
        have hxlen2 : 2 * i + 1 < tree.length := by
          by_contra hcon
          rw [List.getD_eq_default _ _ (by omega)] at hgR
          simp at hgR
        have hmap2 : ((rest ++ qChildren i pL pR m ml mr ndL ndR covL covR).map
              fun q2 => q2.1) =
            (rest.map fun q2 => q2.1) ++
              [(2 * i, pL, xor m ml), (2 * i + 1, pR, xor m mr)] := by
          rw [List.map_append]
          rfl
        have hq2 : ∀ q' ∈ rest ++ qChildren i pL pR m ml mr ndL ndR covL covR,
            QEnt B M len w A P tree b q' := by
          intro q' hmem
          rcases List.mem_append.mp hmem with h | h
          · exact hqrest _ h
          rcases List.mem_cons.mp h with rfl | h
          · exact ⟨_, get?_eq_getD hxlen, hgL, hdL⟩
          obtain rfl := List.mem_singleton.mp h
          exact ⟨_, get?_eq_getD hxlen2, hgR, hdR⟩
        have hpw2 : (rest ++ qChildren i pL pR m ml mr ndL ndR covL covR).Pairwise
            (fun q1 q2 => Disjoint q1.2.2 q2.2.2) := by
          rw [List.pairwise_append]
          refine ⟨hrest_pw, ?_, ?_⟩
          · refine List.Pairwise.cons ?_ (List.pairwise_singleton _ _)
            intro q' hq'
            obtain rfl := List.mem_singleton.mp hq'
            exact hdisj2
          · intro a2 ha b2 hb2m
            have hda := (hhead a2 ha).symm
            rcases List.mem_cons.mp hb2m with rfl | h
            · exact hda.mono_right Finset.subset_union_left
            obtain rfl := List.mem_singleton.mp h
            exact hda.mono_right Finset.subset_union_right
        have hfree2 : ∀ q' ∈ rest ++ qChildren i pL pR m ml mr ndL ndR covL covR, ∀ j ∈ q'.2.2,
            words.getD j none = none := by
          intro q' hmem j hj
          rcases List.mem_append.mp hmem with h | h
          · exact hfree _ (List.mem_cons_of_mem _ h) j hj
          · have hjcov : j ∈ covL ∪ covR := by
              rcases List.mem_cons.mp h with rfl | h
              · exact Finset.mem_union_left _ hj
              obtain rfl := List.mem_singleton.mp h
              exact Finset.mem_union_right _ hj
            exact hfree _ (List.mem_cons_self _ _) j hjcov
        have hlt2 : ∀ q' ∈ rest ++ qChildren i pL pR m ml mr ndL ndR covL covR, ∀ j ∈ q'.2.2,
            j < words.length := by
          intro q' hmem j hj
          rcases List.mem_append.mp hmem with h | h
          · exact hlt _ (List.mem_cons_of_mem _ h) j hj
          · have hjcov : j ∈ covL ∪ covR := by
              rcases List.mem_cons.mp h with rfl | h
              · exact Finset.mem_union_left _ hj
              obtain rfl := List.mem_singleton.mp h
              exact Finset.mem_union_right _ hj
            exact hlt _ (List.mem_cons_self _ _) j hjcov
        have hcL : 0 < covL.card := Finset.card_pos.mpr (den_nonempty hdL)
        have hcR : 0 < covR.card := Finset.card_pos.mpr (den_nonempty hdR)
        have hcsum : (covL ∪ covR).card = covL.card + covR.card :=
          Finset.card_union_of_disjoint hdisj2
        have hfuel0 : 2 * (covL ∪ covR).card - 1 +
            ((rest.map fun q2 => 2 * q2.2.2.card - 1).sum) + 1 ≤ f + 1 :=
          hfuel
        have hpairsum : ((qChildren i pL pR m ml mr ndL ndR covL covR).map
              fun q2 => 2 * q2.2.2.card - 1).sum =
            2 * covL.card - 1 + (2 * covR.card - 1) := rfl
        have hfuel2 : ((rest ++ qChildren i pL pR m ml mr ndL ndR covL covR).map
              fun q2 => 2 * q2.2.2.card - 1).sum + 1 ≤ f := by
          rw [List.map_append, List.sum_append, hpairsum]
          omega
        obtain ⟨words2, heq2, hlen2, hkeep2, hnew2, hcov2, hmod2⟩ :=
          ih hq2 hpw2 hfree2 hlt2 hfuel2
        rw [hmap2] at heq2
        refine ⟨words2, ?_, hlen2, hkeep2, ?_, ?_, ?_⟩
        · exact hstep.trans heq2
        · intro j hj
          rcases hnew2 j hj with h | ⟨q', hq', hjq⟩
          · exact Or.inl h
          · rcases List.mem_append.mp hq' with h | h
            · exact Or.inr ⟨q', List.mem_cons_of_mem _ h, hjq⟩
            · refine Or.inr ⟨_, List.mem_cons_self _ _, ?_⟩
              rcases List.mem_cons.mp h with rfl | h
              · exact Finset.mem_union_left _ hjq
              obtain rfl := List.mem_singleton.mp h
              exact Finset.mem_union_right _ hjq
        · intro q' hmem j hj
          rcases List.mem_cons.mp hmem with rfl | h
          · rcases Finset.mem_union.mp hj with hjL | hjR
            · exact hcov2 _ (List.mem_append.mpr
                (Or.inr (List.mem_cons_self _ _))) j hjL
            · exact hcov2 ⟨(2 * i + 1, pR, xor m mr), ndR, covR⟩
                (List.mem_append.mpr (Or.inr (by simp [qChildren]))) j hjR
          · exact hcov2 _ (List.mem_append.mpr (Or.inl h)) j hj
        · have hs1 : sgnIf m s =
              sgnIf (xor m ml) ndL.sum + sgnIf (xor m mr) ndR.sum := by
            rw [hveq]
            exact sgnIf_split
          have hsum2 : ((rest ++ qChildren i pL pR m ml mr ndL ndR covL covR).map
                fun q2 => sgnIf q2.1.2.2 q2.2.1.sum).sum =
              (rest.map fun q2 => sgnIf q2.1.2.2 q2.2.1.sum).sum +
                (sgnIf (xor m ml) ndL.sum + sgnIf (xor m mr) ndR.sum) := by
            rw [List.map_append, List.sum_append]
            congr 1
            simp
          have hcomm : wcontrib B len w words +
              ((rest.map fun q2 => sgnIf q2.1.2.2 q2.2.1.sum).sum +
                (sgnIf (xor m ml) ndL.sum + sgnIf (xor m mr) ndR.sum)) =
              wcontrib B len w words +
                ((sgnIf (xor m ml) ndL.sum + sgnIf (xor m mr) ndR.sum) +
                  (rest.map fun q2 => sgnIf q2.1.2.2 q2.2.1.sum).sum) := by
            ring
          have hgoal : Int.ModEq M (wcontrib B len w words2)
              (wcontrib B len w words + (sgnIf m s +
                (rest.map fun q2 => sgnIf q2.1.2.2 q2.2.1.sum).sum)) := by
            refine hmod2.trans ?_
            rw [hsum2, hcomm, hs1, add_assoc]
          exact hgoal

/-- Definitional unfolding of one `fill_words` step on an unassigned
position. -/
theorem fillWords_none {alphabet : List Word} {rng : ℕ → ℕ}
    {rest : List (Option (Word × Word))} {cur : ℕ} {fi se : Word} :
    fillWords alphabet rng (none :: rest) cur fi se =
    if alphabet.length = 0 then none
    else fillWords alphabet rng rest (cur + 1)
      (fi ++ alphabet.getD (rng cur % alphabet.length) [])
      (se ++ alphabet.getD (rng cur % alphabet.length) []) := rfl

/-- Definitional unfolding of one `fill_words` step on a recorded pair. -/
theorem fillWords_some {alphabet : List Word} {rng : ℕ → ℕ}
    {w1 w2 : Word} {rest : List (Option (Word × Word))} {cur : ℕ}
    {fi se : Word} :
    fillWords alphabet rng (some (w1, w2) :: rest) cur fi se =
    fillWords alphabet rng rest cur (fi ++ w1) (se ++ w2) := rfl

/-- `fill_words`, semantically: on a nonempty alphabet it succeeds and
emits, position by position, the recorded pair or one random alphabet
word used on both sides. -/
theorem fillWords_sem {alphabet : List Word} {rng : ℕ → ℕ}
    (hA : alphabet ≠ []) :
    ∀ {words : List (Option (Word × Word))} {cur : ℕ} {fi se : Word},
      ∃ fi2 se2 cur2,
        fillWords alphabet rng words cur fi se = some (fi2, se2, cur2) ∧
        ∃ ps : List (Word × Word), ps.length = words.length ∧
          fi2 = fi ++ (ps.map Prod.fst).flatten ∧
          se2 = se ++ (ps.map Prod.snd).flatten ∧
          ∀ k, k < words.length →
            (words.getD k none = none →
              (ps.getD k ([], [])).1 = (ps.getD k ([], [])).2 ∧
                (ps.getD k ([], [])).1 ∈ alphabet) ∧
            ∀ pr, words.getD k none = some pr →
              ps.getD k ([], []) = pr := by
  intro words
  induction words with
  | nil =>
    intro cur fi se
    refine ⟨fi, se, cur, rfl, [], rfl, by simp, by simp, ?_⟩
    intro k hk
    simp at hk
  | cons o rest ih =>
    intro cur fi se
    cases o with
    | none =>
      obtain ⟨fi2, se2, cur2, heq, ps, hpl, hf, hs, hrec⟩ :=
        @ih (cur + 1) (fi ++ alphabet.getD (rng cur % alphabet.length) [])
          (se ++ alphabet.getD (rng cur % alphabet.length) [])
      refine ⟨fi2, se2, cur2, ?_,
        (alphabet.getD (rng cur % alphabet.length) [],
          alphabet.getD (rng cur % alphabet.length) []) :: ps,
        ?_, ?_, ?_, ?_⟩
      · rw [fillWords_none, if_neg (List.length_pos.mpr hA).ne']
        exact heq
      · simp [hpl]
      · rw [hf]
        simp [List.append_assoc]
      · rw [hs]
        simp [List.append_assoc]
      · intro k hk
        cases k with
        | zero =>
          refine ⟨fun _ => ⟨rfl, ?_⟩, fun pr hpr => ?_⟩
          · exact getD_mem_list
              (Nat.mod_lt _ (List.length_pos.mpr hA))
          · simp at hpr
        | succ k2 =>
          have hk2 : k2 < rest.length := by simpa using hk
          simpa using hrec k2 hk2
    | some pr0 =>
      obtain ⟨w1, w2⟩ := pr0
      obtain ⟨fi2, se2, cur2, heq, ps, hpl, hf, hs, hrec⟩ :=
        @ih cur (fi ++ w1) (se ++ w2)
      refine ⟨fi2, se2, cur2, ?_, (w1, w2) :: ps, ?_, ?_, ?_, ?_⟩
      · rw [fillWords_some]
        exact heq
      · simp [hpl]
      · rw [hf]
        simp [List.append_assoc]
      · rw [hs]
        simp [List.append_assoc]
      · intro k hk
        cases k with
        | zero =>
          refine ⟨fun hnone => ?_, fun pr2 hpr => ?_⟩
          · simp at hnone
          · have hpe : (w1, w2) = pr2 := by simpa using hpr
            simpa using hpe
        | succ k2 =>
          have hk2 : k2 < rest.length := by simpa using hk
          simpa using hrec k2 hk2

theorem polySumZ_append {B : ℤ} {u v : List ℕ} :
    polySumZ B (u ++ v) = polySumZ B u * B ^ v.length + polySumZ B v := by
  induction u with
  | nil => simp [polySumZ]
  | cons c rest ih =>
    rw [List.cons_append, polySumZ_cons, polySumZ_cons, ih,
      List.length_append, pow_add]
    ring

theorem length_flatten_const {wl : ℕ} :
    ∀ {ws : List Word}, (∀ x ∈ ws, x.length = wl) →
      ws.flatten.length = ws.length * wl := by
  intro ws
  induction ws with
  | nil =>
    intro h
    simp
  | cons a rest ih =>
    intro h
    rw [List.flatten_cons, List.length_append,
      ih (fun x hx => h x (List.mem_cons_of_mem _ hx)),
      h a (List.mem_cons_self _ _), List.length_cons]
    ring

/-- Positional decomposition of the polynomial of a flattening of
equal-width words. -/
theorem polySumZ_flatten {B : ℤ} {wl : ℕ} :
    ∀ {ws : List Word}, (∀ x ∈ ws, x.length = wl) →
      polySumZ B ws.flatten =
        ∑ k ∈ Finset.range ws.length,
          polySumZ B (ws.getD k []) * B ^ ((ws.length - 1 - k) * wl) := by
  intro ws
  induction ws with
  | nil =>
    intro h
    simp [polySumZ]
  | cons a rest ih =>
    intro h
    rw [List.flatten_cons, polySumZ_append,
      ih (fun x hx => h x (List.mem_cons_of_mem _ hx)),
      length_flatten_const (fun x hx => h x (List.mem_cons_of_mem _ hx))]
    rw [List.length_cons, Finset.sum_range_succ']
    conv_lhs => rw [add_comm]
    congr 1
    · apply Finset.sum_congr rfl
      intro k hk
      rw [List.getD_cons_succ]
      have he2 : rest.length + 1 - 1 - (k + 1) = rest.length - 1 - k := by
        omega
      rw [he2]

/-- Extracting the `k`-th block of a flattening of equal-width words. -/
theorem flatten_chunk {wl : ℕ} :
    ∀ {ws : List Word}, (∀ x ∈ ws, x.length = wl) →
      ∀ {k : ℕ}, k < ws.length →
        (ws.flatten.drop (k * wl)).take wl = ws.getD k [] := by
  intro ws
  induction ws with
  | nil =>
    intro h k hk
    simp at hk
  | cons a rest ih =>
    intro h k hk
    cases k with
    | zero =>
      rw [List.flatten_cons, List.getD_cons_zero]
      simp only [Nat.zero_mul, List.drop_zero]
      exact List.take_left' (h a (List.mem_cons_self _ _))
    | succ k2 =>
      rw [List.flatten_cons, List.getD_cons_succ]
      have hsp : (k2 + 1) * wl = a.length + k2 * wl := by
        rw [h a (List.mem_cons_self _ _)]
        ring
      rw [hsp, List.drop_append]
      exact ih (fun x hx => h x (List.mem_cons_of_mem _ hx))
        (by simpa using hk)

theorem replicate_getD_none {len j : ℕ} :
    (List.replicate len (none : Option (Word × Word))).getD j none =
      none := by
  rcases lt_or_ge j len with hj | hj
  · rw [List.getD_eq_getElem _ _ (by simpa using hj)]
    exact List.getElem_replicate _ _
  · rw [List.getD_eq_default _ _ (by simpa using hj)]

theorem wcontrib_replicate {B : ℤ} {len w n : ℕ} :
    wcontrib B len w (List.replicate n none) = 0 := by
  unfold wcontrib
  apply Finset.sum_eq_zero
  intro j hj
  rw [replicate_getD_none]
  rfl

/-- `construct_solution`, semantically: from a denoting node at
`tree[idx][0]` it returns two strings of `len` alphabet blocks whose
polynomial difference is congruent to the node's sum modulo `M`,
including at least one recorded block pair related by `P`. -/
theorem constructSolution_sem {o : Oracle} {B M : ℤ} {len wl : ℕ}
    {A : List Word} {P : Word → Word → Prop}
    {tree : List (List TNode)} {b : ℕ} {idx cur : ℕ} {nd : TNode}
    {cov : Finset ℕ}
    (hA : A ≠ []) (hwidth : ∀ wd ∈ A, wd.length = wl)
    (hidx : idx < tree.length)
    (hnd : (tree.getD idx []).get? 0 = some nd)
    (hden : Den B M len wl A P tree b nd cov) :
    ∃ fi se cur2, constructSolution o A tree len idx cur =
        some (fi, se, cur2) ∧
      fi.length = len * wl ∧ se.length = len * wl ∧
      IsConcatN A len fi ∧ IsConcatN A len se ∧
      (∀ ch ∈ fi, ∃ wd ∈ A, ch ∈ wd) ∧
      (∀ ch ∈ se, ∃ wd ∈ A, ch ∈ wd) ∧
      Int.ModEq M (polySumZ B fi - polySumZ B se) nd.sum ∧
      ∃ k, k < len ∧ ∃ a c, a ∈ A ∧ c ∈ A ∧ P a c ∧
        ((fi.drop (k * wl)).take wl = a ∧
            (se.drop (k * wl)).take wl = c ∨
          (fi.drop (k * wl)).take wl = c ∧
            (se.drop (k * wl)).take wl = a) := by
  have hcovlt := den_cov_lt hden
  have hq1 : ∀ q ∈ ([⟨(idx, 0, false), nd, cov⟩] :
      List ((ℕ × ℕ × Bool) × TNode × Finset ℕ)),
      QEnt B M len wl A P tree b q := by
    intro q hq
    obtain rfl := List.mem_singleton.mp hq
    exact ⟨_, get?_eq_getD hidx, hnd, hden⟩
  have hfree1 : ∀ q ∈ ([⟨(idx, 0, false), nd, cov⟩] :
      List ((ℕ × ℕ × Bool) × TNode × Finset ℕ)), ∀ j ∈ q.2.2,
      (List.replicate len (none : Option (Word × Word))).getD j none =
        none := fun q hq j hj => replicate_getD_none
  have hlt1 : ∀ q ∈ ([⟨(idx, 0, false), nd, cov⟩] :
      List ((ℕ × ℕ × Bool) × TNode × Finset ℕ)), ∀ j ∈ q.2.2,
      j < (List.replicate len (none : Option (Word × Word))).length := by
    intro q hq j hj
    obtain rfl := List.mem_singleton.mp hq
    rw [List.length_replicate]
    exact hcovlt j hj
  have hcard : cov.card ≤ len := by
    have hsub : cov ⊆ Finset.range len := fun j hj =>
      Finset.mem_range.mpr (hcovlt j hj)
    have := Finset.card_le_card hsub
    simpa [Finset.card_range] using this
  have hfuel1 : (([⟨(idx, 0, false), nd, cov⟩] :
      List ((ℕ × ℕ × Bool) × TNode × Finset ℕ)).map
        fun q => 2 * q.2.2.card - 1).sum + 1 ≤ 4 * len + 4 := by
    have h1 : (([⟨(idx, 0, false), nd, cov⟩] :
        List ((ℕ × ℕ × Bool) × TNode × Finset ℕ)).map
          fun q => 2 * q.2.2.card - 1).sum = 2 * cov.card - 1 := by
      simp
    rw [h1]
    omega
  obtain ⟨words2, heqb, hlen2, hkeep2, hnew2, hcov2, hmod2⟩ :=
    bfsLoop_sem hq1 (List.pairwise_singleton _ _) hfree1 hlt1 hfuel1
  rw [List.length_replicate] at hlen2
  obtain ⟨fi, se, cur2, heqf, ps, hpl, hf, hs, hrec⟩ :=
    @fillWords_sem A o.rng hA words2 cur [] []
  have hpslen : ps.length = len := hpl.trans hlen2
  have hrec2 : ∀ k, k < len →
      (words2.getD k none = none →
        (ps.getD k ([], [])).1 = (ps.getD k ([], [])).2 ∧
          (ps.getD k ([], [])).1 ∈ A) ∧
      ∀ pr, words2.getD k none = some pr → ps.getD k ([], []) = pr := by
    intro k hk
    exact hrec k (by omega)
  have hassigned : ∀ k, k < len → ∀ pr,
      words2.getD k none = some pr →
      pr.1 ∈ A ∧ pr.2 ∈ A ∧ ps.getD k ([], []) = pr := by
    intro k hk pr hpr
    have hne : words2.getD k none ≠ none := by
      rw [hpr]
      simp
    rcases hnew2 k hne with h | ⟨q, hqm, hkcov⟩
    · rw [replicate_getD_none] at h
      exact absurd rfl h
    · obtain rfl := List.mem_singleton.mp hqm
      obtain ⟨a, c, ha, hc, hPac, hpair⟩ :=
        hcov2 _ (List.mem_singleton_self _) k hkcov
      rcases hpair with h | h
      · rw [hpr] at h
        obtain rfl := Option.some.inj h
        exact ⟨ha, hc, (hrec2 k hk).2 _ hpr⟩
      · rw [hpr] at h
        obtain rfl := Option.some.inj h
        exact ⟨hc, ha, (hrec2 k hk).2 _ hpr⟩
  have hkey : ∀ k, k < len →
      (ps.getD k ([], [])).1 ∈ A ∧ (ps.getD k ([], [])).2 ∈ A := by
    intro k hk
    rcases hopt : words2.getD k none with _ | pr
    · have hu := (hrec2 k hk).1 hopt
      exact ⟨hu.2, hu.1 ▸ hu.2⟩
    · obtain ⟨h1, h2, h3⟩ := hassigned k hk pr hopt
      rw [h3]
      exact ⟨h1, h2⟩
  have hwfst : ∀ x ∈ ps.map Prod.fst, x.length = wl := by
    intro x hx
    obtain ⟨p, hp, rfl⟩ := List.mem_map.mp hx
    obtain ⟨k, hk, hpk⟩ := List.mem_iff_getElem.mp hp
    have hgd : ps.getD k ([], []) = p := by
      rw [List.getD_eq_getElem _ _ hk, hpk]
    exact hwidth _ (by rw [← hgd]; exact (hkey k (by omega)).1)
  have hwsnd : ∀ x ∈ ps.map Prod.snd, x.length = wl := by
    intro x hx
    obtain ⟨p, hp, rfl⟩ := List.mem_map.mp hx
    obtain ⟨k, hk, hpk⟩ := List.mem_iff_getElem.mp hp
    have hgd : ps.getD k ([], []) = p := by
      rw [List.getD_eq_getElem _ _ hk, hpk]
    exact hwidth _ (by rw [← hgd]; exact (hkey k (by omega)).2)
  have hf2 : fi = (ps.map Prod.fst).flatten := hf.trans (List.nil_append _)
  have hs2 : se = (ps.map Prod.snd).flatten := hs.trans (List.nil_append _)
  have heqc : constructSolution o A tree len idx cur =
      fillWords A o.rng words2 cur [] [] := by
    unfold constructSolution
    rw [show bfsLoop tree (4 * len + 4) [(idx, 0, false)]
        (List.replicate len none) = some words2 from heqb]
    simp only [Option.bind_eq_bind, Option.some_bind]
  have hgdf : ∀ k, k < len →
      (ps.map Prod.fst).getD k [] = (ps.getD k ([], [])).1 := by
    intro k hk
    have hkp : k < ps.length := by omega
    rw [List.getD_eq_getElem _ _ (by simpa using hkp),
      List.getD_eq_getElem _ _ hkp, List.getElem_map]
  have hgds : ∀ k, k < len →
      (ps.map Prod.snd).getD k [] = (ps.getD k ([], [])).2 := by
    intro k hk
    have hkp : k < ps.length := by omega
    rw [List.getD_eq_getElem _ _ (by simpa using hkp),
      List.getD_eq_getElem _ _ hkp, List.getElem_map]
  have hpolyfi : polySumZ B fi = ∑ k ∈ Finset.range len,
      polySumZ B ((ps.map Prod.fst).getD k []) *
        B ^ ((len - 1 - k) * wl) := by
    rw [hf2, polySumZ_flatten hwfst, List.length_map, hpslen]
  have hpolyse : polySumZ B se = ∑ k ∈ Finset.range len,
      polySumZ B ((ps.map Prod.snd).getD k []) *
        B ^ ((len - 1 - k) * wl) := by
    rw [hs2, polySumZ_flatten hwsnd, List.length_map, hpslen]
  have hdiff : polySumZ B fi - polySumZ B se =
      wcontrib B len wl words2 := by
    rw [hpolyfi, hpolyse, ← Finset.sum_sub_distrib]
    unfold wcontrib
    rw [hlen2]
    apply Finset.sum_congr rfl
    intro k hk
    have hklen : k < len := Finset.mem_range.mp hk
    rw [hgdf k hklen, hgds k hklen]
    rcases hopt : words2.getD k none with _ | pr
    · have hu := (hrec2 k hklen).1 hopt
      rw [hu.1, sub_self]
      rfl
    · obtain ⟨h1, h2, h3⟩ := hassigned k hklen pr hopt
      rw [h3]
      show polySumZ B pr.1 * B ^ ((len - 1 - k) * wl) -
          polySumZ B pr.2 * B ^ ((len - 1 - k) * wl) =
        (polySumZ B pr.1 - polySumZ B pr.2) * B ^ ((len - 1 - k) * wl)
      ring
  have hsing : (([⟨(idx, 0, false), nd, cov⟩] :
      List ((ℕ × ℕ × Bool) × TNode × Finset ℕ)).map
        fun q => sgnIf q.1.2.2 q.2.1.sum).sum = nd.sum := by
    simp [sgnIf]
  have hmodf : Int.ModEq M (polySumZ B fi - polySumZ B se) nd.sum := by
    rw [hdiff]
    have h0 := hmod2
    rw [wcontrib_replicate, hsing, zero_add] at h0
    exact h0
  have hfl : fi.length = len * wl := by
    rw [hf2, length_flatten_const hwfst, List.length_map, hpslen]
  have hsl : se.length = len * wl := by
    rw [hs2, length_flatten_const hwsnd, List.length_map, hpslen]
  have hchf : ∀ ch ∈ fi, ∃ wd ∈ A, ch ∈ wd := by
    intro ch hch
    rw [hf2] at hch
    obtain ⟨x, hx, hchx⟩ := List.mem_flatten.mp hch
    obtain ⟨p, hp, rfl⟩ := List.mem_map.mp hx
    obtain ⟨k, hk, hpk⟩ := List.mem_iff_getElem.mp hp
    have hgd : ps.getD k ([], []) = p := by
      rw [List.getD_eq_getElem _ _ hk, hpk]
    exact ⟨p.1, by rw [← hgd]; exact (hkey k (by omega)).1, hchx⟩
  have hchs : ∀ ch ∈ se, ∃ wd ∈ A, ch ∈ wd := by
    intro ch hch
    rw [hs2] at hch
    obtain ⟨x, hx, hchx⟩ := List.mem_flatten.mp hch
    obtain ⟨p, hp, rfl⟩ := List.mem_map.mp hx
    obtain ⟨k, hk, hpk⟩ := List.mem_iff_getElem.mp hp
    have hgd : ps.getD k ([], []) = p := by
      rw [List.getD_eq_getElem _ _ hk, hpk]
    exact ⟨p.2, by rw [← hgd]; exact (hkey k (by omega)).2, hchx⟩
  have hmemf : ∀ x ∈ ps.map Prod.fst, x ∈ A := by
    intro x hx
    obtain ⟨p, hp, rfl⟩ := List.mem_map.mp hx
    obtain ⟨k, hk, hpk⟩ := List.mem_iff_getElem.mp hp
    have hgd : ps.getD k ([], []) = p := by
      rw [List.getD_eq_getElem _ _ hk, hpk]
    rw [← hgd]
    exact (hkey k (by omega)).1
  have hmems : ∀ x ∈ ps.map Prod.snd, x ∈ A := by
    intro x hx
    obtain ⟨p, hp, rfl⟩ := List.mem_map.mp hx
    obtain ⟨k, hk, hpk⟩ := List.mem_iff_getElem.mp hp
    have hgd : ps.getD k ([], []) = p := by
      rw [List.getD_eq_getElem _ _ hk, hpk]
    rw [← hgd]
    exact (hkey k (by omega)).2
  have hconf : IsConcatN A len fi :=
    ⟨ps.map Prod.fst, by rw [List.length_map, hpslen], hmemf, hf2⟩
  have hcons : IsConcatN A len se :=
    ⟨ps.map Prod.snd, by rw [List.length_map, hpslen], hmems, hs2⟩
  obtain ⟨j0, hj0⟩ := den_nonempty hden
  have hj0len : j0 < len := hcovlt j0 hj0
  obtain ⟨a, c, ha, hc, hPac, hpair⟩ :=
    hcov2 _ (List.mem_singleton_self _) j0 hj0
  have hchunkf : (fi.drop (j0 * wl)).take wl =
      (ps.getD j0 ([], [])).1 := by
    have hjb : j0 < (ps.map Prod.fst).length := by
      rw [List.length_map, hpslen]
      exact hj0len
    rw [hf2, flatten_chunk hwfst hjb]
    exact hgdf j0 hj0len
  have hchunks : (se.drop (j0 * wl)).take wl =
      (ps.getD j0 ([], [])).2 := by
    have hjb : j0 < (ps.map Prod.snd).length := by
      rw [List.length_map, hpslen]
      exact hj0len
    rw [hs2, flatten_chunk hwsnd hjb]
    exact hgds j0 hj0len
  refine ⟨fi, se, cur2, heqc.trans heqf, hfl, hsl, hconf, hcons, hchf,
    hchs, hmodf, j0, hj0len, a, c, ha, hc, hPac, ?_⟩
  rcases hpair with h | h
  · obtain ⟨h1, h2, h3⟩ := hassigned j0 hj0len (a, c) h
    rw [h3] at hchunkf hchunks
    exact Or.inl ⟨hchunkf, hchunks⟩
  · obtain ⟨h1, h2, h3⟩ := hassigned j0 hj0len (c, a) h
    rw [h3] at hchunkf hchunks
    exact Or.inr ⟨hchunkf, hchunks⟩

/-- Definitional unfolding of one phase of the `try_attack` loop. -/
theorem tryPhases_succ {o : Oracle} {clusterSize : ℕ}
    {alphabet : List Word} {len c : ℕ} {tree : List (List TNode)}
    {cur : ℕ} :
    tryPhases o clusterSize alphabet len (c + 1) tree cur =
    (do
      let pr ← runPhase o clusterSize tree c
      match pr.2 with
      | some idx => do
        let sol ← constructSolution o alphabet pr.1 len idx cur
        some (pr.1, some (sol.1, sol.2.1), sol.2.2)
      | none => tryPhases o clusterSize alphabet len c pr.1 cur) := rfl

/-- The phase loop of `try_attack`, semantically: any returned pair
consists of two strings of `len` alphabet blocks with congruent
polynomial hashes, containing a recorded `P`-related block pair. -/
theorem tryPhases_den {o : Oracle} (hgood : o.Good) {B M : ℤ}
    {len wl : ℕ} {A : List Word} {P : Word → Word → Prop}
    (hA : A ≠ []) (hwidth : ∀ wd ∈ A, wd.length = wl)
    {clusterSize : ℕ} :
    ∀ {c : ℕ} {tree : List (List TNode)} {cur : ℕ} {K : ℤ}
      {res : List (List TNode) × Option (Word × Word) × ℕ},
      0 ≤ K →
      2 * (2 ^ c * K) + 2 ≤ 2 ^ 127 →
      (∀ slot ∈ tree, SSorted slot) →
      (∀ slot ∈ tree, ∀ nd ∈ slot, 0 ≤ nd.sum ∧ nd.sum ≤ 2 * K) →
      PhaseInv B M len wl A P tree K (2 ^ c) →
      tryPhases o clusterSize A len c tree cur = some res →
      ∀ fi se, res.2.1 = some (fi, se) →
        fi.length = len * wl ∧ se.length = len * wl ∧
        IsConcatN A len fi ∧ IsConcatN A len se ∧
        (∀ ch ∈ fi, ∃ wd ∈ A, ch ∈ wd) ∧
        (∀ ch ∈ se, ∃ wd ∈ A, ch ∈ wd) ∧
        Int.ModEq M (polySumZ B fi) (polySumZ B se) ∧
        ∃ k, k < len ∧ ∃ a c2, a ∈ A ∧ c2 ∈ A ∧ P a c2 ∧
          ((fi.drop (k * wl)).take wl = a ∧
              (se.drop (k * wl)).take wl = c2 ∨
            (fi.drop (k * wl)).take wl = c2 ∧
              (se.drop (k * wl)).take wl = a) := by
  intro c
  induction c with
  | zero =>
    intro tree cur K res hK0 hKbig hsort hgb hinv heq
    obtain rfl := Option.some.inj heq
    intro fi se h
    simp at h
  | succ c ih =>
    intro tree cur K res hK0 hKbig hsort hgb hinv heq
    rw [tryPhases_succ] at heq
    rcases hrp : runPhase o clusterSize tree c with _ | pr
    · rw [hrp] at heq
      simp at heq
    rw [hrp] at heq
    simp only [Option.bind_eq_bind, Option.some_bind] at heq
    obtain ⟨tr2, oi⟩ := pr
    have h1 : (0 : ℤ) < 2 ^ (c + 1) := by positivity
    have h2 : (0 : ℤ) + 1 ≤ 2 ^ (c + 1) := Int.add_one_le_iff.mpr h1
    rw [zero_add] at h2
    have h3 : K ≤ 2 ^ (c + 1) * K := le_mul_of_one_le_left hK0 h2
    have hKc : 2 * K + 2 ≤ 2 ^ 127 := by linarith
    have hpow : (2 : ℕ) ^ (c + 1) = 2 * 2 ^ c := by
      rw [pow_succ, Nat.mul_comm]
    rw [hpow] at hinv
    obtain ⟨hguard, hrlen, hrsort, hrgb, hrkeep, hrnone, hrflag⟩ :=
      runPhase_den hgood hK0 hKc hsort hgb hinv hrp
    cases oi with
    | none =>
      have heq2 : tryPhases o clusterSize A len c tr2 cur = some res :=
        heq
      have hinv2 : PhaseInv B M len wl A P tr2 (2 * K) (2 ^ c) :=
        hrnone rfl
      have hrsort2 : ∀ slot ∈ tr2, SSorted slot := hrsort
      have hrgb2 : ∀ slot ∈ tr2, ∀ nd ∈ slot,
          0 ≤ nd.sum ∧ nd.sum ≤ 2 * K := hrgb
      have hrgb3 : ∀ slot ∈ tr2, ∀ nd ∈ slot,
          0 ≤ nd.sum ∧ nd.sum ≤ 2 * (2 * K) := by
        intro slot hs nd hn
        obtain ⟨hg1, hg2⟩ := hrgb2 slot hs nd hn
        exact ⟨hg1, by linarith⟩
      refine ih ?_ ?_ hrsort2 hrgb3 hinv2 heq2
      · linarith
      · have hpz : (2 : ℤ) ^ c * (2 * K) = 2 ^ (c + 1) * K := by
          rw [pow_succ]
          ring
        rw [hpz]
        exact hKbig
    | some idx =>
      obtain ⟨hi1, hi2, nd', cov', hnd', hndz, hden'⟩ := hrflag idx rfl
      have hrlen2 : tr2.length = tree.length := hrlen
      have hnd2 : (tr2.getD idx []).get? 0 = some nd' := hnd'
      have hden2 : Den B M len wl A P tr2 (2 * 2 ^ c) nd' cov' := hden'
      have hidxlen : idx < tr2.length := by omega
      obtain ⟨fi, se, cur2, heqc, hfl, hsl, hconf, hcons, hchf, hchs,
        hmodf, hblock⟩ :=
        constructSolution_sem hA hwidth hidxlen hnd2 hden2
      have heq3 : (do
          let sol ← constructSolution o A tr2 len idx cur
          some (tr2, some (sol.1, sol.2.1), sol.2.2)) = some res := heq
      rw [heqc] at heq3
      simp only [Option.bind_eq_bind, Option.some_bind] at heq3
      obtain rfl := Option.some.inj heq3
      intro fi' se' hps
      have hpe : (fi, se) = (fi', se') := Option.some.inj hps
      obtain rfl : fi = fi' := congrArg Prod.fst hpe
      obtain rfl : se = se' := congrArg Prod.snd hpe
      rw [hndz] at hmodf
      have hmm : Int.ModEq M (polySumZ B fi) (polySumZ B se) := by
        have hdvd := Int.modEq_iff_dvd.mp hmodf
        refine Int.modEq_iff_dvd.mpr ?_
        simpa using hdvd
      exact ⟨hfl, hsl, hconf, hcons, hchf, hchs, hmm, hblock⟩

/-- `try_attack`, semantically: any returned pair consists of two
strings of `2^p` alphabet blocks with congruent polynomial hashes,
containing a recorded `P`-related block pair. -/
theorem tryAttack_den {o : Oracle} (hgood : o.Good) {B M : ℤ}
    (hB0 : 0 ≤ B) (hB : B ≤ 2 ^ 64) (hM2 : 1 < M) (hM : M ≤ 2 ^ 63)
    {A : List Word} {wl : ℕ} {P : Word → Word → Prop}
    (hA : A ≠ []) (hwidth : ∀ wd ∈ A, wd.length = wl)
    (halpha : ∀ wd ∈ A, ∀ ch ∈ wd, (ch : ℤ) < M)
    (hP : ∀ a b : ℕ, a < A.length → b < A.length → a ≠ b →
      P (A.getD a []) (A.getD b []))
    {clusterSize p : ℕ} (hp : 2 * (2 ^ p * M) + 2 ≤ 2 ^ 127)
    {tree : List (List TNode)} {cur : ℕ}
    {res : List (List TNode) × Option (Word × Word) × ℕ}
    (heq : tryAttack o A B M wl clusterSize tree p cur = some res) :
    ∀ fi se, res.2.1 = some (fi, se) →
      fi.length = 2 ^ p * wl ∧ se.length = 2 ^ p * wl ∧
      IsConcatN A (2 ^ p) fi ∧ IsConcatN A (2 ^ p) se ∧
      (∀ ch ∈ fi, ∃ wd ∈ A, ch ∈ wd) ∧
      (∀ ch ∈ se, ∃ wd ∈ A, ch ∈ wd) ∧
      Int.ModEq M (polySumZ B fi) (polySumZ B se) ∧
      ∃ k, k < 2 ^ p ∧ ∃ a c2, a ∈ A ∧ c2 ∈ A ∧ P a c2 ∧
        ((fi.drop (k * wl)).take wl = a ∧
            (se.drop (k * wl)).take wl = c2 ∨
          (fi.drop (k * wl)).take wl = c2 ∧
            (se.drop (k * wl)).take wl = a) := by
  have heq2 : (do
      let tree1 ← initAttack o A B M wl tree (2 ^ p)
      tryPhases o clusterSize A (2 ^ p) p tree1 cur) = some res := heq
  rcases hia : initAttack o A B M wl tree (2 ^ p) with _ | tree1
  · rw [hia] at heq2
    simp at heq2
  rw [hia] at heq2
  simp only [Option.bind_eq_bind, Option.some_bind] at heq2
  obtain ⟨hinv, hlen1, hgb1⟩ :=
    initAttack_den hgood hB0 hB hM2 hM (by positivity) halpha hwidth
      hP hia
  have hsort1 := (initAttack_sorted hgood hia).2
  have hgb2 : ∀ slot ∈ tree1, ∀ nd ∈ slot,
      0 ≤ nd.sum ∧ nd.sum ≤ 2 * M := by
    intro slot hs nd hn
    obtain ⟨hg1, hg2⟩ := hgb1 slot hs nd hn
    exact ⟨hg1, by linarith⟩
  exact tryPhases_den hgood hA hwidth (by linarith) hp hsort1 hgb2
    hinv heq2

/-- The `for i in 3..12` loop of the tree solver, semantically: a
returned pair comes from some tried exponent. -/
theorem treeLoop_den {o : Oracle} (hgood : o.Good) {B M : ℤ}
    (hB0 : 0 ≤ B) (hB : B ≤ 2 ^ 64) (hM2 : 1 < M) (hM : M ≤ 2 ^ 63)
    {A : List Word} {wl : ℕ} {P : Word → Word → Prop}
    (hA : A ≠ []) (hwidth : ∀ wd ∈ A, wd.length = wl)
    (halpha : ∀ wd ∈ A, ∀ ch ∈ wd, (ch : ℤ) < M)
    (hP : ∀ a b : ℕ, a < A.length → b < A.length → a ≠ b →
      P (A.getD a []) (A.getD b []))
    {clusterSize : ℕ} :
    ∀ {c p : ℕ} {tree : List (List TNode)} {cur : ℕ}
      {res2 : Option (Word × Word) × ℕ},
      (∀ q, p ≤ q → q < p + c → 2 * (2 ^ q * M) + 2 ≤ 2 ^ 127) →
      treeLoop o A B M wl clusterSize p c tree cur = some res2 →
      ∀ fi se, res2.1 = some (fi, se) →
        ∃ q, p ≤ q ∧ q < p + c ∧
        fi.length = 2 ^ q * wl ∧ se.length = 2 ^ q * wl ∧
        IsConcatN A (2 ^ q) fi ∧ IsConcatN A (2 ^ q) se ∧
        Int.ModEq M (polySumZ B fi) (polySumZ B se) ∧
        ∃ k, k < 2 ^ q ∧ ∃ a c2, a ∈ A ∧ c2 ∈ A ∧ P a c2 ∧
          ((fi.drop (k * wl)).take wl = a ∧
              (se.drop (k * wl)).take wl = c2 ∨
            (fi.drop (k * wl)).take wl = c2 ∧
              (se.drop (k * wl)).take wl = a) := by
  intro c
  induction c with
  | zero =>
    intro p tree cur res2 hq heq
    obtain rfl := Option.some.inj heq
    intro fi se h
    simp at h
  | succ c ih =>
    intro p tree cur res2 hq heq
    have heq2 : (do
        let res ← tryAttack o A B M wl clusterSize tree p cur
        match res.2.1 with
        | some pair => some (some pair, res.2.2)
        | none =>
            treeLoop o A B M wl clusterSize (p + 1) c res.1 res.2.2) =
      some res2 := heq
    rcases hta : tryAttack o A B M wl clusterSize tree p cur
        with _ | res
    · rw [hta] at heq2
      simp at heq2
    rw [hta] at heq2
    simp only [Option.bind_eq_bind, Option.some_bind] at heq2
    rcases hpair : res.2.1 with _ | pair
    · rw [hpair] at heq2
      have heq3 : treeLoop o A B M wl clusterSize (p + 1) c res.1
          res.2.2 = some res2 := heq2
      intro fi se h
      obtain ⟨q, hq1, hq2, rest⟩ :=
        ih (fun q h1 h2 => hq q (by omega) (by omega)) heq3 fi se h
      exact ⟨q, by omega, by omega, rest⟩
    · rw [hpair] at heq2
      have heq3 : (some (some pair, res.2.2) :
          Option (Option (Word × Word) × ℕ)) = some res2 := heq2
      obtain rfl := Option.some.inj heq3
      intro fi se h
      have hpe : pair = (fi, se) := Option.some.inj h
      have hres : res.2.1 = some (fi, se) :=
        hpair.trans (congrArg some hpe)
      obtain ⟨h1, h2, h3, h4, h5, h6, h7, h8⟩ :=
        tryAttack_den hgood hB0 hB hM2 hM hA hwidth halpha hP
          (hq p (by omega) (by omega)) hta fi se hres
      exact ⟨p, le_rfl, by omega, h1, h2, h3, h4, h7, h8⟩

theorem polySumZ_cast {b : ℕ} {s : Word} :
    polySumZ (b : ℤ) s =
      ((∑ i ∈ Finset.range s.length,
        s.getD i 0 * b ^ (s.length - 1 - i) : ℕ) : ℤ) := by
  unfold polySumZ
  push_cast
  rfl

/-- An integer congruence of the polynomial sums gives equal ideal
hashes. -/
theorem mathHash_eq_of_modEq {base module : ℕ} {s t : Word}
    (h : Int.ModEq (module : ℤ) (polySumZ (base : ℤ) s)
      (polySumZ (base : ℤ) t)) :
    mathHash base module s = mathHash base module t := by
  unfold mathHash
  have h4 : (((∑ i ∈ Finset.range s.length,
      s.getD i 0 * base ^ (s.length - 1 - i) : ℕ) % module : ℕ) : ℤ) =
      (((∑ i ∈ Finset.range t.length,
        t.getD i 0 * base ^ (t.length - 1 - i) : ℕ) % module : ℕ) : ℤ) := by
    push_cast
    exact h
  exact_mod_cast h4

theorem pairwise_ne_getD {A : List Word} (h : A.Pairwise (· ≠ ·)) :
    ∀ a b : ℕ, a < A.length → b < A.length → a ≠ b →
      A.getD a [] ≠ A.getD b [] := by
  intro a b ha hb hab
  rw [List.getD_eq_getElem _ _ ha, List.getD_eq_getElem _ _ hb]
  have hp := List.pairwise_iff_getElem.mp h
  rcases Nat.lt_or_ge a b with hlt | hge
  · exact hp a b ha hb hlt
  · exact (hp b a hb ha (by omega)).symm

/-- `tree_attack::find_single_collision`, semantically. -/
theorem treeFindSingle_den {o : Oracle} (hgood : o.Good)
    {base module clusterSize : ℕ}
    (hb : base ≤ 2 ^ 64) (hm2 : 1 < module) (hm : module ≤ 2 ^ 63)
    {A : List Word} {wl : ℕ} {P : Word → Word → Prop}
    (hwidth : ∀ wd ∈ A, wd.length = wl)
    (halpha : ∀ wd ∈ A, ∀ ch ∈ wd, (ch : ℤ) < (module : ℤ))
    (hP : ∀ a b : ℕ, a < A.length → b < A.length → a ≠ b →
      P (A.getD a []) (A.getD b []))
    {cur : ℕ} {res2 : Option (Word × Word) × ℕ}
    (heq : treeFindSingle o base module clusterSize A cur = some res2) :
    ∀ fi se, res2.1 = some (fi, se) →
      ∃ q, 3 ≤ q ∧ q < 12 ∧
      fi.length = 2 ^ q * wl ∧ se.length = 2 ^ q * wl ∧
      IsConcatN A (2 ^ q) fi ∧ IsConcatN A (2 ^ q) se ∧
      mathHash base module fi = mathHash base module se ∧
      ∃ k, k < 2 ^ q ∧ ∃ a c2, a ∈ A ∧ c2 ∈ A ∧ P a c2 ∧
        ((fi.drop (k * wl)).take wl = a ∧
            (se.drop (k * wl)).take wl = c2 ∨
          (fi.drop (k * wl)).take wl = c2 ∧
            (se.drop (k * wl)).take wl = a) := by
  cases A with
  | nil => simp [treeFindSingle] at heq
  | cons w As =>
    have heq2 : treeLoop o (w :: As) (base : ℤ) (module : ℤ) w.length
        clusterSize 3 9 [] cur = some res2 := heq
    have hwl : w.length = wl := hwidth w (List.mem_cons_self _ _)
    rw [hwl] at heq2
    have hB0 : (0 : ℤ) ≤ (base : ℤ) := Int.ofNat_nonneg base
    have hB : (base : ℤ) ≤ 2 ^ 64 := by exact_mod_cast hb
    have hM2 : (1 : ℤ) < (module : ℤ) := by exact_mod_cast hm2
    have hM : (module : ℤ) ≤ 2 ^ 63 := by exact_mod_cast hm
    have hpq : ∀ q, 3 ≤ q → q < 3 + 9 →
        2 * (2 ^ q * (module : ℤ)) + 2 ≤ 2 ^ 127 := by
      intro q h3 h12
      have h2q : (2 : ℤ) ^ q ≤ 2 ^ 11 :=
        pow_le_pow_right (by norm_num) (by omega)
      have hM0 : (0 : ℤ) ≤ (module : ℤ) := by linarith
      have hmul : (2 : ℤ) ^ q * (module : ℤ) ≤ 2 ^ 11 * 2 ^ 63 :=
        mul_le_mul h2q hM hM0 (by positivity)
      have hcst : (2 : ℤ) * (2 ^ 11 * 2 ^ 63) + 2 ≤ 2 ^ 127 := by
        norm_num
      linarith
    intro fi se h
    obtain ⟨q, hq3, hq12, h1, h2, h3, h4, h5, h6⟩ :=
      treeLoop_den hgood hB0 hB hM2 hM (by simp) hwidth halpha hP
        hpq heq2 fi se h
    exact ⟨q, hq3, by omega, h1, h2, h3, h4, mathHash_eq_of_modEq h5, h6⟩

/-- Main induction for the tree multi-hash lifter: widths, nonemptiness,
pairwise distinctness and collisions under all processed hash pairs are
maintained by the alphabet-collapsing loop. -/
theorem treeLift_sound {o : Oracle} (hgood : o.Good) {clusterSize : ℕ} :
    ∀ (pairs E : List (ℕ × ℕ)) (A : List Word) (wdt cur : ℕ)
      (A' : List Word) (cur' : ℕ),
      (∀ x ∈ A, x.length = wdt) →
      A ≠ [] →
      A.Pairwise (· ≠ ·) →
      (∀ p ∈ pairs, p.1 ≤ 2 ^ 64 ∧ 1 < p.2 ∧ p.2 ≤ 2 ^ 63) →
      (∀ x ∈ A, ∀ c ∈ x, ∀ p ∈ pairs, (c : ℤ) < (p.2 : ℤ)) →
      (∀ p ∈ E, 1 ≤ p.2 ∧
        ∀ x ∈ A, ∀ y ∈ A, mathHash p.1 p.2 x = mathHash p.1 p.2 y) →
      treeLift o clusterSize pairs A cur = some (some (A', cur')) →
      (∃ wdt', (∀ x ∈ A', x.length = wdt') ∧
        A' ≠ [] ∧ A'.Pairwise (· ≠ ·) ∧
        (∀ p ∈ E ++ pairs, 1 ≤ p.2 ∧
          ∀ x ∈ A', ∀ y ∈ A', mathHash p.1 p.2 x = mathHash p.1 p.2 y)) ∧
      (pairs = [] → A' = A) := by
  intro pairs
  induction pairs with
  | nil =>
    intro E A wdt cur A' cur' hw hA hnd _ _ hE hrun
    rw [treeLift] at hrun
    simp only [Option.some.injEq, Prod.mk.injEq] at hrun
    obtain ⟨rfl, rfl⟩ := hrun
    exact ⟨⟨wdt, hw, hA, hnd, by simpa using fun p hp => hE p hp⟩,
      fun _ => rfl⟩
  | cons bm rest ih =>
    intro E A wdt cur A' cur' hw hA hnd hbm hc hE hrun
    obtain ⟨b, m⟩ := bm
    rw [treeLift] at hrun
    cases hsingle : treeFindSingle o b m clusterSize A cur with
    | none =>
      rw [hsingle] at hrun
      exact absurd hrun (by simp)
    | some p =>
      rw [hsingle] at hrun
      obtain ⟨r, curs⟩ := p
      cases r with
      | none => simp at hrun
      | some pair =>
        obtain ⟨fi, se⟩ := pair
        have hrun2 : treeLift o clusterSize rest [fi, se] curs =
            some (some (A', cur')) := hrun
        obtain ⟨hb64, hm2, hm63⟩ := hbm (b, m) (List.mem_cons_self _ _)
        obtain ⟨q, hq3, hq12, hlf, hls, hcf, hcs, hmh, k, hk, a, c2, haA,
          hc2A, hPac, hblk⟩ :=
          treeFindSingle_den hgood hb64 hm2 hm63 hw
            (fun wd hwd ch hch =>
              hc wd hwd ch hch (b, m) (List.mem_cons_self _ _))
            (pairwise_ne_getD hnd) hsingle fi se rfl
        have hfise : fi ≠ se := by
          intro hcon
          rcases hblk with ⟨hb1, hb2⟩ | ⟨hb1, hb2⟩
          · rw [hcon] at hb1
            exact hPac (hb1.symm.trans hb2)
          · rw [hcon] at hb1
            exact hPac (hb2.symm.trans hb1)
        have hm1 : 1 ≤ m := by omega
        have hcnew : ∀ x ∈ ([fi, se] : List Word), ∀ ch ∈ x, ∀ p ∈ rest,
            (ch : ℤ) < (p.2 : ℤ) := by
          intro x hx
          have hbase : ∀ wd ∈ A, ∀ ch ∈ wd, ∀ p ∈ rest,
              (ch : ℤ) < (p.2 : ℤ) :=
            fun wd hwd ch hch p hp =>
              hc wd hwd ch hch p (List.mem_cons_of_mem _ hp)
          rcases List.mem_cons.mp hx with rfl | hx
          · exact hcf.codepoints hbase
          rcases List.mem_cons.mp hx with rfl | hx
          · exact hcs.codepoints hbase
          · simp at hx
        have hmain := ih (E ++ [(b, m)]) [fi, se] (2 ^ q * wdt) curs A'
          cur'
          (fun x hx => by
            rcases List.mem_cons.mp hx with rfl | hx
            · exact hlf
            · rcases List.mem_cons.mp hx with rfl | hx
              · exact hls
              · simp at hx)
          (by simp)
          (by simp [hfise])
          (fun p hp => hbm p (List.mem_cons_of_mem _ hp))
          hcnew
          (fun p hp => by
            rcases List.mem_append.mp hp with hp | hp
            · obtain ⟨hp1, hpA⟩ := hE p hp
              refine ⟨hp1, ?_⟩
              intro x hx y hy
              have hEx : ∀ z ∈ ([fi, se] : List Word),
                  mathHash p.1 p.2 z = mathHash p.1 p.2 fi := by
                intro z hz
                rcases List.mem_cons.mp hz with rfl | hz
                · rfl
                · rcases List.mem_cons.mp hz with rfl | hz
                  · exact mathHash_concat_eq hp1 hw hpA hcs hcf
                  · simp at hz
              rw [hEx x hx, hEx y hy]
            · simp only [List.mem_singleton] at hp
              subst hp
              refine ⟨hm1, ?_⟩
              intro x hx y hy
              have hEx : ∀ z ∈ ([fi, se] : List Word),
                  mathHash b m z = mathHash b m fi := by
                intro z hz
                rcases List.mem_cons.mp hz with rfl | hz
                · rfl
                · rcases List.mem_cons.mp hz with rfl | hz
                  · exact hmh.symm
                  · simp at hz
              rw [hEx x hx, hEx y hy])
          hrun2
        obtain ⟨⟨wdt', h1', h2', h3', h4'⟩, _⟩ := hmain
        refine ⟨⟨wdt', h1', h2', h3', ?_⟩, by simp⟩
        intro p hp
        refine h4' p ?_
        rcases List.mem_append.mp hp with hp | hp
        · exact List.mem_append.mpr (Or.inl (List.mem_append.mpr
            (Or.inl hp)))
        · rcases List.mem_cons.mp hp with rfl | hp
          · exact List.mem_append.mpr (Or.inl (List.mem_append.mpr
              (Or.inr (by simp))))
          · exact List.mem_append.mpr (Or.inr hp)

/-- End-to-end soundness of `tree_attack::find_collision` under the
parameter bounds the solver needs: the returned pair collides under
every supplied `(B, M)` in the ideal hash, is distinct, and has equal
byte lengths. -/
theorem treeFindCollision_sound {o : Oracle} (hgood : o.Good)
    {bases modules : List ℕ} {clusterSize : ℕ} {A : List Word}
    {wdt cur : ℕ} {s1 s2 : Word}
    (hw : ∀ x ∈ A, x.length = wdt)
    (hA : A ≠ [])
    (hnd : A.Pairwise (· ≠ ·))
    (hbm : ∀ p ∈ bases.zip modules, p.1 ≤ 2 ^ 64 ∧ 1 < p.2 ∧
      p.2 ≤ 2 ^ 63)
    (hcp : ∀ x ∈ A, ∀ c ∈ x, ∀ p ∈ bases.zip modules,
      (c : ℤ) < (p.2 : ℤ))
    (hrun : treeFindCollision o bases modules clusterSize A cur =
      some (some (s1, s2))) :
    (∀ p ∈ bases.zip modules, mathHash p.1 p.2 s1 = mathHash p.1 p.2 s2) ∧
      s1 ≠ s2 ∧ s1.length = s2.length := by
  unfold treeFindCollision at hrun
  cases hlift : treeLift o clusterSize (bases.zip modules) A cur with
  | none =>
    rw [hlift] at hrun
    exact absurd hrun (by simp)
  | some r =>
    rw [hlift] at hrun
    cases r with
    | none => simp at hrun
    | some p =>
      obtain ⟨A', cur'⟩ := p
      dsimp only at hrun
      obtain ⟨⟨wdt', h1', hne', h3', h4'⟩, -⟩ :=
        treeLift_sound hgood (bases.zip modules) [] A wdt cur A' cur'
          hw hA hnd hbm hcp (by simp) hlift
      cases A' with
      | nil => simp at hrun
      | cons a A'' =>
        cases A'' with
        | nil => simp at hrun
        | cons b2 rst =>
          dsimp only at hrun
          simp only [Option.some.injEq, Prod.mk.injEq] at hrun
          obtain ⟨rfl, rfl⟩ := hrun
          refine ⟨?_, ?_, ?_⟩
          · intro p hp
            exact (h4' p (by simpa using hp)).2 a (by simp) b2 (by simp)
          · exact (List.pairwise_cons.mp h3').1 b2 (by simp)
          · rw [h1' a (by simp), h1' b2 (by simp)]

/-! ### C3: wrap-freedom of `new_leaf` and the `pot` update -/

/-- Claim-side exact `pot` update (no `i128` wrap). -/
def potStepExact (base module pot : ℤ) : Option ℤ :=
  if module = 0 then none else some (Int.tmod (pot * base) module)

/-- Absolute bound of a product of `(-M, M)`-bounded factors. -/
theorem mul_abs_bounds {x y M : ℤ} (hx1 : -M < x) (hx2 : x < M)
    (hy1 : -M < y) (hy2 : y < M) :
    -(M * M) < x * y ∧ x * y < M * M := by
  constructor <;> nlinarith

/-- One `new_leaf` character step computes its exact value and stays in
`(-M, M)`: no intermediate wraps. -/
theorem leafStep_eq_exact {B M : ℤ} (hB0 : 0 ≤ B) (hB : B ≤ 2 ^ 64)
    (hM1 : 1 ≤ M) (hM : M ≤ 2 ^ 63) {h : ℤ} (hh1 : -M < h) (hh : h < M)
    {c : ℕ × ℕ} (hc1 : (c.1 : ℤ) < 2 ^ 32) (hc2 : (c.2 : ℤ) < 2 ^ 32) :
    leafStep B M h c = leafStepExact B M h c ∧
      -M < leafStep B M h c ∧ leafStep B M h c < M := by
  have hc10 : (0 : ℤ) ≤ c.1 := Int.natCast_nonneg _
  have hc20 : (0 : ℤ) ≤ c.2 := Int.natCast_nonneg _
  have hub : h * B ≤ (M - 1) * 2 ^ 64 :=
    mul_le_mul (by omega) hB hB0 (by omega)
  have hlb : -((M - 1) * 2 ^ 64) ≤ h * B := by
    have hneg : (-h) * B ≤ (M - 1) * 2 ^ 64 :=
      mul_le_mul (by omega) hB hB0 (by omega)
    have hnm : (-h) * B = -(h * B) := by ring
    omega
  have hMB : (M - 1) * 2 ^ 64 ≤ 2 ^ 127 - 2 ^ 64 := by nlinarith
  have w1 : wrap128 (h * B) = h * B :=
    wrap128_id (by linarith) (by linarith)
  have w2 : wrap128 (h * B + (c.1 : ℤ)) = h * B + c.1 :=
    wrap128_id (by linarith) (by linarith)
  have w3 : wrap128 (h * B + (c.1 : ℤ) - c.2) = h * B + c.1 - c.2 :=
    wrap128_id (by linarith) (by linarith)
  have w4 : wrap128 (h * B + (c.1 : ℤ) - c.2 + M) =
      h * B + c.1 - c.2 + M :=
    wrap128_id (by linarith) (by linarith)
  have hkey : leafStep B M h c = Int.tmod (h * B + c.1 - c.2 + M) M := by
    unfold leafStep
    rw [w1, w2, w3, w4]
  obtain ⟨hlo, hhi⟩ :=
    @tmod_bounds (h * B + (c.1 : ℤ) - c.2 + M) M (by omega)
  refine ⟨?_, ?_, ?_⟩
  · rw [hkey]
    rfl
  · rw [hkey]
    exact hlo
  · rw [hkey]
    exact hhi

/-- The whole `new_leaf` character fold computes its exact value and
stays in `(-M, M)`. -/
theorem leafFold_eq_exact {B M : ℤ} (hB0 : 0 ≤ B) (hB : B ≤ 2 ^ 64)
    (hM1 : 1 ≤ M) (hM : M ≤ 2 ^ 63) :
    ∀ {l : List (ℕ × ℕ)} {h : ℤ},
      (∀ c ∈ l, (c.1 : ℤ) < 2 ^ 32 ∧ (c.2 : ℤ) < 2 ^ 32) →
      -M < h → h < M →
      l.foldl (leafStep B M) h = l.foldl (leafStepExact B M) h ∧
        -M < l.foldl (leafStep B M) h ∧ l.foldl (leafStep B M) h < M := by
  intro l
  induction l with
  | nil =>
    intro h _ h1 h2
    exact ⟨rfl, h1, h2⟩
  | cons c rest ih =>
    intro h hc h1 h2
    obtain ⟨hc1, hc2⟩ := hc c (by simp)
    obtain ⟨he, hlo, hhi⟩ := leafStep_eq_exact hB0 hB hM1 hM h1 h2 hc1 hc2
    obtain ⟨he2, hlo2, hhi2⟩ := ih (fun d hd => hc d (by simp [hd])) hlo hhi
    refine ⟨?_, ?_, ?_⟩
    · rw [List.foldl_cons, List.foldl_cons, ← he]
      exact he2
    · rw [List.foldl_cons]
      exact hlo2
    · rw [List.foldl_cons]
      exact hhi2

/-- **Wrap-freedom of `new_leaf`**: for any `u64` base, module
`1 ≤ M ≤ 2^63`, in-range `pot` and 32-bit codepoints, the wrapping
computation coincides with the exact one at every step. -/
theorem newLeaf_eq_exact {B M : ℤ} (hB0 : 0 ≤ B) (hB : B ≤ 2 ^ 64)
    (hM1 : 1 ≤ M) (hM : M ≤ 2 ^ 63) {idx : ℕ} {w1 w2 : Word} {pot : ℤ}
    (hp1 : -M < pot) (hp : pot < M)
    (hw : ∀ c ∈ w1.zip w2, (c.1 : ℤ) < 2 ^ 32 ∧ (c.2 : ℤ) < 2 ^ 32) :
    newLeaf idx w1 w2 B M pot = newLeafExact idx w1 w2 B M pot := by
  obtain ⟨he, hlo, hhi⟩ :=
    @leafFold_eq_exact B M hB0 hB hM1 hM (w1.zip w2) 0 hw (by omega)
      (by omega)
  obtain ⟨hm1, hm2⟩ := mul_abs_bounds hlo hhi hp1 hp
  have hMM : M * M ≤ 2 ^ 126 := by nlinarith
  have hwr : wrap128 ((w1.zip w2).foldl (leafStep B M) 0 * pot) =
      (w1.zip w2).foldl (leafStep B M) 0 * pot := by
    apply wrap128_id
    · linarith
    · linarith
  unfold newLeaf newLeafExact
  rw [if_neg (by omega : ¬M = 0), if_neg (by omega : ¬M = 0), hwr, he]

/-- **Wrap-freedom of the `pot` update**: `pot * base` never leaves the
`i128` range for an in-range `pot` and `u64` base. -/
theorem potStep_eq_exact {B M : ℤ} (hB0 : 0 ≤ B) (hB : B ≤ 2 ^ 64)
    (hM1 : 1 ≤ M) (hM : M ≤ 2 ^ 63) {pot : ℤ} (hp1 : -M < pot)
    (hp : pot < M) :
    potStep B M pot = potStepExact B M pot := by
  have hub : pot * B ≤ (M - 1) * 2 ^ 64 :=
    mul_le_mul (by omega) hB hB0 (by omega)
  have hlb : -((M - 1) * 2 ^ 64) ≤ pot * B := by
    have hneg : (-pot) * B ≤ (M - 1) * 2 ^ 64 :=
      mul_le_mul (by omega) hB hB0 (by omega)
    have hnm : (-pot) * B = -(pot * B) := by ring
    omega
  have hMB : (M - 1) * 2 ^ 64 ≤ 2 ^ 127 - 2 ^ 64 := by nlinarith
  have hwr : wrap128 (pot * B) = pot * B :=
    wrap128_id (by linarith) (by linarith)
  unfold potStep potStepExact
  rw [if_neg (by omega : ¬M = 0), if_neg (by omega : ¬M = 0), hwr]

/-! ### C1: hash-only soundness of the lifters (no distinctness needed) -/

/-- The birthday lifter maintains widths, codepoint bounds and the
collisions under all processed hash pairs — with no distinctness
hypothesis on the alphabet. -/
theorem birthdayLift_hash {rng boundFn : ℕ → ℕ} :
    ∀ (pairs E : List (ℕ × ℕ)) (A : List Word) (wdt cur : ℕ)
      (A' : List Word) (cur' : ℕ),
      (∀ x ∈ A, x.length = wdt) →
      (∀ x ∈ A, ∀ c ∈ x, c < 2 ^ 32) →
      (∀ p ∈ pairs, p.1 < 2 ^ 32 ∧ 1 ≤ p.2 ∧ p.2 < 2 ^ 32) →
      (∀ p ∈ E, 1 ≤ p.2 ∧
        ∀ x ∈ A, ∀ y ∈ A, mathHash p.1 p.2 x = mathHash p.1 p.2 y) →
      birthdayLift rng boundFn pairs A cur = some (some (A', cur')) →
      ∃ wdt', (∀ x ∈ A', x.length = wdt') ∧
        (∀ x ∈ A', ∀ c ∈ x, c < 2 ^ 32) ∧
        (∀ p ∈ E ++ pairs, 1 ≤ p.2 ∧
          ∀ x ∈ A', ∀ y ∈ A', mathHash p.1 p.2 x = mathHash p.1 p.2 y) := by
  intro pairs
  induction pairs with
  | nil =>
    intro E A wdt cur A' cur' hw hc _ hE hrun
    rw [birthdayLift] at hrun
    simp only [Option.some.injEq, Prod.mk.injEq] at hrun
    obtain ⟨rfl, rfl⟩ := hrun
    exact ⟨wdt, hw, hc, by simpa using fun p hp => hE p hp⟩
  | cons bm rest ih =>
    intro E A wdt cur A' cur' hw hc hbm hE hrun
    obtain ⟨b, m⟩ := bm
    rw [birthdayLift] at hrun
    cases hsingle : birthdayFindSingle rng (boundFn m) b m A cur with
    | none => rw [hsingle] at hrun; exact absurd hrun (by simp)
    | some p =>
      obtain ⟨r, curs⟩ := p
      rw [hsingle] at hrun
      cases r with
      | none => simp at hrun
      | some pair =>
        obtain ⟨fi, se⟩ := pair
        dsimp only at hrun
        obtain ⟨len, h6, h64, hgh, -, hcf, hcs⟩ :=
          birthdayFindSingle_sound hsingle
        obtain ⟨hb32, hm1, hm32⟩ := hbm (b, m) (by simp)
        have hcp_fi : ∀ c ∈ fi, c < 2 ^ 32 := hcf.codepoints hc
        have hcp_se : ∀ c ∈ se, c < 2 ^ 32 := hcs.codepoints hc
        have hmh : mathHash b m fi = mathHash b m se := by
          rw [← getHash_eq_mathHash hm1 hb32 hm32 hcp_fi,
            ← getHash_eq_mathHash hm1 hb32 hm32 hcp_se]
          exact hgh
        have hwf := hcf.length hw
        have hws := hcs.length hw
        have hmain := ih (E ++ [(b, m)]) [fi, se] _ curs A' cur'
          (fun x hx => by
            rcases List.mem_cons.mp hx with rfl | hx
            · exact hwf
            · rcases List.mem_cons.mp hx with rfl | hx
              · exact hws
              · simp at hx)
          (fun x hx => by
            rcases List.mem_cons.mp hx with rfl | hx
            · exact hcp_fi
            · rcases List.mem_cons.mp hx with rfl | hx
              · exact hcp_se
              · simp at hx)
          (fun p hp => hbm p (List.mem_cons_of_mem _ hp))
          (fun p hp => by
            rcases List.mem_append.mp hp with hp | hp
            · obtain ⟨hp1, hpA⟩ := hE p hp
              refine ⟨hp1, ?_⟩
              intro x hx y hy
              have hEx : ∀ z ∈ ([fi, se] : List Word),
                  mathHash p.1 p.2 z = mathHash p.1 p.2 fi := by
                intro z hz
                rcases List.mem_cons.mp hz with rfl | hz
                · rfl
                · rcases List.mem_cons.mp hz with rfl | hz
                  · exact mathHash_concat_eq hp1 hw hpA hcs hcf
                  · simp at hz
              rw [hEx x hx, hEx y hy]
            · simp only [List.mem_singleton] at hp
              subst hp
              refine ⟨hm1, ?_⟩
              intro x hx y hy
              have hEx : ∀ z ∈ ([fi, se] : List Word),
                  mathHash b m z = mathHash b m fi := by
                intro z hz
                rcases List.mem_cons.mp hz with rfl | hz
                · rfl
                · rcases List.mem_cons.mp hz with rfl | hz
                  · exact hmh.symm
                  · simp at hz
              rw [hEx x hx, hEx y hy])
          hrun
        obtain ⟨wdt', h1', h2', h4'⟩ := hmain
        refine ⟨wdt', h1', h2', ?_⟩
        intro p hp
        refine h4' p ?_
        rcases List.mem_append.mp hp with hp | hp
        · exact List.mem_append.mpr (Or.inl (List.mem_append.mpr
            (Or.inl hp)))
        · rcases List.mem_cons.mp hp with rfl | hp
          · exact List.mem_append.mpr (Or.inl (List.mem_append.mpr
              (Or.inr (by simp))))
          · exact List.mem_append.mpr (Or.inr hp)

/-- Hash-collision soundness of `birthday_attack::find_collision` with
no distinctness hypothesis. -/
theorem birthdayFindCollision_hash {rng boundFn : ℕ → ℕ}
    {bases modules : List ℕ} {A : List Word} {wdt cur : ℕ} {s1 s2 : Word}
    (hw : ∀ x ∈ A, x.length = wdt)
    (hc : ∀ x ∈ A, ∀ c ∈ x, c < 2 ^ 32)
    (hbm : ∀ p ∈ bases.zip modules, p.1 < 2 ^ 32 ∧ 1 ≤ p.2 ∧ p.2 < 2 ^ 32)
    (hrun : birthdayFindCollision rng boundFn bases modules A cur =
      some (some (s1, s2))) :
    ∀ p ∈ bases.zip modules, mathHash p.1 p.2 s1 = mathHash p.1 p.2 s2 := by
  rw [birthdayFindCollision] at hrun
  cases hlift : birthdayLift rng boundFn (bases.zip modules) A cur with
  | none => rw [hlift] at hrun; exact absurd hrun (by simp)
  | some r =>
    rw [hlift] at hrun
    cases r with
    | none => simp at hrun
    | some p =>
      obtain ⟨A', cur'⟩ := p
      dsimp only at hrun
      obtain ⟨wdt', h1', h2', h4'⟩ :=
        birthdayLift_hash (bases.zip modules) [] A wdt cur A' cur'
          hw hc hbm (by simp) hlift
      cases A' with
      | nil => simp at hrun
      | cons a A'' =>
        cases A'' with
        | nil => simp at hrun
        | cons b rest =>
          dsimp only at hrun
          simp only [Option.some.injEq, Prod.mk.injEq] at hrun
          obtain ⟨rfl, rfl⟩ := hrun
          intro p hp
          exact (h4' p (by simpa using hp)).2 a (by simp) b (by simp)

/-- The tree lifter maintains widths, non-emptiness, codepoint bounds
and the collisions under all processed hash pairs — with no
distinctness hypothesis on the alphabet. -/
theorem treeLift_hash {o : Oracle} (hgood : o.Good) {clusterSize : ℕ} :
    ∀ (pairs E : List (ℕ × ℕ)) (A : List Word) (wdt cur : ℕ)
      (A' : List Word) (cur' : ℕ),
      (∀ x ∈ A, x.length = wdt) →
      A ≠ [] →
      (∀ p ∈ pairs, p.1 ≤ 2 ^ 64 ∧ 1 < p.2 ∧ p.2 ≤ 2 ^ 63) →
      (∀ x ∈ A, ∀ c ∈ x, ∀ p ∈ pairs, (c : ℤ) < (p.2 : ℤ)) →
      (∀ p ∈ E, 1 ≤ p.2 ∧
        ∀ x ∈ A, ∀ y ∈ A, mathHash p.1 p.2 x = mathHash p.1 p.2 y) →
      treeLift o clusterSize pairs A cur = some (some (A', cur')) →
      ∃ wdt', (∀ x ∈ A', x.length = wdt') ∧ A' ≠ [] ∧
        (∀ p ∈ E ++ pairs, 1 ≤ p.2 ∧
          ∀ x ∈ A', ∀ y ∈ A', mathHash p.1 p.2 x = mathHash p.1 p.2 y) := by
  intro pairs
  induction pairs with
  | nil =>
    intro E A wdt cur A' cur' hw hA _ _ hE hrun
    rw [treeLift] at hrun
    simp only [Option.some.injEq, Prod.mk.injEq] at hrun
    obtain ⟨rfl, rfl⟩ := hrun
    exact ⟨wdt, hw, hA, by simpa using fun p hp => hE p hp⟩
  | cons bm rest ih =>
    intro E A wdt cur A' cur' hw hA hbm hcp hE hrun
    obtain ⟨b, m⟩ := bm
    rw [treeLift] at hrun
    cases hsingle : treeFindSingle o b m clusterSize A cur with
    | none =>
      rw [hsingle] at hrun
      exact absurd hrun (by simp)
    | some p =>
      rw [hsingle] at hrun
      obtain ⟨r, curs⟩ := p
      cases r with
      | none => simp at hrun
      | some pair =>
        obtain ⟨fi, se⟩ := pair
        have hrun2 : treeLift o clusterSize rest [fi, se] curs =
            some (some (A', cur')) := hrun
        obtain ⟨hb64, hm2, hm63⟩ := hbm (b, m) (List.mem_cons_self _ _)
        obtain ⟨q, hq3, hq12, hlf, hls, hcf, hcs, hmh, -⟩ :=
          @treeFindSingle_den o hgood b m clusterSize hb64 hm2 hm63 A
            wdt (fun _ _ => True) hw
            (fun wd hwd ch hch =>
              hcp wd hwd ch hch (b, m) (List.mem_cons_self _ _))
            (fun _ _ _ _ _ => trivial) cur _ hsingle fi se rfl
        have hm1 : 1 ≤ m := by omega
        have hcnew : ∀ x ∈ ([fi, se] : List Word), ∀ ch ∈ x, ∀ p ∈ rest,
            (ch : ℤ) < (p.2 : ℤ) := by
          intro x hx
          have hbase : ∀ wd ∈ A, ∀ ch ∈ wd, ∀ p ∈ rest,
              (ch : ℤ) < (p.2 : ℤ) :=
            fun wd hwd ch hch p hp =>
              hcp wd hwd ch hch p (List.mem_cons_of_mem _ hp)
          rcases List.mem_cons.mp hx with rfl | hx
          · exact hcf.codepoints hbase
          rcases List.mem_cons.mp hx with rfl | hx
          · exact hcs.codepoints hbase
          · simp at hx
        have hmain := ih (E ++ [(b, m)]) [fi, se] (2 ^ q * wdt) curs A'
          cur'
          (fun x hx => by
            rcases List.mem_cons.mp hx with rfl | hx
            · exact hlf
            · rcases List.mem_cons.mp hx with rfl | hx
              · exact hls
              · simp at hx)
          (by simp)
          (fun p hp => hbm p (List.mem_cons_of_mem _ hp))
          hcnew
          (fun p hp => by
            rcases List.mem_append.mp hp with hp | hp
            · obtain ⟨hp1, hpA⟩ := hE p hp
              refine ⟨hp1, ?_⟩
              intro x hx y hy
              have hEx : ∀ z ∈ ([fi, se] : List Word),
                  mathHash p.1 p.2 z = mathHash p.1 p.2 fi := by
                intro z hz
                rcases List.mem_cons.mp hz with rfl | hz
                · rfl
                · rcases List.mem_cons.mp hz with rfl | hz
                  · exact mathHash_concat_eq hp1 hw hpA hcs hcf
                  · simp at hz
              rw [hEx x hx, hEx y hy]
            · simp only [List.mem_singleton] at hp
              subst hp
              refine ⟨hm1, ?_⟩
              intro x hx y hy
              have hEx : ∀ z ∈ ([fi, se] : List Word),
                  mathHash b m z = mathHash b m fi := by
                intro z hz
                rcases List.mem_cons.mp hz with rfl | hz
                · rfl
                · rcases List.mem_cons.mp hz with rfl | hz
                  · exact hmh.symm
                  · simp at hz
              rw [hEx x hx, hEx y hy])
          hrun2
        obtain ⟨wdt', h1', h2', h4'⟩ := hmain
        refine ⟨wdt', h1', h2', ?_⟩
        intro p hp
        refine h4' p ?_
        rcases List.mem_append.mp hp with hp | hp
        · exact List.mem_append.mpr (Or.inl (List.mem_append.mpr
            (Or.inl hp)))
        · rcases List.mem_cons.mp hp with rfl | hp
          · exact List.mem_append.mpr (Or.inl (List.mem_append.mpr
              (Or.inr (by simp))))
          · exact List.mem_append.mpr (Or.inr hp)

/-- Hash-collision soundness of `tree_attack::find_collision` with no
distinctness hypothesis. -/
theorem treeFindCollision_hash {o : Oracle} (hgood : o.Good)
    {bases modules : List ℕ} {clusterSize : ℕ} {A : List Word}
    {wdt cur : ℕ} {s1 s2 : Word}
    (hw : ∀ x ∈ A, x.length = wdt)
    (hA : A ≠ [])
    (hbm : ∀ p ∈ bases.zip modules, p.1 ≤ 2 ^ 64 ∧ 1 < p.2 ∧
      p.2 ≤ 2 ^ 63)
    (hcp : ∀ x ∈ A, ∀ c ∈ x, ∀ p ∈ bases.zip modules,
      (c : ℤ) < (p.2 : ℤ))
    (hrun : treeFindCollision o bases modules clusterSize A cur =
      some (some (s1, s2))) :
    ∀ p ∈ bases.zip modules, mathHash p.1 p.2 s1 = mathHash p.1 p.2 s2 := by
  unfold treeFindCollision at hrun
  cases hlift : treeLift o clusterSize (bases.zip modules) A cur with
  | none =>
    rw [hlift] at hrun
    exact absurd hrun (by simp)
  | some r =>
    rw [hlift] at hrun
    cases r with
    | none => simp at hrun
    | some p =>
      obtain ⟨A', cur'⟩ := p
      dsimp only at hrun
      obtain ⟨wdt', h1', hne', h4'⟩ :=
        treeLift_hash hgood (bases.zip modules) [] A wdt cur A' cur'
          hw hA hbm hcp (by simp) hlift
      cases A' with
      | nil => simp at hrun
      | cons a A'' =>
        cases A'' with
        | nil => simp at hrun
        | cons b2 rst =>
          dsimp only at hrun
          simp only [Option.some.injEq, Prod.mk.injEq] at hrun
          obtain ⟨rfl, rfl⟩ := hrun
          intro p hp
          exact (h4' p (by simpa using hp)).2 a (by simp) b2 (by simp)

/-! ### C4/C8: distinctness and widths through the birthday lifter -/

/-- The birthday lifter preserves pairwise distinctness with no other
hypotheses: a single-solver success always returns two different words
(the `word != coll` check). -/
theorem birthdayLift_distinct {rng boundFn : ℕ → ℕ} :
    ∀ (pairs : List (ℕ × ℕ)) (A : List Word) (cur : ℕ)
      (A' : List Word) (cur' : ℕ), A.Pairwise (· ≠ ·) →
      birthdayLift rng boundFn pairs A cur = some (some (A', cur')) →
      A'.Pairwise (· ≠ ·) := by
  intro pairs
  induction pairs with
  | nil =>
    intro A cur A' cur' hnd hrun
    rw [birthdayLift] at hrun
    simp only [Option.some.injEq, Prod.mk.injEq] at hrun
    obtain ⟨rfl, rfl⟩ := hrun
    exact hnd
  | cons bm rest ih =>
    intro A cur A' cur' hnd hrun
    obtain ⟨b, m⟩ := bm
    rw [birthdayLift] at hrun
    cases hsingle : birthdayFindSingle rng (boundFn m) b m A cur with
    | none => rw [hsingle] at hrun; exact absurd hrun (by simp)
    | some p =>
      obtain ⟨r, curs⟩ := p
      rw [hsingle] at hrun
      cases r with
      | none => simp at hrun
      | some pair =>
        obtain ⟨fi, se⟩ := pair
        dsimp only at hrun
        obtain ⟨len, -, -, -, hne, -, -⟩ :=
          birthdayFindSingle_sound hsingle
        exact ih [fi, se] curs A' cur' (by simp [hne]) hrun

/-- The birthday lifter preserves equal widths with no other
hypotheses: both returned single-solver words are same-count
concatenations over the current alphabet. -/
theorem birthdayLift_len {rng boundFn : ℕ → ℕ} :
    ∀ (pairs : List (ℕ × ℕ)) (A : List Word) (wdt cur : ℕ)
      (A' : List Word) (cur' : ℕ), (∀ x ∈ A, x.length = wdt) →
      birthdayLift rng boundFn pairs A cur = some (some (A', cur')) →
      ∃ wdt', ∀ x ∈ A', x.length = wdt' := by
  intro pairs
  induction pairs with
  | nil =>
    intro A wdt cur A' cur' hw hrun
    rw [birthdayLift] at hrun
    simp only [Option.some.injEq, Prod.mk.injEq] at hrun
    obtain ⟨rfl, rfl⟩ := hrun
    exact ⟨wdt, hw⟩
  | cons bm rest ih =>
    intro A wdt cur A' cur' hw hrun
    obtain ⟨b, m⟩ := bm
    rw [birthdayLift] at hrun
    cases hsingle : birthdayFindSingle rng (boundFn m) b m A cur with
    | none => rw [hsingle] at hrun; exact absurd hrun (by simp)
    | some p =>
      obtain ⟨r, curs⟩ := p
      rw [hsingle] at hrun
      cases r with
      | none => simp at hrun
      | some pair =>
        obtain ⟨fi, se⟩ := pair
        dsimp only at hrun
        obtain ⟨len, -, -, -, -, hcf, hcs⟩ :=
          birthdayFindSingle_sound hsingle
        exact ih [fi, se] (len * wdt) curs A' cur'
          (fun x hx => by
            rcases List.mem_cons.mp hx with rfl | hx
            · exact hcf.length hw
            · rcases List.mem_cons.mp hx with rfl | hx
              · exact hcs.length hw
              · simp at hx)
          hrun

/-- Distinctness of `birthday_attack::find_collision` over a
pairwise-distinct alphabet, with no numeric hypotheses. -/
theorem birthdayFindCollision_distinct {rng boundFn : ℕ → ℕ}
    {bases modules : List ℕ} {A : List Word} {cur : ℕ} {s1 s2 : Word}
    (hnd : A.Pairwise (· ≠ ·))
    (hrun : birthdayFindCollision rng boundFn bases modules A cur =
      some (some (s1, s2))) :
    s1 ≠ s2 := by
  rw [birthdayFindCollision] at hrun
  cases hlift : birthdayLift rng boundFn (bases.zip modules) A cur with
  | none => rw [hlift] at hrun; exact absurd hrun (by simp)
  | some r =>
    rw [hlift] at hrun
    cases r with
    | none => simp at hrun
    | some p =>
      obtain ⟨A', cur'⟩ := p
      dsimp only at hrun
      have h3' := birthdayLift_distinct (bases.zip modules) A cur A'
        cur' hnd hlift
      cases A' with
      | nil => simp at hrun
      | cons a A'' =>
        cases A'' with
        | nil => simp at hrun
        | cons b rest =>
          dsimp only at hrun
          simp only [Option.some.injEq, Prod.mk.injEq] at hrun
          obtain ⟨rfl, rfl⟩ := hrun
          exact (List.pairwise_cons.mp h3').1 b (by simp)

/-- Equal byte lengths of `birthday_attack::find_collision` over an
equal-width alphabet, with no numeric hypotheses. -/
theorem birthdayFindCollision_len {rng boundFn : ℕ → ℕ}
    {bases modules : List ℕ} {A : List Word} {wdt cur : ℕ} {s1 s2 : Word}
    (hw : ∀ x ∈ A, x.length = wdt)
    (hrun : birthdayFindCollision rng boundFn bases modules A cur =
      some (some (s1, s2))) :
    s1.length = s2.length := by
  rw [birthdayFindCollision] at hrun
  cases hlift : birthdayLift rng boundFn (bases.zip modules) A cur with
  | none => rw [hlift] at hrun; exact absurd hrun (by simp)
  | some r =>
    rw [hlift] at hrun
    cases r with
    | none => simp at hrun
    | some p =>
      obtain ⟨A', cur'⟩ := p
      dsimp only at hrun
      obtain ⟨wdt', h1'⟩ := birthdayLift_len (bases.zip modules) A wdt
        cur A' cur' hw hlift
      cases A' with
      | nil => simp at hrun
      | cons a A'' =>
        cases A'' with
        | nil => simp at hrun
        | cons b rest =>
          dsimp only at hrun
          simp only [Option.some.injEq, Prod.mk.injEq] at hrun
          obtain ⟨rfl, rfl⟩ := hrun
          rw [h1' a (by simp), h1' b (by simp)]

/-! ### C9: the exponent loop tries `p = 3..11` in order, first success -/

/-- On fuel exhaustion the exponent loop reports no pair. -/
theorem treeLoop_exhaust {o : Oracle} {A : List Word} {B M : ℤ}
    {wl clusterSize p : ℕ} {tree : List (List TNode)} {cur : ℕ} :
    treeLoop o A B M wl clusterSize p 0 tree cur = some (none, cur) := rfl

/-- If the attack at the current exponent finds a pair, the loop stops
and returns exactly that pair. -/
theorem treeLoop_stop {o : Oracle} {A : List Word} {B M : ℤ}
    {wl clusterSize p c : ℕ} {tree : List (List TNode)} {cur : ℕ}
    {r : List (List TNode) × Option (Word × Word) × ℕ}
    {pair : Word × Word}
    (h : tryAttack o A B M wl clusterSize tree p cur = some r)
    (hp : r.2.1 = some pair) :
    treeLoop o A B M wl clusterSize p (c + 1) tree cur =
      some (some pair, r.2.2) := by
  have he : treeLoop o A B M wl clusterSize p (c + 1) tree cur = (do
      let res ← tryAttack o A B M wl clusterSize tree p cur
      match res.2.1 with
      | some pair2 => some (some pair2, res.2.2)
      | none =>
        treeLoop o A B M wl clusterSize (p + 1) c res.1 res.2.2) := rfl
  rw [he, h]
  simp only [Option.bind_eq_bind, Option.some_bind]
  rw [hp]

/-- If the attack at the current exponent finds no pair, the loop moves
to the next exponent with the attack's arena and cursor. -/
theorem treeLoop_next {o : Oracle} {A : List Word} {B M : ℤ}
    {wl clusterSize p c : ℕ} {tree : List (List TNode)} {cur : ℕ}
    {r : List (List TNode) × Option (Word × Word) × ℕ}
    (h : tryAttack o A B M wl clusterSize tree p cur = some r)
    (hp : r.2.1 = none) :
    treeLoop o A B M wl clusterSize p (c + 1) tree cur =
      treeLoop o A B M wl clusterSize (p + 1) c r.1 r.2.2 := by
  have he : treeLoop o A B M wl clusterSize p (c + 1) tree cur = (do
      let res ← tryAttack o A B M wl clusterSize tree p cur
      match res.2.1 with
      | some pair2 => some (some pair2, res.2.2)
      | none =>
        treeLoop o A B M wl clusterSize (p + 1) c res.1 res.2.2) := rfl
  rw [he, h]
  simp only [Option.bind_eq_bind, Option.some_bind]
  rw [hp]

/-- A failing attack fails the whole loop. -/
theorem treeLoop_fail {o : Oracle} {A : List Word} {B M : ℤ}
    {wl clusterSize p c : ℕ} {tree : List (List TNode)} {cur : ℕ}
    (h : tryAttack o A B M wl clusterSize tree p cur = none) :
    treeLoop o A B M wl clusterSize p (c + 1) tree cur = none := by
  have he : treeLoop o A B M wl clusterSize p (c + 1) tree cur = (do
      let res ← tryAttack o A B M wl clusterSize tree p cur
      match res.2.1 with
      | some pair2 => some (some pair2, res.2.2)
      | none =>
        treeLoop o A B M wl clusterSize (p + 1) c res.1 res.2.2) := rfl
  rw [he, h]
  rfl

/-! ### Structural (bounds-free) facts about the tree solver -/

/-- Structural soundness of a node: if it is a leaf, its words are
alphabet words of width `wl` related by `P`. -/
def LeafOK (wl : ℕ) (A : List Word) (P : Word → Word → Prop)
    (nd : TNode) : Prop :=
  ∀ s idx w1 w2, nd = TNode.leaf s idx w1 w2 →
    w1 ∈ A ∧ w2 ∈ A ∧ P w1 w2 ∧ w1.length = wl ∧ w2.length = wl

/-- Every leaf node stored anywhere in the arena is structurally
sound. -/
def ArenaOK (wl : ℕ) (A : List Word) (P : Word → Word → Prop)
    (tree : List (List TNode)) : Prop :=
  ∀ slot ∈ tree, ∀ nd ∈ slot, LeafOK wl A P nd

theorem leafOK_internal {wl : ℕ} {A : List Word} {P : Word → Word → Prop}
    {s : ℤ} {i : ℕ} {ml mr : Bool} {pl pr : ℕ} :
    LeafOK wl A P (TNode.internal s i ml mr pl pr) := by
  intro s2 idx w1 w2 h
  exact absurd h (by simp)

/-- Whatever the arithmetic does, a successful `new_leaf` returns a leaf
carrying exactly the given index and word pair. -/
theorem newLeaf_shape {idx : ℕ} {w1 w2 : Word} {B M pot : ℤ} {nd : TNode}
    (h : newLeaf idx w1 w2 B M pot = some nd) :
    ∃ s, nd = TNode.leaf s idx w1 w2 := by
  unfold newLeaf at h
  by_cases hM : M = 0
  · rw [if_pos hM] at h
    simp at h
  · rw [if_neg hM] at h
    exact ⟨_, (Option.some.inj h).symm⟩

/-- The `init_attack` loop writes only structurally sound leaf lists. -/
theorem initLoop_struct {o : Oracle} (hgood : o.Good) {A : List Word}
    {B M : ℤ} {wordLen len : ℕ} {wl : ℕ} {P : Word → Word → Prop}
    (hwidth : ∀ wd ∈ A, wd.length = wl)
    (hP : ∀ a b : ℕ, a < A.length → b < A.length → a ≠ b →
      P (A.getD a []) (A.getD b [])) :
    ∀ {c : ℕ} {tree tree' : List (List TNode)} {pot : ℤ},
      tree.length = 2 * len →
      (∀ j, ((c ≤ j ∧ j < len) ∨ c + len ≤ j) →
        ∀ nd ∈ tree.getD j [], LeafOK wl A P nd) →
      initLoop o A B M wordLen len c tree pot = some tree' →
      ArenaOK wl A P tree' := by
  intro c
  induction c with
  | zero =>
    intro tree tree' pot htl hs h
    rw [initLoop] at h
    obtain rfl := Option.some.inj h
    intro slot hslot nd hnd
    obtain ⟨j, hj, rfl⟩ := List.mem_iff_getElem.mp hslot
    rw [← List.getD_eq_getElem _ ([] : List TNode) hj] at hnd
    rcases Nat.lt_or_ge j len with hjl | hjl
    · exact hs j (Or.inl ⟨Nat.zero_le _, hjl⟩) nd hnd
    · exact hs j (Or.inr (by omega)) nd hnd
  | succ c ih =>
    intro tree tree' pot htl hs h
    rw [initLoop_succ] at h
    cases hm : (ordPairs A.length).mapM fun ab =>
        newLeaf c (A.getD ab.1 []) (A.getD ab.2 []) B M pot with
    | none => rw [hm] at h; simp at h
    | some leaves =>
      rw [hm] at h
      simp only [Option.bind_eq_bind, Option.some_bind] at h
      cases hpu : potUpdates B M wordLen pot with
      | none => rw [hpu] at h; simp at h
      | some pot2 =>
        rw [hpu] at h
        simp only [Option.some_bind] at h
        have hlv : ∀ nd ∈ leaves, LeafOK wl A P nd := by
          intro nd hnd
          obtain ⟨ab, habm, hnl⟩ := mapM_option_mem hm nd hnd
          obtain ⟨ha, hb, hab⟩ := ordPairs_mem ab habm
          obtain ⟨s, rfl⟩ := newLeaf_shape hnl
          intro s2 idx v1 v2 he
          obtain ⟨-, rfl, rfl, rfl⟩ :=
            (TNode.leaf.injEq _ _ _ _ _ _ _ _).mp he
          exact ⟨getD_mem_list ha, getD_mem_list hb,
            hP ab.1 ab.2 ha hb hab,
            hwidth _ (getD_mem_list ha), hwidth _ (getD_mem_list hb)⟩
        have hded : ∀ nd ∈ dedupAdj (o.sortN TNode.sum leaves),
            LeafOK wl A P nd := by
          intro nd hnd
          have hsorted : (o.sortN TNode.sum leaves).Pairwise
              fun a b => a.sum ≤ b.sum := (hgood.1 TNode.sum leaves).2
          have hmem := (dedupAdj_spec hsorted).2 nd hnd
          have hperm := (hgood.1 TNode.sum leaves).1
          exact hlv nd (hperm.mem_iff.mp hmem)
        have htl2 : ((tree.set c []).set (c + len)
            (dedupAdj (o.sortN TNode.sum leaves))).length = 2 * len := by
          simp only [List.length_set]
          exact htl
        refine ih htl2 ?_ h
        intro j hj nd hnd
        by_cases hje : j = c + len
        · subst hje
          rcases Nat.lt_or_ge (c + len) (2 * len) with hc2 | hc2
          · rw [getD_set_eq
              (by simp only [List.length_set]; omega)] at hnd
            exact hded nd hnd
          · rw [List.getD_eq_default _ _
              (by simp only [List.length_set]; omega)] at hnd
            simp at hnd
        · by_cases hjc : j = c
          · rw [getD_set_ne (by omega : c + len ≠ j)] at hnd
            rcases Nat.lt_or_ge c (2 * len) with hc2 | hc2
            · rw [hjc, getD_set_eq (by omega)] at hnd
              simp at hnd
            · rw [List.getD_eq_default _ _
                (by simp only [List.length_set]; omega)] at hnd
              simp at hnd
          · rw [getD_set_ne (by omega : c + len ≠ j),
              getD_set_ne (by omega : c ≠ j)] at hnd
            refine hs j ?_ nd hnd
            rcases hj with ⟨hj1, hj2⟩ | hj1
            · exact Or.inl ⟨by omega, hj2⟩
            · exact Or.inr (by omega)

/-- `init_attack` fully overwrites the arena with structurally sound
content, whatever was there before. -/
theorem initAttack_struct {o : Oracle} (hgood : o.Good) {A : List Word}
    {B M : ℤ} {wordLen : ℕ} {wl : ℕ} {P : Word → Word → Prop}
    (hwidth : ∀ wd ∈ A, wd.length = wl)
    (hP : ∀ a b : ℕ, a < A.length → b < A.length → a ≠ b →
      P (A.getD a []) (A.getD b []))
    {tree tree' : List (List TNode)} {len : ℕ}
    (heq : initAttack o A B M wordLen tree len = some tree') :
    ArenaOK wl A P tree' := by
  unfold initAttack at heq
  have h0 : (tree.take (2 * len) ++ List.replicate (2 * len - tree.length)
      ([] : List TNode)).length = 2 * len := by
    rw [List.length_append, List.length_take, List.length_replicate]
    omega
  refine initLoop_struct hgood hwidth hP h0 ?_ heq
  intro j hj nd hnd
  rcases hj with ⟨hj1, hj2⟩ | hj1
  · exact absurd hj2 (by omega)
  · rw [List.getD_eq_default _ _ (by rw [h0]; omega)] at hnd
    simp at hnd

/-- Every node the merge loop ever appends is an internal node. -/
theorem mergeLoop_internal {l r : List TNode} {clusterSize i : ℕ} :
    ∀ {fuel : ℕ} {heap : List HeapEnt} {added : List (ℕ × ℕ × Bool)}
      {out : List TNode} {lastSum : ℤ} {res : List TNode × Bool},
      mergeLoop l r clusterSize i fuel heap added out lastSum =
        some res →
      (∀ nd ∈ out, ∃ s j ml mr pl pr,
        nd = TNode.internal s j ml mr pl pr) →
      ∀ nd ∈ res.1, ∃ s j ml mr pl pr,
        nd = TNode.internal s j ml mr pl pr := by
  intro fuel
  induction fuel with
  | zero =>
    intro heap added out lastSum res h hout
    simp [mergeLoop] at h
  | succ fuel ih =>
    intro heap added out lastSum res h hout
    cases heap with
    | nil =>
      rw [mergeLoop_nil] at h
      obtain rfl := Option.some.inj h
      exact hout
    | cons e heap' =>
      obtain ⟨s, pl, pr, b⟩ := e
      by_cases hcs : out.length < clusterSize
      case neg =>
        cases b with
        | true =>
          rw [mergeLoop_cons_sum, if_neg hcs] at h
          obtain rfl := Option.some.inj h
          exact hout
        | false =>
          rw [mergeLoop_cons_diff, if_neg hcs] at h
          obtain rfl := Option.some.inj h
          exact hout
      case pos =>
      cases b with
      | true =>
        rw [mergeLoop_cons_sum, if_pos hcs] at h
        have hout2 : ∀ nd ∈ (if s ≠ lastSum then
            (out ++ [TNode.internal s i false false pl pr], s)
            else (out, lastSum)).1,
            ∃ s2 j ml mr pl2 pr2,
              nd = TNode.internal s2 j ml mr pl2 pr2 := by
          split_ifs with hsl
          · intro nd hnd
            rcases List.mem_append.mp hnd with hnd | hnd
            · exact hout nd hnd
            · obtain rfl := List.mem_singleton.mp hnd
              exact ⟨s, i, false, false, pl, pr, rfl⟩
          · exact hout
        cases h1 : pushSumIf l r (decide (pl + 1 < l.length)) heap' added
            (pl + 1) pr with
        | none => rw [h1] at h; simp at h
        | some ha1 =>
          rw [h1] at h
          simp only [Option.bind_eq_bind, Option.some_bind] at h
          cases h2 : pushSumIf l r (decide (pr + 1 < r.length)) ha1.1
              ha1.2 pl (pr + 1) with
          | none => rw [h2] at h; simp at h
          | some ha2 =>
            rw [h2] at h
            simp only [Option.some_bind] at h
            cases h3 : pushSumIf l r
                (decide (pl + 1 < l.length ∧ pr + 1 < r.length)) ha2.1
                ha2.2 (pl + 1) (pr + 1) with
            | none => rw [h3] at h; simp at h
            | some ha3 =>
              rw [h3] at h
              simp only [Option.some_bind] at h
              by_cases hs0 : s = 0
              · rw [if_pos hs0] at h
                obtain rfl := Option.some.inj h
                exact hout2
              · rw [if_neg hs0] at h
                exact ih h hout2
      | false =>
        rw [mergeLoop_cons_diff, if_pos hcs] at h
        cases hx : l.get? pl with
        | none => rw [hx] at h; simp at h
        | some x =>
          rw [hx] at h
          simp only [Option.bind_eq_bind, Option.some_bind] at h
          cases hy : r.get? pr with
          | none => rw [hy] at h; simp at h
          | some y =>
            rw [hy] at h
            simp only [Option.some_bind] at h
            have hout2 : ∀ nd ∈ (if s ≠ lastSum then
                (out ++ [TNode.internal s i
                  (if x.sum > y.sum then (false, true)
                    else (true, false)).1
                  (if x.sum > y.sum then (false, true)
                    else (true, false)).2 pl pr], s)
                else (out, lastSum)).1,
                ∃ s2 j ml mr pl2 pr2,
                  nd = TNode.internal s2 j ml mr pl2 pr2 := by
              by_cases hsl : s ≠ lastSum
              · rw [if_pos hsl]
                intro nd hnd
                rcases List.mem_append.mp hnd with hnd | hnd
                · exact hout nd hnd
                · obtain rfl := List.mem_singleton.mp hnd
                  exact ⟨s, i, _, _, pl, pr, rfl⟩
              · rw [if_neg hsl]
                exact hout
            cases h1 : pushDiffIf l r (decide (0 < pr)) heap' added pl
                (pr - 1) with
            | none => rw [h1] at h; simp at h
            | some ha1 =>
              rw [h1] at h
              simp only [Option.some_bind] at h
              cases h2 : pushDiffIf l r (decide (pr + 1 < r.length))
                  ha1.1 ha1.2 pl (pr + 1) with
              | none => rw [h2] at h; simp at h
              | some ha2 =>
                rw [h2] at h
                simp only [Option.some_bind] at h
                by_cases hs0 : s = 0
                · rw [if_pos hs0] at h
                  obtain rfl := Option.some.inj h
                  exact hout2
                · rw [if_neg hs0] at h
                  exact ih h hout2

/-- A merged slot holds only internal nodes. -/
theorem mergeSlot_internal {clusterSize i : ℕ} {l r : List TNode}
    {res : List TNode × Bool}
    (h : mergeSlot clusterSize i l r = some res) :
    ∀ nd ∈ res.1, ∃ s j ml mr pl pr,
      nd = TNode.internal s j ml mr pl pr := by
  unfold mergeSlot at h
  cases hha : seedLoop l r l.length 0 0 [] [] with
  | none => rw [hha] at h; simp at h
  | some ha =>
    rw [hha] at h
    simp only [Option.bind_eq_bind, Option.some_bind] at h
    cases hs0 : calcSum l r 0 0 with
    | none => rw [hs0] at h; simp at h
    | some s0 =>
      rw [hs0] at h
      simp only [Option.some_bind] at h
      exact mergeLoop_internal h (by simp)

/-- The slot loop preserves the structural arena invariant. -/
theorem phaseSlots_struct {wl : ℕ} {A : List Word}
    {P : Word → Word → Prop} {clusterSize : ℕ} :
    ∀ {c i : ℕ} {tree : List (List TNode)}
      {res : List (List TNode) × Option ℕ},
      phaseSlots clusterSize c i tree = some res →
      ArenaOK wl A P tree → ArenaOK wl A P res.1 := by
  intro c
  induction c with
  | zero =>
    intro i tree res h ha
    rw [phaseSlots] at h
    obtain rfl := Option.some.inj h
    exact ha
  | succ c ih =>
    intro i tree res h ha
    rw [phaseSlots_succ] at h
    by_cases hlt : 2 * i + 1 < tree.length
    case neg => rw [if_neg hlt] at h; simp at h
    case pos =>
    rw [if_pos hlt] at h
    cases hm : mergeSlot clusterSize i (tree.getD (2 * i) [])
        (tree.getD (2 * i + 1) []) with
    | none => rw [hm] at h; simp at h
    | some merged =>
      rw [hm] at h
      simp only [Option.bind_eq_bind, Option.some_bind] at h
      have hset : ArenaOK wl A P (tree.set i merged.1) := by
        intro slot hslot nd hnd
        rcases List.mem_or_eq_of_mem_set hslot with hslot | rfl
        · exact ha slot hslot nd hnd
        · obtain ⟨s, j, ml, mr, pl, pr, rfl⟩ :=
            mergeSlot_internal hm nd hnd
          exact leafOK_internal
      by_cases hfl : merged.2
      · rw [if_pos hfl] at h
        obtain rfl := Option.some.inj h
        exact hset
      · rw [if_neg hfl] at h
        exact ih h hset

/-- `run_phase` preserves the structural arena invariant. -/
theorem runPhase_struct {o : Oracle} (hgood : o.Good) {wl : ℕ}
    {A : List Word} {P : Word → Word → Prop} {clusterSize : ℕ}
    {tree : List (List TNode)} {p : ℕ}
    {res : List (List TNode) × Option ℕ}
    (h : runPhase o clusterSize tree p = some res)
    (ha : ArenaOK wl A P tree) :
    ArenaOK wl A P res.1 := by
  have h' : (if 4 * 2 ^ p ≤ tree.length then
      if ((tree.drop (2 * 2 ^ p)).take (2 * 2 ^ p)).any (·.isEmpty)
        then none
      else phaseSlots clusterSize (2 ^ p) (2 ^ p)
        (tree.take (2 * 2 ^ p) ++
          o.sortL (fun c => (c.headD (TNode.leaf 0 0 [] [])).sum)
            ((tree.drop (2 * 2 ^ p)).take (2 * 2 ^ p)) ++
          tree.drop (4 * 2 ^ p))
    else none) = some res := h
  by_cases hg : 4 * 2 ^ p ≤ tree.length
  case neg => rw [if_neg hg] at h'; simp at h'
  case pos =>
  rw [if_pos hg] at h'
  by_cases hany :
      ((tree.drop (2 * 2 ^ p)).take (2 * 2 ^ p)).any (·.isEmpty)
  · rw [if_pos hany] at h'
    simp at h'
  · rw [if_neg hany] at h'
    have hT : ArenaOK wl A P (tree.take (2 * 2 ^ p) ++
        o.sortL (fun c => (c.headD (TNode.leaf 0 0 [] [])).sum)
          ((tree.drop (2 * 2 ^ p)).take (2 * 2 ^ p)) ++
        tree.drop (4 * 2 ^ p)) := by
      intro slot hslot
      have hmem : slot ∈ tree := by
        rcases List.mem_append.mp hslot with hs2 | hs2
        · rcases List.mem_append.mp hs2 with hs3 | hs3
          · exact List.take_subset _ _ hs3
          · have hperm := (hgood.2 (fun c =>
                (c.headD (TNode.leaf 0 0 [] [])).sum)
                ((tree.drop (2 * 2 ^ p)).take (2 * 2 ^ p))).1
            exact List.drop_subset _ _ (List.take_subset _ _
              (hperm.mem_iff.mp hs3))
        · exact List.drop_subset _ _ hs2
      exact ha slot hmem
    exact phaseSlots_struct h' hT

/-- The BFS over a structurally sound arena: it preserves list length,
only writes sound leaf pairs, never unassigns, and — with a non-empty
queue — assigns at least one position. -/
theorem bfsLoop_struct {wl : ℕ} {A : List Word} {P : Word → Word → Prop}
    {tree : List (List TNode)} (ha : ArenaOK wl A P tree) :
    ∀ {fuel : ℕ} {queue : List (ℕ × ℕ × Bool)}
      {words words2 : List (Option (Word × Word))},
      bfsLoop tree fuel queue words = some words2 →
      words2.length = words.length ∧
      (∀ j pr, words2.getD j none = some pr →
        words.getD j none = some pr ∨
        ∃ a c, a ∈ A ∧ c ∈ A ∧ P a c ∧ a.length = wl ∧ c.length = wl ∧
          (pr = (a, c) ∨ pr = (c, a))) ∧
      (∀ j, words.getD j none ≠ none → words2.getD j none ≠ none) ∧
      (queue ≠ [] → ∃ j, j < words.length ∧
        words2.getD j none ≠ none) := by
  intro fuel
  induction fuel with
  | zero =>
    intro queue words words2 h
    simp [bfsLoop] at h
  | succ fuel ih =>
    intro queue words words2 h
    cases queue with
    | nil =>
      have h2 : some words = some words2 := h
      obtain rfl := Option.some.inj h2
      exact ⟨rfl, fun j pr hj => Or.inl hj, fun j hj => hj,
        fun hq => absurd rfl hq⟩
    | cons q rest =>
      obtain ⟨x, pos, m⟩ := q
      rw [bfsLoop_cons] at h
      cases hslot : tree.get? x with
      | none => rw [hslot] at h; simp at h
      | some slot =>
        rw [hslot] at h
        simp only [Option.bind_eq_bind, Option.some_bind] at h
        cases hnode : slot.get? pos with
        | none => rw [hnode] at h; simp at h
        | some node =>
          rw [hnode] at h
          simp only [Option.some_bind] at h
          cases node with
          | internal s idx rl rr pl pr =>
            obtain ⟨h1, h2, h3, h4⟩ := ih h
            exact ⟨h1, h2, h3, fun _ => h4 (by simp)⟩
          | leaf s idx w1 w2 =>
            have h' : (if idx < words.length then
                bfsLoop tree fuel rest (words.set idx
                  (some (if m then (w2, w1) else (w1, w2))))
              else none) = some words2 := h
            by_cases hidx : idx < words.length
            case neg => rw [if_neg hidx] at h'; simp at h'
            case pos =>
            rw [if_pos hidx] at h'
            have hslotm : slot ∈ tree := List.get?_mem hslot
            have hlok := ha slot hslotm _ (List.get?_mem hnode)
            obtain ⟨hw1, hw2, hPw, hl1, hl2⟩ := hlok s idx w1 w2 rfl
            obtain ⟨h1, h2, h3, h4⟩ := ih h'
            have hset_len : (words.set idx
                (some (if m then (w2, w1) else (w1, w2)))).length =
                words.length := by
              simp
            refine ⟨h1.trans hset_len, ?_, ?_, ?_⟩
            · intro j pr hj
              rcases h2 j pr hj with hj2 | hj2
              · by_cases hje : j = idx
                · subst hje
                  rw [getD_set_eq hidx] at hj2
                  refine Or.inr ⟨w1, w2, hw1, hw2, hPw, hl1, hl2, ?_⟩
                  cases m with
                  | true =>
                    simp only [if_true, Option.some.injEq] at hj2
                    exact Or.inr hj2.symm
                  | false =>
                    simp only [if_false, Option.some.injEq] at hj2
                    exact Or.inl hj2.symm
                · rw [getD_set_ne (by omega : idx ≠ j)] at hj2
                  exact Or.inl hj2
              · exact Or.inr hj2
            · intro j hj
              refine h3 j ?_
              by_cases hje : j = idx
              · subst hje
                rw [getD_set_eq hidx]
                simp
              · rw [getD_set_ne (by omega : idx ≠ j)]
                exact hj
            · intro _
              refine ⟨idx, hidx, h3 idx ?_⟩
              rw [getD_set_eq hidx]
              simp

/-- `construct_solution` over a structurally sound arena: both strings
are `len`-fold alphabet concatenations of byte length `len·wl`,
containing at least one recorded `P`-related block pair. -/
theorem constructSolution_struct {o : Oracle} {wl len : ℕ}
    {A : List Word} {P : Word → Word → Prop} {tree : List (List TNode)}
    {idx cur : ℕ} {fi se : Word} {cur2 : ℕ}
    (ha : ArenaOK wl A P tree) (hA : A ≠ [])
    (hwidth : ∀ wd ∈ A, wd.length = wl)
    (heq : constructSolution o A tree len idx cur =
      some (fi, se, cur2)) :
    fi.length = len * wl ∧ se.length = len * wl ∧
    IsConcatN A len fi ∧ IsConcatN A len se ∧
    ∃ k, k < len ∧ ∃ a c, a ∈ A ∧ c ∈ A ∧ P a c ∧
      ((fi.drop (k * wl)).take wl = a ∧
          (se.drop (k * wl)).take wl = c ∨
        (fi.drop (k * wl)).take wl = c ∧
          (se.drop (k * wl)).take wl = a) := by
  have heq2 : (do
      let words ← bfsLoop tree (4 * len + 4) [(idx, 0, false)]
        (List.replicate len none)
      fillWords A o.rng words cur [] []) = some (fi, se, cur2) := heq
  cases hb : bfsLoop tree (4 * len + 4) [(idx, 0, false)]
      (List.replicate len none) with
  | none => rw [hb] at heq2; simp at heq2
  | some words2 =>
    rw [hb] at heq2
    simp only [Option.bind_eq_bind, Option.some_bind] at heq2
    obtain ⟨hlen2, hnew2, hmono2, hassign⟩ := bfsLoop_struct ha hb
    rw [List.length_replicate] at hlen2
    obtain ⟨fi2, se2, cur3, heqf, ps, hpl, hf, hs, hrec⟩ :=
      @fillWords_sem A o.rng hA words2 cur [] []
    rw [heqf] at heq2
    have hpe := Option.some.inj heq2
    have hfi : fi = fi2 := (congrArg Prod.fst hpe).symm
    have hpe2 := congrArg Prod.snd hpe
    have hse : se = se2 := (congrArg Prod.fst hpe2).symm
    have hcu : cur2 = cur3 := (congrArg Prod.snd hpe2).symm
    subst hfi
    subst hse
    subst hcu
    have hpslen : ps.length = len := hpl.trans hlen2
    have hassigned : ∀ k pr, words2.getD k none = some pr →
        pr.1 ∈ A ∧ pr.2 ∈ A := by
      intro k pr hpr
      rcases hnew2 k pr hpr with hk |
        ⟨a, c, haA, hcA, hPac, hla, hlc, hpr2⟩
      · rw [replicate_getD_none] at hk
        exact absurd hk (by simp)
      · rcases hpr2 with rfl | rfl
        · exact ⟨haA, hcA⟩
        · exact ⟨hcA, haA⟩
    have hkey : ∀ k, k < len →
        (ps.getD k ([], [])).1 ∈ A ∧ (ps.getD k ([], [])).2 ∈ A := by
      intro k hk
      rcases hopt : words2.getD k none with _ | pr
      · have hu := (hrec k (by omega)).1 hopt
        exact ⟨hu.2, hu.1 ▸ hu.2⟩
      · obtain ⟨ha1, ha2⟩ := hassigned k pr hopt
        rw [(hrec k (by omega)).2 pr hopt]
        exact ⟨ha1, ha2⟩
    have hwfst : ∀ x ∈ ps.map Prod.fst, x.length = wl := by
      intro x hx
      obtain ⟨p, hp, rfl⟩ := List.mem_map.mp hx
      obtain ⟨k, hk, hpk⟩ := List.mem_iff_getElem.mp hp
      have hgd : ps.getD k ([], []) = p := by
        rw [List.getD_eq_getElem _ _ hk, hpk]
      exact hwidth _ (by rw [← hgd]; exact (hkey k (by omega)).1)
    have hwsnd : ∀ x ∈ ps.map Prod.snd, x.length = wl := by
      intro x hx
      obtain ⟨p, hp, rfl⟩ := List.mem_map.mp hx
      obtain ⟨k, hk, hpk⟩ := List.mem_iff_getElem.mp hp
      have hgd : ps.getD k ([], []) = p := by
        rw [List.getD_eq_getElem _ _ hk, hpk]
      exact hwidth _ (by rw [← hgd]; exact (hkey k (by omega)).2)
    have hf2 : fi = (ps.map Prod.fst).flatten := hf.trans
      (List.nil_append _)
    have hs2 : se = (ps.map Prod.snd).flatten := hs.trans
      (List.nil_append _)
    have hgdf : ∀ k, k < len →
        (ps.map Prod.fst).getD k [] = (ps.getD k ([], [])).1 := by
      intro k hk
      have hkp : k < ps.length := by omega
      rw [List.getD_eq_getElem _ _ (by simpa using hkp),
        List.getD_eq_getElem _ _ hkp, List.getElem_map]
    have hgds : ∀ k, k < len →
        (ps.map Prod.snd).getD k [] = (ps.getD k ([], [])).2 := by
      intro k hk
      have hkp : k < ps.length := by omega
      rw [List.getD_eq_getElem _ _ (by simpa using hkp),
        List.getD_eq_getElem _ _ hkp, List.getElem_map]
    have hfl : fi.length = len * wl := by
      rw [hf2, length_flatten_const hwfst, List.length_map, hpslen]
    have hsl : se.length = len * wl := by
      rw [hs2, length_flatten_const hwsnd, List.length_map, hpslen]
    have hmemf : ∀ x ∈ ps.map Prod.fst, x ∈ A := by
      intro x hx
      obtain ⟨p, hp, rfl⟩ := List.mem_map.mp hx
      obtain ⟨k, hk, hpk⟩ := List.mem_iff_getElem.mp hp
      have hgd : ps.getD k ([], []) = p := by
        rw [List.getD_eq_getElem _ _ hk, hpk]
      rw [← hgd]
      exact (hkey k (by omega)).1
    have hmems : ∀ x ∈ ps.map Prod.snd, x ∈ A := by
      intro x hx
      obtain ⟨p, hp, rfl⟩ := List.mem_map.mp hx
      obtain ⟨k, hk, hpk⟩ := List.mem_iff_getElem.mp hp
      have hgd : ps.getD k ([], []) = p := by
        rw [List.getD_eq_getElem _ _ hk, hpk]
      rw [← hgd]
      exact (hkey k (by omega)).2
    have hconf : IsConcatN A len fi :=
      ⟨ps.map Prod.fst, by rw [List.length_map, hpslen], hmemf, hf2⟩
    have hcons : IsConcatN A len se :=
      ⟨ps.map Prod.snd, by rw [List.length_map, hpslen], hmems, hs2⟩
    obtain ⟨j0, hj0len, hj0ne⟩ := hassign (by simp)
    rw [List.length_replicate] at hj0len
    rcases hopt : words2.getD j0 none with _ | pr
    · exact absurd hopt hj0ne
    · rcases hnew2 j0 pr hopt with hk |
        ⟨a, c, haA, hcA, hPac, hla, hlc, hpr2⟩
      · rw [replicate_getD_none] at hk
        exact absurd hk (by simp)
      have hps0 : ps.getD j0 ([], []) = pr :=
        (hrec j0 (by omega)).2 pr hopt
      have hchunkf : (fi.drop (j0 * wl)).take wl =
          (ps.getD j0 ([], [])).1 := by
        have hjb : j0 < (ps.map Prod.fst).length := by
          rw [List.length_map, hpslen]
          exact hj0len
        rw [hf2, flatten_chunk hwfst hjb]
        exact hgdf j0 hj0len
      have hchunks : (se.drop (j0 * wl)).take wl =
          (ps.getD j0 ([], [])).2 := by
        have hjb : j0 < (ps.map Prod.snd).length := by
          rw [List.length_map, hpslen]
          exact hj0len
        rw [hs2, flatten_chunk hwsnd hjb]
        exact hgds j0 hj0len
      refine ⟨hfl, hsl, hconf, hcons, j0, hj0len, a, c, haA, hcA,
        hPac, ?_⟩
      rcases hpr2 with rfl | rfl
      · exact Or.inl ⟨by rw [hchunkf, hps0], by rw [hchunks, hps0]⟩
      · exact Or.inr ⟨by rw [hchunkf, hps0], by rw [hchunks, hps0]⟩

/-- The phase loop of `try_attack`, structurally. -/
theorem tryPhases_struct {o : Oracle} (hgood : o.Good) {wl : ℕ}
    {A : List Word} {P : Word → Word → Prop} (hA : A ≠ [])
    (hwidth : ∀ wd ∈ A, wd.length = wl) {clusterSize : ℕ} :
    ∀ {c len : ℕ} {tree : List (List TNode)} {cur : ℕ}
      {res : List (List TNode) × Option (Word × Word) × ℕ},
      ArenaOK wl A P tree →
      tryPhases o clusterSize A len c tree cur = some res →
      ∀ fi se, res.2.1 = some (fi, se) →
        fi.length = len * wl ∧ se.length = len * wl ∧
        IsConcatN A len fi ∧ IsConcatN A len se ∧
        ∃ k, k < len ∧ ∃ a c2, a ∈ A ∧ c2 ∈ A ∧ P a c2 ∧
          ((fi.drop (k * wl)).take wl = a ∧
              (se.drop (k * wl)).take wl = c2 ∨
            (fi.drop (k * wl)).take wl = c2 ∧
              (se.drop (k * wl)).take wl = a) := by
  intro c
  induction c with
  | zero =>
    intro len tree cur res ha heq
    obtain rfl := Option.some.inj heq
    intro fi se h
    simp at h
  | succ c ih =>
    intro len tree cur res ha heq
    rw [tryPhases_succ] at heq
    rcases hrp : runPhase o clusterSize tree c with _ | pr
    · rw [hrp] at heq
      simp at heq
    rw [hrp] at heq
    simp only [Option.bind_eq_bind, Option.some_bind] at heq
    obtain ⟨tr2, oi⟩ := pr
    have ha2 : ArenaOK wl A P tr2 := runPhase_struct hgood hrp ha
    cases oi with
    | none => exact ih ha2 heq
    | some idx =>
      have heq3 : (do
          let sol ← constructSolution o A tr2 len idx cur
          some (tr2, some (sol.1, sol.2.1), sol.2.2)) = some res := heq
      cases hcs : constructSolution o A tr2 len idx cur with
      | none =>
        rw [hcs] at heq3
        simp at heq3
      | some sol =>
        rw [hcs] at heq3
        simp only [Option.bind_eq_bind, Option.some_bind] at heq3
        obtain rfl := Option.some.inj heq3
        intro fi se h
        obtain ⟨sf, st⟩ := sol
        obtain ⟨ss, sc⟩ := st
        have hpe := Option.some.inj h
        have hsf : fi = sf := (congrArg Prod.fst hpe).symm
        have hss : se = ss := (congrArg Prod.snd hpe).symm
        subst hsf
        subst hss
        exact constructSolution_struct ha2 hA hwidth hcs

/-- `try_attack`, structurally: no hypotheses beyond an adequate oracle
and a non-empty equal-width alphabet. -/
theorem tryAttack_struct {o : Oracle} (hgood : o.Good) {wl : ℕ}
    {A : List Word} {P : Word → Word → Prop} {B M : ℤ}
    (hA : A ≠ []) (hwidth : ∀ wd ∈ A, wd.length = wl)
    (hP : ∀ a b : ℕ, a < A.length → b < A.length → a ≠ b →
      P (A.getD a []) (A.getD b []))
    {clusterSize p : ℕ} {tree : List (List TNode)} {cur : ℕ}
    {res : List (List TNode) × Option (Word × Word) × ℕ}
    (heq : tryAttack o A B M wl clusterSize tree p cur = some res) :
    ∀ fi se, res.2.1 = some (fi, se) →
      fi.length = 2 ^ p * wl ∧ se.length = 2 ^ p * wl ∧
      IsConcatN A (2 ^ p) fi ∧ IsConcatN A (2 ^ p) se ∧
      ∃ k, k < 2 ^ p ∧ ∃ a c2, a ∈ A ∧ c2 ∈ A ∧ P a c2 ∧
        ((fi.drop (k * wl)).take wl = a ∧
            (se.drop (k * wl)).take wl = c2 ∨
          (fi.drop (k * wl)).take wl = c2 ∧
            (se.drop (k * wl)).take wl = a) := by
  have heq2 : (do
      let tree1 ← initAttack o A B M wl tree (2 ^ p)
      tryPhases o clusterSize A (2 ^ p) p tree1 cur) = some res := heq
  rcases hia : initAttack o A B M wl tree (2 ^ p) with _ | tree1
  · rw [hia] at heq2
    simp at heq2
  rw [hia] at heq2
  simp only [Option.bind_eq_bind, Option.some_bind] at heq2
  have ha1 := initAttack_struct hgood hwidth hP hia
  exact tryPhases_struct hgood hA hwidth ha1 heq2

/-- The exponent loop, structurally. -/
theorem treeLoop_struct {o : Oracle} (hgood : o.Good) {wl : ℕ}
    {A : List Word} {P : Word → Word → Prop} {B M : ℤ}
    (hA : A ≠ []) (hwidth : ∀ wd ∈ A, wd.length = wl)
    (hP : ∀ a b : ℕ, a < A.length → b < A.length → a ≠ b →
      P (A.getD a []) (A.getD b []))
    {clusterSize : ℕ} :
    ∀ {c p : ℕ} {tree : List (List TNode)} {cur : ℕ}
      {res2 : Option (Word × Word) × ℕ},
      treeLoop o A B M wl clusterSize p c tree cur = some res2 →
      ∀ fi se, res2.1 = some (fi, se) →
        ∃ q, p ≤ q ∧ q < p + c ∧
          fi.length = 2 ^ q * wl ∧ se.length = 2 ^ q * wl ∧
          IsConcatN A (2 ^ q) fi ∧ IsConcatN A (2 ^ q) se ∧
          ∃ k, k < 2 ^ q ∧ ∃ a c2, a ∈ A ∧ c2 ∈ A ∧ P a c2 ∧
            ((fi.drop (k * wl)).take wl = a ∧
                (se.drop (k * wl)).take wl = c2 ∨
              (fi.drop (k * wl)).take wl = c2 ∧
                (se.drop (k * wl)).take wl = a) := by
  intro c
  induction c with
  | zero =>
    intro p tree cur res2 heq
    obtain rfl := Option.some.inj heq
    intro fi se h
    simp at h
  | succ c ih =>
    intro p tree cur res2 heq
    have heq2 : (do
        let res ← tryAttack o A B M wl clusterSize tree p cur
        match res.2.1 with
        | some pair => some (some pair, res.2.2)
        | none =>
            treeLoop o A B M wl clusterSize (p + 1) c res.1 res.2.2) =
      some res2 := heq
    rcases hta : tryAttack o A B M wl clusterSize tree p cur
        with _ | res
    · rw [hta] at heq2
      simp at heq2
    rw [hta] at heq2
    simp only [Option.bind_eq_bind, Option.some_bind] at heq2
    rcases hpair : res.2.1 with _ | pair
    · rw [hpair] at heq2
      have heq3 : treeLoop o A B M wl clusterSize (p + 1) c res.1
          res.2.2 = some res2 := heq2
      intro fi se h
      obtain ⟨q, hq1, hq2, rest⟩ := ih heq3 fi se h
      exact ⟨q, by omega, by omega, rest⟩
    · rw [hpair] at heq2
      have heq3 : (some (some pair, res.2.2) :
          Option (Option (Word × Word) × ℕ)) = some res2 := heq2
      obtain rfl := Option.some.inj heq3
      intro fi se h
      have hpe : pair = (fi, se) := Option.some.inj h
      have hres : res.2.1 = some (fi, se) :=
        hpair.trans (congrArg some hpe)
      obtain ⟨h1, h2, h3, h4, h5⟩ :=
        tryAttack_struct hgood hA hwidth hP hta fi se hres
      exact ⟨p, le_rfl, by omega, h1, h2, h3, h4, h5⟩

/-- `tree_attack::find_single_collision`, structurally: over any
adequate oracle and equal-width alphabet, a returned pair was found at
some exponent `q ∈ [3, 12)`: both strings are `2^q`-fold alphabet
concatenations of byte length `2^q · wl` containing a recorded
`P`-related block pair. -/
theorem treeFindSingle_struct {o : Oracle} (hgood : o.Good)
    {base module clusterSize : ℕ} {A : List Word} {wl : ℕ}
    {P : Word → Word → Prop}
    (hwidth : ∀ wd ∈ A, wd.length = wl)
    (hP : ∀ a b : ℕ, a < A.length → b < A.length → a ≠ b →
      P (A.getD a []) (A.getD b []))
    {cur : ℕ} {res2 : Option (Word × Word) × ℕ}
    (heq : treeFindSingle o base module clusterSize A cur = some res2) :
    ∀ fi se, res2.1 = some (fi, se) →
      ∃ q, 3 ≤ q ∧ q < 12 ∧
        fi.length = 2 ^ q * wl ∧ se.length = 2 ^ q * wl ∧
        IsConcatN A (2 ^ q) fi ∧ IsConcatN A (2 ^ q) se ∧
        ∃ k, k < 2 ^ q ∧ ∃ a c2, a ∈ A ∧ c2 ∈ A ∧ P a c2 ∧
          ((fi.drop (k * wl)).take wl = a ∧
              (se.drop (k * wl)).take wl = c2 ∨
            (fi.drop (k * wl)).take wl = c2 ∧
              (se.drop (k * wl)).take wl = a) := by
  cases A with
  | nil => simp [treeFindSingle] at heq
  | cons w As =>
    have heq2 : treeLoop o (w :: As) (base : ℤ) (module : ℤ) w.length
        clusterSize 3 9 [] cur = some res2 := heq
    have hwl : w.length = wl := hwidth w (List.mem_cons_self _ _)
    rw [hwl] at heq2
    intro fi se h
    obtain ⟨q, h3, h12a, rest⟩ :=
      treeLoop_struct hgood (by simp) hwidth hP heq2 fi se h
    exact ⟨q, h3, by omega, rest⟩

/-- The tree lifter preserves pairwise-distinct equal-width non-empty
alphabets, with no arithmetic hypotheses. -/
theorem treeLift_distinct {o : Oracle} (hgood : o.Good)
    {clusterSize : ℕ} :
    ∀ (pairs : List (ℕ × ℕ)) (A : List Word) (wdt cur : ℕ)
      (A' : List Word) (cur' : ℕ),
      (∀ x ∈ A, x.length = wdt) → A ≠ [] → A.Pairwise (· ≠ ·) →
      treeLift o clusterSize pairs A cur = some (some (A', cur')) →
      ∃ wdt', (∀ x ∈ A', x.length = wdt') ∧ A' ≠ [] ∧
        A'.Pairwise (· ≠ ·) := by
  intro pairs
  induction pairs with
  | nil =>
    intro A wdt cur A' cur' hw hA hnd hrun
    rw [treeLift] at hrun
    simp only [Option.some.injEq, Prod.mk.injEq] at hrun
    obtain ⟨rfl, rfl⟩ := hrun
    exact ⟨wdt, hw, hA, hnd⟩
  | cons bm rest ih =>
    intro A wdt cur A' cur' hw hA hnd hrun
    obtain ⟨b, m⟩ := bm
    rw [treeLift] at hrun
    cases hsingle : treeFindSingle o b m clusterSize A cur with
    | none => rw [hsingle] at hrun; exact absurd hrun (by simp)
    | some p =>
      rw [hsingle] at hrun
      obtain ⟨r, curs⟩ := p
      cases r with
      | none => simp at hrun
      | some pair =>
        obtain ⟨fi, se⟩ := pair
        have hrun2 : treeLift o clusterSize rest [fi, se] curs =
            some (some (A', cur')) := hrun
        obtain ⟨q, -, -, hlf, hls, -, -, k, -, a, c2, -, -, hPac,
          hblk⟩ :=
          treeFindSingle_struct hgood hw (pairwise_ne_getD hnd)
            hsingle fi se rfl
        have hfise : fi ≠ se := by
          intro hcon
          rcases hblk with ⟨hb1, hb2⟩ | ⟨hb1, hb2⟩
          · rw [hcon] at hb1
            exact hPac (hb1.symm.trans hb2)
          · rw [hcon] at hb1
            exact hPac (hb2.symm.trans hb1)
        exact ih [fi, se] (2 ^ q * wdt) curs A' cur'
          (fun x hx => by
            rcases List.mem_cons.mp hx with rfl | hx
            · exact hlf
            · rcases List.mem_cons.mp hx with rfl | hx
              · exact hls
              · simp at hx)
          (by simp) (by simp [hfise]) hrun2

/-- The tree lifter preserves equal widths and non-emptiness, with no
distinctness or arithmetic hypotheses. -/
theorem treeLift_len {o : Oracle} (hgood : o.Good) {clusterSize : ℕ} :
    ∀ (pairs : List (ℕ × ℕ)) (A : List Word) (wdt cur : ℕ)
      (A' : List Word) (cur' : ℕ),
      (∀ x ∈ A, x.length = wdt) → A ≠ [] →
      treeLift o clusterSize pairs A cur = some (some (A', cur')) →
      ∃ wdt', (∀ x ∈ A', x.length = wdt') ∧ A' ≠ [] := by
  intro pairs
  induction pairs with
  | nil =>
    intro A wdt cur A' cur' hw hA hrun
    rw [treeLift] at hrun
    simp only [Option.some.injEq, Prod.mk.injEq] at hrun
    obtain ⟨rfl, rfl⟩ := hrun
    exact ⟨wdt, hw, hA⟩
  | cons bm rest ih =>
    intro A wdt cur A' cur' hw hA hrun
    obtain ⟨b, m⟩ := bm
    rw [treeLift] at hrun
    cases hsingle : treeFindSingle o b m clusterSize A cur with
    | none => rw [hsingle] at hrun; exact absurd hrun (by simp)
    | some p =>
      rw [hsingle] at hrun
      obtain ⟨r, curs⟩ := p
      cases r with
      | none => simp at hrun
      | some pair =>
        obtain ⟨fi, se⟩ := pair
        have hrun2 : treeLift o clusterSize rest [fi, se] curs =
            some (some (A', cur')) := hrun
        obtain ⟨q, -, -, hlf, hls, -⟩ :=
          @treeFindSingle_struct o hgood b m clusterSize A wdt
            (fun _ _ => True) hw (fun _ _ _ _ _ => trivial) cur _
            hsingle fi se rfl
        exact ih [fi, se] (2 ^ q * wdt) curs A' cur'
          (fun x hx => by
            rcases List.mem_cons.mp hx with rfl | hx
            · exact hlf
            · rcases List.mem_cons.mp hx with rfl | hx
              · exact hls
              · simp at hx)
          (by simp) hrun2

/-- Distinctness of `tree_attack::find_collision` over a non-empty
equal-width pairwise-distinct alphabet, with no numeric hypotheses. -/
theorem treeFindCollision_distinct {o : Oracle} (hgood : o.Good)
    {bases modules : List ℕ} {clusterSize : ℕ} {A : List Word}
    {wdt cur : ℕ} {s1 s2 : Word}
    (hw : ∀ x ∈ A, x.length = wdt) (hA : A ≠ [])
    (hnd : A.Pairwise (· ≠ ·))
    (hrun : treeFindCollision o bases modules clusterSize A cur =
      some (some (s1, s2))) :
    s1 ≠ s2 := by
  unfold treeFindCollision at hrun
  cases hlift : treeLift o clusterSize (bases.zip modules) A cur with
  | none =>
    rw [hlift] at hrun
    exact absurd hrun (by simp)
  | some r =>
    rw [hlift] at hrun
    cases r with
    | none => simp at hrun
    | some p =>
      obtain ⟨A', cur'⟩ := p
      dsimp only at hrun
      obtain ⟨wdt', h1', hne', h3'⟩ :=
        treeLift_distinct hgood (bases.zip modules) A wdt cur A' cur'
          hw hA hnd hlift
      cases A' with
      | nil => simp at hrun
      | cons a A'' =>
        cases A'' with
        | nil => simp at hrun
        | cons b2 rst =>
          dsimp only at hrun
          simp only [Option.some.injEq, Prod.mk.injEq] at hrun
          obtain ⟨rfl, rfl⟩ := hrun
          exact (List.pairwise_cons.mp h3').1 b2 (by simp)

/-- Equal byte lengths of `tree_attack::find_collision` over a
non-empty equal-width alphabet, with no distinctness or numeric
hypotheses. -/
theorem treeFindCollision_len {o : Oracle} (hgood : o.Good)
    {bases modules : List ℕ} {clusterSize : ℕ} {A : List Word}
    {wdt cur : ℕ} {s1 s2 : Word}
    (hw : ∀ x ∈ A, x.length = wdt) (hA : A ≠ [])
    (hrun : treeFindCollision o bases modules clusterSize A cur =
      some (some (s1, s2))) :
    s1.length = s2.length := by
  unfold treeFindCollision at hrun
  cases hlift : treeLift o clusterSize (bases.zip modules) A cur with
  | none =>
    rw [hlift] at hrun
    exact absurd hrun (by simp)
  | some r =>
    rw [hlift] at hrun
    cases r with
    | none => simp at hrun
    | some p =>
      obtain ⟨A', cur'⟩ := p
      dsimp only at hrun
      obtain ⟨wdt', h1', hne'⟩ :=
        treeLift_len hgood (bases.zip modules) A wdt cur A' cur' hw hA
          hlift
      cases A' with
      | nil => simp at hrun
      | cons a A'' =>
        cases A'' with
        | nil => simp at hrun
        | cons b2 rst =>
          dsimp only at hrun
          simp only [Option.some.injEq, Prod.mk.injEq] at hrun
          obtain ⟨rfl, rfl⟩ := hrun
          rw [h1' a (by simp), h1' b2 (by simp)]

/-! ### C6: the sampling schedule of `find_single_collision` -/

/-- `gen_string` is total on a non-empty alphabet and advances the
cursor by exactly the word length (one RNG draw per character). -/
theorem genString_total {rng : ℕ → ℕ} {alphabet : List Word}
    (hA : alphabet ≠ []) :
    ∀ (n cur : ℕ), ∃ w, genString rng alphabet n cur = some (w, cur + n) := by
  intro n
  induction n with
  | zero => intro cur; exact ⟨[], rfl⟩
  | succ n ih =>
    intro cur
    obtain ⟨w, hw⟩ := ih (cur + 1)
    refine ⟨alphabet.getD (rng cur % alphabet.length) [] ++ w, ?_⟩
    show (if alphabet.length = 0 then none else
      match genString rng alphabet n (cur + 1) with
      | none => none
      | some (w2, cur') =>
        some (alphabet.getD (rng cur % alphabet.length) [] ++ w2, cur')) =
      some (alphabet.getD (rng cur % alphabet.length) [] ++ w, cur + (n + 1))
    rw [if_neg (List.length_pos.mpr hA).ne', hw]
    have harith : cur + 1 + n = cur + (n + 1) := by omega
    rw [harith]

/-- The words drawn by the inner sampling loop: `n` strings of `len`
alphabet words each, the cursor advancing by `len` per string. -/
def genWords (rng : ℕ → ℕ) (alphabet : List Word) (len : ℕ) :
    ℕ → ℕ → List Word
  | 0, _ => []
  | n + 1, cur =>
    match genString rng alphabet len cur with
    | none => []
    | some (w, _) => w :: genWords rng alphabet len n (cur + len)

/-- Each batch of generated words has exactly the requested count, and
each word is a concatenation of `len` alphabet words. -/
theorem genWords_spec {rng : ℕ → ℕ} {alphabet : List Word}
    (hA : alphabet ≠ []) {len : ℕ} :
    ∀ (n cur : ℕ), (genWords rng alphabet len n cur).length = n ∧
      ∀ w ∈ genWords rng alphabet len n cur, IsConcatN alphabet len w := by
  intro n
  induction n with
  | zero => intro cur; exact ⟨rfl, by simp [genWords]⟩
  | succ n ih =>
    intro cur
    obtain ⟨w, hw⟩ := genString_total hA len cur
    have hgw : genWords rng alphabet len (n + 1) cur =
        w :: genWords rng alphabet len n (cur + len) := by
      show (match genString rng alphabet len cur with
        | none => []
        | some (w2, _) => w2 :: genWords rng alphabet len n (cur + len)) =
        _
      rw [hw]
    obtain ⟨ih1, ih2⟩ := ih (cur + len)
    rw [hgw]
    refine ⟨by simp [ih1], ?_⟩
    intro v hv
    rcases List.mem_cons.mp hv with rfl | hv
    · exact genString_spec hw
    · exact ih2 v hv

/-- No two of the words collide: any two with equal wrapping hash are
equal as strings. -/
def Compat (base module : ℕ) (ws : List Word) : Prop :=
  ∀ v ∈ ws, ∀ w ∈ ws,
    getHash base module v = getHash base module w → v = w

/-- Per-trial collision-freedom along the cursor schedule: at each trial
length the `bound` drawn words are pairwise compatible, the cursor
advancing by `bound · len` to the next (reset) trial. -/
def AllTrialsOK (rng : ℕ → ℕ) (bound base module : ℕ)
    (alphabet : List Word) : List ℕ → ℕ → Prop
  | [], _ => True
  | len :: rest, cur =>
    Compat base module (genWords rng alphabet len bound cur) ∧
      AllTrialsOK rng bound base module alphabet rest (cur + bound * len)

/-- Looking up a key other than the erased one is unchanged. -/
theorem lookup_eraseP_ne {h k : ℕ} (hne : k ≠ h) :
    ∀ {S : List (ℕ × Word)},
      (S.eraseP (fun p => p.1 == h)).lookup k = S.lookup k := by
  intro S
  induction S with
  | nil => rfl
  | cons e S ih =>
    obtain ⟨k1, v1⟩ := e
    by_cases he : k1 = h
    · subst he
      have hc : (((k1, v1).1 == k1) = true) := by simp
      rw [List.eraseP_cons, hc]
      simp only [cond_true]
      have hl : ((k1, v1) :: S).lookup k = S.lookup k := by
        have hb : (k == k1) = false := by simpa using hne
        simp [List.lookup, hb]
      rw [hl]
    · have hc : (((k1, v1).1 == h) = false) := by simpa using he
      rw [List.eraseP_cons, hc]
      simp only [cond_false]
      by_cases hek : k1 = k
      · have hb : (k == k1) = true := by simpa using hek.symm
        simp [List.lookup, hb]
      · have hb : (k == k1) = false := by
          simpa using fun hc2 => hek hc2.symm
        simp only [List.lookup, hb]
        exact ih

/-- A failed lookup means the key is absent. -/
theorem lookup_none_not_key {k : ℕ} :
    ∀ {S : List (ℕ × Word)}, S.lookup k = none →
      k ∉ S.map Prod.fst := by
  intro S
  induction S with
  | nil => intro _ h; simp at h
  | cons e S ih =>
    obtain ⟨k1, v1⟩ := e
    intro h hmem
    by_cases he : k1 = k
    · have hb : (k == k1) = true := by simpa using he.symm
      simp [List.lookup, hb] at h
    · have hb : (k == k1) = false := by
        simpa using fun hc2 => he hc2.symm
      simp only [List.lookup, hb] at h
      rw [List.map_cons] at hmem
      rcases List.mem_cons.mp hmem with h1 | h1
      · exact he h1.symm
      · exact ih h h1

/-- The erased-key association list keeps nodup keys, and no longer
holds the erased key. -/
theorem keys_eraseP {h : ℕ} :
    ∀ {S : List (ℕ × Word)}, (S.map Prod.fst).Nodup →
      ((S.eraseP (fun p => p.1 == h)).map Prod.fst).Nodup ∧
        h ∉ (S.eraseP (fun p => p.1 == h)).map Prod.fst := by
  intro S
  induction S with
  | nil =>
    intro _
    exact ⟨List.nodup_nil, by simp⟩
  | cons e S ih =>
    obtain ⟨k1, v1⟩ := e
    intro hnd
    rw [List.map_cons] at hnd
    obtain ⟨hk1, hnd'⟩ := List.nodup_cons.mp hnd
    by_cases he : k1 = h
    · subst he
      have hc : (((k1, v1).1 == k1) = true) := by simp
      rw [List.eraseP_cons, hc]
      simp only [cond_true]
      exact ⟨hnd', hk1⟩
    · have hc : (((k1, v1).1 == h) = false) := by simpa using he
      rw [List.eraseP_cons, hc]
      simp only [cond_false, List.map_cons]
      obtain ⟨ih1, ih2⟩ := ih hnd'
      refine ⟨List.nodup_cons.mpr ⟨?_, ih1⟩, ?_⟩
      · intro hc2
        refine hk1 (List.map_subset Prod.fst ?_ hc2)
        intro a hax
        exact List.mem_of_mem_eraseP hax
      · intro hc2
        rcases List.mem_cons.mp hc2 with h1 | h1
        · exact he h1.symm
        · exact ih2 h1

/-- Membership transfer for `Compat` over a prefix containing the new
word. -/
theorem compat_cons_mem {base module : ℕ} {hist rest : List Word}
    {w : Word} (hw : w ∈ hist) :
    Compat base module (hist ++ rest) →
      Compat base module (hist ++ w :: rest) := by
  intro h v1 hv1 v2 hv2 hh
  have hm : ∀ v, v ∈ hist ++ w :: rest → v ∈ hist ++ rest := by
    intro v hv
    rcases List.mem_append.mp hv with hv | hv
    · exact List.mem_append.mpr (Or.inl hv)
    · rcases List.mem_cons.mp hv with rfl | hv
      · exact List.mem_append.mpr (Or.inl hw)
      · exact List.mem_append.mpr (Or.inr hv)
  exact h v1 (hm v1 hv1) v2 (hm v2 hv2) hh

theorem compat_cons_mem_rev {base module : ℕ} {hist rest : List Word}
    {w : Word} (_hw : w ∈ hist) :
    Compat base module (hist ++ w :: rest) →
      Compat base module (hist ++ rest) := by
  intro h v1 hv1 v2 hv2 hh
  have hm : ∀ v, v ∈ hist ++ rest → v ∈ hist ++ w :: rest := by
    intro v hv
    rcases List.mem_append.mp hv with hv | hv
    · exact List.mem_append.mpr (Or.inl hv)
    · exact List.mem_append.mpr (Or.inr (List.mem_cons_of_mem _ hv))
  exact h v1 (hm v1 hv1) v2 (hm v2 hv2) hh

/-- One trial of the inner sampling loop, semantically: with a non-empty
alphabet and a positive module it always returns; it reports no pair —
after drawing exactly `n` words, advancing the cursor by `n·len` —
exactly when the drawn words extend the compatible history compatibly,
and otherwise it stops at a genuine same-trial collision. -/
theorem birthdayInner_sem {rng : ℕ → ℕ} {base module : ℕ}
    {alphabet : List Word} {len : ℕ} (hm : 1 ≤ module)
    (hA : alphabet ≠ []) :
    ∀ (n : ℕ) (S : List (ℕ × Word)) (hist : List Word) (cur : ℕ),
      (∀ p ∈ S, getHash base module p.2 = p.1) →
      (S.map Prod.fst).Nodup →
      (∀ p ∈ S, p.2 ∈ hist) →
      (∀ v ∈ hist, S.lookup (getHash base module v) ≠ none) →
      Compat base module hist →
      ∃ r, birthdayInner rng base module alphabet len n S cur = some r ∧
        ((r.1 = none ∧ r.2 = cur + n * len ∧
            Compat base module
              (hist ++ genWords rng alphabet len n cur)) ∨
          (∃ w1 w2, r.1 = some (w1, w2) ∧ w1 ≠ w2 ∧
            getHash base module w1 = getHash base module w2 ∧
            ¬ Compat base module
              (hist ++ genWords rng alphabet len n cur))) := by
  intro n
  induction n with
  | zero =>
    intro S hist cur hS1 hS2 hS3 hS4 hcomp
    refine ⟨(none, cur), rfl, Or.inl ⟨rfl, by omega, ?_⟩⟩
    show Compat base module (hist ++ genWords rng alphabet len 0 cur)
    have hg0 : genWords rng alphabet len 0 cur = [] := rfl
    rw [hg0, List.append_nil]
    exact hcomp
  | succ n ih =>
    intro S hist cur hS1 hS2 hS3 hS4 hcomp
    obtain ⟨w, hw⟩ := genString_total hA len cur
    have hstep0 : birthdayInner rng base module alphabet len (n + 1)
        S cur =
        (match genString rng alphabet len cur with
         | none => none
         | some (word, cur') =>
           if module = 0 ∧ word ≠ [] then none
           else
             match S.lookup (getHash base module word) with
             | some coll =>
               if word ≠ coll then some (some (word, coll), cur')
               else birthdayInner rng base module alphabet len n
                 ((getHash base module word, word) ::
                   S.eraseP (fun p => p.1 == getHash base module word))
                 cur'
             | none =>
               birthdayInner rng base module alphabet len n
                 ((getHash base module word, word) :: S) cur') := rfl
    rw [hw] at hstep0
    have hstep : birthdayInner rng base module alphabet len (n + 1)
        S cur =
        (if module = 0 ∧ w ≠ [] then none
         else
           match S.lookup (getHash base module w) with
           | some coll =>
             if w ≠ coll then some (some (w, coll), cur + len)
             else birthdayInner rng base module alphabet len n
               ((getHash base module w, w) ::
                 S.eraseP (fun p => p.1 == getHash base module w))
               (cur + len)
           | none =>
             birthdayInner rng base module alphabet len n
               ((getHash base module w, w) :: S) (cur + len)) := hstep0
    rw [if_neg (by rintro ⟨h0, -⟩; omega)] at hstep
    have hgw : genWords rng alphabet len (n + 1) cur =
        w :: genWords rng alphabet len n (cur + len) := by
      show (match genString rng alphabet len cur with
        | none => []
        | some (w2, _) =>
          w2 :: genWords rng alphabet len n (cur + len)) = _
      rw [hw]
    cases hlk : S.lookup (getHash base module w) with
    | some coll =>
      rw [hlk] at hstep
      have hstep2 : birthdayInner rng base module alphabet len (n + 1)
          S cur =
          (if w ≠ coll then some (some (w, coll), cur + len)
           else birthdayInner rng base module alphabet len n
             ((getHash base module w, w) ::
               S.eraseP (fun p => p.1 == getHash base module w))
             (cur + len)) := hstep
      have hcm : (getHash base module w, coll) ∈ S :=
        lookup_mem_pair hlk
      have hcoll_hist : coll ∈ hist := hS3 _ hcm
      have hcoll_hash : getHash base module coll =
          getHash base module w := hS1 _ hcm
      by_cases hwc : w = coll
      · -- same word again: keep going, the history is unchanged
        subst hwc
        rw [if_neg (by simp)] at hstep2
        obtain ⟨hkn1, hkn2⟩ := keys_eraseP (h := getHash base module w)
          hS2
        have hS1' : ∀ p ∈ (getHash base module w, w) ::
            S.eraseP (fun p => p.1 == getHash base module w),
            getHash base module p.2 = p.1 := by
          intro p hp
          rcases List.mem_cons.mp hp with rfl | hp
          · rfl
          · exact hS1 p (List.mem_of_mem_eraseP hp)
        have hS2' : (((getHash base module w, w) ::
            S.eraseP (fun p => p.1 == getHash base module w)).map
              Prod.fst).Nodup := by
          rw [List.map_cons]
          exact List.nodup_cons.mpr ⟨hkn2, hkn1⟩
        have hS3' : ∀ p ∈ (getHash base module w, w) ::
            S.eraseP (fun p => p.1 == getHash base module w),
            p.2 ∈ hist := by
          intro p hp
          rcases List.mem_cons.mp hp with rfl | hp
          · exact hcoll_hist
          · exact hS3 p (List.mem_of_mem_eraseP hp)
        have hS4' : ∀ v ∈ hist, ((getHash base module w, w) ::
            S.eraseP (fun p => p.1 == getHash base module w)).lookup
              (getHash base module v) ≠ none := by
          intro v hv
          by_cases hh : getHash base module v = getHash base module w
          · have hb : ((getHash base module v ==
                getHash base module w) = true) := by simpa using hh
            simp [List.lookup, hb]
          · have hb : ((getHash base module v ==
                getHash base module w) = false) := by simpa using hh
            simp only [List.lookup, hb]
            rw [lookup_eraseP_ne hh]
            exact hS4 v hv
        obtain ⟨r, hr, hcase⟩ := ih ((getHash base module w, w) ::
            S.eraseP (fun p => p.1 == getHash base module w)) hist
          (cur + len) hS1' hS2' hS3' hS4' hcomp
        refine ⟨r, by rw [hstep2]; exact hr, ?_⟩
        rw [hgw]
        rcases hcase with ⟨h1, h2, h3⟩ | ⟨w1, w2, h1, h2, h3, h4⟩
        · refine Or.inl ⟨h1, ?_, compat_cons_mem hcoll_hist h3⟩
          rw [h2]
          ring
        · exact Or.inr ⟨w1, w2, h1, h2, h3,
            fun hc => h4 (compat_cons_mem_rev hcoll_hist hc)⟩
      · -- a different word with the same hash: genuine collision
        rw [if_pos hwc] at hstep2
        refine ⟨(some (w, coll), cur + len), hstep2, Or.inr
          ⟨w, coll, rfl, hwc, hcoll_hash.symm, ?_⟩⟩
        intro hc
        rw [hgw] at hc
        have hwmem : w ∈ hist ++ w :: genWords rng alphabet len n
            (cur + len) := List.mem_append.mpr (Or.inr (by simp))
        have hcmem : coll ∈ hist ++ w :: genWords rng alphabet len n
            (cur + len) := List.mem_append.mpr (Or.inl hcoll_hist)
        exact hwc (hc w hwmem coll hcmem hcoll_hash.symm)
    | none =>
      rw [hlk] at hstep
      have hstep2 : birthdayInner rng base module alphabet len (n + 1)
          S cur =
          birthdayInner rng base module alphabet len n
            ((getHash base module w, w) :: S) (cur + len) := hstep
      have hknew : getHash base module w ∉ S.map Prod.fst :=
        lookup_none_not_key hlk
      have hS1' : ∀ p ∈ (getHash base module w, w) :: S,
          getHash base module p.2 = p.1 := by
        intro p hp
        rcases List.mem_cons.mp hp with rfl | hp
        · rfl
        · exact hS1 p hp
      have hS2' : (((getHash base module w, w) :: S).map
          Prod.fst).Nodup := by
        rw [List.map_cons]
        exact List.nodup_cons.mpr ⟨hknew, hS2⟩
      have hS3' : ∀ p ∈ (getHash base module w, w) :: S,
          p.2 ∈ hist ++ [w] := by
        intro p hp
        rcases List.mem_cons.mp hp with rfl | hp
        · exact List.mem_append.mpr (Or.inr (by simp))
        · exact List.mem_append.mpr (Or.inl (hS3 p hp))
      have hS4' : ∀ v ∈ hist ++ [w],
          ((getHash base module w, w) :: S).lookup
            (getHash base module v) ≠ none := by
        intro v hv
        by_cases hh : getHash base module v = getHash base module w
        · have hb : ((getHash base module v ==
              getHash base module w) = true) := by simpa using hh
          simp [List.lookup, hb]
        · have hb : ((getHash base module v ==
              getHash base module w) = false) := by simpa using hh
          simp only [List.lookup, hb]
          rcases List.mem_append.mp hv with hv | hv
          · exact hS4 v hv
          · obtain rfl := List.mem_singleton.mp hv
            exact absurd rfl hh
      have hcomp' : Compat base module (hist ++ [w]) := by
        intro v1 hv1 v2 hv2 hh
        rcases List.mem_append.mp hv1 with hv1 | hv1
        · rcases List.mem_append.mp hv2 with hv2 | hv2
          · exact hcomp v1 hv1 v2 hv2 hh
          · have hv2e := List.mem_singleton.mp hv2
            exfalso
            apply hS4 v1 hv1
            rw [hh, hv2e]
            exact hlk
        · have hv1e := List.mem_singleton.mp hv1
          rcases List.mem_append.mp hv2 with hv2 | hv2
          · exfalso
            apply hS4 v2 hv2
            rw [← hh, hv1e]
            exact hlk
          · have hv2e := List.mem_singleton.mp hv2
            rw [hv1e, hv2e]
      obtain ⟨r, hr, hcase⟩ := ih ((getHash base module w, w) :: S)
        (hist ++ [w]) (cur + len) hS1' hS2' hS3' hS4' hcomp'
      refine ⟨r, by rw [hstep2]; exact hr, ?_⟩
      rw [hgw]
      have hassoc : (hist ++ [w]) ++ genWords rng alphabet len n
          (cur + len) = hist ++ w :: genWords rng alphabet len n
          (cur + len) := by
        rw [List.append_assoc]
        rfl
      rcases hcase with ⟨h1, h2, h3⟩ | ⟨w1, w2, h1, h2, h3, h4⟩
      · rw [hassoc] at h3
        refine Or.inl ⟨h1, ?_, h3⟩
        rw [h2]
        ring
      · rw [hassoc] at h4
        exact Or.inr ⟨w1, w2, h1, h2, h3, h4⟩

/-- The outer loop over the trial lengths, semantically: it is total for
a positive module and non-empty alphabet, reports no pair exactly when
every trial is collision-free along the reset schedule, and any
reported pair is a genuine same-trial collision. -/
theorem birthdayOuter_sem {rng : ℕ → ℕ} {bound base module : ℕ}
    {alphabet : List Word} (hm : 1 ≤ module) (hA : alphabet ≠ []) :
    ∀ (lens : List ℕ) (cur : ℕ),
      ∃ r, birthdayOuter rng bound base module alphabet lens cur =
          some r ∧
        (r.1 = none ↔
          AllTrialsOK rng bound base module alphabet lens cur) ∧
        (∀ w1 w2, r.1 = some (w1, w2) → w1 ≠ w2 ∧
          getHash base module w1 = getHash base module w2) := by
  intro lens
  induction lens with
  | nil =>
    intro cur
    refine ⟨(none, cur), rfl, ?_, by simp⟩
    constructor
    · intro _
      exact trivial
    · intro _
      rfl
  | cons len rest ih =>
    intro cur
    obtain ⟨ri, hri, hcase⟩ := birthdayInner_sem hm hA bound [] [] cur
      (by simp) (by simp) (by simp) (by simp)
      (fun v hv => absurd hv (by simp))
    obtain ⟨r1, r2⟩ := ri
    have hout : birthdayOuter rng bound base module alphabet
        (len :: rest) cur =
        (match birthdayInner rng base module alphabet len bound [] cur
          with
        | none => none
        | some (some pair, cur') => some (some pair, cur')
        | some (none, cur') =>
          birthdayOuter rng bound base module alphabet rest cur') := rfl
    rw [hri] at hout
    cases r1 with
    | none =>
      rcases hcase with ⟨-, h2, h3⟩ | ⟨w1, w2, h1, -⟩
      · simp only [List.nil_append] at h3
        dsimp only at h2
        subst h2
        obtain ⟨r', hr', hiff, hsome⟩ := ih (cur + bound * len)
        refine ⟨r', by rw [hout]; exact hr', ?_, hsome⟩
        constructor
        · intro hn
          exact ⟨h3, hiff.mp hn⟩
        · intro hall
          exact hiff.mpr hall.2
      · simp at h1
    | some pair =>
      rcases hcase with ⟨h1, -⟩ | ⟨w1, w2, h1, h2, h3, h4⟩
      · simp at h1
      · simp only [List.nil_append] at h4
        have hpe : some pair = some (w1, w2) := h1
        obtain rfl := Option.some.inj hpe
        refine ⟨(some (w1, w2), r2), hout, ?_, ?_⟩
        · constructor
          · intro hc
            simp at hc
          · intro hall
            exact absurd hall.1 h4
        · intro v1 v2 hv
          have hpe2 : some (w1, w2) = some (v1, v2) := hv
          have hpe3 := Option.some.inj hpe2
          have hv1 : v1 = w1 := (congrArg Prod.fst hpe3).symm
          have hv2 : v2 = w2 := (congrArg Prod.snd hpe3).symm
          subst hv1
          subst hv2
          exact ⟨h2, h3⟩

/-! ### Revised claim theorems -/

/-- **C1 amended.** Both multi-hash lifters return genuine collisions of
the ideal polynomial hash `H_{B,M}` for every supplied `(B, M)` pair,
under the numeric bounds each solver needs (birthday: `B, M < 2^32` with
`M ≥ 1` over a `2^32`-bounded equal-width alphabet; tree: `B ≤ 2^64` and
`1 < M ≤ 2^63` over a non-empty equal-width alphabet with codepoints
below every module, with any adequate sort oracle), with no
distinctness requirement on the alphabet words. -/
theorem c1_amended :
    (∀ (rng boundFn : ℕ → ℕ) (bases modules : List ℕ) (A : List Word)
      (wdt cur : ℕ) (s1 s2 : Word),
      (∀ x ∈ A, x.length = wdt) →
      (∀ x ∈ A, ∀ c ∈ x, c < 2 ^ 32) →
      (∀ p ∈ bases.zip modules, p.1 < 2 ^ 32 ∧ 1 ≤ p.2 ∧ p.2 < 2 ^ 32) →
      birthdayFindCollision rng boundFn bases modules A cur =
        some (some (s1, s2)) →
      ∀ p ∈ bases.zip modules,
        mathHash p.1 p.2 s1 = mathHash p.1 p.2 s2) ∧
    (∀ (o : Oracle) (bases modules : List ℕ) (clusterSize : ℕ)
      (A : List Word) (wdt cur : ℕ) (s1 s2 : Word), o.Good →
      (∀ x ∈ A, x.length = wdt) → A ≠ [] →
      (∀ p ∈ bases.zip modules, p.1 ≤ 2 ^ 64 ∧ 1 < p.2 ∧ p.2 ≤ 2 ^ 63) →
      (∀ x ∈ A, ∀ c ∈ x, ∀ p ∈ bases.zip modules, (c : ℤ) < (p.2 : ℤ)) →
      treeFindCollision o bases modules clusterSize A cur =
        some (some (s1, s2)) →
      ∀ p ∈ bases.zip modules,
        mathHash p.1 p.2 s1 = mathHash p.1 p.2 s2) := by
  constructor
  · intro rng boundFn bases modules A wdt cur s1 s2 hw hc hbm hrun
    exact birthdayFindCollision_hash hw hc hbm hrun
  · intro o bases modules clusterSize A wdt cur s1 s2 hgood hw hA hbm
      hcp hrun
    exact treeFindCollision_hash hgood hw hA hbm hcp hrun

set_option maxRecDepth 1000000 in
/-- **C1 amended, witness**: both conjuncts applied to concrete runs
with one hash pair each — a birthday collision modulo `3` under base `2`
and a tree collision modulo `2` under base `2`. -/
theorem c1_amended_witness :
    ((∀ x ∈ ([[0], [1]] : List Word), x.length = 1) ∧
      birthdayFindCollision (fun c => if c = 6 ∨ c = 7 then 1 else 0)
        (fun _ => 2) [2] [3] [[0], [1]] 0 =
        some (some ([1, 1, 0, 0, 0, 0], [0, 0, 0, 0, 0, 0])) ∧
      ∀ p ∈ [(2 : ℕ)].zip [(3 : ℕ)],
        mathHash p.1 p.2 [1, 1, 0, 0, 0, 0] =
          mathHash p.1 p.2 [0, 0, 0, 0, 0, 0]) ∧
    ((insOracle c7Rng0).Good ∧
      treeFindCollision (insOracle c7Rng0) [2] [2] 4 [[0], [1]] 0 =
        some (some ([1, 0, 0, 0, 0, 0, 0, 0], [0, 1, 0, 0, 0, 0, 0, 0])) ∧
      ∀ p ∈ [(2 : ℕ)].zip [(2 : ℕ)],
        mathHash p.1 p.2 [1, 0, 0, 0, 0, 0, 0, 0] =
          mathHash p.1 p.2 [0, 1, 0, 0, 0, 0, 0, 0]) :=
  ⟨⟨by decide, by decide,
      c1_amended.1 (fun c => if c = 6 ∨ c = 7 then 1 else 0)
        (fun _ => 2) [2] [3] [[0], [1]] 1 0 [1, 1, 0, 0, 0, 0]
        [0, 0, 0, 0, 0, 0] (by decide) (by decide) (by decide)
        (by decide)⟩,
    ⟨insOracle_good c7Rng0,
      by decide,
      c1_amended.2 (insOracle c7Rng0) [2] [2] 4 [[0], [1]] 1 0
        [1, 0, 0, 0, 0, 0, 0, 0] [0, 1, 0, 0, 0, 0, 0, 0]
        (insOracle_good c7Rng0) (by decide) (by decide) (by decide)
        (by decide) (by decide)⟩⟩

/-- **C3 amended.** The birthday half holds as stated: under the
32-bit bounds the wrapping Horner evaluation of `get_hash` coincides
with the unwrapped one, so `res·base + c` never leaves `u64`.  The tree
half holds for modules `1 ≤ M ≤ 2^63` (with any `u64` base, in-range
`pot` and 32-bit — in particular any valid Unicode — codepoints): the
`x + y` and `x − y` merge keys of `run_phase` equal their unwrapped
values `Sk`/`Dk`, and `new_leaf` and the `pot` update coincide with
their exact wrap-free counterparts, so no intermediate `i128` value
wraps at the sites the claim names. -/
theorem c3_amended :
    (∀ (base module : ℕ) (w : Word), 1 ≤ module → base < 2 ^ 32 →
      module < 2 ^ 32 → (∀ c ∈ w, c < 2 ^ 32) →
      getHash base module w = hornerHash base module w) ∧
    (∀ (l r : List TNode) (K : ℤ), (∀ x ∈ l, |x.sum| ≤ K) →
      (∀ x ∈ r, |x.sum| ≤ K) → 2 * K + 2 ≤ 2 ^ 127 →
      ∀ pl pr, pl < l.length → pr < r.length →
        calcSum l r pl pr = some (Sk l r pl pr) ∧
        calcDiff l r pl pr = some (Dk l r pl pr)) ∧
    (∀ (B M : ℤ) (idx : ℕ) (w1 w2 : Word) (pot : ℤ), 0 ≤ B →
      B ≤ 2 ^ 64 → 1 ≤ M → M ≤ 2 ^ 63 → -M < pot → pot < M →
      (∀ c ∈ w1.zip w2, (c.1 : ℤ) < 2 ^ 32 ∧ (c.2 : ℤ) < 2 ^ 32) →
      newLeaf idx w1 w2 B M pot = newLeafExact idx w1 w2 B M pot) ∧
    (∀ (B M pot : ℤ), 0 ≤ B → B ≤ 2 ^ 64 → 1 ≤ M → M ≤ 2 ^ 63 →
      -M < pot → pot < M → potStep B M pot = potStepExact B M pot) := by
  refine ⟨?_, ?_, ?_, ?_⟩
  · intro base module w h1 hB hM hw
    exact getHash_eq_hornerHash h1 hB hM hw
  · intro l r K hbl hbr hK pl pr hpl hpr
    exact ⟨calcSum_eq hbl hbr hK hpl hpr, calcDiff_eq hbl hbr hK hpl hpr⟩
  · intro B M idx w1 w2 pot hB0 hB hM1 hM hp1 hp hw
    exact newLeaf_eq_exact hB0 hB hM1 hM hp1 hp hw
  · intro B M pot hB0 hB hM1 hM hp1 hp
    exact potStep_eq_exact hB0 hB hM1 hM hp1 hp

/-- **C3 amended, witness**: the hash-equality conjunct at a concrete
evaluation, and the `new_leaf`/`pot` wrap-freedom conjuncts at concrete
leaf parameters. -/
theorem c3_amended_witness :
    (((1 : ℕ) ≤ 5 ∧ (3 : ℕ) < 2 ^ 32 ∧ (5 : ℕ) < 2 ^ 32 ∧
      ∀ c ∈ ([1, 2] : Word), c < 2 ^ 32) ∧
      getHash 3 5 [1, 2] = hornerHash 3 5 [1, 2]) ∧
    newLeaf 0 [1] [2] 3 5 1 = newLeafExact 0 [1] [2] 3 5 1 ∧
    potStep 3 5 1 = potStepExact 3 5 1 :=
  ⟨⟨⟨by decide, by decide, by decide, by decide⟩,
      c3_amended.1 3 5 [1, 2] (by decide) (by decide) (by decide)
        (by decide)⟩,
    c3_amended.2.2.1 3 5 0 [1] [2] 1 (by decide) (by decide)
      (by decide) (by decide) (by decide) (by decide) (by decide),
    c3_amended.2.2.2 3 5 1 (by decide) (by decide) (by decide)
      (by decide) (by decide) (by decide)⟩

/-- **C4 amended.** Distinctness needs the overflow target length to be
at least `1` (with `L = 0` two empty strings are returned) and
pairwise-distinct alphabet words for the lifters (with duplicate words
an equal pair can be returned, see the counterexample); given those,
every returned pair is distinct with no numeric side conditions: the
birthday single solver's `word != coll` check and the distinct-word
leaf blocks of the tree solver guarantee it structurally. -/
theorem c4_amended :
    (∀ (L : ℕ) (s1 s2 : List ℕ), 1 ≤ L →
      overflowFindCollision L = some (s1, s2) → s1 ≠ s2) ∧
    (∀ (rng boundFn : ℕ → ℕ) (bases modules : List ℕ) (A : List Word)
      (cur : ℕ) (s1 s2 : Word), A.Pairwise (· ≠ ·) →
      birthdayFindCollision rng boundFn bases modules A cur =
        some (some (s1, s2)) → s1 ≠ s2) ∧
    (∀ (o : Oracle) (bases modules : List ℕ) (clusterSize : ℕ)
      (A : List Word) (wdt cur : ℕ) (s1 s2 : Word), o.Good →
      (∀ x ∈ A, x.length = wdt) → A ≠ [] → A.Pairwise (· ≠ ·) →
      treeFindCollision o bases modules clusterSize A cur =
        some (some (s1, s2)) → s1 ≠ s2) := by
  refine ⟨?_, ?_, ?_⟩
  · intro L s1 s2 hL h
    simp only [overflowFindCollision, Option.some.injEq,
      Prod.mk.injEq] at h
    obtain ⟨rfl, rfl⟩ := h
    intro hcon
    have h1 : ((List.range L).map fun i => 97 + popcount i % 2).getD 0 0 =
        ((List.range L).map fun i => 98 - popcount i % 2).getD 0 0 := by
      rw [hcon]
    rw [List.getD_eq_getElem _ _ (by simpa using hL),
      List.getD_eq_getElem _ _ (by simpa using hL)] at h1
    rw [List.getElem_map, List.getElem_map] at h1
    simp only [List.getElem_range] at h1
    rw [popcount_zero] at h1
    simp at h1
  · intro rng boundFn bases modules A cur s1 s2 hnd hrun
    exact birthdayFindCollision_distinct hnd hrun
  · intro o bases modules clusterSize A wdt cur s1 s2 hgood hw hA hnd
      hrun
    exact treeFindCollision_distinct hgood hw hA hnd hrun

set_option maxRecDepth 1000000 in
/-- **C4 amended, witness**: the overflow conjunct at target length `1`
and the tree conjunct at a concrete two-word run. -/
theorem c4_amended_witness :
    (((1 : ℕ) ≤ 1 ∧ overflowFindCollision 1 = some ([97], [98])) ∧
      ([97] : List ℕ) ≠ [98]) ∧
    (([[0], [1]] : List Word).Pairwise (· ≠ ·) ∧
      ([1, 0, 0, 0, 0, 0, 0, 0] : Word) ≠ [0, 1, 0, 0, 0, 0, 0, 0]) :=
  ⟨⟨⟨le_rfl, rfl⟩, c4_amended.1 1 [97] [98] le_rfl rfl⟩,
    ⟨by decide,
      c4_amended.2.2 (insOracle c7Rng0) [2] [2] 4 [[0], [1]] 1 0
        [1, 0, 0, 0, 0, 0, 0, 0] [0, 1, 0, 0, 0, 0, 0, 0]
        (insOracle_good c7Rng0) (by decide) (by decide) (by decide)
        (by decide)⟩⟩

/-- **C8 amended.** Every returned pair has equal byte lengths, with no
numeric side conditions beyond each claim's own equal-width alphabet:
the overflow strings share the rounded length; the two birthday words
of a single-solver collision are concatenations of equally many
alphabet words found at the same trial length `6 ≤ len < 64` (the
sample map is cleared between lengths); and both lifters preserve equal
widths — the birthday lifter for any parameters, the tree lifter over
any adequate sort oracle and non-empty alphabet. -/
theorem c8_amended :
    (∀ (L : ℕ) (s1 s2 : List ℕ),
      overflowFindCollision L = some (s1, s2) →
      s1.length = s2.length) ∧
    (∀ (rng : ℕ → ℕ) (bound base module : ℕ) (A : List Word)
      (wdt cur cur' : ℕ) (w1 w2 : Word),
      (∀ x ∈ A, x.length = wdt) →
      birthdayFindSingle rng bound base module A cur =
        some (some (w1, w2), cur') →
      ∃ len, 6 ≤ len ∧ len < 64 ∧ IsConcatN A len w1 ∧
        IsConcatN A len w2 ∧ w1.length = w2.length) ∧
    (∀ (rng boundFn : ℕ → ℕ) (bases modules : List ℕ) (A : List Word)
      (wdt cur : ℕ) (s1 s2 : Word),
      (∀ x ∈ A, x.length = wdt) →
      birthdayFindCollision rng boundFn bases modules A cur =
        some (some (s1, s2)) → s1.length = s2.length) ∧
    (∀ (o : Oracle) (bases modules : List ℕ) (clusterSize : ℕ)
      (A : List Word) (wdt cur : ℕ) (s1 s2 : Word), o.Good →
      (∀ x ∈ A, x.length = wdt) → A ≠ [] →
      treeFindCollision o bases modules clusterSize A cur =
        some (some (s1, s2)) → s1.length = s2.length) := by
  refine ⟨?_, ?_, ?_, ?_⟩
  · intro L s1 s2 h
    simp only [overflowFindCollision, Option.some.injEq,
      Prod.mk.injEq] at h
    obtain ⟨rfl, rfl⟩ := h
    simp
  · intro rng bound base module A wdt cur cur' w1 w2 hw heq
    obtain ⟨len, h6, h64, -, -, hcf, hcs⟩ := birthdayFindSingle_sound heq
    exact ⟨len, h6, h64, hcf, hcs,
      (hcf.length hw).trans (hcs.length hw).symm⟩
  · intro rng boundFn bases modules A wdt cur s1 s2 hw hrun
    exact birthdayFindCollision_len hw hrun
  · intro o bases modules clusterSize A wdt cur s1 s2 hgood hw hA hrun
    exact treeFindCollision_len hgood hw hA hrun

/-- **C8 amended, witness**: the single-solver conjunct applied to a
concrete birthday run that collides at the first trial length. -/
theorem c8_amended_witness :
    ((∀ x ∈ ([[0], [1]] : List Word), x.length = 1) ∧
      birthdayFindSingle (fun c => c / 6) 2 0 1 [[0], [1]] 0 =
        some (some ([1, 1, 1, 1, 1, 1], [0, 0, 0, 0, 0, 0]), 12)) ∧
    ∃ len, 6 ≤ len ∧ len < 64 ∧
      IsConcatN [[0], [1]] len [1, 1, 1, 1, 1, 1] ∧
      IsConcatN [[0], [1]] len [0, 0, 0, 0, 0, 0] ∧
      ([1, 1, 1, 1, 1, 1] : Word).length =
        ([0, 0, 0, 0, 0, 0] : Word).length :=
  ⟨⟨by decide, by decide⟩,
    c8_amended.2.1 (fun c => c / 6) 2 0 1 [[0], [1]] 1 0 12
      [1, 1, 1, 1, 1, 1] [0, 0, 0, 0, 0, 0] (by decide) (by decide)⟩

/-- **C9 amended.** The solver tries the exponents `p = 3, 4, …, 11` in
increasing order and returns the first success: `find_single_collision`
starts the loop at `p = 3` with `9` rounds; a round whose attack finds
a pair stops with exactly that pair; a round without a pair moves to
`p + 1` on the attack's arena and cursor; and an exhausted loop reports
no pair.  Over any adequate oracle and equal-width alphabet a returned
pair was found at the winning exponent `q ∈ [3, 11]`: both strings are
`2^q`-fold alphabet concatenations of byte length `2^q · w`.  (The
claim's "returns `None` exactly when no `p` produces a zero-sum node"
is refuted by the empty-leaf-list panic, see the counterexample.) -/
theorem c9_amended :
    (∀ (o : Oracle) (base module clusterSize : ℕ) (w : Word)
      (A' : List Word) (cur : ℕ),
      treeFindSingle o base module clusterSize (w :: A') cur =
        treeLoop o (w :: A') (base : ℤ) (module : ℤ) w.length
          clusterSize 3 9 [] cur) ∧
    (∀ (o : Oracle) (A : List Word) (B M : ℤ)
      (wl clusterSize p c : ℕ) (tree : List (List TNode)) (cur : ℕ)
      (r : List (List TNode) × Option (Word × Word) × ℕ)
      (pair : Word × Word),
      tryAttack o A B M wl clusterSize tree p cur = some r →
      r.2.1 = some pair →
      treeLoop o A B M wl clusterSize p (c + 1) tree cur =
        some (some pair, r.2.2)) ∧
    (∀ (o : Oracle) (A : List Word) (B M : ℤ)
      (wl clusterSize p c : ℕ) (tree : List (List TNode)) (cur : ℕ)
      (r : List (List TNode) × Option (Word × Word) × ℕ),
      tryAttack o A B M wl clusterSize tree p cur = some r →
      r.2.1 = none →
      treeLoop o A B M wl clusterSize p (c + 1) tree cur =
        treeLoop o A B M wl clusterSize (p + 1) c r.1 r.2.2) ∧
    (∀ (o : Oracle) (A : List Word) (B M : ℤ)
      (wl clusterSize p : ℕ) (tree : List (List TNode)) (cur : ℕ),
      treeLoop o A B M wl clusterSize p 0 tree cur =
        some (none, cur)) ∧
    (∀ (o : Oracle) (base module clusterSize : ℕ) (A : List Word)
      (wl cur : ℕ) (res2 : Option (Word × Word) × ℕ), o.Good →
      (∀ wd ∈ A, wd.length = wl) →
      treeFindSingle o base module clusterSize A cur = some res2 →
      ∀ fi se, res2.1 = some (fi, se) →
        ∃ q, 3 ≤ q ∧ q < 12 ∧
          fi.length = 2 ^ q * wl ∧ se.length = 2 ^ q * wl ∧
          IsConcatN A (2 ^ q) fi ∧ IsConcatN A (2 ^ q) se) := by
  refine ⟨?_, ?_, ?_, ?_, ?_⟩
  · intro o base module clusterSize w A' cur
    rfl
  · intro o A B M wl clusterSize p c tree cur r pair h hp
    exact treeLoop_stop h hp
  · intro o A B M wl clusterSize p c tree cur r h hp
    exact treeLoop_next h hp
  · intro o A B M wl clusterSize p tree cur
    exact treeLoop_exhaust
  · intro o base module clusterSize A wl cur res2 hgood hwidth heq fi
      se h
    obtain ⟨q, h3, h12, h1, h2, hc1, hc2, -⟩ :=
      @treeFindSingle_struct o hgood base module clusterSize A wl
        (fun _ _ => True) hwidth (fun _ _ _ _ _ => trivial) cur res2
        heq fi se h
    exact ⟨q, h3, h12, h1, h2, hc1, hc2⟩

set_option maxRecDepth 1000000 in
/-- **C9 amended, witness**: the structural conjunct applied to a
concrete insertion-sort-oracle run over `base = module = 2` which
succeeds at the first tried exponent `p = 3`. -/
theorem c9_amended_witness :
    ((insOracle c7Rng0).Good ∧
      (∀ wd ∈ ([[0], [1]] : List Word), wd.length = 1) ∧
      treeFindSingle (insOracle c7Rng0) 2 2 4 [[0], [1]] 0 =
        some (some ([1, 0, 0, 0, 0, 0, 0, 0],
          [0, 1, 0, 0, 0, 0, 0, 0]), 6)) ∧
    ∃ q, 3 ≤ q ∧ q < 12 ∧
      ([1, 0, 0, 0, 0, 0, 0, 0] : Word).length = 2 ^ q * 1 ∧
      ([0, 1, 0, 0, 0, 0, 0, 0] : Word).length = 2 ^ q * 1 ∧
      IsConcatN [[0], [1]] (2 ^ q) [1, 0, 0, 0, 0, 0, 0, 0] ∧
      IsConcatN [[0], [1]] (2 ^ q) [0, 1, 0, 0, 0, 0, 0, 0] :=
  ⟨⟨insOracle_good c7Rng0, by decide, by decide⟩,
    c9_amended.2.2.2.2 (insOracle c7Rng0) 2 2 4 [[0], [1]] 1 0
      (some ([1, 0, 0, 0, 0, 0, 0, 0], [0, 1, 0, 0, 0, 0, 0, 0]), 6)
      (insOracle_good c7Rng0) (by decide) (by decide)
      [1, 0, 0, 0, 0, 0, 0, 0] [0, 1, 0, 0, 0, 0, 0, 0] rfl⟩

/-- **C6 confirmed** (modelling the f64 `sqrt` by `Nat.sqrt`, exact on
the claim's `M < 2^32` domain, and the RNG by the oracle stream).  For
a positive module and non-empty alphabet, `find_single_collision` walks
the trial lengths `6, 7, …, 63` in increasing order; per trial it draws
exactly `bound = ⌊√M⌋` words — each a concatenation of `len` alphabet
words, the cursor advancing by `len` per word — against a mapping reset
between lengths; it returns `None` if and only if no two words drawn
within the same trial have equal hash and different content, and any
reported pair is such a same-trial collision. -/
theorem c6_sampling_schedule :
    (∀ (rng : ℕ → ℕ) (base module : ℕ) (alphabet : List Word)
      (cur : ℕ), 1 ≤ module → alphabet ≠ [] →
      ∃ r, birthdayFindSingle rng (Nat.sqrt module) base module
          alphabet cur = some r ∧
        (r.1 = none ↔ AllTrialsOK rng (Nat.sqrt module) base module
          alphabet trialLens cur) ∧
        (∀ w1 w2, r.1 = some (w1, w2) → w1 ≠ w2 ∧
          getHash base module w1 = getHash base module w2)) ∧
    trialLens.length = 58 ∧
    (∀ i, i < 58 → trialLens.getD i 0 = 6 + i) ∧
    (∀ (rng : ℕ → ℕ) (alphabet : List Word) (len n cur : ℕ),
      alphabet ≠ [] →
      (genWords rng alphabet len n cur).length = n ∧
      ∀ w ∈ genWords rng alphabet len n cur,
        IsConcatN alphabet len w) := by
  refine ⟨?_, by decide, by decide, ?_⟩
  · intro rng base module alphabet cur hm hA
    exact birthdayOuter_sem hm hA trialLens cur
  · intro rng alphabet len n cur hA
    exact genWords_spec hA n cur

/-- **C6 confirmed, witness**: the schedule theorem applied to a
concrete single-word alphabet with module `1` (so `⌊√M⌋ = 1`: one drawn
word per trial, never a collision). -/
theorem c6_sampling_schedule_witness :
    ((1 : ℕ) ≤ 1 ∧ ([[5]] : List Word) ≠ []) ∧
    ∃ r, birthdayFindSingle (fun _ => 0) (Nat.sqrt 1) 0 1 [[5]] 0 =
        some r ∧
      (r.1 = none ↔ AllTrialsOK (fun _ => 0) (Nat.sqrt 1) 0 1 [[5]]
        trialLens 0) ∧
      (∀ w1 w2, r.1 = some (w1, w2) → w1 ≠ w2 ∧
        getHash 0 1 w1 = getHash 0 1 w2) :=
  ⟨⟨le_rfl, by decide⟩,
    c6_sampling_schedule.1 (fun _ => 0) 0 1 [[5]] 0 le_rfl (by decide)⟩

/-- **C10 amended, witness**: the empty-coefficient conjuncts applied to
a concrete two-word alphabet. -/
theorem c10_amended_witness :
    birthdayFindCollision (fun _ => 0) (fun _ => 0) [] [] [[97], [98]]
      0 = some (some ([97], [98])) ∧
    treeFindCollision (insOracle c7Rng0) [] [] 1 [[97], [98]] 0 =
      some (some ([97], [98])) :=
  ⟨c10_amended.2.2.1 (fun _ => 0) (fun _ => 0) [97] [98] [] 0,
    c10_amended.2.2.2 (insOracle c7Rng0) 1 [97] [98] [] 0⟩

end Antihash
